import Mathlib

/-!
# The LALR(1) driver `yyparse` of `ASSIGNMENT1/parser.tab.c`

A shallow embedding of the table-driven parser: the generated tables are
transcribed verbatim, and `yyparse` is rendered label by label
(`yysetstate`, `yybackup`, `yydefault`, `yyreduce`, `yyerrlab`, `yyerrlab1`,
`yyacceptlab`, `yyabortlab`, `yyexhaustedlab`) as functions on an explicit
parser state.  Every array access is bounds-checked in the model: an access
outside a table or outside the allocated stacks yields `Step.fault`.
-/

namespace PE2

/-! ## Constants -/

/-- State number of the termination state. -/
def YYFINAL : Int := 3
/-- Last index in `yytable`. -/
def YYLAST : Int := 415
/-- Number of terminals. -/
def YYNTOKENS : Int := 47
/-- Number of states. -/
def YYNSTATES : Int := 179
/-- Last valid token kind. -/
def YYMAXUTOK : Int := 285
/-- Value of `yypact` meaning that the state has only a default action. -/
def YYPACT_NINF : Int := -39
/-- Initial size of the parser stacks. -/
def YYINITDEPTH : Int := 200
/-- Maximum size the stacks can grow to. -/
def YYMAXDEPTH : Int := 10000
/-- Token kind `YYEMPTY`: no lookahead is held. -/
def YYEMPTY : Int := -2
/-- Token kind `YYEOF`: end of input. -/
def YYEOF : Int := 0
/-- Token kind `YYerror`: the reserved error token. -/
def YYerror : Int := 256
/-- Token kind `YYUNDEF`: an invalid token. -/
def YYUNDEF : Int := 257
/-- Symbol kind of end of input. -/
def YYSYMBOL_YYEOF : Int := 0
/-- Symbol kind of the error token. -/
def YYSYMBOL_YYerror : Int := 1
/-- Symbol kind of an invalid token. -/
def YYSYMBOL_YYUNDEF : Int := 2

/-! ## Generated tables -/

/-- Table `yytranslate`: symbol number corresponding to each token number returned by yylex. -/
def yytranslate : List Int :=
  [
    0, 2, 2, 2, 2, 2, 2, 2, 2, 2,
    2, 2, 2, 2, 2, 2, 2, 2, 2, 2,
    2, 2, 2, 2, 2, 2, 2, 2, 2, 2,
    2, 2, 2, 46, 2, 2, 2, 34, 2, 2,
    41, 42, 32, 30, 37, 31, 2, 33, 2, 2,
    2, 2, 2, 2, 2, 2, 2, 2, 45, 36,
    2, 38, 2, 2, 2, 2, 2, 2, 2, 2,
    2, 2, 2, 2, 2, 2, 2, 2, 2, 2,
    2, 2, 2, 2, 2, 2, 2, 2, 2, 2,
    2, 39, 2, 40, 2, 2, 2, 2, 2, 2,
    2, 2, 2, 2, 2, 2, 2, 2, 2, 2,
    2, 2, 2, 2, 2, 2, 2, 2, 2, 2,
    2, 2, 2, 43, 2, 44, 2, 2, 2, 2,
    2, 2, 2, 2, 2, 2, 2, 2, 2, 2,
    2, 2, 2, 2, 2, 2, 2, 2, 2, 2,
    2, 2, 2, 2, 2, 2, 2, 2, 2, 2,
    2, 2, 2, 2, 2, 2, 2, 2, 2, 2,
    2, 2, 2, 2, 2, 2, 2, 2, 2, 2,
    2, 2, 2, 2, 2, 2, 2, 2, 2, 2,
    2, 2, 2, 2, 2, 2, 2, 2, 2, 2,
    2, 2, 2, 2, 2, 2, 2, 2, 2, 2,
    2, 2, 2, 2, 2, 2, 2, 2, 2, 2,
    2, 2, 2, 2, 2, 2, 2, 2, 2, 2,
    2, 2, 2, 2, 2, 2, 2, 2, 2, 2,
    2, 2, 2, 2, 2, 2, 2, 2, 2, 2,
    2, 2, 2, 2, 2, 2, 1, 2, 3, 4,
    5, 6, 7, 8, 9, 10, 11, 12, 13, 14,
    15, 16, 17, 18, 19, 20, 21, 22, 23, 24,
    25, 26, 27, 28, 29, 35
  ]

/-- Table `yypact`: for each state, the index in `yytable` of the portion describing it. -/
def yypact : List Int :=
  [
    -39, 24, 116, -39, -10, -39, -39, -39, -39, -39,
    -15, 116, -5, 28, 43, 53, 88, 91, 67, 67,
    -39, 67, -39, -39, 93, -39, -39, -39, -39, -39,
    -39, -39, 284, 64, 66, 67, 67, 67, 67, 65,
    67, 97, 67, 69, 67, -39, -39, -39, -6, -39,
    141, 49, 344, 26, 42, -39, 67, 67, 67, 67,
    67, 67, 67, 67, 67, 67, 67, 67, 67, -39,
    -39, -39, 299, 314, 329, 246, 67, 162, 62, 183,
    72, 108, 76, 78, -39, 204, -39, -39, -39, -39,
    67, 112, 44, -39, 93, 381, 381, 106, 106, 106,
    106, 370, 357, -2, -2, -39, -39, -39, -39, -39,
    -39, -39, 265, 116, 67, 116, 67, 79, 67, 69,
    75, 344, 86, 67, 128, -39, -39, 131, 225, -39,
    344, 67, 109, 344, -39, -39, -39, 344, 110, 116,
    113, 344, 19, -9, -39, -39, -39, -4, 143, 148,
    111, 115, -39, 84, 132, -39, -39, -39, -39, 67,
    67, 67, -39, -39, 116, 19, 133, 134, -39, 344,
    344, 344, -39, -39, -39, -39, 116, 116, 116
  ]

/-- Table `yydefact`: for each state, the default reduction; zero means the default is an error. -/
def yydefact : List Int :=
  [
    3, 0, 2, 1, 86, 87, 15, 16, 17, 18,
    0, 0, 0, 0, 0, 0, 0, 0, 0, 0,
    3, 0, 4, 5, 0, 6, 7, 8, 9, 10,
    11, 12, 0, 80, 81, 0, 0, 0, 0, 84,
    0, 0, 0, 32, 0, 13, 82, 83, 86, 78,
    0, 0, 79, 21, 0, 19, 0, 0, 0, 0,
    0, 0, 0, 0, 0, 0, 0, 0, 0, 64,
    62, 63, 0, 0, 0, 0, 0, 0, 0, 0,
    0, 0, 0, 33, 34, 0, 80, 81, 85, 58,
    0, 0, 23, 14, 0, 70, 71, 74, 75, 72,
    73, 76, 77, 65, 66, 67, 68, 69, 60, 61,
    59, 88, 0, 0, 0, 0, 0, 38, 39, 0,
    0, 22, 0, 0, 0, 20, 89, 27, 0, 30,
    36, 0, 0, 40, 35, 53, 25, 24, 0, 0,
    0, 37, 41, 0, 26, 28, 29, 0, 0, 0,
    0, 42, 43, 0, 0, 52, 54, 45, 46, 0,
    0, 0, 47, 48, 0, 0, 0, 0, 3, 49,
    50, 51, 31, 44, 3, 3, 57, 56, 55
  ]

/-- Table `yypgoto`: for each nonterminal, the base index of its goto entries in `yytable`. -/
def yypgoto : List Int :=
  [
    -39, -39, -20, -8, -39, -38, -39, 82, -39, -39,
    -39, -39, -39, -39, -39, 39, -39, -39, -39, 15,
    -39, -39, -39, -39, -39, -17, -39
  ]

/-- Table `yydefgoto`: for each nonterminal, the default goto state. -/
def yydefgoto : List Int :=
  [
    0, 1, 2, 22, 23, 24, 54, 55, 92, 25,
    26, 27, 28, 82, 83, 84, 132, 150, 151, 152,
    29, 143, 156, 30, 31, 32, 39
  ]

/-- Table `yytable`: the action/goto entries, validated by `yycheck`. -/
def yytable : List Int :=
  [
    51, 49, 50, 41, 52, 81, 153, 154, 33, 34,
    35, 36, 86, 87, 157, 158, 159, 160, 72, 73,
    74, 75, 147, 77, 3, 79, 40, 85, 37, 38,
    66, 67, 68, 38, 161, 155, 42, 148, 149, 95,
    96, 97, 98, 99, 100, 101, 102, 103, 104, 105,
    106, 107, 4, 5, 6, 7, 8, 9, 10, 112,
    11, 12, 13, 14, 90, 91, 15, 16, 17, 43,
    48, 5, 80, 121, 6, 7, 8, 9, 93, 94,
    18, 81, 123, 124, 44, 16, 17, 166, 167, 45,
    19, 46, 20, 89, 47, 21, 53, 128, 18, 130,
    70, 133, 71, 114, 76, 127, 137, 129, 19, 78,
    116, 117, 118, 21, 141, 119, 122, 131, 135, 4,
    5, 6, 7, 8, 9, 10, 136, 11, 12, 13,
    14, 145, 138, 15, 16, 17, 64, 65, 66, 67,
    68, 139, 169, 170, 171, 142, 162, 18, 176, 146,
    144, 163, 165, 164, 177, 178, 172, 19, 134, 20,
    0, 0, 21, 56, 57, 58, 59, 60, 61, 62,
    63, 64, 65, 66, 67, 68, 125, 168, 174, 175,
    173, 0, 0, 88, 56, 57, 58, 59, 60, 61,
    62, 63, 64, 65, 66, 67, 68, 0, 0, 0,
    0, 0, 0, 0, 113, 56, 57, 58, 59, 60,
    61, 62, 63, 64, 65, 66, 67, 68, 0, 0,
    0, 0, 0, 0, 0, 115, 56, 57, 58, 59,
    60, 61, 62, 63, 64, 65, 66, 67, 68, 0,
    0, 0, 0, 0, 0, 0, 120, 56, 57, 58,
    59, 60, 61, 62, 63, 64, 65, 66, 67, 68,
    0, 0, 0, 0, 0, 0, 0, 140, 56, 57,
    58, 59, 60, 61, 62, 63, 64, 65, 66, 67,
    68, 0, 0, 0, 0, 0, 111, 56, 57, 58,
    59, 60, 61, 62, 63, 64, 65, 66, 67, 68,
    0, 0, 0, 0, 0, 126, 56, 57, 58, 59,
    60, 61, 62, 63, 64, 65, 66, 67, 68, 0,
    69, 56, 57, 58, 59, 60, 61, 62, 63, 64,
    65, 66, 67, 68, 0, 108, 56, 57, 58, 59,
    60, 61, 62, 63, 64, 65, 66, 67, 68, 0,
    109, 56, 57, 58, 59, 60, 61, 62, 63, 64,
    65, 66, 67, 68, 0, 110, 56, 57, 58, 59,
    60, 61, 62, 63, 64, 65, 66, 67, 68, 56,
    57, 58, 59, 60, 61, 62, 0, 64, 65, 66,
    67, 68, 56, 57, 58, 59, 60, 61, 0, 0,
    64, 65, 66, 67, 68, 58, 59, 60, 61, 0,
    0, 64, 65, 66, 67, 68
  ]

/-- Table `yycheck`: the validity check array paired with `yytable`. -/
def yycheck : List Int :=
  [
    20, 18, 19, 11, 21, 43, 15, 16, 18, 19,
    20, 21, 18, 19, 18, 19, 20, 21, 35, 36,
    37, 38, 3, 40, 0, 42, 41, 44, 38, 39,
    32, 33, 34, 39, 38, 44, 41, 18, 19, 56,
    57, 58, 59, 60, 61, 62, 63, 64, 65, 66,
    67, 68, 3, 4, 5, 6, 7, 8, 9, 76,
    11, 12, 13, 14, 38, 39, 17, 18, 19, 41,
    3, 4, 3, 90, 5, 6, 7, 8, 36, 37,
    31, 119, 38, 39, 41, 18, 19, 3, 4, 36,
    41, 3, 43, 44, 3, 46, 3, 114, 31, 116,
    36, 118, 36, 41, 39, 113, 123, 115, 41, 12,
    38, 3, 36, 46, 131, 37, 4, 38, 43, 3,
    4, 5, 6, 7, 8, 9, 40, 11, 12, 13,
    14, 139, 4, 17, 18, 19, 30, 31, 32, 33,
    34, 10, 159, 160, 161, 36, 3, 31, 168, 36,
    40, 3, 37, 42, 174, 175, 164, 41, 119, 43,
    -1, -1, 46, 22, 23, 24, 25, 26, 27, 28,
    29, 30, 31, 32, 33, 34, 94, 45, 45, 45,
    165, -1, -1, 42, 22, 23, 24, 25, 26, 27,
    28, 29, 30, 31, 32, 33, 34, -1, -1, -1,
    -1, -1, -1, -1, 42, 22, 23, 24, 25, 26,
    27, 28, 29, 30, 31, 32, 33, 34, -1, -1,
    -1, -1, -1, -1, -1, 42, 22, 23, 24, 25,
    26, 27, 28, 29, 30, 31, 32, 33, 34, -1,
    -1, -1, -1, -1, -1, -1, 42, 22, 23, 24,
    25, 26, 27, 28, 29, 30, 31, 32, 33, 34,
    -1, -1, -1, -1, -1, -1, -1, 42, 22, 23,
    24, 25, 26, 27, 28, 29, 30, 31, 32, 33,
    34, -1, -1, -1, -1, -1, 40, 22, 23, 24,
    25, 26, 27, 28, 29, 30, 31, 32, 33, 34,
    -1, -1, -1, -1, -1, 40, 22, 23, 24, 25,
    26, 27, 28, 29, 30, 31, 32, 33, 34, -1,
    36, 22, 23, 24, 25, 26, 27, 28, 29, 30,
    31, 32, 33, 34, -1, 36, 22, 23, 24, 25,
    26, 27, 28, 29, 30, 31, 32, 33, 34, -1,
    36, 22, 23, 24, 25, 26, 27, 28, 29, 30,
    31, 32, 33, 34, -1, 36, 22, 23, 24, 25,
    26, 27, 28, 29, 30, 31, 32, 33, 34, 22,
    23, 24, 25, 26, 27, 28, -1, 30, 31, 32,
    33, 34, 22, 23, 24, 25, 26, 27, -1, -1,
    30, 31, 32, 33, 34, 24, 25, 26, 27, -1,
    -1, 30, 31, 32, 33, 34
  ]

/-- Table `yystos`: the symbol kind of the accessing symbol of each state. -/
def yystos : List Int :=
  [
    0, 48, 49, 0, 3, 4, 5, 6, 7, 8,
    9, 11, 12, 13, 14, 17, 18, 19, 31, 41,
    43, 46, 50, 51, 52, 56, 57, 58, 59, 67,
    70, 71, 72, 18, 19, 20, 21, 38, 39, 73,
    41, 50, 41, 41, 41, 36, 3, 3, 3, 72,
    72, 49, 72, 3, 53, 54, 22, 23, 24, 25,
    26, 27, 28, 29, 30, 31, 32, 33, 34, 36,
    36, 36, 72, 72, 72, 72, 39, 72, 12, 72,
    3, 52, 60, 61, 62, 72, 18, 19, 42, 44,
    38, 39, 55, 36, 37, 72, 72, 72, 72, 72,
    72, 72, 72, 72, 72, 72, 72, 72, 36, 36,
    36, 40, 72, 42, 41, 42, 38, 3, 36, 37,
    42, 72, 4, 38, 39, 54, 40, 50, 72, 50,
    72, 38, 63, 72, 62, 43, 40, 72, 4, 10,
    42, 72, 36, 68, 40, 50, 36, 3, 18, 19,
    64, 65, 66, 15, 16, 44, 69, 18, 19, 20,
    21, 38, 3, 3, 42, 37, 3, 4, 45, 72,
    72, 72, 50, 66, 45, 45, 49, 49, 49
  ]

/-- Table `yyr1`: symbol kind of the left-hand side of each rule. -/
def yyr1 : List Int :=
  [
    0, 47, 48, 49, 49, 50, 50, 50, 50, 50,
    50, 50, 50, 50, 51, 52, 52, 52, 52, 53,
    53, 54, 54, 54, 54, 55, 55, 56, 56, 57,
    58, 59, 60, 60, 61, 61, 62, 62, 62, 63,
    63, 64, 64, 65, 65, 66, 66, 66, 66, 66,
    66, 66, 67, 68, 68, 69, 69, 69, 70, 71,
    71, 71, 71, 71, 71, 72, 72, 72, 72, 72,
    72, 72, 72, 72, 72, 72, 72, 72, 72, 72,
    72, 72, 72, 72, 72, 72, 72, 72, 73, 73
  ]

/-- Table `yyr2`: number of symbols on the right-hand side of each rule. -/
def yyr2 : List Int :=
  [
    0, 2, 1, 0, 2, 1, 1, 1, 1, 1,
    1, 1, 1, 2, 3, 1, 1, 1, 1, 1,
    3, 1, 3, 2, 4, 3, 4, 5, 7, 7,
    5, 9, 0, 1, 1, 3, 3, 4, 2, 0,
    1, 0, 1, 1, 3, 2, 2, 2, 2, 3,
    3, 3, 7, 0, 2, 4, 4, 3, 3, 4,
    4, 4, 3, 3, 2, 3, 3, 3, 3, 3,
    3, 3, 3, 3, 3, 3, 3, 3, 2, 2,
    2, 2, 2, 2, 2, 3, 1, 1, 3, 4
  ]

/-! ## Table access -/

/-- Read of `tbl[i]` for a C `int` index: `none` when the index is outside the array. -/
def rd (tbl : List Int) (i : Int) : Option Int :=
  if 0 ≤ i then tbl[i.toNat]? else none

/-- The macro `YYTRANSLATE`: symbol number of a token number, with out-of-bounds checking. -/
def YYTRANSLATE (yyx : Int) : Int :=
  if 0 ≤ yyx ∧ yyx ≤ YYMAXUTOK then yytranslate.getD yyx.toNat YYSYMBOL_YYUNDEF
  else YYSYMBOL_YYUNDEF

/-! ## Parser state -/

/-- One result of the external lexer `yylex`: the token code it returns and the value it
stores into `yylval` (`none` when it leaves `yylval` alone). -/
structure Token where
  code : Int
  lval : Option Int
deriving DecidableEq, Repr

/-- One invocation of `yyerror`.  The function ignores its message and prints the lexer
globals `yylineno` and `yytext`, which belong to the token returned by the most recent
call of `yylex`; `lexed` is the number of calls made so far, `held` the value of `yychar`. -/
structure Report where
  msg : String
  lexed : Nat
  held : Int
deriving DecidableEq, Repr

/-- The globals `yychar`, `yylval`, `yynerrs` as found when `yyparse` is entered.  They are
variables of type `int`; the value of `yynerrs` is stored through `wrapInt`. -/
structure Globals where
  yychar : Int
  yylval : Int
  yynerrs : Int
deriving DecidableEq, Repr

/-- The variables of `yyparse`, the globals it uses, the pending lexer input and the log of
`yyerror` calls.  The stacks are kept top first: the head of `yyss` is `*yyssp`, the head of
`yyvs` is `*yyvsp`.  `yyvsUp` holds the cells of the value array above `yyvsp` (nearest
first) that were written since the array was allocated; cells beyond are uninitialised.
A value cell is `none` while uninitialised. -/
structure Parser where
  input : List Token
  lexed : Nat
  yychar : Int
  yylval : Int
  yynerrs : Int
  yystate : Int
  yyerrstatus : Int
  yystacksize : Int
  yyss : List Int
  yyvs : List (Option Int)
  yyvsUp : List (Option Int)
  yyerrs : List Report
deriving DecidableEq, Repr

/-- Where control is after one pass through the body of `yyparse`. -/
inductive Step where
  /-- Control is at `yybackup`. -/
  | next (p : Parser)
  /-- Control is at `yyreturnlab` with the given `yyresult`. -/
  | ret (yyresult : Int) (p : Parser)
  /-- An array was accessed outside its bounds. -/
  | fault (p : Parser)
deriving DecidableEq, Repr

/-- The value returned by `yyparse`, if control reached `yyreturnlab`. -/
def Step.result : Step → Option Int
  | .ret r _ => some r
  | _ => none

/-- The parser state carried by a step. -/
def Step.parser : Step → Parser
  | .next p => p
  | .ret _ p => p
  | .fault p => p

/-- The offset `yyssp - yyss` of the top of the state stack. -/
def Parser.yyssp (p : Parser) : Int := (p.yyss.length : Int) - 1

/-- The offset `yyvsp - yyvs` of the top of the value stack. -/
def Parser.yyvsp (p : Parser) : Int := (p.yyvs.length : Int) - 1

/-! ## Collaborators -/

/-- The lexer: returns the next token code and may store a value into `yylval`; once the
input is exhausted it returns end of input on every further call. -/
def yylex (p : Parser) : Parser :=
  match p.input with
  | [] => { p with lexed := p.lexed + 1, yychar := YYEOF }
  | t :: rest =>
    { p with input := rest, lexed := p.lexed + 1, yychar := t.code,
             yylval := t.lval.getD p.yylval }

/-- The user function `yyerror`: writes one line to standard error. -/
def yyerror (p : Parser) (msg : String) : Parser :=
  { p with yyerrs := p.yyerrs ++ [{ msg := msg, lexed := p.lexed, held := p.yychar }] }

/-! ## Exit labels -/

/-- Label `yyacceptlab`. -/
def yyacceptlab (p : Parser) : Step := .ret 0 p

/-- Label `yyabortlab`. -/
def yyabortlab (p : Parser) : Step := .ret 1 p

/-- Label `yyexhaustedlab`. -/
def yyexhaustedlab (p : Parser) : Step := .ret 2 (yyerror p "memory exhausted")

/-! ## Pushing a state -/

/-- The first `n` cells of a value array whose initialised cells are `cells`, as copied by
`YYCOPY`; cells never written are uninitialised. -/
def yycopy (cells : List (Option Int)) (n : Nat) : List (Option Int) :=
  (cells ++ List.replicate (n - cells.length) none).take n

/-- Label `yysetstate`: store `yystate` in the top cell, grow the stacks when they are full,
and accept in the final state.  `YYSTACK_ALLOC` is taken to succeed. -/
def yysetstate (p : Parser) : Step :=
  if p.yyssp < 0 ∨ p.yystacksize ≤ p.yyssp then .fault p else
  let p := { p with yyss := (p.yystate % 256) :: p.yyss.tail }
  if p.yystacksize - 1 ≤ p.yyssp then
    let yysize := p.yyssp + 1
    if YYMAXDEPTH ≤ p.yystacksize then yyexhaustedlab p else
    let yystacksize := p.yystacksize * 2
    let yystacksize := if YYMAXDEPTH < yystacksize then YYMAXDEPTH else yystacksize
    let p := { p with
      yystacksize := yystacksize
      yyvs := (yycopy (p.yyvs.reverse ++ p.yyvsUp) yysize.toNat).reverse
      yyvsUp := [] }
    if p.yystacksize - 1 ≤ p.yyssp then yyabortlab p
    else if p.yystate = YYFINAL then yyacceptlab p
    else .next p
  else if p.yystate = YYFINAL then yyacceptlab p
  else .next p

/-- Label `yynewstate`: advance `yyssp`, then fall into `yysetstate`.  The new top cell is
overwritten at once, so the placeholder stored here is never read. -/
def yynewstate (p : Parser) : Step :=
  yysetstate { p with yyss := 0 :: p.yyss }

/-- The statement `*++yyvsp = v`: `none` when the cell lies outside the value array. -/
def yyvpush (p : Parser) (v : Option Int) : Option Parser :=
  if p.yyvsp + 1 < 0 ∨ p.yystacksize ≤ p.yyvsp + 1 then none
  else some { p with yyvs := v :: p.yyvs, yyvsUp := p.yyvsUp.tail }

/-- The macro `YYPOPSTACK (n)`: `none` when a stack pointer would leave its array. -/
def YYPOPSTACK (p : Parser) (n : Int) : Option Parser :=
  if n < 0 ∨ p.yyssp < n ∨ p.yyvsp < n then none
  else some { p with
    yyss := p.yyss.drop n.toNat
    yyvs := p.yyvs.drop n.toNat
    yyvsUp := (p.yyvs.take n.toNat).reverse ++ p.yyvsUp }

/-! ## Reduction -/

/-- Label `yyreduce`: reduce by rule `yyn`.  The switch over semantic actions has only the
default case, so the action is `$$ = $1`. -/
def yyreduce (p : Parser) (yyn : Int) : Step :=
  match rd yyr2 yyn with
  | none => .fault p
  | some yylen =>
  -- yyval = yyvsp[1-yylen]
  let cell : Option (Option Int) :=
    if yylen = 0 then
      (if p.yystacksize ≤ p.yyvsp + 1 then none else some (p.yyvsUp.headD none))
    else if yylen < 0 then none
    else p.yyvs[(yylen - 1).toNat]?
  match cell with
  | none => .fault p
  | some yyval =>
  match rd yyr1 yyn with
  | none => .fault p
  | some lhs =>
  match YYPOPSTACK p yylen with
  | none => .fault p
  | some p =>
  match yyvpush p yyval with
  | none => .fault p
  | some p =>
  let yylhs := lhs - YYNTOKENS
  match rd yypgoto yylhs, p.yyss.head? with
  | some base, some top =>
    let yyi := base + top
    if 0 ≤ yyi ∧ yyi ≤ YYLAST then
      match rd yycheck yyi with
      | none => .fault p
      | some c =>
        if c = top then
          match rd yytable yyi with
          | none => .fault p
          | some s => yynewstate { p with yystate := s }
        else
          match rd yydefgoto yylhs with
          | none => .fault p
          | some s => yynewstate { p with yystate := s }
    else
      match rd yydefgoto yylhs with
      | none => .fault p
      | some s => yynewstate { p with yystate := s }
  | _, _ => .fault p

/-! ## Error recovery -/

/-- The test at the head of the loop of `yyerrlab1`: the state that `yystate` enters on the
error token (`some (some s)`), or `some none` when it has no such shift; `none` when a table
is read out of range. -/
def yyerrshift (yystate : Int) : Option (Option Int) :=
  match rd yypact yystate with
  | none => none
  | some yyn =>
    if yyn = YYPACT_NINF then some none
    else
      let yyn := yyn + YYSYMBOL_YYerror
      if 0 ≤ yyn ∧ yyn ≤ YYLAST then
        match rd yycheck yyn with
        | none => none
        | some c =>
          if c = YYSYMBOL_YYerror then
            match rd yytable yyn with
            | none => none
            | some s => if 0 < s then some (some s) else some none
          else some none
      else some none

/-- The loop of `yyerrlab1`: pop states until one shifts the error token.  The first
argument is the state stack, on which the loop recurses. -/
def yyerrpop : List Int → Parser → Step
  | [], p => .fault p
  | _ :: below, p =>
    match yyerrshift p.yystate with
    | none => .fault p
    | some (some s) =>
      -- shift the error token
      match yyvpush p (some p.yylval) with
      | none => .fault p
      | some p => yynewstate { p with yystate := s }
    | some none =>
      -- pop the current state because it cannot handle the error token
      if p.yyssp = 0 then yyabortlab p
      else
        match YYPOPSTACK p 1 with
        | none => .fault p
        | some p =>
          match p.yyss.head? with
          | none => .fault p
          | some top => yyerrpop below { p with yystate := top }

/-- Label `yyerrlab1`: common code for both syntax error and `YYERROR`. -/
def yyerrlab1 (p : Parser) : Step :=
  let p := { p with yyerrstatus := 3 }
  yyerrpop p.yyss p

/-- The value an `int` holds when the result `x` of an arithmetic operation is stored in
it: 32 bits in two's complement, so that `INT_MAX + 1` becomes `INT_MIN`. -/
def wrapInt (x : Int) : Int := (x + 2147483648) % 4294967296 - 2147483648

/-- Label `yyerrlab`: here on detecting an error.  `yynerrs` is an `int`, and `++yynerrs`
wraps at `INT_MAX`. -/
def yyerrlab (p : Parser) : Step :=
  let p := if p.yyerrstatus = 0
    then yyerror { p with yynerrs := wrapInt (p.yynerrs + 1) } "syntax error" else p
  if p.yyerrstatus = 3 then
    if p.yychar ≤ YYEOF then
      if p.yychar = YYEOF then yyabortlab p else yyerrlab1 p
    else yyerrlab1 { p with yychar := YYEMPTY }
  else yyerrlab1 p

/-! ## Choosing an action -/

/-- Label `yydefault`: do the default action for the current state. -/
def yydefault (p : Parser) : Step :=
  match rd yydefact p.yystate with
  | none => .fault p
  | some yyn => if yyn = 0 then yyerrlab p else yyreduce p yyn

/-- The part of `yybackup` after the lookahead symbol `yytoken` is known: consult
`yytable`, then shift, reduce or take the default action. -/
def yyaction (p : Parser) (yyn yytoken : Int) : Step :=
  let yyn := yyn + yytoken
  if yyn < 0 ∨ YYLAST < yyn then yydefault p else
  match rd yycheck yyn with
  | none => .fault p
  | some c =>
    if c ≠ yytoken then yydefault p else
    match rd yytable yyn with
    | none => .fault p
    | some yyn =>
      if yyn ≤ 0 then yyreduce p (-yyn)   -- `yytable_value_is_error` is constantly 0
      else
        let p := if p.yyerrstatus ≠ 0 then { p with yyerrstatus := p.yyerrstatus - 1 } else p
        -- shift the lookahead token
        match yyvpush { p with yystate := yyn } (some p.yylval) with
        | none => .fault p
        | some p => yynewstate { p with yychar := YYEMPTY }

/-- Label `yybackup`: read a lookahead token if one is needed and none is held, then act. -/
def yybackup (p : Parser) : Step :=
  match rd yypact p.yystate with
  | none => .fault p
  | some yyn =>
    if yyn = YYPACT_NINF then yydefault p else
    let p := if p.yychar = YYEMPTY then yylex p else p
    if p.yychar ≤ YYEOF then
      yyaction { p with yychar := YYEOF } yyn YYSYMBOL_YYEOF
    else if p.yychar = YYerror then
      yyerrlab1 { p with yychar := YYUNDEF }
    else
      yyaction p yyn (YYTRANSLATE p.yychar)

/-! ## The parser -/

/-- The state in which `yyparse` reaches `yysetstate` for the first time: `yychar` has been
set to `YYEMPTY`, both stack pointers are at the bottom cell of their array. -/
def yyinit (g : Globals) (toks : List Token) : Parser :=
  { input := toks, lexed := 0, yychar := YYEMPTY, yylval := g.yylval, yynerrs := g.yynerrs,
    yystate := 0, yyerrstatus := 0, yystacksize := YYINITDEPTH,
    yyss := [0], yyvs := [none], yyvsUp := [], yyerrs := [] }

/-- Run the parser from `yybackup` for at most `fuel` actions. -/
def yyloop : Nat → Parser → Step
  | 0, p => .next p
  | fuel + 1, p =>
    match yybackup p with
    | .next q => yyloop fuel q
    | r => r

/-- The function `yyparse`, run for at most `fuel` actions; `Step.next` means that the fuel
ran out. -/
def yyparseFuel (fuel : Nat) (g : Globals) (toks : List Token) : Step :=
  match yysetstate (yyinit g toks) with
  | .next p => yyloop fuel p
  | r => r

/-- A token that carries no semantic value. -/
def tok (c : Int) : Token := { code := c, lval := none }

/-- The function `yyparse`.  The number of actions is bounded by five per token plus five
(theorem `yyparse_terminates` shows that this bound is never reached). -/
def yyparse (g : Globals) (toks : List Token) : Step :=
  yyparseFuel (5 * toks.length + 5) g toks

/-- The globals as `yyparse` leaves them. -/
def Parser.globals (p : Parser) : Globals :=
  { yychar := p.yychar, yylval := p.yylval, yynerrs := p.yynerrs }

/-! ## Control view

The part of the parser state that decides the control flow, and the steps of `yyparse` on
that part alone.  The refinement lemmas below show that `yybackup` acts on the control view
of a well-formed state exactly as `cstep` does. -/

/-- A table arranged for fast lookup: the entries in order, in buckets at the leaves; a node
records how many entries its left subtree holds. -/
inductive Tbl (α : Type) where
  | leaf (vs : List α)
  | node (n : Nat) (l r : Tbl α)

/-- The entries of a tree, in order. -/
def Tbl.toList {α : Type} : Tbl α → List α
  | .leaf vs => vs
  | .node _ l r => l.toList ++ r.toList

/-- Entry `i` of a tree, `d` when there is none. -/
def Tbl.get {α : Type} (d : α) : Tbl α → Nat → α
  | .leaf vs, i => vs.getD i d
  | .node n l r, i => if i < n then l.get d i else r.get d (i - n)

/-- Every node records the size of its left subtree. -/
def Tbl.ok {α : Type} : Tbl α → Bool
  | .leaf _ => true
  | .node n l r => n == l.toList.length && l.ok && r.ok

/-- The entries of `yypact` arranged as a search tree. -/
def yypactT : Tbl Int :=
  .node 96
    (.node 48
      (.node 24
        (.node 16
          (.node 8
            (.leaf [-39, 24, 116, -39, -10, -39, -39, -39])
            (.leaf [-39, -39, -15, 116, -5, 28, 43, 53]))
          (.leaf [88, 91, 67, 67, -39, 67, -39, -39]))
        (.node 16
          (.node 8
            (.leaf [93, -39, -39, -39, -39, -39, -39, -39])
            (.leaf [284, 64, 66, 67, 67, 67, 67, 65]))
          (.leaf [67, 97, 67, 69, 67, -39, -39, -39])))
      (.node 24
        (.node 16
          (.node 8
            (.leaf [-6, -39, 141, 49, 344, 26, 42, -39])
            (.leaf [67, 67, 67, 67, 67, 67, 67, 67]))
          (.leaf [67, 67, 67, 67, 67, -39, -39, -39]))
        (.node 16
          (.node 8
            (.leaf [299, 314, 329, 246, 67, 162, 62, 183])
            (.leaf [72, 108, 76, 78, -39, 204, -39, -39]))
          (.leaf [-39, -39, 67, 112, 44, -39, 93, 381]))))
    (.node 48
      (.node 24
        (.node 16
          (.node 8
            (.leaf [381, 106, 106, 106, 106, 370, 357, -2])
            (.leaf [-2, -39, -39, -39, -39, -39, -39, -39]))
          (.leaf [265, 116, 67, 116, 67, 79, 67, 69]))
        (.node 16
          (.node 8
            (.leaf [75, 344, 86, 67, 128, -39, -39, 131])
            (.leaf [225, -39, 344, 67, 109, 344, -39, -39]))
          (.leaf [-39, 344, 110, 116, 113, 344, 19, -9])))
      (.node 24
        (.node 16
          (.node 8
            (.leaf [-39, -39, -39, -4, 143, 148, 111, 115])
            (.leaf [-39, 84, 132, -39, -39, -39, -39, 67]))
          (.leaf [67, 67, -39, -39, 116, 19, 133, 134]))
        (.node 8
          (.leaf [-39, 344, 344, 344, -39, -39, -39, -39])
          (.leaf [116, 116, 116]))))

/-- The entries of `yydefact` arranged as a search tree. -/
def yydefactT : Tbl Int :=
  .node 96
    (.node 48
      (.node 24
        (.node 16
          (.node 8
            (.leaf [3, 0, 2, 1, 86, 87, 15, 16])
            (.leaf [17, 18, 0, 0, 0, 0, 0, 0]))
          (.leaf [0, 0, 0, 0, 3, 0, 4, 5]))
        (.node 16
          (.node 8
            (.leaf [0, 6, 7, 8, 9, 10, 11, 12])
            (.leaf [0, 80, 81, 0, 0, 0, 0, 84]))
          (.leaf [0, 0, 0, 32, 0, 13, 82, 83])))
      (.node 24
        (.node 16
          (.node 8
            (.leaf [86, 78, 0, 0, 79, 21, 0, 19])
            (.leaf [0, 0, 0, 0, 0, 0, 0, 0]))
          (.leaf [0, 0, 0, 0, 0, 64, 62, 63]))
        (.node 16
          (.node 8
            (.leaf [0, 0, 0, 0, 0, 0, 0, 0])
            (.leaf [0, 0, 0, 33, 34, 0, 80, 81]))
          (.leaf [85, 58, 0, 0, 23, 14, 0, 70]))))
    (.node 48
      (.node 24
        (.node 16
          (.node 8
            (.leaf [71, 74, 75, 72, 73, 76, 77, 65])
            (.leaf [66, 67, 68, 69, 60, 61, 59, 88]))
          (.leaf [0, 0, 0, 0, 0, 38, 39, 0]))
        (.node 16
          (.node 8
            (.leaf [0, 22, 0, 0, 0, 20, 89, 27])
            (.leaf [0, 30, 36, 0, 0, 40, 35, 53]))
          (.leaf [25, 24, 0, 0, 0, 37, 41, 0])))
      (.node 24
        (.node 16
          (.node 8
            (.leaf [26, 28, 29, 0, 0, 0, 0, 42])
            (.leaf [43, 0, 0, 52, 54, 45, 46, 0]))
          (.leaf [0, 0, 47, 48, 0, 0, 0, 0]))
        (.node 8
          (.leaf [3, 49, 50, 51, 31, 44, 3, 3])
          (.leaf [57, 56, 55]))))

/-- The entries of `yypgoto` arranged as a search tree. -/
def yypgotoT : Tbl Int :=
  .node 16
    (.node 8
      (.leaf [-39, -39, -20, -8, -39, -38, -39, 82])
      (.leaf [-39, -39, -39, -39, -39, -39, -39, 39]))
    (.node 8
      (.leaf [-39, -39, -39, 15, -39, -39, -39, -39])
      (.leaf [-39, -17, -39]))

/-- The entries of `yydefgoto` arranged as a search tree. -/
def yydefgotoT : Tbl Int :=
  .node 16
    (.node 8
      (.leaf [0, 1, 2, 22, 23, 24, 54, 55])
      (.leaf [92, 25, 26, 27, 28, 82, 83, 84]))
    (.node 8
      (.leaf [132, 150, 151, 152, 29, 143, 156, 30])
      (.leaf [31, 32, 39]))

/-- The entries of `yytable` arranged as a search tree. -/
def yytableT : Tbl Int :=
  .node 208
    (.node 104
      (.node 56
        (.node 32
          (.node 16
            (.node 8
              (.leaf [51, 49, 50, 41, 52, 81, 153, 154])
              (.leaf [33, 34, 35, 36, 86, 87, 157, 158]))
            (.node 8
              (.leaf [159, 160, 72, 73, 74, 75, 147, 77])
              (.leaf [3, 79, 40, 85, 37, 38, 66, 67])))
          (.node 16
            (.node 8
              (.leaf [68, 38, 161, 155, 42, 148, 149, 95])
              (.leaf [96, 97, 98, 99, 100, 101, 102, 103]))
            (.leaf [104, 105, 106, 107, 4, 5, 6, 7])))
        (.node 24
          (.node 16
            (.node 8
              (.leaf [8, 9, 10, 112, 11, 12, 13, 14])
              (.leaf [90, 91, 15, 16, 17, 43, 48, 5]))
            (.leaf [80, 121, 6, 7, 8, 9, 93, 94]))
          (.node 16
            (.node 8
              (.leaf [18, 81, 123, 124, 44, 16, 17, 166])
              (.leaf [167, 45, 19, 46, 20, 89, 47, 21]))
            (.leaf [53, 128, 18, 130, 70, 133, 71, 114]))))
      (.node 56
        (.node 32
          (.node 16
            (.node 8
              (.leaf [76, 127, 137, 129, 19, 78, 116, 117])
              (.leaf [118, 21, 141, 119, 122, 131, 135, 4]))
            (.node 8
              (.leaf [5, 6, 7, 8, 9, 10, 136, 11])
              (.leaf [12, 13, 14, 145, 138, 15, 16, 17])))
          (.node 16
            (.node 8
              (.leaf [64, 65, 66, 67, 68, 139, 169, 170])
              (.leaf [171, 142, 162, 18, 176, 146, 144, 163]))
            (.leaf [165, 164, 177, 178, 172, 19, 134, 20])))
        (.node 24
          (.node 16
            (.node 8
              (.leaf [0, 0, 21, 56, 57, 58, 59, 60])
              (.leaf [61, 62, 63, 64, 65, 66, 67, 68]))
            (.leaf [125, 168, 174, 175, 173, 0, 0, 88]))
          (.node 16
            (.node 8
              (.leaf [56, 57, 58, 59, 60, 61, 62, 63])
              (.leaf [64, 65, 66, 67, 68, 0, 0, 0]))
            (.leaf [0, 0, 0, 0, 113, 56, 57, 58])))))
    (.node 104
      (.node 56
        (.node 32
          (.node 16
            (.node 8
              (.leaf [59, 60, 61, 62, 63, 64, 65, 66])
              (.leaf [67, 68, 0, 0, 0, 0, 0, 0]))
            (.node 8
              (.leaf [0, 115, 56, 57, 58, 59, 60, 61])
              (.leaf [62, 63, 64, 65, 66, 67, 68, 0])))
          (.node 16
            (.node 8
              (.leaf [0, 0, 0, 0, 0, 0, 120, 56])
              (.leaf [57, 58, 59, 60, 61, 62, 63, 64]))
            (.leaf [65, 66, 67, 68, 0, 0, 0, 0])))
        (.node 24
          (.node 16
            (.node 8
              (.leaf [0, 0, 0, 140, 56, 57, 58, 59])
              (.leaf [60, 61, 62, 63, 64, 65, 66, 67]))
            (.leaf [68, 0, 0, 0, 0, 0, 111, 56]))
          (.node 16
            (.node 8
              (.leaf [57, 58, 59, 60, 61, 62, 63, 64])
              (.leaf [65, 66, 67, 68, 0, 0, 0, 0]))
            (.leaf [0, 126, 56, 57, 58, 59, 60, 61]))))
      (.node 56
        (.node 32
          (.node 16
            (.node 8
              (.leaf [62, 63, 64, 65, 66, 67, 68, 0])
              (.leaf [69, 56, 57, 58, 59, 60, 61, 62]))
            (.node 8
              (.leaf [63, 64, 65, 66, 67, 68, 0, 108])
              (.leaf [56, 57, 58, 59, 60, 61, 62, 63])))
          (.node 16
            (.node 8
              (.leaf [64, 65, 66, 67, 68, 0, 109, 56])
              (.leaf [57, 58, 59, 60, 61, 62, 63, 64]))
            (.leaf [65, 66, 67, 68, 0, 110, 56, 57])))
        (.node 24
          (.node 16
            (.node 8
              (.leaf [58, 59, 60, 61, 62, 63, 64, 65])
              (.leaf [66, 67, 68, 56, 57, 58, 59, 60]))
            (.leaf [61, 62, 0, 64, 65, 66, 67, 68]))
          (.node 16
            (.node 8
              (.leaf [56, 57, 58, 59, 60, 61, 0, 0])
              (.leaf [64, 65, 66, 67, 68, 58, 59, 60]))
            (.leaf [61, 0, 0, 64, 65, 66, 67, 68])))))

/-- The entries of `yycheck` arranged as a search tree. -/
def yycheckT : Tbl Int :=
  .node 208
    (.node 104
      (.node 56
        (.node 32
          (.node 16
            (.node 8
              (.leaf [20, 18, 19, 11, 21, 43, 15, 16])
              (.leaf [18, 19, 20, 21, 18, 19, 18, 19]))
            (.node 8
              (.leaf [20, 21, 35, 36, 37, 38, 3, 40])
              (.leaf [0, 42, 41, 44, 38, 39, 32, 33])))
          (.node 16
            (.node 8
              (.leaf [34, 39, 38, 44, 41, 18, 19, 56])
              (.leaf [57, 58, 59, 60, 61, 62, 63, 64]))
            (.leaf [65, 66, 67, 68, 3, 4, 5, 6])))
        (.node 24
          (.node 16
            (.node 8
              (.leaf [7, 8, 9, 76, 11, 12, 13, 14])
              (.leaf [38, 39, 17, 18, 19, 41, 3, 4]))
            (.leaf [3, 90, 5, 6, 7, 8, 36, 37]))
          (.node 16
            (.node 8
              (.leaf [31, 119, 38, 39, 41, 18, 19, 3])
              (.leaf [4, 36, 41, 3, 43, 44, 3, 46]))
            (.leaf [3, 114, 31, 116, 36, 118, 36, 41]))))
      (.node 56
        (.node 32
          (.node 16
            (.node 8
              (.leaf [39, 113, 123, 115, 41, 12, 38, 3])
              (.leaf [36, 46, 131, 37, 4, 38, 43, 3]))
            (.node 8
              (.leaf [4, 5, 6, 7, 8, 9, 40, 11])
              (.leaf [12, 13, 14, 139, 4, 17, 18, 19])))
          (.node 16
            (.node 8
              (.leaf [30, 31, 32, 33, 34, 10, 159, 160])
              (.leaf [161, 36, 3, 31, 168, 36, 40, 3]))
            (.leaf [37, 42, 174, 175, 164, 41, 119, 43])))
        (.node 24
          (.node 16
            (.node 8
              (.leaf [-1, -1, 46, 22, 23, 24, 25, 26])
              (.leaf [27, 28, 29, 30, 31, 32, 33, 34]))
            (.leaf [94, 45, 45, 45, 165, -1, -1, 42]))
          (.node 16
            (.node 8
              (.leaf [22, 23, 24, 25, 26, 27, 28, 29])
              (.leaf [30, 31, 32, 33, 34, -1, -1, -1]))
            (.leaf [-1, -1, -1, -1, 42, 22, 23, 24])))))
    (.node 104
      (.node 56
        (.node 32
          (.node 16
            (.node 8
              (.leaf [25, 26, 27, 28, 29, 30, 31, 32])
              (.leaf [33, 34, -1, -1, -1, -1, -1, -1]))
            (.node 8
              (.leaf [-1, 42, 22, 23, 24, 25, 26, 27])
              (.leaf [28, 29, 30, 31, 32, 33, 34, -1])))
          (.node 16
            (.node 8
              (.leaf [-1, -1, -1, -1, -1, -1, 42, 22])
              (.leaf [23, 24, 25, 26, 27, 28, 29, 30]))
            (.leaf [31, 32, 33, 34, -1, -1, -1, -1])))
        (.node 24
          (.node 16
            (.node 8
              (.leaf [-1, -1, -1, 42, 22, 23, 24, 25])
              (.leaf [26, 27, 28, 29, 30, 31, 32, 33]))
            (.leaf [34, -1, -1, -1, -1, -1, 40, 22]))
          (.node 16
            (.node 8
              (.leaf [23, 24, 25, 26, 27, 28, 29, 30])
              (.leaf [31, 32, 33, 34, -1, -1, -1, -1]))
            (.leaf [-1, 40, 22, 23, 24, 25, 26, 27]))))
      (.node 56
        (.node 32
          (.node 16
            (.node 8
              (.leaf [28, 29, 30, 31, 32, 33, 34, -1])
              (.leaf [36, 22, 23, 24, 25, 26, 27, 28]))
            (.node 8
              (.leaf [29, 30, 31, 32, 33, 34, -1, 36])
              (.leaf [22, 23, 24, 25, 26, 27, 28, 29])))
          (.node 16
            (.node 8
              (.leaf [30, 31, 32, 33, 34, -1, 36, 22])
              (.leaf [23, 24, 25, 26, 27, 28, 29, 30]))
            (.leaf [31, 32, 33, 34, -1, 36, 22, 23])))
        (.node 24
          (.node 16
            (.node 8
              (.leaf [24, 25, 26, 27, 28, 29, 30, 31])
              (.leaf [32, 33, 34, 22, 23, 24, 25, 26]))
            (.leaf [27, 28, -1, 30, 31, 32, 33, 34]))
          (.node 16
            (.node 8
              (.leaf [22, 23, 24, 25, 26, 27, -1, -1])
              (.leaf [30, 31, 32, 33, 34, 24, 25, 26]))
            (.leaf [27, -1, -1, 30, 31, 32, 33, 34])))))

/-- The entries of `yyr1` arranged as a search tree. -/
def yyr1T : Tbl Int :=
  .node 48
    (.node 24
      (.node 16
        (.node 8
          (.leaf [0, 47, 48, 49, 49, 50, 50, 50])
          (.leaf [50, 50, 50, 50, 50, 50, 51, 52]))
        (.leaf [52, 52, 52, 53, 53, 54, 54, 54]))
      (.node 16
        (.node 8
          (.leaf [54, 55, 55, 56, 56, 57, 58, 59])
          (.leaf [60, 60, 61, 61, 62, 62, 62, 63]))
        (.leaf [63, 64, 64, 65, 65, 66, 66, 66])))
    (.node 24
      (.node 16
        (.node 8
          (.leaf [66, 66, 66, 66, 67, 68, 68, 69])
          (.leaf [69, 69, 70, 71, 71, 71, 71, 71]))
        (.leaf [71, 72, 72, 72, 72, 72, 72, 72]))
      (.node 16
        (.node 8
          (.leaf [72, 72, 72, 72, 72, 72, 72, 72])
          (.leaf [72, 72, 72, 72, 72, 72, 72, 72]))
        (.leaf [73, 73])))

/-- The entries of `yyr2` arranged as a search tree. -/
def yyr2T : Tbl Int :=
  .node 48
    (.node 24
      (.node 16
        (.node 8
          (.leaf [0, 2, 1, 0, 2, 1, 1, 1])
          (.leaf [1, 1, 1, 1, 1, 2, 3, 1]))
        (.leaf [1, 1, 1, 1, 3, 1, 3, 2]))
      (.node 16
        (.node 8
          (.leaf [4, 3, 4, 5, 7, 7, 5, 9])
          (.leaf [0, 1, 1, 3, 3, 4, 2, 0]))
        (.leaf [1, 0, 1, 1, 3, 2, 2, 2])))
    (.node 24
      (.node 16
        (.node 8
          (.leaf [2, 3, 3, 3, 7, 0, 2, 4])
          (.leaf [4, 3, 3, 4, 4, 4, 3, 3]))
        (.leaf [2, 3, 3, 3, 3, 3, 3, 3]))
      (.node 16
        (.node 8
          (.leaf [3, 3, 3, 3, 3, 3, 2, 2])
          (.leaf [2, 2, 2, 2, 2, 3, 1, 1]))
        (.leaf [3, 4])))

/-- The tree `t` holds exactly the entries of the table `tbl`. -/
class HasTree (tbl : List Int) (t : outParam (Tbl Int)) : Prop where
  ok : t.ok = true
  list : t.toList = tbl

set_option maxRecDepth 100000 in
instance yypact_tree : HasTree yypact yypactT := ⟨by decide!, by decide!⟩

set_option maxRecDepth 100000 in
instance yydefact_tree : HasTree yydefact yydefactT := ⟨by decide!, by decide!⟩

set_option maxRecDepth 100000 in
instance yypgoto_tree : HasTree yypgoto yypgotoT := ⟨by decide!, by decide!⟩

set_option maxRecDepth 100000 in
instance yydefgoto_tree : HasTree yydefgoto yydefgotoT := ⟨by decide!, by decide!⟩

set_option maxRecDepth 100000 in
instance yytable_tree : HasTree yytable yytableT := ⟨by decide!, by decide!⟩

set_option maxRecDepth 100000 in
instance yycheck_tree : HasTree yycheck yycheckT := ⟨by decide!, by decide!⟩

set_option maxRecDepth 100000 in
instance yyr1_tree : HasTree yyr1 yyr1T := ⟨by decide!, by decide!⟩

set_option maxRecDepth 100000 in
instance yyr2_tree : HasTree yyr2 yyr2T := ⟨by decide!, by decide!⟩

/-- Table entry with the out-of-range case collapsed to 0, looked up in the tree of the
table (theorem `tget_eq`: it is the entry `rd tbl i` of the table itself). -/
def tget (tbl : List Int) {t : Tbl Int} [HasTree tbl t] (i : Int) : Int :=
  if 0 ≤ i then t.get 0 i.toNat else 0

/-- Target of the shift of symbol `t` in state `s`, when `yytable` has an entry for it. -/
def tshift (s t : Int) : Option Int :=
  if tget yypact s = YYPACT_NINF then none else
  let n := tget yypact s + t
  if n < 0 ∨ YYLAST < n then none
  else if tget yycheck n ≠ t then none
  else some (tget yytable n)

/-- State entered after a reduction to nonterminal number `lhs` exposes state `e`. -/
def tgoto (e lhs : Int) : Int :=
  let i := tget yypgoto lhs + e
  if 0 ≤ i ∧ i ≤ YYLAST ∧ tget yycheck i = e then tget yytable i else tget yydefgoto lhs

/-- Control view of a parser state; of the pending input only the token codes matter. -/
structure Ctl where
  input : List Int
  lexed : Nat
  yychar : Int
  yyss : List Int
  yyerrs : List Report
deriving DecidableEq, Repr

/-- Outcome of one action on the control view. -/
inductive CStep where
  | next (c : Ctl)
  | ret (yyresult : Int) (c : Ctl)
  | fault
deriving DecidableEq, Repr

/-- The control view of a parser state. -/
def Parser.ctl (p : Parser) : Ctl :=
  { input := p.input.map Token.code, lexed := p.lexed, yychar := p.yychar, yyss := p.yyss,
    yyerrs := p.yyerrs }

/-- The control view of a step. -/
def Step.ctl : Step → CStep
  | .next p => .next p.ctl
  | .ret r p => .ret r p.ctl
  | .fault _ => .fault

/-- Result carried by a control step. -/
def CStep.result : CStep → Option Int
  | .ret r _ => some r
  | _ => none

/-- Reports carried by a control step. -/
def CStep.yyerrs : CStep → List Report
  | .next c => c.yyerrs
  | .ret _ c => c.yyerrs
  | .fault => []

/-- Control view of `yylex`. -/
def clex (c : Ctl) : Ctl :=
  match c.input with
  | [] => { c with lexed := c.lexed + 1, yychar := YYEOF }
  | t :: rest => { c with input := rest, lexed := c.lexed + 1, yychar := t }

/-- Control view of `yyerror`. -/
def creport (c : Ctl) (msg : String) : Ctl :=
  { c with yyerrs := c.yyerrs ++ [{ msg := msg, lexed := c.lexed, held := c.yychar }] }

/-- Control view of `yynewstate`. -/
def cpush (c : Ctl) (s : Int) : CStep :=
  let c := { c with yyss := s :: c.yyss }
  if YYMAXDEPTH ≤ (c.yyss.length : Int) then .ret 2 (creport c "memory exhausted")
  else if s = YYFINAL then .ret 0 c
  else .next c

/-- Control view of `yyerrlab1` for a table without error shifts: everything above the
bottom state is popped and the parse is aborted. -/
def cabort (c : Ctl) : CStep :=
  .ret 1 { c with yyss := c.yyss.drop (c.yyss.length - 1) }

/-- Control view of `yyreduce`. -/
def creduce (c : Ctl) (r : Int) : CStep :=
  let k := (tget yyr2 r).toNat
  if c.yyss.length ≤ k then .fault
  else
    let ss := c.yyss.drop k
    cpush { c with yyss := ss } (tgoto (ss.headD 0) (tget yyr1 r - YYNTOKENS))

/-- Control view of `yydefault`. -/
def cdefault (c : Ctl) : CStep :=
  let r := tget yydefact (c.yyss.headD 0)
  if r = 0 then cabort (creport c "syntax error") else creduce c r

/-- Control view of `yyaction`. -/
def cact (c : Ctl) (t : Int) : CStep :=
  match tshift (c.yyss.headD 0) t with
  | some s => cpush { c with yychar := YYEMPTY } s
  | none => cdefault c

/-- Control view of `yybackup`. -/
def cstep (c : Ctl) : CStep :=
  if tget yypact (c.yyss.headD 0) = YYPACT_NINF then cdefault c else
  let c := if c.yychar = YYEMPTY then clex c else c
  if c.yychar ≤ YYEOF then cact { c with yychar := YYEOF } YYSYMBOL_YYEOF
  else if c.yychar = YYerror then cabort { c with yychar := YYUNDEF }
  else cact c (YYTRANSLATE c.yychar)

/-- Control view of `yyloop`. -/
def crun : Nat → Ctl → CStep
  | 0, c => .next c
  | fuel + 1, c =>
    match cstep c with
    | .next d => crun fuel d
    | r => r

/-- Control view of the state in which `yyparse` reaches `yybackup` for the first time. -/
def cinit (toks : List Int) : Ctl :=
  { input := toks, lexed := 0, yychar := YYEMPTY, yyss := [0], yyerrs := [] }

/-- Number of syntax errors among the reports. -/
def errCount (l : List Report) : Int :=
  ((l.filter (fun r => r.msg = "syntax error")).length : Int)

/-- The value of `yynerrs` after `k` executions of `++yynerrs` from the value `e`. -/
def bumped (e k : Int) : Int := if k = 0 then e else wrapInt (e + k)

/-- The value of `yynerrs` after the reports `l`, from the value `e`: one execution of
`++yynerrs` for every syntax error. -/
def counted (e : Int) (l : List Report) : Int := bumped e (errCount l)

/-- Well-formedness of a parser state at `yybackup`: `yystate` is the top state, the stacks
are parallel and fit their arrays, every stored state is a state number, no recovery is in
progress, and `yynerrs` has counted the reports since it held `e`. -/
structure Parser.WF (e : Int) (p : Parser) : Prop where
  top : p.yyss.head? = some p.yystate
  par : p.yyvs.length = p.yyss.length
  cap : (p.yyss.length : Int) < p.yystacksize
  lim : p.yystacksize ≤ YYMAXDEPTH
  rng : ∀ s ∈ p.yyss, 0 ≤ s ∧ s < YYNSTATES
  calm : p.yyerrstatus = 0
  cnt : p.yynerrs = counted e p.yyerrs

/-- What a step guarantees: a state at `yybackup` is well formed, and at `yyreturnlab`
`yynerrs` has counted the syntax errors reported since it held `e`. -/
def Step.Good (e : Int) : Step → Prop
  | .next q => q.WF e
  | .ret _ q => q.yynerrs = counted e q.yyerrs
  | .fault _ => True

/-! ## Token codes

The token kinds of `parser.tab.h`, numbered as `yytranslate` and `yytname` fix them: the
named tokens are 258, 259, ... in the order of `yytname`, a punctuation token is its
character code. -/

namespace Tk
def ID : Int := 258
def NUM : Int := 259
def INT : Int := 260
def FLOAT : Int := 261
def CHAR : Int := 262
def DOUBLE : Int := 263
def IF : Int := 264
def ELSE : Int := 265
def DO : Int := 266
def WHILE : Int := 267
def FOR : Int := 268
def SWITCH : Int := 269
def CASE : Int := 270
def DEFAULT : Int := 271
def BREAK : Int := 272
def INC : Int := 273
def DEC : Int := 274
def ADDASSIGN : Int := 275
def SUBASSIGN : Int := 276
def EQ : Int := 277
def NEQ : Int := 278
def LE : Int := 279
def GE : Int := 280
def LT : Int := 281
def GT : Int := 282
def AND : Int := 283
def OR : Int := 284
def UMINUS : Int := 285
end Tk

/-- The token code of a punctuation character. -/
def ch (c : Char) : Int := (c.toNat : Int)

/-- Token codes of `int a, b; a = 1 + 2 * (3 - 1);`. -/
def declAssignCodes : List Int :=
  [Tk.INT, Tk.ID, ch ',', Tk.ID, ch ';',
   Tk.ID, ch '=', Tk.NUM, ch '+', Tk.NUM, ch '*', ch '(', Tk.NUM, ch '-', Tk.NUM, ch ')', ch ';']

/-- Token codes of `if (a > b { a = 1; }` (the closing parenthesis is missing). -/
def missingParenCodes : List Int :=
  [Tk.IF, ch '(', Tk.ID, Tk.GT, Tk.ID, ch '{', Tk.ID, ch '=', Tk.NUM, ch ';', ch '}']

/-- Token codes of `do { a = a + 1; } while (a <= 100);`. -/
def doWhileCodes : List Int :=
  [Tk.DO, ch '{', Tk.ID, ch '=', Tk.ID, ch '+', Tk.NUM, ch ';', ch '}',
   Tk.WHILE, ch '(', Tk.ID, Tk.LE, Tk.NUM, ch ')', ch ';']

/-- The function `main`: the text it prints on standard output and the value it returns. -/
def main (g : Globals) (toks : List Token) : Option (String × Int) :=
  match yyparse g toks with
  | .ret result _ => some (if result = 0 then "Syntax valid.\n" else "", result)
  | _ => none

/-- Token codes of `if (a > b) { a = 1;` (the closing brace is missing). -/
def missingBraceCodes : List Int :=
  [Tk.IF, ch '(', Tk.ID, Tk.GT, Tk.ID, ch ')', ch '{', Tk.ID, ch '=', Tk.NUM, ch ';']

/-! ## Invariants of the control view

The state stack is always a path of the automaton that starts in state 0.  The edges of the
automaton are given by a certificate (`yypredT`) that is checked against the tables. -/

/-- For each state, the states from which the automaton enters it (by a shift or by the
goto of a reduction); a certificate checked against the tables by `shift_edge` and
`reduce_edge`. -/
def yypredT : Tbl (List Int) :=
  .node 96
    (.node 48
      (.node 24
        (.node 16
          (.node 8
            (.leaf [[], [0], [0], [1], [2, 11, 51, 113, 115, 139, 164, 176, 177, 178], [2, 11,
              18, 19, 21, 35, 36, 37, 38, 40, 42, 44, 51, 56, 57, 58, 59, 60, 61, 62, 63, 64, 65,
              66, 67, 68, 76, 90, 113, 114, 115, 116, 118, 123, 131, 139, 159, 160, 161, 164,
              176, 177, 178], [2, 11, 43, 51, 113, 115, 119, 139, 164, 176, 177, 178], [2, 11,
              43, 51, 113, 115, 119, 139, 164, 176, 177, 178]])
            (.leaf [[2, 11, 43, 51, 113, 115, 119, 139, 164, 176, 177, 178], [2, 11, 43, 51, 113,
              115, 119, 139, 164, 176, 177, 178], [2, 11, 51, 113, 115, 139, 164, 176, 177, 178],
              [2, 11, 51, 113, 115, 139, 164, 176, 177, 178], [2, 11, 51, 113, 115, 139, 164,
              176, 177, 178], [2, 11, 51, 113, 115, 139, 164, 176, 177, 178], [2, 11, 51, 113,
              115, 139, 164, 176, 177, 178], [2, 11, 51, 113, 115, 139, 164, 176, 177, 178]]))
          (.leaf [[2, 11, 18, 19, 21, 35, 36, 37, 38, 40, 42, 44, 51, 56, 57, 58, 59, 60, 61, 62,
            63, 64, 65, 66, 67, 68, 76, 90, 113, 114, 115, 116, 118, 123, 131, 139, 159, 160,
            161, 164, 176, 177, 178], [2, 11, 18, 19, 21, 35, 36, 37, 38, 40, 42, 44, 51, 56, 57,
            58, 59, 60, 61, 62, 63, 64, 65, 66, 67, 68, 76, 90, 113, 114, 115, 116, 118, 123,
            131, 139, 159, 160, 161, 164, 176, 177, 178], [2, 11, 18, 19, 21, 35, 36, 37, 38, 40,
            42, 44, 51, 56, 57, 58, 59, 60, 61, 62, 63, 64, 65, 66, 67, 68, 76, 90, 113, 114,
            115, 116, 118, 123, 131, 139, 159, 160, 161, 164, 176, 177, 178], [2, 11, 18, 19, 21,
            35, 36, 37, 38, 40, 42, 44, 51, 56, 57, 58, 59, 60, 61, 62, 63, 64, 65, 66, 67, 68,
            76, 90, 113, 114, 115, 116, 118, 123, 131, 139, 159, 160, 161, 164, 176, 177, 178],
            [2, 11, 51, 113, 115, 139, 164, 176, 177, 178], [2, 11, 18, 19, 21, 35, 36, 37, 38,
            40, 42, 44, 51, 56, 57, 58, 59, 60, 61, 62, 63, 64, 65, 66, 67, 68, 76, 90, 113, 114,
            115, 116, 118, 123, 131, 139, 159, 160, 161, 164, 176, 177, 178], [2, 51, 176, 177,
            178], [2, 11, 51, 113, 115, 139, 164, 176, 177, 178]]))
        (.node 16
          (.node 8
            (.leaf [[2, 11, 51, 113, 115, 139, 164, 176, 177, 178], [2, 11, 51, 113, 115, 139,
              164, 176, 177, 178], [2, 11, 51, 113, 115, 139, 164, 176, 177, 178], [2, 11, 51,
              113, 115, 139, 164, 176, 177, 178], [2, 11, 51, 113, 115, 139, 164, 176, 177, 178],
              [2, 11, 51, 113, 115, 139, 164, 176, 177, 178], [2, 11, 51, 113, 115, 139, 164,
              176, 177, 178], [2, 11, 51, 113, 115, 139, 164, 176, 177, 178]])
            (.leaf [[2, 11, 51, 113, 115, 139, 164, 176, 177, 178], [4], [4], [4], [4], [4], [4,
              48], [4, 48]]))
          (.leaf [[10], [11], [12], [13], [14], [15], [16], [17]])))
      (.node 24
        (.node 16
          (.node 8
            (.leaf [[18, 19, 21, 35, 36, 37, 38, 40, 42, 44, 56, 57, 58, 59, 60, 61, 62, 63, 64,
              65, 66, 67, 68, 76, 90, 114, 116, 118, 123, 131, 159, 160, 161], [18], [19], [20],
              [21], [24, 94], [24], [24]])
            (.leaf [[32, 50, 52, 72, 73, 74, 75, 77, 79, 85, 101, 102, 112, 121, 128, 130, 133,
              137, 141, 169, 170, 171], [32, 50, 52, 72, 73, 74, 75, 77, 79, 85, 101, 102, 112,
              121, 128, 130, 133, 137, 141, 169, 170, 171], [32, 50, 52, 72, 73, 74, 75, 77, 79,
              85, 95, 96, 101, 102, 112, 121, 128, 130, 133, 137, 141, 169, 170, 171], [32, 50,
              52, 72, 73, 74, 75, 77, 79, 85, 95, 96, 101, 102, 112, 121, 128, 130, 133, 137,
              141, 169, 170, 171], [32, 50, 52, 72, 73, 74, 75, 77, 79, 85, 95, 96, 101, 102,
              112, 121, 128, 130, 133, 137, 141, 169, 170, 171], [32, 50, 52, 72, 73, 74, 75, 77,
              79, 85, 95, 96, 101, 102, 112, 121, 128, 130, 133, 137, 141, 169, 170, 171], [32,
              50, 52, 72, 73, 74, 75, 77, 79, 85, 102, 112, 121, 128, 130, 133, 137, 141, 169,
              170, 171], [32, 50, 52, 72, 73, 74, 75, 77, 79, 85, 112, 121, 128, 130, 133, 137,
              141, 169, 170, 171]]))
          (.leaf [[32, 50, 52, 72, 73, 74, 75, 77, 79, 85, 95, 96, 97, 98, 99, 100, 101, 102,
            112, 121, 128, 130, 133, 137, 141, 169, 170, 171], [32, 50, 52, 72, 73, 74, 75, 77,
            79, 85, 95, 96, 97, 98, 99, 100, 101, 102, 112, 121, 128, 130, 133, 137, 141, 169,
            170, 171], [32, 50, 52, 72, 73, 74, 75, 77, 79, 85, 95, 96, 97, 98, 99, 100, 101,
            102, 103, 104, 112, 121, 128, 130, 133, 137, 141, 169, 170, 171], [32, 50, 52, 72,
            73, 74, 75, 77, 79, 85, 95, 96, 97, 98, 99, 100, 101, 102, 103, 104, 112, 121, 128,
            130, 133, 137, 141, 169, 170, 171], [32, 50, 52, 72, 73, 74, 75, 77, 79, 85, 95, 96,
            97, 98, 99, 100, 101, 102, 103, 104, 112, 121, 128, 130, 133, 137, 141, 169, 170,
            171], [32], [33], [34]]))
        (.node 16
          (.node 8
            (.leaf [[35], [36], [37], [38], [39], [40], [41], [42]])
            (.leaf [[43, 119], [43, 119], [43], [43], [43], [44], [48], [48]]))
          (.leaf [[50], [51], [53], [53], [53], [54], [54], [56]]))))
    (.node 48
      (.node 24
        (.node 16
          (.node 8
            (.leaf [[57], [58], [59], [60], [61], [62], [63], [64]])
            (.leaf [[65], [66], [67], [68], [72], [73], [74], [75]]))
          (.leaf [[76], [77], [78], [79], [80], [81], [82], [83]]))
        (.node 16
          (.node 8
            (.leaf [[85], [90], [91], [92], [92], [94], [112], [113]])
            (.leaf [[114], [115], [116], [117], [118], [118], [119], [120]]))
          (.leaf [[122], [123], [124], [127], [128], [131], [132], [135]])))
      (.node 24
        (.node 16
          (.node 8
            (.leaf [[138], [139], [140], [142, 165], [142, 165], [142, 165], [142], [142]])
            (.leaf [[142], [143], [143], [143], [143], [147], [147], [147]]))
          (.leaf [[147], [147], [148], [149], [150], [151], [153], [153]]))
        (.node 8
          (.leaf [[154], [159], [160], [161], [164], [165], [166], [167]])
          (.leaf [[168], [174], [175]]))))

/-- A rank for each state: every reduction lowers the stack depth plus the rank of the top
state (checked by `reduce_edge`), which bounds the reductions made between two shifts. -/
def yyrankT : Tbl Int :=
  .node 96
    (.node 48
      (.node 24
        (.node 16
          (.node 8
            (.leaf [3, 0, 1, 0, 1, 2, 1, 1])
            (.leaf [1, 1, 0, 0, 0, 0, 0, 0]))
          (.leaf [0, 0, 0, 0, 2, 0, 1, 2]))
        (.node 16
          (.node 8
            (.leaf [0, 2, 2, 2, 2, 2, 2, 2])
            (.leaf [0, 0, 0, 0, 0, 0, 0, 1]))
          (.leaf [0, 0, 0, 2, 0, 1, 1, 1])))
      (.node 24
        (.node 16
          (.node 8
            (.leaf [2, 1, 0, 0, 1, 2, 0, 1])
            (.leaf [0, 0, 0, 0, 0, 0, 0, 0]))
          (.leaf [0, 0, 0, 0, 0, 2, 1, 1]))
        (.node 16
          (.node 8
            (.leaf [0, 0, 0, 0, 0, 0, 0, 0])
            (.leaf [0, 0, 0, 1, 2, 0, 1, 1]))
          (.leaf [0, 1, 0, 0, 1, 1, 0, 0]))))
    (.node 48
      (.node 24
        (.node 16
          (.node 8
            (.leaf [0, 0, 0, 0, 0, 0, 0, 0])
            (.leaf [0, 0, 0, 0, 0, 0, 0, 0]))
          (.leaf [0, 0, 0, 0, 0, 2, 2, 0]))
        (.node 16
          (.node 8
            (.leaf [0, 0, 0, 0, 0, 0, 0, 0])
            (.leaf [0, 0, 1, 0, 0, 1, 0, 2]))
          (.leaf [0, 0, 0, 0, 0, 0, 2, 0])))
      (.node 24
        (.node 16
          (.node 8
            (.leaf [0, 0, 0, 0, 0, 0, 0, 1])
            (.leaf [2, 0, 0, 0, 0, 2, 2, 0]))
          (.leaf [0, 0, 2, 2, 0, 0, 0, 0]))
        (.node 8
          (.leaf [2, 1, 1, 1, 0, 0, 2, 2])
          (.leaf [0, 0, 0]))))

/-- The states from which state `s` is entered. -/
def yypreds (s : Int) : List Int := if 0 ≤ s then yypredT.get [] s.toNat else []

/-- The rank of state `s`. -/
def yyrank (s : Int) : Int := if 0 ≤ s then yyrankT.get 0 s.toNat else 0

/-- The state stack (top first) is a path of the automaton from state 0. -/
def Path : List Int → Prop
  | [] => False
  | [s] => s = 0
  | s :: e :: rest => e ∈ yypreds s ∧ Path (e :: rest)

/-- The states that can lie `k` cells below state `s` on a path. -/
def yyback : Nat → Int → List Int
  | 0, s => [s]
  | k + 1, s => (yyback k s).flatMap yypreds

/-- The tokens still to be shifted: the pending input and a held lookahead. -/
def Ctl.todo (c : Ctl) : Nat := c.input.length + (if 0 < c.yychar then 1 else 0)

/-- The termination measure of the control view. -/
def Ctl.measure (c : Ctl) : Int :=
  5 * (c.todo : Int) + (c.yyss.length : Int) + yyrank (c.yyss.headD 0)

/-- The invariant of the control view at `yybackup`, before any error: the stack is a path
that does not contain the final state and has fewer than `YYMAXDEPTH` cells, and nothing
has been reported. -/
structure Ctl.Inv (c : Ctl) : Prop where
  path : Path c.yyss
  nofinal : c.yyss.headD 0 ≠ YYFINAL
  depth : (c.yyss.length : Int) < YYMAXDEPTH
  quiet : c.yyerrs = []

/-- The check made on a reducing state `s`: the stack below it is deep enough for its rule,
and for every state `e` the reduction can expose, the goto target is entered from `e` and
has a rank that lets the measure drop. -/
def reduceOk (s : Int) : Bool :=
  let r := tget yydefact s
  let k := (tget yyr2 r).toNat
  r == 0 || s == YYFINAL ||
    ((List.range k).all (fun j => !(yyback j s).contains 0) &&
     (yyback k s).all (fun e =>
        let g := tgoto e (tget yyr1 r - YYNTOKENS)
        (yypreds g).contains e && decide (yyrank g + 2 ≤ yyrank s + (k : Int))))

/-- The check made on a shift of symbol `t` in state `s`: the target is entered from `s`,
and only the final state is entered on end of input. -/
def shiftOk (s t : Int) : Bool :=
  match tshift s t with
  | none => true
  | some v => (yypreds v).contains s && (t != 0 || v == YYFINAL)

/-- The control view once a lookahead is held: a token is fetched when none is held, and
every code that is not positive becomes `YYEOF`. -/
def cpeek (c : Ctl) : Ctl :=
  let c := if c.yychar = YYEMPTY then clex c else c
  if c.yychar ≤ YYEOF then { c with yychar := YYEOF } else c

/-- How a run can end: acceptance in the final state without a report; an abort with the
stack popped to its bottom cell, after one syntax error report or, for the error token,
without a report; or exhaustion with `YYMAXDEPTH` cells on the stack and one report. -/
def Ctl.Final (r : Int) (d : Ctl) : Prop :=
  (r = 0 ∧ d.yyerrs = [] ∧ d.yyss.headD 0 = YYFINAL ∧ (d.yyss.length : Int) < YYMAXDEPTH) ∨
  (r = 1 ∧ d.yyss.length = 1 ∧
    (d.yyerrs = [{ msg := "syntax error", lexed := d.lexed, held := d.yychar }] ∨
     (d.yyerrs = [] ∧ d.yychar = YYUNDEF))) ∨
  (r = 2 ∧ (d.yyss.length : Int) = YYMAXDEPTH ∧
    d.yyerrs = [{ msg := "memory exhausted", lexed := d.lexed, held := d.yychar }])

/-- What one action guarantees, from a state `c` that satisfies the invariant. -/
def CStep.Post (c : Ctl) : CStep → Prop
  | .next d => d.Inv ∧ d.measure < c.measure
  | .ret r d => d.Final r
  | .fault => False

/-- A run from `c` ends with result `r`. -/
def Ends (c : Ctl) (r : Int) : Prop := ∃ n d, crun n c = .ret r d

/-- Token codes of `n` opening parentheses, a number, `n` closing parentheses and a
semicolon. -/
def parenCodes (n : Nat) : List Int :=
  List.replicate n (ch '(') ++ Tk.NUM :: (List.replicate n (ch ')') ++ [ch ';'])

/-- The state stack after a statement list and `j` opening parentheses. -/
def parenStack (j : Nat) : List Int := List.replicate j 19 ++ [2, 0]

/-- The result of the nesting family: 0 up to 9995 levels, 2 from 9996 levels on. -/
def parenResult (n : Nat) : Int := if n ≤ 9995 then 0 else 2

/-- The control state with more input after the pending one. -/
def Ctl.extend (ext : List Int) (c : Ctl) : Ctl := { c with input := c.input ++ ext }

/-- The step outcome with more input after the pending one. -/
def CStep.extend (ext : List Int) : CStep → CStep
  | .next c => .next (c.extend ext)
  | .ret r c => .ret r (c.extend ext)
  | .fault => .fault

/-- The next action fetches a token and the input is exhausted. -/
def Ctl.starved (c : Ctl) : Prop :=
  c.input = [] ∧ c.yychar = YYEMPTY ∧ tget yypact (c.yyss.headD 0) ≠ YYPACT_NINF

/-- End of input is the held lookahead, fetched by call number `L + 1` of the lexer. -/
def Ctl.atEof (L : Nat) (c : Ctl) : Prop :=
  c.input = [] ∧ c.yychar = YYEOF ∧ c.lexed = L + 1

/-- What one action guarantees once end of input is held: it stays held, and a run that
ends without accepting has made exactly one report, with end of input held. -/
def CStep.PostEof (L : Nat) : CStep → Prop
  | .next d => d.atEof L
  | .ret r e => r = 0 ∨ ∃ msg, e.yyerrs = [{ msg := msg, lexed := L + 1, held := YYEOF }]
  | .fault => False

/-! ## The grammar of the tables

The grammar file is not part of the sources; the tables of `parser.tab.c` determine every
rule: its left-hand side (`yyr1`), its length (`yyr2`), and its right-hand side, spelled by
the accessing symbols (`yystos`) of the states on the stack at the time of the reduction. -/

/-- The entries of `yystos` arranged as a search tree. -/
def yystosT : Tbl Int :=
  .node 96
    (.node 48
      (.node 24
        (.node 16
          (.node 8
            (.leaf [0, 48, 49, 0, 3, 4, 5, 6])
            (.leaf [7, 8, 9, 11, 12, 13, 14, 17]))
          (.leaf [18, 19, 31, 41, 43, 46, 50, 51]))
        (.node 16
          (.node 8
            (.leaf [52, 56, 57, 58, 59, 67, 70, 71])
            (.leaf [72, 18, 19, 20, 21, 38, 39, 73]))
          (.leaf [41, 50, 41, 41, 41, 36, 3, 3])))
      (.node 24
        (.node 16
          (.node 8
            (.leaf [3, 72, 72, 49, 72, 3, 53, 54])
            (.leaf [22, 23, 24, 25, 26, 27, 28, 29]))
          (.leaf [30, 31, 32, 33, 34, 36, 36, 36]))
        (.node 16
          (.node 8
            (.leaf [72, 72, 72, 72, 39, 72, 12, 72])
            (.leaf [3, 52, 60, 61, 62, 72, 18, 19]))
          (.leaf [42, 44, 38, 39, 55, 36, 37, 72]))))
    (.node 48
      (.node 24
        (.node 16
          (.node 8
            (.leaf [72, 72, 72, 72, 72, 72, 72, 72])
            (.leaf [72, 72, 72, 72, 36, 36, 36, 40]))
          (.leaf [72, 42, 41, 42, 38, 3, 36, 37]))
        (.node 16
          (.node 8
            (.leaf [42, 72, 4, 38, 39, 54, 40, 50])
            (.leaf [72, 50, 72, 38, 63, 72, 62, 43]))
          (.leaf [40, 72, 4, 10, 42, 72, 36, 68])))
      (.node 24
        (.node 16
          (.node 8
            (.leaf [40, 50, 36, 3, 18, 19, 64, 65])
            (.leaf [66, 15, 16, 44, 69, 18, 19, 20]))
          (.leaf [21, 38, 3, 3, 42, 37, 3, 4]))
        (.node 8
          (.leaf [45, 72, 72, 72, 50, 66, 45, 45])
          (.leaf [49, 49, 49]))))

set_option maxRecDepth 100000 in
instance yystos_tree : HasTree yystos yystosT := ⟨by decide!, by decide!⟩

/-- The right-hand sides of the grammar rules, by rule number (entry 0 is unused).  The
tables hold the left-hand side `yyr1` and the length `yyr2` of each rule; the symbols of a
right-hand side are the accessing symbols `yystos` of the states that lie on the stack when
the rule is reduced (theorem `yyrhs_encoded`).

     1  $accept : program $end
     2  program : stmt_list
     3  stmt_list : (empty)
     4  stmt_list : stmt_list stmt
     5  stmt : decl_stmt
     6  stmt : if_stmt
     7  stmt : do_while_stmt
     8  stmt : while_stmt
     9  stmt : for_stmt
    10  stmt : switch_stmt
    11  stmt : block
    12  stmt : expr_stmt
    13  stmt : BREAK `;`
    14  decl_stmt : type declarator_list `;`
    15  type : INT
    16  type : FLOAT
    17  type : CHAR
    18  type : DOUBLE
    19  declarator_list : declarator
    20  declarator_list : declarator_list `,` declarator
    21  declarator : ID
    22  declarator : ID `=` expr
    23  declarator : ID dim_list
    24  declarator : ID dim_list `=` expr
    25  dim_list : `[` NUM `]`
    26  dim_list : dim_list `[` NUM `]`
    27  if_stmt : IF `(` expr `)` stmt
    28  if_stmt : IF `(` expr `)` stmt ELSE stmt
    29  do_while_stmt : DO stmt WHILE `(` expr `)` `;`
    30  while_stmt : WHILE `(` expr `)` stmt
    31  for_stmt : FOR `(` for_init `;` for_cond `;` for_update `)` stmt
    32  for_init : (empty)
    33  for_init : for_init_list
    34  for_init_list : for_init_item
    35  for_init_list : for_init_list `,` for_init_item
    36  for_init_item : ID `=` expr
    37  for_init_item : type ID `=` expr
    38  for_init_item : type ID
    39  for_cond : (empty)
    40  for_cond : expr
    41  for_update : (empty)
    42  for_update : for_update_list
    43  for_update_list : for_update_item
    44  for_update_list : for_update_list `,` for_update_item
    45  for_update_item : ID INC
    46  for_update_item : ID DEC
    47  for_update_item : INC ID
    48  for_update_item : DEC ID
    49  for_update_item : ID ADDASSIGN expr
    50  for_update_item : ID SUBASSIGN expr
    51  for_update_item : ID `=` expr
    52  switch_stmt : SWITCH `(` expr `)` `{` case_list `}`
    53  case_list : (empty)
    54  case_list : case_list case_clause
    55  case_clause : CASE NUM `:` stmt_list
    56  case_clause : CASE ID `:` stmt_list
    57  case_clause : DEFAULT `:` stmt_list
    58  block : `{` stmt_list `}`
    59  expr_stmt : ID `=` expr `;`
    60  expr_stmt : ID ADDASSIGN expr `;`
    61  expr_stmt : ID SUBASSIGN expr `;`
    62  expr_stmt : ID INC `;`
    63  expr_stmt : ID DEC `;`
    64  expr_stmt : expr `;`
    65  expr : expr `+` expr
    66  expr : expr `-` expr
    67  expr : expr `*` expr
    68  expr : expr `/` expr
    69  expr : expr `%` expr
    70  expr : expr EQ expr
    71  expr : expr NEQ expr
    72  expr : expr LT expr
    73  expr : expr GT expr
    74  expr : expr LE expr
    75  expr : expr GE expr
    76  expr : expr AND expr
    77  expr : expr OR expr
    78  expr : `-` expr
    79  expr : `!` expr
    80  expr : ID INC
    81  expr : ID DEC
    82  expr : INC ID
    83  expr : DEC ID
    84  expr : ID index_list
    85  expr : `(` expr `)`
    86  expr : ID
    87  expr : NUM
    88  index_list : `[` expr `]`
    89  index_list : index_list `[` expr `]`
-/
def yyrhsT : List (List Int) :=
  [[], [48, 0], [49], [], [49, 50], [51], [56], [57], [58], [59], [67], [70], [71], [17, 36],
    [52, 53, 36], [5], [6], [7], [8], [54], [53, 37, 54], [3], [3, 38, 72], [3, 55], [3, 55, 38,
    72], [39, 4, 40], [55, 39, 4, 40], [9, 41, 72, 42, 50], [9, 41, 72, 42, 50, 10, 50], [11, 50,
    12, 41, 72, 42, 36], [12, 41, 72, 42, 50], [13, 41, 60, 36, 63, 36, 64, 42, 50], [], [61],
    [62], [61, 37, 62], [3, 38, 72], [52, 3, 38, 72], [52, 3], [], [72], [], [65], [66], [65, 37,
    66], [3, 18], [3, 19], [18, 3], [19, 3], [3, 20, 72], [3, 21, 72], [3, 38, 72], [14, 41, 72,
    42, 43, 68, 44], [], [68, 69], [15, 4, 45, 49], [15, 3, 45, 49], [16, 45, 49], [43, 49, 44],
    [3, 38, 72, 36], [3, 20, 72, 36], [3, 21, 72, 36], [3, 18, 36], [3, 19, 36], [72, 36], [72,
    30, 72], [72, 31, 72], [72, 32, 72], [72, 33, 72], [72, 34, 72], [72, 22, 72], [72, 23, 72],
    [72, 26, 72], [72, 27, 72], [72, 24, 72], [72, 25, 72], [72, 28, 72], [72, 29, 72], [31, 72],
    [46, 72], [3, 18], [3, 19], [18, 3], [19, 3], [3, 73], [41, 72, 42], [3], [4], [39, 72, 40],
    [73, 39, 72, 40]]

/-- The right-hand side of rule `r`. -/
def yyrhs (r : Nat) : List Int := yyrhsT.getD r []

/-- Derivations of the grammar: `Der xs w` when the symbol string `xs` derives the string of
terminal symbols `w`.  Symbols are symbol kinds: terminals below `YYNTOKENS`, nonterminals
from `YYNTOKENS` on. -/
inductive Der : List Int → List Int → Prop where
  | nil : Der [] []
  | tok (t : Int) (xs w : List Int) : 0 ≤ t → t < YYNTOKENS → Der xs w → Der (t :: xs) (t :: w)
  | rule (r : Nat) (xs w v : List Int) : 1 ≤ r → r ≤ 89 → Der (yyrhs r) w → Der xs v →
      Der (tget yyr1 r :: xs) (w ++ v)

/-- The sentences of the grammar: the strings of terminal symbols derived from `program`
(symbol kind 48). -/
def Sentence (w : List Int) : Prop := Der [48] w

/-- The check behind `yyrhs_encoded` for state `s`: when `s` reduces by rule `r`, the rule has
`yyr1 r` and `yyr2 r` as recorded, and on every path into `s` the last `yyr2 r` states are
accessed by the symbols of `yyrhs r`. -/
def rhsOk (s : Int) : Bool :=
  let r := tget yydefact s
  r == 0 ||
    ((yyrhs r.toNat).length == (tget yyr2 r).toNat &&
     (List.range (yyrhs r.toNat).length).all (fun j =>
        (yyback j s).all (fun e =>
          (yyrhs r.toNat).reverse.getD j 0 == tget yystos e)))

/-! ## Acceptance of the sentences of the grammar

The automaton of the tables run on symbol kinds, without the limit on the stack depth, and
the notions used to show that it accepts every sentence: the symbols that can follow a
state, the states pushed while a rule is recognised, and the shape of expressions and of
statements that end in an `if` without `else`. -/

/-- Outcome of one action of the automaton on a state stack (top first) and the symbol kinds
of the remaining tokens; the empty list stands for end of input. -/
inductive AStep where
  | next (ss inp : List Int)
  | accept
  | reject
deriving DecidableEq, Repr

/-- Target of the shift of symbol kind `t` in state `s`. -/
def ashift (s t : Int) : Option Int :=
  if 0 ≤ t ∧ t < YYNTOKENS then tshift s t else none

/-- Entering state `v`: the final state accepts. -/
def apush (ss inp : List Int) (v : Int) : AStep :=
  if v = YYFINAL then .accept else .next (v :: ss) inp

/-- The default action of the top state: a reduction, or rejection when there is none. -/
def ared (ss inp : List Int) : AStep :=
  let r := tget yydefact (ss.headD 0)
  if r = 0 then .reject
  else
    let below := ss.drop (tget yyr2 r).toNat
    apush below inp (tgoto (below.headD 0) (tget yyr1 r - YYNTOKENS))

/-- One action of the automaton, as `yybackup` chooses it. -/
def astep (ss inp : List Int) : AStep :=
  if tget yypact (ss.headD 0) = YYPACT_NINF then ared ss inp
  else
    match ashift (ss.headD 0) (inp.headD 0) with
    | some v => apush ss inp.tail v
    | none => ared ss inp

/-- The automaton accepts from stack `ss` on the symbols `inp` followed by end of input. -/
inductive Acc : List Int → List Int → Prop where
  | done (ss inp : List Int) : astep ss inp = .accept → Acc ss inp
  | step (ss inp ss1 inp1 : List Int) : astep ss inp = .next ss1 inp1 → Acc ss1 inp1 →
      Acc ss inp

/-- The symbol kinds the control view still has to read: the held lookahead, if any, and the
pending input. -/
def Ctl.syms (c : Ctl) : List Int :=
  if c.yychar = YYEMPTY then c.input.map YYTRANSLATE
  else if c.yychar ≤ YYEOF then []
  else YYTRANSLATE c.yychar :: c.input.map YYTRANSLATE

/-- Every pending token is a token of the grammar, and so is a held lookahead unless it is
end of input. -/
def Ctl.Clean (c : Ctl) : Prop :=
  (∀ t ∈ c.input, 3 ≤ YYTRANSLATE t) ∧
  (c.yychar = YYEMPTY ∨ (c.yychar ≤ YYEOF ∧ c.input = []) ∨ 3 ≤ YYTRANSLATE c.yychar)

/-- For each state, the symbols on which the automaton can shift after the reductions it
makes from that state; a certificate checked against the tables by `follow_closed`. -/
def yyfollowT : Tbl (List Int) :=
  .node 96
    (.node 48
      (.node 24
        (.node 16
          (.node 8
            (.leaf [[0, 3, 4, 5, 6, 7, 8, 9, 11, 12, 13, 14, 17, 18, 19, 31, 41, 43, 46], [0],
              [0, 3, 4, 5, 6, 7, 8, 9, 11, 12, 13, 14, 17, 18, 19, 31, 41, 43, 46], [], [18, 19,
              20, 21, 22, 23, 24, 25, 26, 27, 28, 29, 30, 31, 32, 33, 34, 36, 38, 39], [22, 23,
              24, 25, 26, 27, 28, 29, 30, 31, 32, 33, 34, 36, 37, 40, 42], [3], [3]])
            (.leaf [[3], [3], [41], [3, 4, 5, 6, 7, 8, 9, 11, 12, 13, 14, 17, 18, 19, 31, 41, 43,
              46], [41], [41], [41], [36]]))
          (.leaf [[3], [3], [3, 4, 18, 19, 31, 41, 46], [3, 4, 18, 19, 31, 41, 46], [3, 4, 5, 6,
            7, 8, 9, 11, 12, 13, 14, 17, 18, 19, 31, 41, 43, 44, 46], [3, 4, 18, 19, 31, 41, 46],
            [0, 3, 4, 5, 6, 7, 8, 9, 11, 12, 13, 14, 15, 16, 17, 18, 19, 31, 41, 43, 44, 46], [0,
            3, 4, 5, 6, 7, 8, 9, 10, 11, 12, 13, 14, 15, 16, 17, 18, 19, 31, 41, 43, 44, 46]]))
        (.node 16
          (.node 8
            (.leaf [[3], [0, 3, 4, 5, 6, 7, 8, 9, 10, 11, 12, 13, 14, 15, 16, 17, 18, 19, 31, 41,
              43, 44, 46], [0, 3, 4, 5, 6, 7, 8, 9, 10, 11, 12, 13, 14, 15, 16, 17, 18, 19, 31,
              41, 43, 44, 46], [0, 3, 4, 5, 6, 7, 8, 9, 10, 11, 12, 13, 14, 15, 16, 17, 18, 19,
              31, 41, 43, 44, 46], [0, 3, 4, 5, 6, 7, 8, 9, 10, 11, 12, 13, 14, 15, 16, 17, 18,
              19, 31, 41, 43, 44, 46], [0, 3, 4, 5, 6, 7, 8, 9, 10, 11, 12, 13, 14, 15, 16, 17,
              18, 19, 31, 41, 43, 44, 46], [0, 3, 4, 5, 6, 7, 8, 9, 10, 11, 12, 13, 14, 15, 16,
              17, 18, 19, 31, 41, 43, 44, 46], [0, 3, 4, 5, 6, 7, 8, 9, 10, 11, 12, 13, 14, 15,
              16, 17, 18, 19, 31, 41, 43, 44, 46]])
            (.leaf [[22, 23, 24, 25, 26, 27, 28, 29, 30, 31, 32, 33, 34, 36], [22, 23, 24, 25,
              26, 27, 28, 29, 30, 31, 32, 33, 34, 36], [22, 23, 24, 25, 26, 27, 28, 29, 30, 31,
              32, 33, 34, 36], [3, 4, 18, 19, 31, 41, 46], [3, 4, 18, 19, 31, 41, 46], [3, 4, 18,
              19, 31, 41, 46], [3, 4, 18, 19, 31, 41, 46], [22, 23, 24, 25, 26, 27, 28, 29, 30,
              31, 32, 33, 34, 36, 37, 39, 40, 42]]))
          (.leaf [[3, 4, 18, 19, 31, 41, 46], [12], [3, 4, 18, 19, 31, 41, 46], [3, 5, 6, 7, 8,
            36], [3, 4, 18, 19, 31, 41, 46], [0, 3, 4, 5, 6, 7, 8, 9, 10, 11, 12, 13, 14, 15, 16,
            17, 18, 19, 31, 41, 43, 44, 46], [22, 23, 24, 25, 26, 27, 28, 29, 30, 31, 32, 33, 34,
            36, 37, 40, 42], [22, 23, 24, 25, 26, 27, 28, 29, 30, 31, 32, 33, 34, 36, 37, 40,
            42]])))
      (.node 24
        (.node 16
          (.node 8
            (.leaf [[18, 19, 22, 23, 24, 25, 26, 27, 28, 29, 30, 31, 32, 33, 34, 36, 37, 39, 40,
              42], [22, 23, 24, 25, 26, 27, 28, 29, 30, 31, 32, 33, 34, 36, 37, 40, 42], [22, 23,
              24, 25, 26, 27, 28, 29, 30, 31, 32, 33, 34, 42], [3, 4, 5, 6, 7, 8, 9, 11, 12, 13,
              14, 17, 18, 19, 31, 41, 43, 44, 46], [22, 23, 24, 25, 26, 27, 28, 29, 30, 31, 32,
              33, 34, 36, 37, 40, 42], [36, 37, 38, 39], [36, 37], [36, 37]])
            (.leaf [[3, 4, 18, 19, 31, 41, 46], [3, 4, 18, 19, 31, 41, 46], [3, 4, 18, 19, 31,
              41, 46], [3, 4, 18, 19, 31, 41, 46], [3, 4, 18, 19, 31, 41, 46], [3, 4, 18, 19, 31,
              41, 46], [3, 4, 18, 19, 31, 41, 46], [3, 4, 18, 19, 31, 41, 46]]))
          (.leaf [[3, 4, 18, 19, 31, 41, 46], [3, 4, 18, 19, 31, 41, 46], [3, 4, 18, 19, 31, 41,
            46], [3, 4, 18, 19, 31, 41, 46], [3, 4, 18, 19, 31, 41, 46], [0, 3, 4, 5, 6, 7, 8, 9,
            10, 11, 12, 13, 14, 15, 16, 17, 18, 19, 31, 41, 43, 44, 46], [0, 3, 4, 5, 6, 7, 8, 9,
            10, 11, 12, 13, 14, 15, 16, 17, 18, 19, 31, 41, 43, 44, 46], [0, 3, 4, 5, 6, 7, 8, 9,
            10, 11, 12, 13, 14, 15, 16, 17, 18, 19, 31, 41, 43, 44, 46]]))
        (.node 16
          (.node 8
            (.leaf [[22, 23, 24, 25, 26, 27, 28, 29, 30, 31, 32, 33, 34, 36], [22, 23, 24, 25,
              26, 27, 28, 29, 30, 31, 32, 33, 34, 36], [22, 23, 24, 25, 26, 27, 28, 29, 30, 31,
              32, 33, 34, 36], [22, 23, 24, 25, 26, 27, 28, 29, 30, 31, 32, 33, 34, 40], [3, 4,
              18, 19, 31, 41, 46], [22, 23, 24, 25, 26, 27, 28, 29, 30, 31, 32, 33, 34, 42],
              [41], [22, 23, 24, 25, 26, 27, 28, 29, 30, 31, 32, 33, 34, 42]])
            (.leaf [[38], [3], [36], [36, 37], [36, 37], [22, 23, 24, 25, 26, 27, 28, 29, 30, 31,
              32, 33, 34, 42], [22, 23, 24, 25, 26, 27, 28, 29, 30, 31, 32, 33, 34, 36, 37, 40,
              42], [22, 23, 24, 25, 26, 27, 28, 29, 30, 31, 32, 33, 34, 36, 37, 40, 42]]))
          (.leaf [[22, 23, 24, 25, 26, 27, 28, 29, 30, 31, 32, 33, 34, 36, 37, 40, 42], [0, 3, 4,
            5, 6, 7, 8, 9, 10, 11, 12, 13, 14, 15, 16, 17, 18, 19, 31, 41, 43, 44, 46], [3, 4,
            18, 19, 31, 41, 46], [4], [36, 37, 38, 39], [0, 3, 4, 5, 6, 7, 8, 9, 10, 11, 12, 13,
            14, 15, 16, 17, 18, 19, 31, 41, 43, 44, 46], [3], [22, 23, 24, 25, 26, 27, 28, 29,
            30, 31, 32, 33, 34, 36, 37, 40, 42]]))))
    (.node 48
      (.node 24
        (.node 16
          (.node 8
            (.leaf [[22, 23, 24, 25, 26, 27, 28, 29, 30, 31, 32, 33, 34, 36, 37, 40, 42], [22,
              23, 24, 25, 26, 27, 28, 29, 30, 31, 32, 33, 34, 36, 37, 40, 42], [22, 23, 24, 25,
              26, 27, 28, 29, 30, 31, 32, 33, 34, 36, 37, 40, 42], [22, 23, 24, 25, 26, 27, 28,
              29, 30, 31, 32, 33, 34, 36, 37, 40, 42], [22, 23, 24, 25, 26, 27, 28, 29, 30, 31,
              32, 33, 34, 36, 37, 40, 42], [22, 23, 24, 25, 26, 27, 28, 29, 30, 31, 32, 33, 34,
              36, 37, 40, 42], [22, 23, 24, 25, 26, 27, 28, 29, 30, 31, 32, 33, 34, 36, 37, 40,
              42], [22, 23, 24, 25, 26, 27, 28, 29, 30, 31, 32, 33, 34, 36, 37, 40, 42]])
            (.leaf [[22, 23, 24, 25, 26, 27, 28, 29, 30, 31, 32, 33, 34, 36, 37, 40, 42], [22,
              23, 24, 25, 26, 27, 28, 29, 30, 31, 32, 33, 34, 36, 37, 40, 42], [22, 23, 24, 25,
              26, 27, 28, 29, 30, 31, 32, 33, 34, 36, 37, 40, 42], [22, 23, 24, 25, 26, 27, 28,
              29, 30, 31, 32, 33, 34, 36, 37, 40, 42], [0, 3, 4, 5, 6, 7, 8, 9, 10, 11, 12, 13,
              14, 15, 16, 17, 18, 19, 31, 41, 43, 44, 46], [0, 3, 4, 5, 6, 7, 8, 9, 10, 11, 12,
              13, 14, 15, 16, 17, 18, 19, 31, 41, 43, 44, 46], [0, 3, 4, 5, 6, 7, 8, 9, 10, 11,
              12, 13, 14, 15, 16, 17, 18, 19, 31, 41, 43, 44, 46], [22, 23, 24, 25, 26, 27, 28,
              29, 30, 31, 32, 33, 34, 36, 37, 39, 40, 42]]))
          (.leaf [[22, 23, 24, 25, 26, 27, 28, 29, 30, 31, 32, 33, 34, 40], [3, 4, 5, 6, 7, 8, 9,
            11, 12, 13, 14, 17, 18, 19, 31, 41, 43, 46], [3, 4, 18, 19, 31, 41, 46], [3, 4, 5, 6,
            7, 8, 9, 11, 12, 13, 14, 17, 18, 19, 31, 41, 43, 46], [3, 4, 18, 19, 31, 41, 46],
            [36, 37, 38], [3, 4, 18, 19, 31, 36, 41, 46], [3, 5, 6, 7, 8]]))
        (.node 16
          (.node 8
            (.leaf [[43], [22, 23, 24, 25, 26, 27, 28, 29, 30, 31, 32, 33, 34, 36, 37], [40], [3,
              4, 18, 19, 31, 41, 46], [4], [36, 37], [22, 23, 24, 25, 26, 27, 28, 29, 30, 31, 32,
              33, 34, 36, 37, 39, 40, 42], [0, 3, 4, 5, 6, 7, 8, 9, 10, 11, 12, 13, 14, 15, 16,
              17, 18, 19, 31, 41, 43, 44, 46]])
            (.leaf [[22, 23, 24, 25, 26, 27, 28, 29, 30, 31, 32, 33, 34, 42], [0, 3, 4, 5, 6, 7,
              8, 9, 10, 11, 12, 13, 14, 15, 16, 17, 18, 19, 31, 41, 43, 44, 46], [22, 23, 24, 25,
              26, 27, 28, 29, 30, 31, 32, 33, 34, 36, 37], [3, 4, 18, 19, 31, 41, 46], [36], [22,
              23, 24, 25, 26, 27, 28, 29, 30, 31, 32, 33, 34, 36], [36, 37], [15, 16, 44]]))
          (.leaf [[36, 37, 38, 39], [22, 23, 24, 25, 26, 27, 28, 29, 30, 31, 32, 33, 34, 36, 37],
            [40], [3, 4, 5, 6, 7, 8, 9, 11, 12, 13, 14, 17, 18, 19, 31, 41, 43, 46], [36], [22,
            23, 24, 25, 26, 27, 28, 29, 30, 31, 32, 33, 34, 36, 37], [3, 18, 19, 42], [15, 16,
            44]])))
      (.node 24
        (.node 16
          (.node 8
            (.leaf [[36, 37, 38, 39], [0, 3, 4, 5, 6, 7, 8, 9, 10, 11, 12, 13, 14, 15, 16, 17,
              18, 19, 31, 41, 43, 44, 46], [0, 3, 4, 5, 6, 7, 8, 9, 10, 11, 12, 13, 14, 15, 16,
              17, 18, 19, 31, 41, 43, 44, 46], [18, 19, 20, 21, 38], [3], [3], [42], [37, 42]])
            (.leaf [[37, 42], [3, 4], [45], [0, 3, 4, 5, 6, 7, 8, 9, 10, 11, 12, 13, 14, 15, 16,
              17, 18, 19, 31, 41, 43, 44, 46], [15, 16, 44], [37, 42], [37, 42], [3, 4, 18, 19,
              31, 41, 46]]))
          (.leaf [[3, 4, 18, 19, 31, 41, 46], [3, 4, 18, 19, 31, 41, 46], [37, 42], [37, 42], [3,
            4, 5, 6, 7, 8, 9, 11, 12, 13, 14, 17, 18, 19, 31, 41, 43, 46], [3, 18, 19], [45],
            [45]]))
        (.node 8
          (.leaf [[3, 4, 5, 6, 7, 8, 9, 11, 12, 13, 14, 15, 16, 17, 18, 19, 31, 41, 43, 44, 46],
            [22, 23, 24, 25, 26, 27, 28, 29, 30, 31, 32, 33, 34, 37, 42], [22, 23, 24, 25, 26,
            27, 28, 29, 30, 31, 32, 33, 34, 37, 42], [22, 23, 24, 25, 26, 27, 28, 29, 30, 31, 32,
            33, 34, 37, 42], [0, 3, 4, 5, 6, 7, 8, 9, 10, 11, 12, 13, 14, 15, 16, 17, 18, 19, 31,
            41, 43, 44, 46], [37, 42], [3, 4, 5, 6, 7, 8, 9, 11, 12, 13, 14, 15, 16, 17, 18, 19,
            31, 41, 43, 44, 46], [3, 4, 5, 6, 7, 8, 9, 11, 12, 13, 14, 15, 16, 17, 18, 19, 31,
            41, 43, 44, 46]])
          (.leaf [[3, 4, 5, 6, 7, 8, 9, 11, 12, 13, 14, 15, 16, 17, 18, 19, 31, 41, 43, 44, 46],
            [3, 4, 5, 6, 7, 8, 9, 11, 12, 13, 14, 15, 16, 17, 18, 19, 31, 41, 43, 44, 46], [3, 4,
            5, 6, 7, 8, 9, 11, 12, 13, 14, 15, 16, 17, 18, 19, 31, 41, 43, 44, 46]]))))

/-- The symbols that can follow state `s`. -/
def yyfollow (s : Int) : List Int := if 0 ≤ s then yyfollowT.get [] s.toNat else []

/-- For each state, the nonterminal numbers on which it has a transition that does not lead
to the final state; a certificate checked against the tables by `start_closed`. -/
def yystartT : Tbl (List Int) :=
  .node 96
    (.node 48
      (.node 24
        (.node 16
          (.node 8
            (.leaf [[1, 2], [], [3, 4, 5, 9, 10, 11, 12, 20, 23, 24, 25], [], [26], [], [], []])
            (.leaf [[], [], [], [3, 4, 5, 9, 10, 11, 12, 20, 23, 24, 25], [], [], [], []]))
          (.leaf [[], [], [25], [25], [2], [25], [], []]))
        (.node 16
          (.node 8
            (.leaf [[6, 7], [], [], [], [], [], [], []])
            (.leaf [[], [], [], [25], [25], [25], [25], []]))
          (.leaf [[25], [], [25], [5, 13, 14, 15], [25], [], [], []])))
      (.node 24
        (.node 16
          (.node 8
            (.leaf [[26], [], [], [3, 4, 5, 9, 10, 11, 12, 20, 23, 24, 25], [], [8], [], []])
            (.leaf [[25], [25], [25], [25], [25], [25], [25], [25]]))
          (.leaf [[25], [25], [25], [25], [25], [], [], []]))
        (.node 16
          (.node 8
            (.leaf [[], [], [], [], [25], [], [], []])
            (.leaf [[], [], [], [], [], [], [], []]))
          (.leaf [[], [], [25], [], [], [], [7], []]))))
    (.node 48
      (.node 24
        (.node 16
          (.node 8
            (.leaf [[], [], [], [], [], [], [], []])
            (.leaf [[], [], [], [], [], [], [], []]))
          (.leaf [[], [3, 4, 5, 9, 10, 11, 12, 20, 23, 24, 25], [25], [3, 4, 5, 9, 10, 11, 12,
            20, 23, 24, 25], [25], [], [16, 25], [5, 15]]))
        (.node 16
          (.node 8
            (.leaf [[], [], [], [25], [], [], [], []])
            (.leaf [[], [], [], [25], [], [], [], [21]]))
          (.leaf [[], [], [], [3, 4, 5, 9, 10, 11, 12, 20, 23, 24, 25], [], [], [17, 18, 19],
            [22]])))
      (.node 24
        (.node 16
          (.node 8
            (.leaf [[], [], [], [], [], [], [], []])
            (.leaf [[], [], [], [], [], [], [], [25]]))
          (.leaf [[25], [25], [], [], [3, 4, 5, 9, 10, 11, 12, 20, 23, 24, 25], [19], [], []]))
        (.node 8
          (.leaf [[2], [], [], [], [], [], [2], [2]])
          (.leaf [[3, 4, 5, 9, 10, 11, 12, 20, 23, 24, 25], [3, 4, 5, 9, 10, 11, 12, 20, 23, 24,
            25], [3, 4, 5, 9, 10, 11, 12, 20, 23, 24, 25]]))))

/-- The states that begin an expression extending to a closing symbol; a certificate checked
against the tables by `base_closed`. -/
def exprBaseT : List Int :=
  [2, 11, 19, 21, 35, 36, 37, 38, 40, 42, 44, 51, 76, 90, 113, 114, 115, 116, 118, 123, 131, 139,
  159, 160, 161, 164, 176, 177, 178]

/-- The nonterminal numbers on which state `e` has a transition. -/
def yystarts (e : Int) : List Int := if 0 ≤ e then yystartT.get [] e.toNat else []

/-- State `e` has a transition on nonterminal number `a` (symbol kind `a + YYNTOKENS`), and
it does not lead to the final state. -/
def vstart (e a : Int) : Bool := (yystarts e).contains a

/-- The check made on the transitions listed for state `e`: each one is a transition of the
tables, and does not lead to the final state. -/
def startOk (e : Int) : Bool :=
  (yystarts e).all (fun a => (yypreds (tgoto e a)).contains e && tgoto e a != YYFINAL)

/-- The check made on the follow certificate for state `s`: it holds every symbol shifted
in `s` and, when `s` reduces, every symbol that can follow the state entered afterwards,
which is not the final state. -/
def followOk (s : Int) : Bool :=
  (tget yypact s == YYPACT_NINF ||
    (List.range 47).all
      (fun t => (tshift s (t : Int)).isNone || (yyfollow s).contains (t : Int))) &&
  (tget yydefact s == 0 || s == YYFINAL ||
    (yyback (tget yyr2 (tget yydefact s)).toNat s).all (fun e =>
      tgoto e (tget yyr1 (tget yydefact s) - YYNTOKENS) != YYFINAL &&
      (yyfollow (tgoto e (tget yyr1 (tget yydefact s) - YYNTOKENS))).all
        (fun t => (yyfollow s).contains t)))

/-- The binary operators: `EQ NEQ LE GE LT GT AND OR + - * / %`. -/
def binops : List Int := [22, 23, 24, 25, 26, 27, 28, 29, 30, 31, 32, 33, 34]

/-- The symbols that end an expression: `;`, `,`, `]` and `)`. -/
def closers : List Int := [36, 37, 40, 42]

/-- Symbol `t` is a binary operator. -/
def isBinop (t : Int) : Bool := binops.contains t

/-- Symbol `t` ends an expression. -/
def isCloser (t : Int) : Bool := closers.contains t

/-- State `e` begins an expression that extends to a closing symbol. -/
def exprBase (e : Int) : Bool := exprBaseT.contains e

/-- The check made on a state `e` listed as beginning an expression: it has a transition on
`expr` (nonterminal number 25) to a state that shifts every binary operator. -/
def baseOk (e : Int) : Bool :=
  vstart e 25 && binops.all (fun b => (tshift (tgoto e 25) b).isSome)

/-- The nonterminals whose phrases can end in an `if` without `else`: `stmt`, `if_stmt`,
`while_stmt` and `for_stmt`. -/
def stmtLike (x : Int) : Bool := x == 50 || x == 56 || x == 58 || x == 59

/-- The string `w` is recognised as nonterminal `x` before the remaining symbols `inp`: from
every stack whose top state has a transition on `x`, acceptance after that transition gives
acceptance of `w` followed by `inp`. -/
def StarAt (x : Int) (w inp : List Int) : Prop :=
  ∀ ss : List Int, Path ss → vstart (ss.headD 0) (x - 47) = true →
    Acc (tgoto (ss.headD 0) (x - 47) :: ss) inp → Acc ss (w ++ inp)

/-- The string `w` is recognised as nonterminal `x` before any remaining symbols. -/
def Star (x : Int) (w : List Int) : Prop := ∀ inp : List Int, StarAt x w inp

/-- The string `w` is recognised as an expression that extends to the next closing symbol,
before the remaining symbols `inp`. -/
def ExprAt (w inp : List Int) : Prop :=
  ∀ ss : List Int, Path ss → exprBase (ss.headD 0) = true →
    Acc (tgoto (ss.headD 0) 25 :: ss) inp → Acc ss (w ++ inp)

/-- The string `p` is recognised as an operand: as an expression wherever one can begin,
before a binary operator or a closing symbol. -/
def Prim (p : List Int) : Prop :=
  ∀ ss inp : List Int, Path ss → vstart (ss.headD 0) 25 = true →
    isBinop (inp.headD 0) = true ∨ isCloser (inp.headD 0) = true →
    Acc (tgoto (ss.headD 0) 25 :: ss) inp → Acc ss (p ++ inp)

/-- Expressions as the automaton reads them, from left to right: an operand; a unary `-`
(symbol 31) or `!` (symbol 46) before an expression; or an operand, a binary operator and an
expression. -/
inductive Flat : List Int → Prop where
  | prim (p : List Int) : Prim p → Flat p
  | pre (t : Int) (w : List Int) : t = 31 ∨ t = 46 → Flat w → Flat (t :: w)
  | op (p : List Int) (b : Int) (w : List Int) : Prim p → isBinop b = true → Flat w →
      Flat (p ++ b :: w)

/-- The stacks on which the automaton reads the operands of an expression begun on stack
`base`: the states of unary operators, and of left operands with their binary operators,
lie above `base`. -/
inductive Spine (base : List Int) : List Int → Prop where
  | nil : Spine base base
  | pre (ss : List Int) (t v : Int) : Spine base ss → t = 31 ∨ t = 46 →
      tshift (ss.headD 0) t = some v → Spine base (v :: ss)
  | op (ss : List Int) (b v : Int) : Spine base ss → isBinop b = true →
      tshift (tgoto (ss.headD 0) 25) b = some v →
      Spine base (v :: tgoto (ss.headD 0) 25 :: ss)

/-- Statements as the automaton reads them: `CS c x w` when `w` is a phrase of the
statement nonterminal `x` in which every `else` belongs to the nearest `if`; `c` tells
whether the phrase is closed, so that it may be followed by `else` (symbol 10). -/
inductive CS : Bool → Int → List Int → Prop where
  | closed (x : Int) (w : List Int) : stmtLike x = true → Star x w → CS true x w
  | unit (c : Bool) (x : Int) (w : List Int) : x = 56 ∨ x = 58 ∨ x = 59 → CS c x w →
      CS c 50 w
  | ifThen (c : Bool) (e s : List Int) : Flat e → CS c 50 s →
      CS false 56 (9 :: 41 :: (e ++ 42 :: s))
  | ifElse (c : Bool) (e s u : List Int) : Flat e → CS true 50 s → CS c 50 u →
      CS c 56 (9 :: 41 :: (e ++ 42 :: (s ++ 10 :: u)))
  | loop (c : Bool) (e s : List Int) : Flat e → CS c 50 s →
      CS c 58 (12 :: 41 :: (e ++ 42 :: s))
  | forLoop (c : Bool) (i e u s : List Int) : Star 60 i → Star 63 e → Star 64 u →
      CS c 50 s → CS c 59 (13 :: 41 :: (i ++ 36 :: (e ++ 36 :: (u ++ 42 :: s))))

/-- What a derivation establishes about a phrase `w` of symbol `x`. -/
def Q (x : Int) (w : List Int) : Prop :=
  if x < 47 then w = [x]
  else if x = 72 then Flat w
  else if stmtLike x = true then ∃ c, CS c x w
  else Star x w

/-- Phrases of a symbol string, symbol by symbol. -/
inductive Good : List Int → List Int → Prop where
  | nil : Good [] []
  | cons (x : Int) (w xs v : List Int) : Q x w → Good xs v → Good (x :: xs) (w ++ v)

/-- What the recognition of a rule needs of the phrase `w` of its symbol `x`, before the
remaining symbols `inp`. -/
def KidAt (x : Int) (w inp : List Int) : Prop :=
  if x < 47 then w = [x]
  else if x = 72 then ExprAt w inp
  else StarAt x w inp

/-- The phrases of a symbol string, each recognised before what follows it. -/
inductive Kids : List Int → List Int → List Int → Prop where
  | nil (inp : List Int) : Kids [] [] inp
  | cons (x : Int) (w xs v inp : List Int) : KidAt x w (v ++ inp) → Kids xs v inp →
      Kids (x :: xs) (w ++ v) inp

/-- The state entered from state `s` on symbol `x`, when the automaton has that transition
and it does not lead to the final state; an expression is begun only in a state of
`exprBase`. -/
def childState (s x : Int) : Option Int :=
  if x < 47 then
    match ashift s x with
    | some v => if v = YYFINAL then none else some v
    | none => none
  else if x = 72 then (if exprBase s = true then some (tgoto s 25) else none)
  else if vstart s (x - 47) = true then some (tgoto s (x - 47)) else none

/-- The states pushed from state `s` along the symbol string `xs`, the last one first. -/
def walk : Int → List Int → Option (List Int)
  | _, [] => some []
  | s, x :: xs =>
    match childState s x with
    | none => none
    | some v => (walk v xs).map (fun l => l ++ [v])

/-- The state on top of the stack once rule `r`, begun in state `e`, is recognised. -/
def ruleTop (r : Nat) (e : Int) : Int := ((walk e (yyrhs r)).getD [] ++ [e]).headD 0

/-- The check made on rule `r` begun in state `e`, when `e` has a transition on the
left-hand side: the automaton has the transitions along the right-hand side, and the state
reached reduces by `r`. -/
def walkOk (r : Nat) (e : Int) : Bool :=
  !vstart e (tget yyr1 r - YYNTOKENS) ||
    match walk e (yyrhs r) with
    | none => false
    | some l =>
      tget yydefact ((l ++ [e]).headD 0) == (r : Int) && r != 0 &&
        (tget yyr2 r).toNat == l.length

/-- In state `s` the automaton takes the default action on symbol `t`. -/
def missOk (s t : Int) : Bool := tget yypact s == YYPACT_NINF || (ashift s t).isNone

/-- Symbol `f` may follow a phrase of symbol `x`: a closing symbol after an expression,
anything but `else` after a statement. -/
def kidOk (x f : Int) : Bool :=
  if x = 72 then isCloser f else if stmtLike x = true then f != 10 else true

/-- The check made on the right-hand side `xs` of a rule whose phrases are followed by
symbol `t`: an expression or a statement in it is followed by a terminal that may follow
it, or ends the rule and may be followed by `t`. -/
def folOk : List Int → Int → Bool
  | [], _ => true
  | [x], t => kidOk x t
  | x :: y :: xs, t =>
    ((x != 72 && !stmtLike x) || (decide (y < 47) && kidOk x y)) && folOk (y :: xs) t

/-- The part of `folOk` that does not depend on the symbol after the rule. -/
def folMid : List Int → Bool
  | [] => true
  | [_] => true
  | x :: y :: xs =>
    ((x != 72 && !stmtLike x) || (decide (y < 47) && kidOk x y)) && folMid (y :: xs)

/-- The part of `folOk` that depends on the symbol `t` after the rule: `t` may follow the
last symbol of the right-hand side. -/
def folEnd : List Int → Int → Bool
  | [], _ => true
  | [x], t => kidOk x t
  | _ :: y :: xs, t => folEnd (y :: xs) t

/-- The rules handled alike: all but the rules of `expr` and the rules of statements that
end in a statement. -/
def genericRule (r : Nat) : Bool :=
  (1 ≤ r && r ≤ 5) || r == 7 || (10 ≤ r && r ≤ 26) || r == 29 || (32 ≤ r && r ≤ 64) ||
    r == 88 || r == 89

/-- The check made on a rule handled alike, begun in state `e`: on every symbol that can
follow the state entered after its reduction, the state reached takes the default action,
and the symbol may follow the phrases of the rule. -/
def genericOk (r : Nat) (e : Int) : Bool :=
  !vstart e (tget yyr1 r - YYNTOKENS) ||
    (folMid (yyrhs r) &&
      (tget yypact (ruleTop r e) == YYPACT_NINF ||
        (yyfollow (tgoto e (tget yyr1 r - YYNTOKENS))).all (fun t =>
          (ashift (ruleTop r e) t).isNone)) &&
      (yyfollow (tgoto e (tget yyr1 r - YYNTOKENS))).all (fun t => folEnd (yyrhs r) t))

/-- The check made on an operand rule begun in state `e`: before a binary operator or a
closing symbol the state reached takes the default action, except that `ID INC` and
`ID DEC` at the beginning of a statement shift a semicolon; and the symbol may follow the
phrases of the rule. -/
def primOk (r : Nat) (e : Int) : Bool :=
  !vstart e 25 ||
    (walkOk r e && (binops ++ closers).all (fun t =>
      folOk (yyrhs r) t &&
        (missOk (ruleTop r e) t ||
          (t == 36 && (r == 80 || r == 81) && tshift e 3 == some 4))))

/-- A symbol of a sentence: not `$accept`, and a token of the grammar if it is a terminal. -/
def symOk (x : Int) : Bool := x != 47 && (decide (47 ≤ x) || decide (3 ≤ x))

/-- The check made on a state `y` entered on `expr` above an operator: it reduces a rule of
`expr` with `k` symbols, also before every closing symbol. -/
def spineRed (y : Int) (k : Nat) : Bool :=
  tget yydefact y != 0 && (tget yyr2 (tget yydefact y)).toNat == k &&
    tget yyr1 (tget yydefact y) == 72 && closers.all (fun c => missOk y c)

/-! ## A sentence: the program of `test_valid.c` -/

/-- Check of a leftmost derivation.  `derive n rs xs w` reads a phrase of each symbol of `xs`
off the front of `w`, expanding each nonterminal by the next rule of `rs`, and returns the
rules and the symbols left over; `n` bounds the depth of the recursion. -/
def derive : Nat → List Nat → List Int → List Int → Option (List Nat × List Int)
  | 0, _, _, _ => none
  | _ + 1, rs, [], w => some (rs, w)
  | n + 1, rs, x :: xs, w =>
    if x < YYNTOKENS then
      match w with
      | t :: w1 => if t = x ∧ 0 ≤ x then derive n rs xs w1 else none
      | [] => none
    else
      match rs with
      | r :: rs1 =>
        if 1 ≤ r ∧ r ≤ 89 ∧ tget yyr1 r = x then
          match derive n rs1 (yyrhs r) w with
          | some (rs2, w2) => derive n rs2 xs w2
          | none => none
        else none
      | [] => none

/-- Token codes of the program of `test_valid.c`, statement by statement: the comments are
dropped, every identifier is an `ID` and every number, `3.14` and `2.71` too, a `NUM`. -/
def testValidCodes : List Int :=
  -- int a, b, c;
  [Tk.INT, Tk.ID, ch ',', Tk.ID, ch ',', Tk.ID, ch ';',
   -- float x = 3.14, y;
   Tk.FLOAT, Tk.ID, ch '=', Tk.NUM, ch ',', Tk.ID, ch ';',
   -- char ch;
   Tk.CHAR, Tk.ID, ch ';',
   -- double d = 2.71;
   Tk.DOUBLE, Tk.ID, ch '=', Tk.NUM, ch ';',
   -- a = 10;
   Tk.ID, ch '=', Tk.NUM, ch ';',
   -- b = a + 5 * 2;
   Tk.ID, ch '=', Tk.ID, ch '+', Tk.NUM, ch '*', Tk.NUM, ch ';',
   -- c = (a - b) % 3;
   Tk.ID, ch '=', ch '(', Tk.ID, ch '-', Tk.ID, ch ')', ch '%', Tk.NUM, ch ';',
   -- if (a > b) { a = a - 1; }
   Tk.IF, ch '(', Tk.ID, Tk.GT, Tk.ID, ch ')', ch '{', Tk.ID, ch '=', Tk.ID, ch '-', Tk.NUM,
   ch ';', ch '}',
   -- if (x >= 0) { y = x * 2; } else { y = -x; }
   Tk.IF, ch '(', Tk.ID, Tk.GE, Tk.NUM, ch ')', ch '{', Tk.ID, ch '=', Tk.ID, ch '*', Tk.NUM,
   ch ';', ch '}', Tk.ELSE, ch '{', Tk.ID, ch '=', ch '-', Tk.ID, ch ';', ch '}',
   -- do { b = b + 1; } while (b < 20);
   Tk.DO, ch '{', Tk.ID, ch '=', Tk.ID, ch '+', Tk.NUM, ch ';', ch '}', Tk.WHILE, ch '(',
   Tk.ID, Tk.LT, Tk.NUM, ch ')', ch ';',
   -- if (c != 0) { do { c = c - 1; a = a + c; } while (c > 0); } else { b = 0; }
   Tk.IF, ch '(', Tk.ID, Tk.NEQ, Tk.NUM, ch ')', ch '{', Tk.DO, ch '{', Tk.ID, ch '=', Tk.ID,
   ch '-', Tk.NUM, ch ';', Tk.ID, ch '=', Tk.ID, ch '+', Tk.ID, ch ';', ch '}', Tk.WHILE,
   ch '(', Tk.ID, Tk.GT, Tk.NUM, ch ')', ch ';', ch '}', Tk.ELSE, ch '{', Tk.ID, ch '=',
   Tk.NUM, ch ';', ch '}',
   -- do { a = a + 1; } while (a <= 100);
   Tk.DO, ch '{', Tk.ID, ch '=', Tk.ID, ch '+', Tk.NUM, ch ';', ch '}', Tk.WHILE, ch '(',
   Tk.ID, Tk.LE, Tk.NUM, ch ')', ch ';']

/-- The rules of the leftmost derivation of the program of `test_valid.c`, in order. -/
def testValidRules : List Nat :=
  [2, 4, 4, 4, 4, 4, 4, 4, 4, 4, 4, 4, 4, 3, 5, 14, 15, 20, 20, 19, 21, 21, 21, 5, 14, 16, 20,
   19, 22, 87, 21, 5, 14, 17, 19, 21, 5, 14, 18, 19, 22, 87, 12, 59, 87, 12, 59, 65, 86, 67,
   87, 87, 12, 59, 69, 85, 66, 86, 86, 87, 6, 27, 73, 86, 86, 11, 58, 4, 3, 12, 59, 66, 86, 87,
   6, 28, 75, 86, 87, 11, 58, 4, 3, 12, 59, 67, 86, 87, 11, 58, 4, 3, 12, 59, 78, 86, 7, 29,
   11, 58, 4, 3, 12, 59, 65, 86, 87, 72, 86, 87, 6, 28, 71, 86, 87, 11, 58, 4, 3, 7, 29, 11,
   58, 4, 4, 3, 12, 59, 66, 86, 87, 12, 59, 65, 86, 86, 73, 86, 87, 11, 58, 4, 3, 12, 59, 87,
   7, 29, 11, 58, 4, 3, 12, 59, 65, 86, 87, 74, 86, 87]

/-! ## Acceptance in the final state -/

/-- What a step that ends with result 0 guarantees: the final state is the current state
and lies on top of the state stack. -/
def Step.Accepted : Step → Prop
  | .ret r q => r = 0 → q.yystate = YYFINAL ∧ q.yyss.head? = some YYFINAL
  | _ => True

/-- The part of a parser state that pushing and popping states leaves alone: the pending
input, the count of lexer calls, the lookahead, the error status and the error count. -/
def Parser.kept (p : Parser) : List Token × Nat × Int × Int × Int :=
  (p.input, p.lexed, p.yychar, p.yyerrstatus, p.yynerrs)

/-! ## The lookahead and the lexer -/

/-- The value that `yybackup` keeps in `yychar` for a token code returned by the lexer: a
code that is not positive becomes `YYEOF`. -/
def hold (code : Int) : Int := if code ≤ YYEOF then YYEOF else code

/-- The code returned by call number `n`, counted from 1, of the lexer on the token codes
`codes`: end of input once they are used up. -/
def lexedCode (codes : List Int) (n : Nat) : Int := codes.getD (n - 1) YYEOF

/-- The control view is in step with the lexer run on `codes`: the pending input is what
the calls made so far have left, and a held lookahead is the code returned by the last
call. -/
def Ctl.Held (codes : List Int) (c : Ctl) : Prop :=
  c.input = codes.drop c.lexed ∧
  (c.yychar = YYEMPTY ∨ (1 ≤ c.lexed ∧ c.yychar = hold (lexedCode codes c.lexed)))

/-- What one action guarantees about the lookahead: the control view stays in step with the
lexer, and when the action ends the parse after a report for a syntax error, the lookahead
is held and is the code returned by the last call of the lexer. -/
def CStep.HeldPost (codes : List Int) : CStep → Prop
  | .next d => d.Held codes
  | .ret r d => d.input = codes.drop d.lexed ∧
      (r = 1 → d.yyerrs ≠ [] → 1 ≤ d.lexed ∧ d.yychar = hold (lexedCode codes d.lexed))
  | .fault => True

/-- Token codes of `a = 1 ; ) ) ) b = 2 ;`: a statement, three closing parentheses that no
state can shift there, and another statement. -/
def malformedCodes : List Int :=
  [Tk.ID, ch '=', Tk.NUM, ch ';', ch ')', ch ')', ch ')', Tk.ID, ch '=', Tk.NUM, ch ';']

/-! ## Runs of the automaton with a bounded stack -/

/-- The automaton moves from stack `ss` on the symbols `inp` to stack `ss1` with the symbols
`inp1` left, every stack on the way, the last one included, holding at most `D` cells. -/
inductive Moves (D : Nat) : List Int → List Int → List Int → List Int → Prop where
  | refl (ss inp : List Int) : ss.length ≤ D → Moves D ss inp ss inp
  | step (ss inp ss1 inp1 ss2 inp2 : List Int) : ss.length ≤ D →
      astep ss inp = .next ss1 inp1 → Moves D ss1 inp1 ss2 inp2 → Moves D ss inp ss2 inp2

/-- The automaton accepts from stack `ss` on the symbols `inp` followed by end of input,
with at most `D` cells on every stack on the way. -/
def AccB (D : Nat) (ss inp : List Int) : Prop :=
  ∃ ss1 inp1, Moves D ss inp ss1 inp1 ∧ astep ss1 inp1 = .accept

/-- Runs the automaton from stack `ss` on the symbols `seg`, the first symbols of a longer
input, for at most `n` actions, until the stack is `goal` with at most one symbol of `seg`
left, and gives what is left.  The run fails before an action that would consult a symbol
after `seg`, when the automaton accepts or rejects, when a stack holds more than `D` cells,
or when the actions are used up. -/
def lrun (D : Nat) (goal : List Int) : Nat → List Int → List Int → Option (List Int)
  | 0, _, _ => none
  | n + 1, ss, seg =>
    if ss.length ≤ D then
      if decide (seg.length ≤ 1) && ss == goal then some seg
      else if seg.isEmpty && tget yypact (ss.headD 0) != YYPACT_NINF then none
      else
        match astep ss seg with
        | .next ss1 seg1 => lrun D goal n ss1 seg1
        | _ => none
    else none

/-- Runs the automaton from stack `ss` on the symbols `inp` followed by end of input: it
accepts within `n` actions, with at most `D` cells on every stack. -/
def arun (D : Nat) : Nat → List Int → List Int → Bool
  | 0, _, _ => false
  | n + 1, ss, inp =>
    decide (ss.length ≤ D) &&
      match astep ss inp with
      | .accept => true
      | .next ss1 inp1 => arun D n ss1 inp1
      | .reject => false

/-- Items joined by the separator `sep`. -/
def sepBy (sep : Int) : List (List Int) → List Int
  | [] => []
  | [x] => x
  | x :: y :: rest => x ++ sep :: sepBy sep (y :: rest)

/-- Runs the control view until it has to fetch a token from the exhausted input, for at
most `n` actions. -/
def cfeed : Nat → Ctl → Option Ctl
  | 0, c =>
    if c.input.isEmpty && c.yychar == YYEMPTY && tget yypact (c.yyss.headD 0) != YYPACT_NINF
    then some c else none
  | n + 1, c =>
    if c.input.isEmpty && c.yychar == YYEMPTY && tget yypact (c.yyss.headD 0) != YYPACT_NINF
    then some c
    else
      match cstep c with
      | .next d => cfeed n d
      | _ => none

/-! ## Families of programs -/

/-- Token codes of a declarator: `ID`, or `ID = NUM` when it has an initialiser. -/
def declarator (init : Bool) : List Int := if init then [Tk.ID, ch '=', Tk.NUM] else [Tk.ID]

/-- Token codes of the declaration `int D_1, ..., D_n;`, the list `ds` telling which
declarators have an initialiser. -/
def declCodes (ds : List Bool) : List Int :=
  Tk.INT :: sepBy (ch ',') (ds.map declarator) ++ [ch ';']

/-- Token codes of the statement `for (I_1, ..., I_m; ID < ID && ID < ID; U_1, ..., U_n) { }`
with `m` initialisations `ID = NUM` and `n` updates `ID ++`. -/
def forCodes (m n : Nat) : List Int :=
  [Tk.FOR, ch '('] ++ sepBy (ch ',') (List.replicate m [Tk.ID, ch '=', Tk.NUM]) ++
    [ch ';', Tk.ID, Tk.LT, Tk.ID, Tk.AND, Tk.ID, Tk.LT, Tk.ID, ch ';'] ++
    sepBy (ch ',') (List.replicate n [Tk.ID, Tk.INC]) ++ [ch ')', ch '{', ch '}']

/-- Token codes of the declaration `int ID [NUM] ... [NUM];` with `k` dimensions. -/
def arrayCodes (k : Nat) : List Int :=
  [Tk.INT, Tk.ID] ++ (List.replicate k [ch '[', Tk.NUM, ch ']']).flatten ++ [ch ';']

/-- Token codes of `int a[4][4], b[5];`. -/
def mixedArrayCodes : List Int :=
  [Tk.INT, Tk.ID, ch '[', Tk.NUM, ch ']', ch '[', Tk.NUM, ch ']', ch ',',
    Tk.ID, ch '[', Tk.NUM, ch ']', ch ';']

/-- Token codes of the statement `switch (ID) { ... }` with `n` clauses
`case NUM: ID = NUM; break;` and, when `dflt` holds, the clause `default: ID = NUM;`. -/
def switchCodes (n : Nat) (dflt : Bool) : List Int :=
  [Tk.SWITCH, ch '(', Tk.ID, ch ')', ch '{'] ++
    (List.replicate n
      [Tk.CASE, Tk.NUM, ch ':', Tk.ID, ch '=', Tk.NUM, ch ';', Tk.BREAK, ch ';']).flatten ++
    ((if dflt then [Tk.DEFAULT, ch ':', Tk.ID, ch '=', Tk.NUM, ch ';'] else []) ++ [ch '}'])

/-! ## The steps of the parser -/

/-- The parser state once `yybackup` holds its lookahead: a token is fetched when none is
held, and a code that is not positive becomes `YYEOF`. -/
def yypeek (p : Parser) : Parser :=
  let p := if p.yychar = YYEMPTY then yylex p else p
  if p.yychar ≤ YYEOF then { p with yychar := YYEOF } else p

/-- A state at `yybackup` after the first reduction: state 2 on top of state 0, no lookahead
held, the token `INT` pending. -/
def shiftSample : Parser :=
  { input := [⟨Tk.INT, some 7⟩], lexed := 0, yychar := YYEMPTY, yylval := 0, yynerrs := 0,
    yystate := 2, yyerrstatus := 0, yystacksize := YYINITDEPTH,
    yyss := [2, 0], yyvs := [none, none], yyvsUp := [], yyerrs := [] }

/-- A state at `yybackup` after the shift of `INT`: state 6 on top, the next token held. -/
def reduceSample : Parser :=
  { input := [], lexed := 2, yychar := Tk.ID, yylval := 8, yynerrs := 0,
    yystate := 6, yyerrstatus := 0, yystacksize := YYINITDEPTH,
    yyss := [6, 2, 0], yyvs := [some 7, none, none], yyvsUp := [], yyerrs := [] }

/-- The parser state after the part of `yybackup` that may call the lexer: in a state with a
default action only, nothing is fetched. -/
def yyheld (p : Parser) : Parser :=
  match rd yypact p.yystate with
  | none => p
  | some yyn => if yyn = YYPACT_NINF then p else yypeek p

/-- The lookahead that the action taken by `yybackup` in state `p` shifts, when that action
is a shift: the table has a positive entry for the symbol of the lookahead. -/
def yyshifted (p : Parser) : Option Int :=
  match rd yypact p.yystate with
  | none => none
  | some yyn =>
    if yyn = YYPACT_NINF then none else
    let q := yypeek p
    if q.yychar = YYerror then none else
    let yytoken := YYTRANSLATE q.yychar
    let yyn := yyn + yytoken
    if yyn < 0 ∨ YYLAST < yyn then none else
    match rd yycheck yyn, rd yytable yyn with
    | some c, some v => if c = yytoken ∧ 0 < v then some q.yychar else none
    | _, _ => none

/-- The lookaheads shifted by the first `fuel` actions from `yybackup` in state `p`, in the
order of the shifts. -/
def yyshifts : Nat → Parser → List Int
  | 0, _ => []
  | fuel + 1, p =>
    (yyshifted p).toList ++
      (match yybackup p with
       | .next q => yyshifts fuel q
       | _ => [])

/-- The lookaheads shifted by `yyparse`, in the order of the shifts. -/
def yyparseShifts (g : Globals) (toks : List Token) : List Int :=
  match yysetstate (yyinit g toks) with
  | .next p => yyshifts (5 * toks.length + 5) p
  | _ => []

/-- The codes that the first `n` calls of the lexer return on the token codes `codes`, as
`yybackup` holds them. -/
def lexedCodes (codes : List Int) (n : Nat) : List Int :=
  (List.range n).map (fun i => hold (lexedCode codes (i + 1)))

/-- The control view with every pending token code as `yybackup` will hold it. -/
def Ctl.norm (c : Ctl) : Ctl := { c with input := c.input.map hold }

/-- The step outcome with every pending token code as `yybackup` will hold it. -/
def CStep.norm : CStep → CStep
  | .next c => .next c.norm
  | .ret r c => .ret r c.norm
  | .fault => .fault

/-- The parser at `yybackup` is in step with the lexer after the shifts `sh`: the shifted
lookaheads are the codes returned by the first calls of the lexer, all of them positive;
the pending input is what the calls made so far have left; and either no lookahead is held
and every code returned has been shifted, or the lookahead is the code returned by the
last call and every code before it has been shifted. -/
def Parser.Fed (toks : List Token) (sh : List Int) (p : Parser) : Prop :=
  sh = lexedCodes (toks.map Token.code) sh.length ∧ (∀ x ∈ sh, 0 < x) ∧
  p.input = toks.drop p.lexed ∧
  ((p.yychar = YYEMPTY ∧ p.lexed = sh.length) ∨
   (p.lexed = sh.length + 1 ∧ p.yychar = hold (lexedCode (toks.map Token.code) p.lexed)))

/-- The parser at `yyreturnlab` with result `r` in relation to the lexer, after the shifts
`sh`: the shifted lookaheads are the codes returned by the first calls of the lexer, at
most the last code returned has not been shifted, every call but the last has returned a
positive code, and on acceptance every code returned has been shifted, the last of them
being end of input, shifted in state 1. -/
def Parser.Done (toks : List Token) (sh : List Int) (r : Int) (q : Parser) : Prop :=
  sh = lexedCodes (toks.map Token.code) sh.length ∧
  q.input = toks.drop q.lexed ∧
  sh.length ≤ q.lexed ∧ q.lexed ≤ sh.length + 1 ∧
  (∀ i, i + 1 < q.lexed → 0 < lexedCode (toks.map Token.code) (i + 1)) ∧
  (r = 0 → q.lexed = sh.length ∧ q.yychar = YYEMPTY ∧ q.yyss = [YYFINAL, 1, 0] ∧
    1 ≤ q.lexed ∧ lexedCode (toks.map Token.code) q.lexed ≤ 0)

/-! ## Token codes -/

/-- The token codes that have a symbol of their own: end of input, the sixteen character
tokens, the error token and the named tokens of `yytokentype` from `ID` = 258 to `UMINUS` =
285.  Every other code is an invalid token. -/
def yytokens : List Int :=
  [0, ch '!', ch '%', ch '(', ch ')', ch '*', ch '+', ch ',', ch '-', ch '/', ch ':', ch ';',
    ch '=', ch '[', ch ']', ch '{', ch '}', 256] ++ (List.range 28).map (fun k => 258 + (k : Int))

/-! ## The error token -/

/-- No call of the lexer made so far has returned the error token `YYerror`. -/
def Ctl.NoErrTok (codes : List Int) (c : Ctl) : Prop :=
  ∀ i, 1 ≤ i → i ≤ c.lexed → lexedCode codes i ≠ YYerror

/-- What one action guarantees about the error token: while the parse goes on no call of the
lexer has returned it; when the parse ends no call but the last has, and the last call has
returned it exactly when the parse ends with result 1 and without a report. -/
def CStep.ErrPost (codes : List Int) : CStep → Prop
  | .next d => d.NoErrTok codes
  | .ret r d => (∀ i, 1 ≤ i → i < d.lexed → lexedCode codes i ≠ YYerror) ∧
      ((r = 1 ∧ d.yyerrs = []) ↔ (1 ≤ d.lexed ∧ lexedCode codes d.lexed = YYerror))
  | .fault => True

/-! ## The depth of the state stack -/

/-- The greatest number of states on the state stack during the first `fuel` actions from
`yybackup` in state `p`: at every entry of `yybackup` and when the parser returns. -/
def yydepths : Nat → Parser → Nat
  | 0, p => p.yyss.length
  | fuel + 1, p =>
    max p.yyss.length
      (match yybackup p with
       | .next q => yydepths fuel q
       | .ret _ q => q.yyss.length
       | .fault q => q.yyss.length)

/-- The greatest number of states on the state stack during a call of `yyparse`. -/
def yyparseDepth (g : Globals) (toks : List Token) : Nat :=
  match yysetstate (yyinit g toks) with
  | .next p => yydepths (5 * toks.length + 5) p
  | .ret _ q => q.yyss.length
  | .fault q => q.yyss.length

/-- Control view of `yydepths`. -/
def cdepth : Nat → Ctl → Nat
  | 0, c => c.yyss.length
  | fuel + 1, c =>
    max c.yyss.length
      (match cstep c with
       | .next d => cdepth fuel d
       | .ret _ d => d.yyss.length
       | .fault => 0)

/-- A run from `c` ends with result `r`, and the greatest depth of the stack on the way,
the last stack included, is `m`. -/
def Peak (c : Ctl) (r : Int) (m : Nat) : Prop :=
  ∃ n d, crun n c = .ret r d ∧ cdepth n c = m

/-- Token codes of `n` statements `ID = NUM ;`. -/
def stmtListCodes (n : Nat) : List Int :=
  (List.replicate n [Tk.ID, ch '=', Tk.NUM, ch ';']).flatten

/-! ## The actions of a run -/

/-- What an action of the parser does: it shifts the lookahead with the given code, or it
reduces by the rule with the given number. -/
inductive Event where
  | shift (yychar : Int)
  | reduce (yyn : Int)
deriving DecidableEq, Repr

/-- The rule of the default action of `yydefault` in state `p`, when that action is a
reduction: the entry of `yydefact`, unless it is 0. -/
def yydefaultRule (p : Parser) : Option Int :=
  match rd yydefact p.yystate with
  | none => none
  | some yyn => if yyn = 0 then none else some yyn

/-- The rule by which the action taken by `yybackup` in state `p` reduces, when that action
is a reduction: the default rule of the state when it has a default action only or the
lookup misses, the negated entry of `yytable` when the lookup hits an entry that is not
positive. -/
def yyreduced (p : Parser) : Option Int :=
  match rd yypact p.yystate with
  | none => none
  | some yyn =>
    if yyn = YYPACT_NINF then yydefaultRule p else
    let q := yypeek p
    if q.yychar = YYerror then none else
    let yytoken := YYTRANSLATE q.yychar
    let yyn := yyn + yytoken
    if yyn < 0 ∨ YYLAST < yyn then yydefaultRule q else
    match rd yycheck yyn with
    | none => none
    | some c =>
      if c ≠ yytoken then yydefaultRule q else
      match rd yytable yyn with
      | none => none
      | some v => if v ≤ 0 then some (-v) else none

/-- The action taken by `yybackup` in state `p`, when it is a shift or a reduction. -/
def yyevent (p : Parser) : Option Event :=
  match yyshifted p with
  | some c => some (.shift c)
  | none => (yyreduced p).map Event.reduce

/-- The shifts and reductions of the first `fuel` actions from `yybackup` in state `p`, in
the order in which they are made. -/
def yyevents : Nat → Parser → List Event
  | 0, _ => []
  | fuel + 1, p =>
    (yyevent p).toList ++
      (match yybackup p with
       | .next q => yyevents fuel q
       | _ => [])

/-- The shifts and reductions made by `yyparse`, in the order in which they are made. -/
def yyparseEvents (g : Globals) (toks : List Token) : List Event :=
  match yysetstate (yyinit g toks) with
  | .next p => yyevents (5 * toks.length + 5) p
  | _ => []

/-- Control view of `yyevent`. -/
def cevent (c : Ctl) : Option Event :=
  let r := tget yydefact (c.yyss.headD 0)
  let dflt : Option Event := if r = 0 then none else some (.reduce r)
  if tget yypact (c.yyss.headD 0) = YYPACT_NINF then dflt else
  let d := cpeek c
  if d.yychar = YYerror then none else
  match tshift (c.yyss.headD 0) (YYTRANSLATE d.yychar) with
  | some _ => some (.shift d.yychar)
  | none => dflt

/-- Control view of `yyevents`. -/
def cevents : Nat → Ctl → List Event
  | 0, _ => []
  | fuel + 1, c =>
    (cevent c).toList ++
      (match cstep c with
       | .next d => cevents fuel d
       | _ => [])

/-- Token codes of `NUM + NUM * NUM ;`. -/
def sumProductCodes : List Int := [Tk.NUM, ch '+', Tk.NUM, ch '*', Tk.NUM, ch ';']

/-- Token codes of `NUM + NUM + NUM ;`. -/
def sumSumCodes : List Int := [Tk.NUM, ch '+', Tk.NUM, ch '+', Tk.NUM, ch ';']

/-- The control state when `l` more calls of the lexer were made before it. -/
def Ctl.late (l : Nat) (c : Ctl) : Ctl := { c with lexed := l + c.lexed }

/-- Token codes of `k` array dimensions `[ NUM ]`. -/
def dimCodes (k : Nat) : List Int := (List.replicate k [ch '[', Tk.NUM, ch ']']).flatten

/-- Token codes of a declaration `int ID dims , ID dims , ... , ID dims [` up to the opening
bracket of a dimension: `ks` lists the numbers of dimensions `[ NUM ]` of the declarators
before the last one, and the last declarator has `j` complete dimensions before the
bracket. -/
def dimPrefix (ks : List Nat) (j : Nat) : List Int :=
  [Tk.INT, Tk.ID] ++ (ks.map (fun k => dimCodes k ++ [ch ',', Tk.ID])).flatten ++
    dimCodes j ++ [ch '[']

/-- From the state stack `S`, with no lookahead held, the control view consumes exactly the
codes `chunk`, whatever follows them, and continues with the stack `S2`, without a report. -/
def Eats (chunk : List Int) (S S2 : List Int) : Prop :=
  ∀ (l : Nat) (X : List Int), ∃ k,
    crun k { input := chunk ++ X, lexed := l, yychar := YYEMPTY, yyss := S, yyerrs := [] } =
      .next { input := X, lexed := l + chunk.length, yychar := YYEMPTY, yyss := S2,
              yyerrs := [] }

theorem Tbl.get_eq {α : Type} (d : α) (t : Tbl α) (h : t.ok = true) (i : Nat) :
    t.get d i = t.toList.getD i d := by
  induction t generalizing i with
  | leaf vs => rfl
  | node n l r ihl ihr =>
    simp only [Tbl.ok, Bool.and_eq_true, beq_iff_eq] at h
    obtain ⟨⟨hn, hl⟩, hr⟩ := h
    simp only [Tbl.get, Tbl.toList]
    split
    · rename_i hi
      rw [ihl hl, List.getD_append _ _ _ _ (by omega)]
    · rename_i hi
      rw [ihr hr, List.getD_append_right _ _ _ _ (by omega), hn]

theorem tget_eq (tbl : List Int) {t : Tbl Int} [h : HasTree tbl t] (i : Int) :
    tget tbl i = (rd tbl i).getD 0 := by
  unfold tget rd
  split
  · rw [Tbl.get_eq 0 t h.ok, h.list]
    simp [List.getD_eq_getElem?_getD]
  · rfl

theorem rd_eq_some {tbl : List Int} {t : Tbl Int} [HasTree tbl t] {i : Int} (h0 : 0 ≤ i)
    (h1 : i < tbl.length) : rd tbl i = some (tget tbl i) := by
  have h2 : i.toNat < tbl.length := by omega
  rw [tget_eq]
  simp [rd, h0, List.getElem?_eq_getElem h2]

theorem tget_mem {tbl : List Int} {t : Tbl Int} [HasTree tbl t] {i : Int} (h0 : 0 ≤ i)
    (h1 : i < tbl.length) : tget tbl i ∈ tbl := by
  have h2 : i.toNat < tbl.length := by omega
  rw [tget_eq]
  simp [rd, h0, List.getElem?_eq_getElem h2]

theorem yypact_length : yypact.length = 179 := by decide!
set_option maxRecDepth 1000000 in
theorem yydefact_length : yydefact.length = 179 := by decide!
set_option maxRecDepth 1000000 in
theorem yypgoto_length : yypgoto.length = 27 := by decide!
set_option maxRecDepth 1000000 in
theorem yydefgoto_length : yydefgoto.length = 27 := by decide!
set_option maxRecDepth 1000000 in
theorem yytable_length : yytable.length = 416 := by decide!
set_option maxRecDepth 1000000 in
theorem yycheck_length : yycheck.length = 416 := by decide!
set_option maxRecDepth 1000000 in
theorem yyr1_length : yyr1.length = 90 := by decide!
set_option maxRecDepth 1000000 in
theorem yyr2_length : yyr2.length = 90 := by decide!
set_option maxRecDepth 1000000 in
theorem yytranslate_length : yytranslate.length = 286 := by decide!

set_option maxRecDepth 1000000 in
theorem yytable_range : ∀ v ∈ yytable, 0 ≤ v ∧ v < 179 := by decide!
set_option maxRecDepth 1000000 in
theorem yydefgoto_range : ∀ v ∈ yydefgoto, 0 ≤ v ∧ v < 179 := by decide!
set_option maxRecDepth 1000000 in
theorem yydefact_range : ∀ v ∈ yydefact, 0 ≤ v ∧ v < 90 := by decide!
set_option maxRecDepth 1000000 in
theorem yyr2_range : ∀ v ∈ yyr2, 0 ≤ v ∧ v < 10 := by decide!
set_option maxRecDepth 1000000 in
theorem yyr1_range : ∀ v ∈ yyr1.tail, 47 ≤ v ∧ v < 74 := by decide!
set_option maxRecDepth 1000000 in
theorem yytranslate_range : ∀ v ∈ yytranslate, 0 ≤ v ∧ v < 47 := by decide!
set_option maxRecDepth 1000000 in
theorem yycheck_hits : ∀ cv ∈ yycheck.zip yytable, cv.1 ≠ 1 ∧ (0 ≤ cv.1 → 0 < cv.2) := by decide!

theorem yycopy_length (cells : List (Option Int)) (n : Nat) : (yycopy cells n).length = n := by
  simp [yycopy]; omega

theorem errCount_mem (l : List Report) (n : Nat) (c : Int) :
    errCount (l ++ [{ msg := "memory exhausted", lexed := n, held := c }]) = errCount l := by
  simp [errCount, List.filter_append]

theorem errCount_syn (l : List Report) (n : Nat) (c : Int) :
    errCount (l ++ [{ msg := "syntax error", lexed := n, held := c }]) = errCount l + 1 := by
  simp [errCount, List.filter_append]

theorem errCount_nonneg (l : List Report) : 0 ≤ errCount l := by
  unfold errCount; exact Int.ofNat_nonneg _

theorem wrapInt_succ (x : Int) : wrapInt (wrapInt x + 1) = wrapInt (x + 1) := by
  unfold wrapInt; omega

theorem counted_nil (e : Int) : counted e [] = e := by
  simp [counted, bumped, errCount]

theorem counted_mem (e : Int) (l : List Report) (n : Nat) (c : Int) :
    counted e (l ++ [{ msg := "memory exhausted", lexed := n, held := c }]) = counted e l := by
  unfold counted; rw [errCount_mem]

/-- One more syntax error is one more execution of `++yynerrs`. -/
theorem counted_syn (e : Int) (l : List Report) (n : Nat) (c : Int) :
    counted e (l ++ [{ msg := "syntax error", lexed := n, held := c }]) =
      wrapInt (counted e l + 1) := by
  have h := errCount_nonneg l
  unfold counted bumped
  rw [errCount_syn, if_neg (by omega)]
  by_cases h0 : errCount l = 0
  · rw [if_pos h0, h0]; simp
  · rw [if_neg h0, wrapInt_succ, add_assoc]

theorem wrapInt_next (x : Int) (h0 : -2147483648 ≤ x) (h1 : x < 2147483647) :
    wrapInt (x + 1) = x + 1 := by
  unfold wrapInt; omega

/-- After exactly one syntax error `yynerrs` has been incremented once. -/
theorem counted_one (e : Int) (l : List Report) (h : errCount l = 1) :
    counted e l = wrapInt (e + 1) := by
  unfold counted bumped; rw [h]; simp

theorem counted_zero (e : Int) (l : List Report) (h : errCount l = 0) : counted e l = e := by
  unfold counted bumped; rw [h]; simp

/-- Pushing a state: `yynewstate` acts on the control view as `cpush`. -/
theorem yynewstate_ref (e : Int) (p : Parser)
    (hpar : p.yyvs.length = p.yyss.length + 1)
    (hcap : (p.yyss.length : Int) < p.yystacksize)
    (hlim : p.yystacksize ≤ YYMAXDEPTH)
    (hst : 0 ≤ p.yystate ∧ p.yystate < YYNSTATES)
    (hrng : ∀ s ∈ p.yyss, 0 ≤ s ∧ s < YYNSTATES)
    (hcalm : p.yyerrstatus = 0)
    (hcnt : p.yynerrs = counted e p.yyerrs) :
    (yynewstate p).ctl = cpush p.ctl p.yystate ∧ (yynewstate p).Good e := by
  have hmod : p.yystate % 256 = p.yystate := by
    have := hst; simp only [YYNSTATES] at this; omega
  simp only [YYMAXDEPTH, YYNSTATES] at *
  unfold yynewstate yysetstate cpush
  simp only [Parser.yyssp, Parser.ctl, List.length_cons, List.tail_cons, hmod, YYMAXDEPTH,
    yyexhaustedlab, yyabortlab, yyacceptlab, yyerror, creport]
  have h1 : ¬ ((((p.yyss.length + 1 : Nat) : Int) - 1 < 0) ∨
      p.yystacksize ≤ ((p.yyss.length + 1 : Nat) : Int) - 1) := by push_cast; omega
  rw [if_neg h1]
  by_cases h2 : p.yystacksize - 1 ≤ ((p.yyss.length + 1 : Nat) : Int) - 1
  · rw [if_pos h2]
    by_cases h3 : (10000 : Int) ≤ p.yystacksize
    · rw [if_pos h3]
      have h4 : (10000 : Int) ≤ ((p.yyss.length + 1 : Nat) : Int) := by push_cast at h2 ⊢; omega
      rw [if_pos h4]
      simp [Step.ctl, Parser.ctl, Step.Good, hcnt, counted_mem]
    · rw [if_neg h3]
      have h4 : ¬ (10000 : Int) ≤ ((p.yyss.length + 1 : Nat) : Int) := by push_cast at h2 ⊢; omega
      rw [if_neg h4]
      have h5 : ¬ ((if (10000 : Int) < p.yystacksize * 2 then 10000 else p.yystacksize * 2) - 1
          ≤ ((p.yyss.length + 1 : Nat) : Int) - 1) := by
        push_cast at h2 ⊢; split <;> omega
      simp only [h5, if_false]
      by_cases h6 : p.yystate = YYFINAL
      · simp [h6, Step.ctl, Parser.ctl, Step.Good, hcnt]
      · simp only [h6, if_false, Step.ctl, Parser.ctl, Step.Good, true_and]
        refine ⟨by simp, ?_, ?_, ?_, ?_, hcalm, hcnt⟩
        · simp [yycopy_length]
        · simp only [List.length_cons]; push_cast at h2 ⊢; split <;> omega
        · simp only [YYMAXDEPTH]; split <;> omega
        · intro s hs
          simp only [List.mem_cons] at hs
          rcases hs with rfl | hs
          · exact hst
          · exact hrng s hs
  · rw [if_neg h2]
    have h4 : ¬ (10000 : Int) ≤ ((p.yyss.length + 1 : Nat) : Int) := by push_cast at h2 ⊢; omega
    rw [if_neg h4]
    by_cases h6 : p.yystate = YYFINAL
    · simp [h6, Step.ctl, Parser.ctl, Step.Good, hcnt]
    · simp only [h6, if_false, Step.ctl, Parser.ctl, Step.Good, true_and]
      refine ⟨by simp, ?_, ?_, ?_, ?_, hcalm, hcnt⟩
      · simp [hpar]
      · simp only [List.length_cons]; push_cast at h2 ⊢; omega
      · simp only [YYMAXDEPTH]; omega
      · intro s hs
        simp only [List.mem_cons] at hs
        rcases hs with rfl | hs
        · exact hst
        · exact hrng s hs

theorem tgoto_range (e lhs : Int) (hl : 0 ≤ lhs ∧ lhs < 27) :
    0 ≤ tgoto e lhs ∧ tgoto e lhs < YYNSTATES := by
  unfold tgoto
  simp only [YYLAST, YYNSTATES]
  split
  · rename_i h
    exact yytable_range _ (tget_mem h.1 (by rw [yytable_length]; omega))
  · exact yydefgoto_range _ (tget_mem hl.1 (by rw [yydefgoto_length]; omega))

set_option maxRecDepth 1000000 in
theorem yyr1_lhs_aux : ∀ r ∈ List.range 90, r ≠ 0 →
    47 ≤ tget yyr1 (r : Int) ∧ tget yyr1 (r : Int) < 74 := by decide!

theorem yyr1_lhs (r : Int) (hr : 1 ≤ r ∧ r < 90) : 47 ≤ tget yyr1 r ∧ tget yyr1 r < 74 := by
  have h := yyr1_lhs_aux r.toNat (by simp; omega) (by omega)
  have h2 : ((r.toNat : Nat) : Int) = r := by omega
  rwa [h2] at h

theorem yyr2_len (r : Int) (hr : 0 ≤ r ∧ r < 90) : 0 ≤ tget yyr2 r ∧ tget yyr2 r < 10 :=
  yyr2_range _ (tget_mem hr.1 (by rw [yyr2_length]; omega))

/-- The goto computation at the end of `yyreduce`. -/
theorem yyreduce_ref (e : Int) (p : Parser) (h : p.WF e) (r : Int) (hr : 1 ≤ r ∧ r < 90) :
    (yyreduce p r).ctl = creduce p.ctl r ∧ (yyreduce p r).Good e := by
  obtain ⟨htop, hpar, hcap, hlim, hrng, hcalm, hcnt⟩ := h
  have hk := yyr2_len r ⟨by omega, hr.2⟩
  have hl := yyr1_lhs r hr
  have hlen : 0 < p.yyss.length := by
    cases hss : p.yyss with
    | nil => simp [hss] at htop
    | cons a l => simp
  unfold yyreduce creduce
  rw [rd_eq_some (by omega) (by rw [yyr2_length]; omega)]
  simp only
  by_cases hfault : p.yyss.length ≤ (tget yyr2 r).toNat
  · -- the stack is too short: both fault
    have hc : p.ctl.yyss.length ≤ (tget yyr2 r).toNat := hfault
    rw [if_pos hc]
    have hk0 : tget yyr2 r ≠ 0 := by omega
    rw [if_neg hk0, if_neg (by omega : ¬ tget yyr2 r < 0)]
    by_cases hcell : p.yyss.length = (tget yyr2 r).toNat
    · have hin : (tget yyr2 r - 1).toNat < p.yyvs.length := by omega
      rw [List.getElem?_eq_getElem hin]
      simp only
      rw [rd_eq_some (by omega) (by rw [yyr1_length]; omega)]
      simp only
      have hpop : YYPOPSTACK p (tget yyr2 r) = none := by
        unfold YYPOPSTACK
        simp only [Parser.yyssp, Parser.yyvsp]
        rw [if_pos]; right; left; omega
      rw [hpop]
      simp [Step.ctl, Step.Good]
    · have hout : p.yyvs.length ≤ (tget yyr2 r - 1).toNat := by omega
      rw [List.getElem?_eq_none hout]
      simp [Step.ctl, Step.Good]
  · have hc : ¬ p.ctl.yyss.length ≤ (tget yyr2 r).toNat := hfault
    rw [if_neg hc]
    -- the cell read for `yyval` is inside the array
    have hcell : ∃ v, (if tget yyr2 r = 0 then
          (if p.yystacksize ≤ p.yyvsp + 1 then none else some (p.yyvsUp.headD none))
        else if tget yyr2 r < 0 then none
        else p.yyvs[(tget yyr2 r - 1).toNat]?) = some v := by
      by_cases hk0 : tget yyr2 r = 0
      · rw [if_pos hk0, if_neg (by simp only [Parser.yyvsp]; omega)]
        exact ⟨_, rfl⟩
      · rw [if_neg hk0, if_neg (by omega)]
        have hin : (tget yyr2 r - 1).toNat < p.yyvs.length := by omega
        rw [List.getElem?_eq_getElem hin]
        exact ⟨_, rfl⟩
    obtain ⟨v, hv⟩ := hcell
    rw [hv]
    simp only
    rw [rd_eq_some (by omega) (by rw [yyr1_length]; omega)]
    simp only
    have hpop : YYPOPSTACK p (tget yyr2 r) = some { p with
        yyss := p.yyss.drop (tget yyr2 r).toNat
        yyvs := p.yyvs.drop (tget yyr2 r).toNat
        yyvsUp := (p.yyvs.take (tget yyr2 r).toNat).reverse ++ p.yyvsUp } := by
      unfold YYPOPSTACK
      simp only [Parser.yyssp, Parser.yyvsp]
      rw [if_neg]; omega
    rw [hpop]
    simp only
    unfold yyvpush
    simp only [Parser.yyvsp, List.length_drop]
    rw [if_neg (by omega)]
    simp only [YYNTOKENS]
    rw [rd_eq_some (by omega) (by rw [yypgoto_length]; omega)]
    -- the exposed state
    have hdrop : ∃ x rest, p.yyss.drop (tget yyr2 r).toNat = x :: rest := by
      cases hd : p.yyss.drop (tget yyr2 r).toNat with
      | nil =>
        have := congrArg List.length hd
        simp only [List.length_drop, List.length_nil] at this
        omega
      | cons x rest => exact ⟨x, rest, rfl⟩
    obtain ⟨x, rest, hd⟩ := hdrop
    have hxr : 0 ≤ x ∧ x < YYNSTATES := by
      apply hrng
      have : x ∈ p.yyss.drop (tget yyr2 r).toNat := by rw [hd]; simp
      exact List.mem_of_mem_drop this
    have hsub : ∀ s ∈ x :: rest, 0 ≤ s ∧ s < YYNSTATES := by
      intro s hs
      apply hrng
      rw [← hd] at hs
      exact List.mem_of_mem_drop hs
    simp only [Parser.ctl, hd, List.head?_cons, List.headD_cons]
    have hgoto : ∀ q : Parser, q.yyss = x :: rest →
        q.yyvs.length = q.yyss.length + 1 → (q.yyss.length : Int) < q.yystacksize →
        q.yystacksize ≤ YYMAXDEPTH → q.yyerrstatus = 0 → q.yynerrs = counted e q.yyerrs →
        (yynewstate { q with yystate := tgoto x (tget yyr1 r - 47) }).ctl =
          cpush q.ctl (tgoto x (tget yyr1 r - 47)) ∧
        (yynewstate { q with yystate := tgoto x (tget yyr1 r - 47) }).Good e := by
      intro q h1 h2 h3 h4 h5 h6
      have := yynewstate_ref e { q with yystate := tgoto x (tget yyr1 r - 47) } h2 h3 h4
        (tgoto_range _ _ (by omega)) (by rw [h1]; exact hsub) h5 h6
      exact this
    have hq := hgoto { p with
        yyss := x :: rest
        yyvs := v :: p.yyvs.drop (tget yyr2 r).toNat
        yyvsUp := ((p.yyvs.take (tget yyr2 r).toNat).reverse ++ p.yyvsUp).tail } rfl
      (by
        have := congrArg List.length hd
        simp only [List.length_drop, List.length_cons] at this ⊢
        omega)
      (by
        have := congrArg List.length hd
        simp only [List.length_drop, List.length_cons] at this ⊢
        omega) hlim hcalm hcnt
    simp only [Parser.ctl] at hq
    unfold tgoto
    unfold tgoto at hq
    simp only [YYLAST] at hq ⊢
    by_cases hi : 0 ≤ tget yypgoto (tget yyr1 r - 47) + x ∧
        tget yypgoto (tget yyr1 r - 47) + x ≤ 415
    · rw [if_pos hi]
      rw [rd_eq_some hi.1 (by rw [yycheck_length]; omega)]
      simp only
      by_cases hc2 : tget yycheck (tget yypgoto (tget yyr1 r - 47) + x) = x
      · rw [if_pos hc2]
        rw [rd_eq_some hi.1 (by rw [yytable_length]; omega)]
        simp only
        rw [if_pos ⟨hi.1, hi.2, hc2⟩] at hq ⊢
        exact hq
      · rw [if_neg hc2]
        rw [rd_eq_some (by omega) (by rw [yydefgoto_length]; omega)]
        simp only
        rw [if_neg (by tauto)] at hq ⊢
        exact hq
    · rw [if_neg hi]
      rw [rd_eq_some (by omega) (by rw [yydefgoto_length]; omega)]
      simp only
      rw [if_neg (by tauto)] at hq ⊢
      exact hq

set_option maxRecDepth 1000000 in
theorem yycheck_no_error : ∀ c ∈ yycheck, c ≠ 1 := by decide!

theorem yyerrshift_none (s : Int) (hs : 0 ≤ s ∧ s < 179) : yyerrshift s = some none := by
  unfold yyerrshift
  rw [rd_eq_some hs.1 (by rw [yypact_length]; omega)]
  simp only [YYPACT_NINF, YYSYMBOL_YYerror, YYLAST]
  split
  · rfl
  · split
    · rename_i h
      rw [rd_eq_some h.1 (by rw [yycheck_length]; omega)]
      simp only
      rw [if_neg (yycheck_no_error _ (tget_mem h.1 (by rw [yycheck_length]; omega)))]
    · rfl

/-- With this table the loop of `yyerrlab1` never finds a state that shifts the error token:
it pops down to the bottom state and aborts. -/
theorem yyerrpop_ref (ss : List Int) : ∀ (p : Parser), p.yyss = ss → ss ≠ [] →
    p.yyvs.length = p.yyss.length →
    (0 ≤ p.yystate ∧ p.yystate < YYNSTATES) →
    (∀ s ∈ p.yyss, 0 ≤ s ∧ s < YYNSTATES) →
    ∃ q, yyerrpop ss p = .ret 1 q ∧ q.input = p.input ∧ q.lexed = p.lexed ∧
      q.yychar = p.yychar ∧ q.yyss = p.yyss.drop (p.yyss.length - 1) ∧
      q.yyerrs = p.yyerrs ∧ q.yynerrs = p.yynerrs := by
  induction ss with
  | nil => intro p _ h; exact absurd rfl h
  | cons a below ih =>
    intro p hss _ hpar hst hrng
    simp only [YYNSTATES] at hst
    unfold yyerrpop
    rw [yyerrshift_none p.yystate hst]
    simp only
    by_cases hbot : p.yyssp = 0
    · rw [if_pos hbot]
      refine ⟨p, rfl, rfl, rfl, rfl, ?_, rfl, rfl⟩
      simp only [Parser.yyssp] at hbot
      have : p.yyss.length = 1 := by omega
      simp [this]
    · rw [if_neg hbot]
      simp only [Parser.yyssp] at hbot
      have hlen : p.yyss.length = below.length + 1 := by rw [hss]; simp
      have hpop : YYPOPSTACK p 1 = some { p with
          yyss := p.yyss.drop 1
          yyvs := p.yyvs.drop 1
          yyvsUp := (p.yyvs.take 1).reverse ++ p.yyvsUp } := by
        unfold YYPOPSTACK
        simp only [Parser.yyssp, Parser.yyvsp]
        rw [if_neg (by omega)]
        rfl
      rw [hpop]
      simp only [hss, List.drop_one, List.tail_cons]
      cases hb : below with
      | nil => rw [hb] at hlen; simp at hlen; omega
      | cons b rest =>
        simp only [List.head?_cons]
        have hb2 : b ∈ p.yyss := by rw [hss, hb]; simp
        have := ih { p with
              yyss := b :: rest
              yyvs := p.yyvs.tail
              yyvsUp := (p.yyvs.take 1).reverse ++ p.yyvsUp
              yystate := b }
          (by simp [hb]) (by simp [hb])
          (by simp only [List.length_tail, List.length_cons]; rw [hpar, hss, hb]; simp)
          (hrng b hb2)
          (by
            intro s hs
            apply hrng
            rw [hss, hb]
            exact List.mem_cons_of_mem _ hs)
        obtain ⟨q, hq1, hq2, hq3, hq4, hq5, hq6, hq7⟩ := this
        rw [hb] at hq1
        refine ⟨q, hq1, hq2, hq3, hq4, ?_, hq6, hq7⟩
        rw [hq5]
        simp [hss, hb]

theorem Parser.WF.state_range {e : Int} {p : Parser} (h : p.WF e) :
    0 ≤ p.yystate ∧ p.yystate < 179 := by
  have := h.top
  cases hss : p.yyss with
  | nil => simp [hss] at this
  | cons a l =>
    rw [hss] at this
    simp only [List.head?_cons, Option.some.injEq] at this
    have h2 := h.rng a (by rw [hss]; simp)
    rw [← this]; simpa [YYNSTATES] using h2

theorem Parser.WF.headD {e : Int} {p : Parser} (h : p.WF e) : p.yyss.headD 0 = p.yystate := by
  have := h.top
  cases hss : p.yyss with
  | nil => simp [hss] at this
  | cons a l =>
    rw [hss] at this
    simpa using this

/-- Detecting an error outside recovery: one report, then `yyerrlab1` aborts. -/
theorem yyerrlab_ref (e : Int) (p : Parser) (h : p.WF e) :
    (yyerrlab p).ctl = cabort (creport p.ctl "syntax error") ∧ (yyerrlab p).Good e := by
  have hst := h.state_range
  obtain ⟨htop, hpar, hcap, hlim, hrng, hcalm, hcnt⟩ := h
  unfold yyerrlab
  rw [if_pos hcalm]
  have h3 : ¬ (yyerror { p with yynerrs := wrapInt (p.yynerrs + 1) } "syntax error").yyerrstatus = 3 := by
    simp [yyerror, hcalm]
  simp only [h3, if_false]
  unfold yyerrlab1
  have hne : p.yyss ≠ [] := by
    intro h0; rw [h0] at htop; simp at htop
  obtain ⟨q, hq1, hq2, hq3, hq4, hq5, hq6, hq7⟩ := yyerrpop_ref p.yyss
    { yyerror { p with yynerrs := wrapInt (p.yynerrs + 1) } "syntax error" with yyerrstatus := 3 }
    rfl hne hpar hst hrng
  simp only [yyerror] at hq1 hq2 hq3 hq4 hq5 hq6 hq7 ⊢
  rw [hq1]
  simp only [Step.ctl, Step.Good, cabort, creport, Parser.ctl, hq2, hq3, hq4, hq5, hq6, hq7,
    counted_syn, hcnt, true_and]

/-- The error token as lookahead: straight to `yyerrlab1`, without a report. -/
theorem yyerrlab1_ref (e : Int) (p : Parser) (h : p.WF e) (c : Int) :
    (yyerrlab1 { p with yychar := c }).ctl = cabort { p.ctl with yychar := c } ∧
      (yyerrlab1 { p with yychar := c }).Good e := by
  have hst := h.state_range
  obtain ⟨htop, hpar, hcap, hlim, hrng, hcalm, hcnt⟩ := h
  unfold yyerrlab1
  have hne : p.yyss ≠ [] := by
    intro h0; rw [h0] at htop; simp at htop
  obtain ⟨q, hq1, hq2, hq3, hq4, hq5, hq6, hq7⟩ := yyerrpop_ref p.yyss
    { p with yychar := c, yyerrstatus := 3 } rfl hne hpar hst hrng
  simp only at hq1 hq2 hq3 hq4 hq5 hq6 hq7 ⊢
  rw [hq1]
  simp only [Step.ctl, Step.Good, cabort, Parser.ctl, hq2, hq3, hq4, hq5, hq6, hq7, hcnt,
    true_and]

theorem yydefact_rule (s : Int) (hs : 0 ≤ s ∧ s < 179) :
    0 ≤ tget yydefact s ∧ tget yydefact s < 90 :=
  yydefact_range _ (tget_mem hs.1 (by rw [yydefact_length]; omega))

/-- The default action. -/
theorem yydefault_ref (e : Int) (p : Parser) (h : p.WF e) :
    (yydefault p).ctl = cdefault p.ctl ∧ (yydefault p).Good e := by
  have hst := h.state_range
  have hd := yydefact_rule p.yystate hst
  unfold yydefault cdefault
  rw [rd_eq_some hst.1 (by rw [yydefact_length]; omega)]
  have hh : p.ctl.yyss.headD 0 = p.yystate := h.headD
  simp only [hh]
  by_cases h0 : tget yydefact p.yystate = 0
  · rw [if_pos h0, if_pos h0]
    exact yyerrlab_ref e p h
  · rw [if_neg h0, if_neg h0]
    exact yyreduce_ref e p h _ ⟨by omega, hd.2⟩

set_option maxRecDepth 1000000 in
theorem yytable_hit_aux : ∀ i ∈ List.range 416,
    0 ≤ tget yycheck (i : Int) → 0 < tget yytable (i : Int) := by decide!

theorem yytable_hit (i : Int) (hi : 0 ≤ i ∧ i ≤ 415) (hc : 0 ≤ tget yycheck i) :
    0 < tget yytable i := by
  have h := yytable_hit_aux i.toNat (by simp; omega)
  have h2 : ((i.toNat : Nat) : Int) = i := by omega
  rw [h2] at h
  exact h hc

/-- Acting on a lookahead symbol: shift on a table hit, else the default action. -/
theorem yyaction_ref (e : Int) (p : Parser) (h : p.WF e) (t : Int) (ht : 0 ≤ t ∧ t < 47)
    (hp : tget yypact p.yystate ≠ YYPACT_NINF) :
    (yyaction p (tget yypact p.yystate) t).ctl = cact p.ctl t ∧
      (yyaction p (tget yypact p.yystate) t).Good e := by
  have hst := h.state_range
  have hh : p.ctl.yyss.headD 0 = p.yystate := h.headD
  unfold yyaction cact tshift
  simp only [hh, hp, if_false, YYLAST]
  by_cases hn : tget yypact p.yystate + t < 0 ∨ 415 < tget yypact p.yystate + t
  · rw [if_pos hn, if_pos hn]
    exact yydefault_ref e p h
  · rw [if_neg hn, if_neg hn]
    rw [rd_eq_some (by omega) (by rw [yycheck_length]; omega)]
    simp only
    by_cases hc : tget yycheck (tget yypact p.yystate + t) ≠ t
    · rw [if_pos hc, if_pos hc]
      exact yydefault_ref e p h
    · rw [if_neg hc, if_neg hc]
      rw [rd_eq_some (by omega) (by rw [yytable_length]; omega)]
      simp only
      have hc2 : tget yycheck (tget yypact p.yystate + t) = t := by
        by_contra h0; exact hc h0
      have hpos := yytable_hit (tget yypact p.yystate + t) ⟨by omega, by omega⟩
        (by rw [hc2]; exact ht.1)
      have hrg := yytable_range _ (tget_mem (i := tget yypact p.yystate + t) (by omega)
        (by rw [yytable_length]; omega))
      rw [if_neg (by omega)]
      obtain ⟨htop, hpar, hcap, hlim, hrng, hcalm, hcnt⟩ := h
      simp only [hcalm, ne_eq, not_true_eq_false, if_false]
      unfold yyvpush
      simp only [Parser.yyvsp]
      rw [if_neg (by omega)]
      simp only
      have := yynewstate_ref e { p with
          yystate := tget yytable (tget yypact p.yystate + t)
          yyvs := some p.yylval :: p.yyvs
          yyvsUp := p.yyvsUp.tail
          yychar := YYEMPTY }
        (by simp [hpar]) hcap hlim (by simpa [YYNSTATES] using hrg) hrng hcalm hcnt
      simpa [Parser.ctl, hcalm] using this

theorem yytranslate_sym (x : Int) : 0 ≤ YYTRANSLATE x ∧ YYTRANSLATE x < 47 := by
  unfold YYTRANSLATE
  simp only [YYMAXUTOK, YYSYMBOL_YYUNDEF]
  split
  · rename_i h
    have h2 : x.toNat < yytranslate.length := by rw [yytranslate_length]; omega
    apply yytranslate_range
    rw [List.getD_eq_getElem _ _ h2]
    exact List.getElem_mem _
  · omega

theorem yylex_ctl (p : Parser) : (yylex p).ctl = clex p.ctl := by
  unfold yylex clex
  simp only [Parser.ctl]
  cases p.input <;> simp

theorem yylex_wf (e : Int) (p : Parser) (h : p.WF e) : (yylex p).WF e := by
  obtain ⟨htop, hpar, hcap, hlim, hrng, hcalm, hcnt⟩ := h
  unfold yylex
  cases p.input <;> exact ⟨htop, hpar, hcap, hlim, hrng, hcalm, hcnt⟩

theorem yychar_wf (e : Int) (p : Parser) (h : p.WF e) (c : Int) :
    ({ p with yychar := c } : Parser).WF e := by
  obtain ⟨htop, hpar, hcap, hlim, hrng, hcalm, hcnt⟩ := h
  exact ⟨htop, hpar, hcap, hlim, hrng, hcalm, hcnt⟩

/-- One action of the parser on a well-formed state is one action on its control view, and
leaves a well-formed state. -/
theorem yybackup_ref (e : Int) (p : Parser) (h : p.WF e) :
    (yybackup p).ctl = cstep p.ctl ∧ (yybackup p).Good e := by
  have hst := h.state_range
  have hh : p.ctl.yyss.headD 0 = p.yystate := h.headD
  unfold yybackup cstep
  rw [rd_eq_some hst.1 (by rw [yypact_length]; omega)]
  simp only [hh]
  by_cases hp : tget yypact p.yystate = YYPACT_NINF
  · rw [if_pos hp, if_pos hp]
    exact yydefault_ref e p h
  · rw [if_neg hp, if_neg hp]
    have key : ∀ q : Parser, q.WF e → q.yystate = p.yystate →
        ((if q.yychar ≤ YYEOF then
            yyaction { q with yychar := YYEOF } (tget yypact p.yystate) YYSYMBOL_YYEOF
          else if q.yychar = YYerror then yyerrlab1 { q with yychar := YYUNDEF }
          else yyaction q (tget yypact p.yystate) (YYTRANSLATE q.yychar)).ctl =
          (if q.ctl.yychar ≤ YYEOF then cact { q.ctl with yychar := YYEOF } YYSYMBOL_YYEOF
          else if q.ctl.yychar = YYerror then cabort { q.ctl with yychar := YYUNDEF }
          else cact q.ctl (YYTRANSLATE q.ctl.yychar))) ∧
        (if q.yychar ≤ YYEOF then
            yyaction { q with yychar := YYEOF } (tget yypact p.yystate) YYSYMBOL_YYEOF
          else if q.yychar = YYerror then yyerrlab1 { q with yychar := YYUNDEF }
          else yyaction q (tget yypact p.yystate) (YYTRANSLATE q.yychar)).Good e := by
      intro q hq hqs
      have hqc : q.ctl.yychar = q.yychar := rfl
      rw [hqc]
      by_cases h1 : q.yychar ≤ YYEOF
      · rw [if_pos h1, if_pos h1]
        have := yyaction_ref e { q with yychar := YYEOF } (yychar_wf e q hq _) YYSYMBOL_YYEOF
          (by simp [YYSYMBOL_YYEOF]) (by simpa [hqs] using hp)
        simpa [hqs, Parser.ctl] using this
      · rw [if_neg h1, if_neg h1]
        by_cases h2 : q.yychar = YYerror
        · rw [if_pos h2, if_pos h2]
          exact yyerrlab1_ref e q hq _
        · rw [if_neg h2, if_neg h2]
          have := yyaction_ref e q hq (YYTRANSLATE q.yychar) (yytranslate_sym _)
            (by simpa [hqs] using hp)
          simpa [hqs] using this
    by_cases hc : p.yychar = YYEMPTY
    · have hcc : p.ctl.yychar = YYEMPTY := hc
      simp only [hc, hcc, if_true]
      have := key (yylex p) (yylex_wf e p h) (by unfold yylex; cases p.input <;> rfl)
      rw [yylex_ctl] at this
      exact this
    · have hcc : ¬ p.ctl.yychar = YYEMPTY := hc
      simp only [hc, hcc, if_false]
      exact key p h rfl

/-- Running the loop is running it on the control view. -/
theorem yyloop_ref (e : Int) (n : Nat) : ∀ p : Parser, p.WF e →
    (yyloop n p).ctl = crun n p.ctl ∧ (yyloop n p).Good e := by
  induction n with
  | zero => intro p h; exact ⟨rfl, h⟩
  | succ n ih =>
    intro p h
    obtain ⟨h1, h2⟩ := yybackup_ref e p h
    unfold yyloop crun
    rw [← h1]
    cases hb : yybackup p with
    | next q =>
      rw [hb] at h2
      simpa [Step.ctl] using ih q h2
    | ret r q =>
      rw [hb] at h2
      exact ⟨rfl, h2⟩
    | fault q => exact ⟨rfl, trivial⟩

theorem yyinit_step (g : Globals) (toks : List Token) :
    yysetstate (yyinit g toks) = .next (yyinit g toks) := by
  simp [yysetstate, yyinit, Parser.yyssp, YYINITDEPTH, YYMAXDEPTH, YYFINAL, yyacceptlab]

theorem yyinit_wf (g : Globals) (toks : List Token) : (yyinit g toks).WF g.yynerrs := by
  refine ⟨rfl, rfl, ?_, ?_, ?_, rfl, ?_⟩
  · simp [yyinit, YYINITDEPTH]
  · simp [yyinit, YYINITDEPTH, YYMAXDEPTH]
  · intro s hs
    simp [yyinit] at hs
    simp [hs, YYNSTATES]
  · simp [yyinit, counted_nil]

/-- The parser acts on the control view alone: its run is the run of `crun` from the initial
control state, whatever the globals held. -/
theorem yyparseFuel_ref (n : Nat) (g : Globals) (toks : List Token) :
    (yyparseFuel n g toks).ctl = crun n (cinit (toks.map Token.code)) ∧
      (yyparseFuel n g toks).Good g.yynerrs := by
  unfold yyparseFuel
  rw [yyinit_step]
  exact yyloop_ref g.yynerrs n _ (yyinit_wf g toks)

theorem yyparse_ref (g : Globals) (toks : List Token) :
    (yyparse g toks).ctl = crun (5 * toks.length + 5) (cinit (toks.map Token.code)) ∧
      (yyparse g toks).Good g.yynerrs :=
  yyparseFuel_ref _ g toks

theorem Step.result_ctl (s : Step) : s.ctl.result = s.result := by
  cases s <;> rfl

theorem Step.yyerrs_ctl (s : Step) (h : s.result ≠ none) : s.ctl.yyerrs = s.parser.yyerrs := by
  cases s <;> simp_all [Step.ctl, CStep.yyerrs, Step.parser, Parser.ctl, Step.result]

set_option linter.constructorNameAsVariable false in
/-- What `yyparse` returns and reports is read off the run of the control view. -/
theorem yyparse_eval (g : Globals) (toks : List Token) (codes : List Int)
    (h : toks.map Token.code = codes) (r : Int) (errs : List Report)
    (hrun : (crun (5 * codes.length + 5) (cinit codes)).result = some r ∧
      (crun (5 * codes.length + 5) (cinit codes)).yyerrs = errs) :
    (yyparse g toks).result = some r ∧ (yyparse g toks).parser.yyerrs = errs ∧
      (yyparse g toks).parser.yynerrs = counted g.yynerrs errs := by
  obtain ⟨h1, h2⟩ := yyparse_ref g toks
  have hlen : toks.length = codes.length := by rw [← h]; simp
  rw [h, hlen] at h1
  obtain ⟨hr, he⟩ := hrun
  rw [← h1] at hr he
  cases hs : yyparse g toks with
  | next q => rw [hs] at hr; simp [Step.ctl, CStep.result] at hr
  | fault q => rw [hs] at hr; simp [Step.ctl, CStep.result] at hr
  | ret r2 q =>
    rw [hs] at hr he h2
    simp only [Step.ctl, CStep.result, CStep.yyerrs, Parser.ctl, Option.some.injEq] at hr he
    simp only [Step.Good] at h2
    simp [Step.result, Step.parser, hr, he, h2]

/-! ## The stack is a path of the automaton -/

set_option maxRecDepth 1000000 in
theorem reduce_edge : ∀ s ∈ List.range 179, reduceOk (s : Int) = true := by decide!

set_option maxRecDepth 1000000 in
theorem shift_edge : ∀ s ∈ List.range 179, ∀ t ∈ List.range 47,
    shiftOk (s : Int) (t : Int) = true := by decide!

set_option maxRecDepth 1000000 in
theorem yypred_range_aux : ∀ s ∈ List.range 179, ∀ e ∈ yypreds (s : Int), 0 ≤ e ∧ e < 179 := by
  decide!

set_option maxRecDepth 1000000 in
theorem yyrank_range_aux : ∀ s ∈ List.range 179,
    0 ≤ yyrank (s : Int) ∧ yyrank (s : Int) ≤ 3 := by decide!

set_option maxRecDepth 1000000 in
theorem yypredT_size : yypredT.ok = true ∧ yypredT.toList.length = 179 := by decide!

set_option maxRecDepth 1000000 in
theorem yyrankT_size : yyrankT.ok = true ∧ yyrankT.toList.length = 179 := by decide!

theorem int_of_range {P : Int → Prop} {n : Nat} (h : ∀ s ∈ List.range n, P (s : Int))
    (x : Int) (h0 : 0 ≤ x) (h1 : x < n) : P x := by
  have := h x.toNat (by simp; omega)
  have h2 : ((x.toNat : Nat) : Int) = x := by omega
  rwa [h2] at this

theorem yypreds_out (s : Int) (h : ¬ (0 ≤ s ∧ s < 179)) : yypreds s = [] := by
  unfold yypreds
  split
  · rw [Tbl.get_eq [] yypredT yypredT_size.1]
    apply List.getD_eq_default
    rw [yypredT_size.2]; omega
  · rfl

theorem yyrank_range (s : Int) : 0 ≤ yyrank s ∧ yyrank s ≤ 3 := by
  by_cases h : 0 ≤ s ∧ s < 179
  · exact int_of_range (P := fun s => 0 ≤ yyrank s ∧ yyrank s ≤ 3) yyrank_range_aux s h.1
      (by simpa using h.2)
  · unfold yyrank
    split
    · rw [Tbl.get_eq 0 yyrankT yyrankT_size.1, List.getD_eq_default]
      · simp
      · rw [yyrankT_size.2]; omega
    · simp

theorem yypreds_range {s e : Int} (h : e ∈ yypreds s) :
    (0 ≤ e ∧ e < 179) ∧ (0 ≤ s ∧ s < 179) := by
  by_cases hs : 0 ≤ s ∧ s < 179
  · exact ⟨int_of_range (P := fun s => ∀ e ∈ yypreds s, 0 ≤ e ∧ e < 179) yypred_range_aux s hs.1
      (by simpa using hs.2) e h, hs⟩
  · rw [yypreds_out s hs] at h; simp at h

theorem Path.ne_nil {ss : List Int} (h : Path ss) : ss ≠ [] := by
  intro h0; rw [h0] at h; exact h

theorem Path.range : ∀ {ss : List Int}, Path ss → ∀ s ∈ ss, 0 ≤ s ∧ s < 179
  | [], h, _, _ => absurd h (by simp [Path])
  | [a], h, s, hs => by
    simp only [Path] at h
    simp only [List.mem_singleton] at hs
    omega
  | a :: e :: rest, h, s, hs => by
    simp only [Path] at h
    rcases List.mem_cons.1 hs with rfl | hs
    · exact (yypreds_range h.1).2
    · exact Path.range h.2 s hs

theorem Path.drop : ∀ (k : Nat) {ss : List Int}, Path ss → k < ss.length → Path (ss.drop k)
  | 0, _, h, _ => by simpa using h
  | k + 1, [], h, _ => absurd h (by simp [Path])
  | k + 1, [a], _, hk => by simp at hk
  | k + 1, a :: e :: rest, h, hk => by
    simp only [Path] at h
    simp only [List.drop_succ_cons]
    exact Path.drop k h.2 (by simpa using hk)

theorem Path.back : ∀ (k : Nat) {ss : List Int}, Path ss → ∀ (hk : k < ss.length),
    ss[k] ∈ yyback k (ss.headD 0)
  | 0, [], h, _ => absurd h (by simp [Path])
  | 0, a :: rest, _, _ => by simp [yyback]
  | k + 1, ss, h, hk => by
    have ih := Path.back k h (by omega)
    simp only [yyback, List.mem_flatMap]
    refine ⟨ss[k], ih, ?_⟩
    have hd := Path.drop k h (by omega)
    have e1 : ss.drop k = ss[k] :: ss[k + 1] :: ss.drop (k + 2) := by
      rw [List.drop_eq_getElem_cons (by omega), List.drop_eq_getElem_cons (by omega)]
    rw [e1] at hd
    exact hd.1

theorem Path.bottom : ∀ {ss : List Int}, Path ss → ss[ss.length - 1]? = some 0
  | [], h => absurd h (by simp [Path])
  | [a], h => by simp only [Path] at h; simp [h]
  | a :: e :: rest, h => by
    simp only [Path] at h
    have := Path.bottom h.2
    simpa using this

theorem Path.top_range {ss : List Int} (hp : Path ss) :
    0 ≤ ss.headD 0 ∧ ss.headD 0 < 179 := by
  cases hss : ss with
  | nil => rw [hss] at hp; exact absurd hp (by simp [Path])
  | cons a l => exact hp.range a (by rw [hss]; simp)

theorem Ctl.Inv.head_range {c : Ctl} (h : c.Inv) :
    0 ≤ c.yyss.headD 0 ∧ c.yyss.headD 0 < 179 := h.path.top_range

/-- A reduction in a state on top of a path: the stack is deep enough, and the path
continues through the goto target, whose rank lets the measure drop. -/
theorem creduce_spec (ss : List Int) (hp : Path ss) (hnf : ss.headD 0 ≠ YYFINAL)
    (hr : tget yydefact (ss.headD 0) ≠ 0) :
    ∃ g : Int, (tget yyr2 (tget yydefact (ss.headD 0))).toNat < ss.length ∧
      Path (g :: ss.drop (tget yyr2 (tget yydefact (ss.headD 0))).toNat) ∧
      yyrank g + 2 ≤ yyrank (ss.headD 0) +
        ((tget yyr2 (tget yydefact (ss.headD 0))).toNat : Int) ∧
      ∀ c : Ctl, c.yyss = ss → creduce c (tget yydefact (ss.headD 0)) =
        cpush { c with yyss := ss.drop (tget yyr2 (tget yydefact (ss.headD 0))).toNat } g := by
  have hs := hp.top_range
  have hok := int_of_range (P := fun s => reduceOk s = true) reduce_edge _ hs.1
    (by simpa using hs.2)
  unfold reduceOk at hok
  simp only [Bool.or_eq_true, beq_iff_eq, Bool.and_eq_true, List.all_eq_true, List.mem_range,
    Bool.not_eq_true', decide_eq_true_eq] at hok
  rcases hok with (h0 | h3) | ⟨ha, hb⟩
  · exact absurd h0 hr
  · exact absurd h3 hnf
  · generalize hk : (tget yyr2 (tget yydefact (ss.headD 0))).toNat = k at ha hb ⊢
    have hlen : k < ss.length := by
      by_contra hcon
      have hne := hp.ne_nil
      have hl : 0 < ss.length := List.length_pos.2 hne
      have hj : ss.length - 1 < k := by omega
      have h1 := ha _ hj
      have h2 := hp.back (ss.length - 1) (by omega)
      have h3 := hp.bottom
      rw [List.getElem?_eq_getElem (by omega)] at h3
      simp only [Option.some.injEq] at h3
      rw [h3] at h2
      have : (yyback (ss.length - 1) (ss.headD 0)).contains 0 = true := by
        simpa using h2
      rw [h1] at this
      exact Bool.noConfusion this
    have he := hp.back k hlen
    obtain ⟨hpred, hrank⟩ := hb _ he
    have hdrop : ss.drop k = ss[k] :: ss.drop (k + 1) :=
      List.drop_eq_getElem_cons hlen
    refine ⟨tgoto ss[k] (tget yyr1 (tget yydefact (ss.headD 0)) - YYNTOKENS),
      hlen, ?_, hrank, ?_⟩
    · have hd := hp.drop k hlen
      rw [hdrop] at hd ⊢
      exact ⟨by simpa using hpred, hd⟩
    · intro c hc
      unfold creduce
      simp only [hk, hc]
      rw [if_neg (by omega)]
      rw [hdrop]
      rfl

set_option maxRecDepth 100000 in
theorem yytranslate_eof : YYTRANSLATE 0 = 0 := by decide!

/-- The action of `cstep` in terms of the held lookahead. -/
theorem cstep_eq (c : Ctl) :
    cstep c =
      if tget yypact (c.yyss.headD 0) = YYPACT_NINF then cdefault c
      else if (cpeek c).yychar = YYerror then cabort { cpeek c with yychar := YYUNDEF }
      else cact (cpeek c) (YYTRANSLATE (cpeek c).yychar) := by
  unfold cstep cpeek
  split
  · rfl
  · simp only
    generalize (if c.yychar = YYEMPTY then clex c else c) = c1
    simp only [YYEOF, YYerror, YYSYMBOL_YYEOF]
    by_cases h1 : c1.yychar ≤ 0
    · simp only [h1, if_true]
      simp [yytranslate_eof]
    · simp only [h1, if_false]

theorem clex_yyss (c : Ctl) : (clex c).yyss = c.yyss := by
  unfold clex; cases c.input <;> rfl

theorem clex_yyerrs (c : Ctl) : (clex c).yyerrs = c.yyerrs := by
  unfold clex; cases c.input <;> rfl

theorem cpeek_yyss (c : Ctl) : (cpeek c).yyss = c.yyss := by
  unfold cpeek
  simp only
  split <;> split <;> simp [clex_yyss]

theorem cpeek_yyerrs (c : Ctl) : (cpeek c).yyerrs = c.yyerrs := by
  unfold cpeek
  simp only
  split <;> split <;> simp [clex_yyerrs]

theorem cpeek_yychar (c : Ctl) : 0 ≤ (cpeek c).yychar := by
  unfold cpeek
  simp only
  generalize (if c.yychar = YYEMPTY then clex c else c) = c1
  simp only [YYEOF]
  by_cases h1 : c1.yychar ≤ 0
  · simp only [h1, if_true]; exact le_refl _
  · simp only [h1, if_false]; omega

theorem cpeek_todo (c : Ctl) : (cpeek c).todo ≤ c.todo := by
  unfold cpeek clex Ctl.todo
  simp only [YYEMPTY, YYEOF]
  by_cases h : c.yychar = -2
  · simp only [h, if_true]
    cases hi : c.input with
    | nil => simp
    | cons a rest =>
      simp only [List.length_cons]
      by_cases ha : a ≤ 0
      · simp [ha]
      · simp only [ha, if_false]; split <;> omega
  · simp only [h, if_false]
    by_cases ha : c.yychar ≤ 0
    · simp [ha]
    · simp [ha]

/-- Case analysis of one action on a state that satisfies the invariant: a shift of a real
token, the shift of end of input into the final state, a reduction, a syntax error, or the
error token. -/
theorem cstep_cases (c : Ctl) (h : c.Inv) (Q : CStep → Prop)
    (hshift : ∀ v : Int, 0 < (cpeek c).yychar → Path (v :: c.yyss) →
      Q (cpush { cpeek c with yychar := YYEMPTY } v))
    (hfinal : (cpeek c).yychar = 0 → Path (YYFINAL :: c.yyss) →
      Q (cpush { cpeek c with yychar := YYEMPTY } YYFINAL))
    (hreduce : ∀ (c1 : Ctl) (k : Nat) (g : Int), c1 = c ∨ c1 = cpeek c → k < c.yyss.length →
      Path (g :: c.yyss.drop k) → yyrank g + 2 ≤ yyrank (c.yyss.headD 0) + (k : Int) →
      Q (cpush { c1 with yyss := c.yyss.drop k } g))
    (herror : ∀ c1 : Ctl, c1 = c ∨ c1 = cpeek c → Q (cabort (creport c1 "syntax error")))
    (herrtok : (cpeek c).yychar = YYerror → Q (cabort { cpeek c with yychar := YYUNDEF })) :
    Q (cstep c) := by
  have hs := h.head_range
  -- the default action, on `c` itself or on `cpeek c`
  have hdef : ∀ c1 : Ctl, c1 = c ∨ c1 = cpeek c → Q (cdefault c1) := by
    intro c1 hc1
    have hss : c1.yyss = c.yyss := by
      rcases hc1 with rfl | rfl
      · rfl
      · exact cpeek_yyss c
    unfold cdefault
    rw [hss]
    by_cases h0 : tget yydefact (c.yyss.headD 0) = 0
    · rw [if_pos h0]; exact herror c1 hc1
    · rw [if_neg h0]
      obtain ⟨g, hlen, hpath, hrank, heq⟩ := creduce_spec c.yyss h.path h.nofinal h0
      rw [heq c1 hss]
      exact hreduce c1 _ g hc1 hlen hpath hrank
  rw [cstep_eq]
  by_cases hp : tget yypact (c.yyss.headD 0) = YYPACT_NINF
  · rw [if_pos hp]; exact hdef c (Or.inl rfl)
  · rw [if_neg hp]
    by_cases he : (cpeek c).yychar = YYerror
    · rw [if_pos he]; exact herrtok he
    · rw [if_neg he]
      unfold cact
      have hh : (cpeek c).yyss.headD 0 = c.yyss.headD 0 := by rw [cpeek_yyss]
      rw [hh]
      have ht := yytranslate_sym (cpeek c).yychar
      have hok : ∀ t ∈ List.range 47, shiftOk (c.yyss.headD 0) (t : Int) = true :=
        int_of_range (P := fun s => ∀ t ∈ List.range 47, shiftOk s (t : Int) = true)
          shift_edge _ hs.1 (by simpa using hs.2)
      have hok2 : shiftOk (c.yyss.headD 0) (YYTRANSLATE (cpeek c).yychar) = true :=
        int_of_range (P := fun t => shiftOk (c.yyss.headD 0) t = true) hok _ ht.1
          (by simpa using ht.2)
      unfold shiftOk at hok2
      cases hsh : tshift (c.yyss.headD 0) (YYTRANSLATE (cpeek c).yychar) with
      | none => exact hdef _ (Or.inr rfl)
      | some v =>
        rw [hsh] at hok2
        simp only [Bool.and_eq_true, Bool.or_eq_true, bne_iff_ne, ne_eq, beq_iff_eq] at hok2
        have hpath : Path (v :: c.yyss) := by
          have hp := h.path
          cases hss : c.yyss with
          | nil => rw [hss] at hp; exact absurd hp (by simp [Path])
          | cons a l =>
            rw [hss] at hp hok2
            exact ⟨by simpa using hok2.1, hp⟩
        simp only
        have hc := cpeek_yychar c
        by_cases h0 : (cpeek c).yychar = 0
        · rw [h0, yytranslate_eof] at hok2
          have hv : v = YYFINAL := by
            rcases hok2.2 with h1 | h1
            · exact absurd rfl h1
            · exact h1
          rw [hv] at hpath ⊢
          exact hfinal h0 hpath
        · exact hshift v (by omega) hpath

theorem cpush_post (c c1 : Ctl) (v : Int) (hq : c1.yyerrs = [])
    (hpath : Path (v :: c1.yyss)) (hdepth : (c1.yyss.length : Int) + 1 ≤ YYMAXDEPTH)
    (hm : 5 * (c1.todo : Int) + ((c1.yyss.length : Int) + 1) + yyrank v < c.measure) :
    (cpush c1 v).Post c := by
  unfold cpush
  simp only [YYMAXDEPTH, List.length_cons] at hdepth ⊢
  by_cases h1 : (10000 : Int) ≤ ((c1.yyss.length + 1 : Nat) : Int)
  · rw [if_pos h1]
    show Ctl.Final 2 _
    right; right
    refine ⟨rfl, ?_, ?_⟩
    · simp only [creport, List.length_cons, YYMAXDEPTH]; push_cast at h1 ⊢; omega
    · simp [creport, hq]
  · rw [if_neg h1]
    by_cases h2 : v = YYFINAL
    · rw [if_pos h2]
      show Ctl.Final 0 _
      left
      refine ⟨rfl, hq, h2, ?_⟩
      simp only [List.length_cons, YYMAXDEPTH]; push_cast at h1 ⊢; omega
    · rw [if_neg h2]
      show Ctl.Inv _ ∧ _
      refine ⟨⟨hpath, by simpa using h2, ?_, hq⟩, ?_⟩
      · simp only [List.length_cons, YYMAXDEPTH]; push_cast at h1 ⊢; omega
      · simp only [Ctl.measure, Ctl.todo, List.length_cons, List.headD_cons] at hm ⊢
        push_cast at hm ⊢
        omega

theorem cabort_post (c c1 : Ctl) (hne : c1.yyss ≠ [])
    (herrs : c1.yyerrs = [{ msg := "syntax error", lexed := c1.lexed, held := c1.yychar }] ∨
      (c1.yyerrs = [] ∧ c1.yychar = YYUNDEF)) :
    (cabort c1).Post c := by
  unfold cabort
  show Ctl.Final 1 _
  right; left
  refine ⟨rfl, ?_, herrs⟩
  have : 0 < c1.yyss.length := List.length_pos.2 hne
  simp only [List.length_drop]
  omega

/-- One action from a state that satisfies the invariant: the next state satisfies it and
has a smaller measure; a run that ends, ends in one of the three ways of `Ctl.Final`; and
nothing is accessed out of range. -/
theorem cstep_post (c : Ctl) (h : c.Inv) : (cstep c).Post c := by
  have hne := h.path.ne_nil
  have hlen : 0 < c.yyss.length := List.length_pos.2 hne
  have hdep := h.depth
  have hrk := yyrank_range (c.yyss.headD 0)
  have htodo := cpeek_todo c
  apply cstep_cases c h
  · -- shift of a real token
    intro v hpos hpath
    have hrv := yyrank_range v
    apply cpush_post
    · simp [cpeek_yyerrs, h.quiet]
    · simpa [cpeek_yyss] using hpath
    · simp only [cpeek_yyss]; omega
    · have h1 : (cpeek c).todo = (cpeek c).input.length + 1 := by
        simp [Ctl.todo, hpos]
      have hd : ({ cpeek c with yychar := YYEMPTY } : Ctl).todo = (cpeek c).input.length := by
        simp [Ctl.todo, YYEMPTY]
      rw [hd]
      unfold Ctl.measure
      simp only [cpeek_yyss]
      omega
  · -- shift of end of input
    intro h0 hpath
    have hrv := yyrank_range YYFINAL
    unfold cpush
    simp only [cpeek_yyss, List.length_cons, YYMAXDEPTH] at hdep ⊢
    by_cases h1 : (10000 : Int) ≤ ((c.yyss.length + 1 : Nat) : Int)
    · rw [if_pos h1]
      show Ctl.Final 2 _
      right; right
      refine ⟨rfl, ?_, ?_⟩
      · simp only [creport, List.length_cons, YYMAXDEPTH]; push_cast at h1 ⊢; omega
      · simp [creport, cpeek_yyerrs, h.quiet]
    · rw [if_neg h1]
      simp only [if_true]
      show Ctl.Final 0 _
      left
      refine ⟨rfl, ?_, rfl, ?_⟩
      · simp [cpeek_yyerrs, h.quiet]
      · simp only [List.length_cons, YYMAXDEPTH]; push_cast at h1 ⊢; omega
  · -- reduction
    intro c1 k g hc1 hk hpath hrank
    have hq : c1.yyerrs = [] := by
      rcases hc1 with rfl | rfl
      · exact h.quiet
      · rw [cpeek_yyerrs]; exact h.quiet
    have ht : c1.todo ≤ c.todo := by
      rcases hc1 with rfl | rfl
      · exact le_refl _
      · exact htodo
    apply cpush_post
    · exact hq
    · exact hpath
    · simp only [List.length_drop]; omega
    · have hd : ({ c1 with yyss := c.yyss.drop k } : Ctl).todo = c1.todo := rfl
      rw [hd]
      unfold Ctl.measure
      simp only [List.length_drop]
      omega
  · -- syntax error
    intro c1 hc1
    apply cabort_post
    · rcases hc1 with rfl | rfl
      · simpa [creport] using hne
      · simpa [creport, cpeek_yyss] using hne
    · left
      rcases hc1 with rfl | rfl
      · simp [creport, h.quiet]
      · simp [creport, cpeek_yyerrs, h.quiet]
  · -- the error token
    intro _
    apply cabort_post
    · simpa [cpeek_yyss] using hne
    · right
      simp [cpeek_yyerrs, h.quiet]

theorem Ctl.Inv.measure_pos {c : Ctl} (h : c.Inv) : 0 < c.measure := by
  have hlen : 0 < c.yyss.length := List.length_pos.2 h.path.ne_nil
  have hrk := yyrank_range (c.yyss.headD 0)
  unfold Ctl.measure
  omega

/-- A run with at least as much fuel as the measure ends, in one of the three ways. -/
theorem crun_final (n : Nat) : ∀ c : Ctl, c.Inv → c.measure ≤ n →
    ∃ r d, crun n c = .ret r d ∧ d.Final r := by
  induction n with
  | zero =>
    intro c h hm
    have := h.measure_pos
    omega
  | succ n ih =>
    intro c h hm
    have hp := cstep_post c h
    unfold crun
    cases hs : cstep c with
    | next d =>
      rw [hs] at hp
      obtain ⟨hd, hlt⟩ := hp
      exact ih d hd (by omega)
    | ret r d =>
      rw [hs] at hp
      exact ⟨r, d, rfl, hp⟩
    | fault =>
      rw [hs] at hp
      exact absurd hp (by simp [CStep.Post])

/-- More fuel does not change a run that has ended. -/
theorem crun_mono (n m : Nat) (hnm : n ≤ m) : ∀ (c : Ctl) (r : Int) (d : Ctl),
    crun n c = .ret r d → crun m c = .ret r d := by
  induction n generalizing m with
  | zero => intro c r d h; simp [crun] at h
  | succ n ih =>
    intro c r d h
    obtain ⟨m', rfl⟩ : ∃ m', m = m' + 1 := ⟨m - 1, by omega⟩
    unfold crun at h ⊢
    cases hs : cstep c with
    | next e =>
      rw [hs] at h
      simp only at h ⊢
      exact ih m' (by omega) e r d h
    | ret r' d' =>
      rw [hs] at h
      exact h
    | fault =>
      rw [hs] at h
      simp at h

theorem yyloop_mono (n m : Nat) (hnm : n ≤ m) : ∀ (p : Parser) (r : Int) (q : Parser),
    yyloop n p = .ret r q → yyloop m p = .ret r q := by
  induction n generalizing m with
  | zero => intro p r q h; simp [yyloop] at h
  | succ n ih =>
    intro p r q h
    obtain ⟨m', rfl⟩ : ∃ m', m = m' + 1 := ⟨m - 1, by omega⟩
    unfold yyloop at h ⊢
    cases hs : yybackup p with
    | next e =>
      rw [hs] at h
      simp only at h ⊢
      exact ih m' (by omega) e r q h
    | ret r' d' =>
      rw [hs] at h
      exact h
    | fault e =>
      rw [hs] at h
      simp at h

set_option maxRecDepth 100000 in
theorem yyrank_zero : yyrank 0 = 3 := by decide!

theorem cinit_inv (codes : List Int) : (cinit codes).Inv := by
  refine ⟨?_, ?_, ?_, rfl⟩
  · simp [cinit, Path]
  · simp [cinit, YYFINAL]
  · simp [cinit, YYMAXDEPTH]

theorem cinit_measure (codes : List Int) : (cinit codes).measure = 5 * codes.length + 4 := by
  simp [Ctl.measure, Ctl.todo, cinit, YYEMPTY, yyrank_zero]
  ring

/-- Every run of the control view from the initial state ends within the fuel of `yyparse`. -/
theorem crun_cinit (codes : List Int) :
    ∃ r d, crun (5 * codes.length + 5) (cinit codes) = .ret r d ∧ d.Final r :=
  crun_final _ _ (cinit_inv codes) (by rw [cinit_measure]; push_cast; omega)

set_option linter.constructorNameAsVariable false in
/-- The parser always reaches `yyreturnlab`, in one of the three ways of `Ctl.Final`, with
`yynerrs` equal to its value on entry plus the number of syntax errors reported. -/
theorem yyparse_final (g : Globals) (toks : List Token) :
    ∃ r q, yyparse g toks = .ret r q ∧ q.ctl.Final r ∧
      q.yynerrs = counted g.yynerrs q.yyerrs ∧
      crun (5 * toks.length + 5) (cinit (toks.map Token.code)) = .ret r q.ctl := by
  obtain ⟨h1, h2⟩ := yyparse_ref g toks
  obtain ⟨r, d, hrun, hfin⟩ := crun_cinit (toks.map Token.code)
  rw [List.length_map] at hrun
  rw [hrun] at h1
  cases hs : yyparse g toks with
  | next q => rw [hs] at h1; simp [Step.ctl] at h1
  | fault q => rw [hs] at h1; simp [Step.ctl] at h1
  | ret r2 q =>
    rw [hs] at h1 h2
    simp only [Step.ctl, CStep.ret.injEq] at h1
    obtain ⟨rfl, rfl⟩ := h1
    exact ⟨r2, q, rfl, hfin, h2, hrun⟩

/-! ## Symbolic steps of the control view -/

theorem Ends.of_next {c d : Ctl} {r : Int} (h : cstep c = .next d) (hd : Ends d r) :
    Ends c r := by
  obtain ⟨n, e, he⟩ := hd
  exact ⟨n + 1, e, by simp [crun, h, he]⟩

theorem Ends.of_ret {c d : Ctl} {r : Int} (h : cstep c = .ret r d) : Ends c r :=
  ⟨1, d, by simp [crun, h]⟩

theorem Ends.unique {c : Ctl} {r r' : Int} (h : Ends c r) (h' : Ends c r') : r = r' := by
  obtain ⟨n, d, hn⟩ := h
  obtain ⟨m, e, hm⟩ := h'
  have h1 := crun_mono n (max n m) (le_max_left _ _) c r d hn
  have h2 := crun_mono m (max n m) (le_max_right _ _) c r' e hm
  rw [h1] at h2
  simp only [CStep.ret.injEq] at h2
  exact h2.1

theorem cpush_next {c : Ctl} {v : Int} (hlen : (c.yyss.length : Int) + 1 < 10000)
    (hv : v ≠ 3) : cpush c v = .next { c with yyss := v :: c.yyss } := by
  unfold cpush
  simp only [YYMAXDEPTH, YYFINAL, List.length_cons]
  rw [if_neg (by push_cast; omega), if_neg hv]

theorem cpush_full {c : Ctl} {v : Int} (hlen : 10000 ≤ (c.yyss.length : Int) + 1) :
    cpush c v = .ret 2 (creport { c with yyss := v :: c.yyss } "memory exhausted") := by
  unfold cpush
  simp only [YYMAXDEPTH, List.length_cons]
  rw [if_pos (by push_cast; omega)]

theorem cpush_accept {c : Ctl} (hlen : (c.yyss.length : Int) + 1 < 10000) :
    cpush c 3 = .ret 0 { c with yyss := 3 :: c.yyss } := by
  unfold cpush
  simp only [YYMAXDEPTH, YYFINAL, List.length_cons]
  rw [if_neg (by push_cast; omega)]
  simp

theorem tshift_pact {s t v : Int} (h : tshift s t = some v) : tget yypact s ≠ YYPACT_NINF := by
  intro h0
  simp [tshift, h0] at h

/-- Shift of a freshly fetched token. -/
theorem cstep_shift {c : Ctl} {s : Int} {u : List Int} {a : Int} {w : List Int} {v : Int}
    (hss : c.yyss = s :: u) (hc : c.yychar = YYEMPTY) (hin : c.input = a :: w)
    (ha : 0 < a ∧ a ≠ 256) (hsh : tshift s (YYTRANSLATE a) = some v) :
    cstep c = cpush { c with input := w, lexed := c.lexed + 1, yychar := YYEMPTY } v := by
  have hp := tshift_pact hsh
  have hpk : cpeek c = { c with input := w, lexed := c.lexed + 1, yychar := a } := by
    unfold cpeek clex
    simp only [hc, if_true, hin, YYEOF]
    rw [if_neg (by omega)]
  rw [cstep_eq]
  simp only [hss, List.headD_cons]
  rw [if_neg hp, hpk]
  simp only [YYerror]
  rw [if_neg ha.2]
  unfold cact
  simp only [hss, List.headD_cons, hsh]

/-- The default reduction of a state that consults no lookahead. -/
theorem cstep_reduce {c : Ctl} {s : Int} {u : List Int} {r : Int} {k : Nat}
    (hss : c.yyss = s :: u) (hp : tget yypact s = YYPACT_NINF)
    (hr : tget yydefact s = r) (hr0 : r ≠ 0) (hk : (tget yyr2 r).toNat = k)
    (hlen : k ≤ u.length) :
    cstep c = cpush { c with yyss := (s :: u).drop k }
      (tgoto (((s :: u).drop k).headD 0) (tget yyr1 r - YYNTOKENS)) := by
  rw [cstep_eq]
  simp only [hss, List.headD_cons]
  rw [if_pos hp]
  unfold cdefault creduce
  simp only [hss, List.headD_cons, hr, hk, List.length_cons]
  rw [if_neg hr0, if_neg (by omega)]

/-- At the end of the input, in a state that has no action on end of input but a default
reduction. -/
theorem cstep_eof_reduce {c : Ctl} {s : Int} {u : List Int} {r : Int} {k : Nat}
    (hss : c.yyss = s :: u) (hc : c.yychar = YYEMPTY) (hin : c.input = [])
    (hp : tget yypact s ≠ YYPACT_NINF) (hsh : tshift s 0 = none)
    (hr : tget yydefact s = r) (hr0 : r ≠ 0) (hk : (tget yyr2 r).toNat = k)
    (hlen : k ≤ u.length) :
    cstep c = cpush { c with lexed := c.lexed + 1, yychar := 0, yyss := (s :: u).drop k }
      (tgoto (((s :: u).drop k).headD 0) (tget yyr1 r - YYNTOKENS)) := by
  have hpk : cpeek c = { c with lexed := c.lexed + 1, yychar := 0 } := by
    unfold cpeek clex
    simp only [hc, if_true, hin, YYEOF]
    rw [if_pos (le_refl _)]
  rw [cstep_eq]
  simp only [hss, List.headD_cons]
  rw [if_neg hp, hpk]
  simp only [YYerror]
  rw [if_neg (by omega)]
  unfold cact
  simp only [hss, List.headD_cons, yytranslate_eof, hsh]
  unfold cdefault creduce
  simp only [hss, List.headD_cons, hr, hk, List.length_cons]
  rw [if_neg hr0, if_neg (by omega)]

/-- Shift of the held end of input. -/
theorem cstep_eof_shift {c : Ctl} {s : Int} {u : List Int} {v : Int}
    (hss : c.yyss = s :: u) (hc : c.yychar = 0) (hsh : tshift s 0 = some v) :
    cstep c = cpush { c with yychar := YYEMPTY } v := by
  have hp := tshift_pact hsh
  have hpk : cpeek c = c := by
    cases c with
    | mk input lexed yychar yyss yyerrs =>
      simp only at hc
      subst hc
      simp [cpeek, YYEMPTY, YYEOF]
  rw [cstep_eq]
  simp only [hss, List.headD_cons]
  rw [if_neg hp, hpk]
  simp only [YYerror, hc]
  rw [if_neg (by omega)]
  unfold cact
  simp only [hss, List.headD_cons, yytranslate_eof, hsh]

/-! ## Nested parentheses -/

set_option maxRecDepth 100000 in
theorem paren_facts :
    (YYTRANSLATE 40 = 41 ∧ YYTRANSLATE 41 = 42 ∧ YYTRANSLATE 259 = 4 ∧ YYTRANSLATE 59 = 36) ∧
    (tshift 2 41 = some 19 ∧ tshift 19 41 = some 19 ∧ tshift 2 4 = some 5 ∧
      tshift 19 4 = some 5 ∧ tshift 50 42 = some 88 ∧ tshift 32 36 = some 69 ∧
      tshift 2 0 = none ∧ tshift 1 0 = some 3) ∧
    (tget yypact 0 = YYPACT_NINF ∧ tget yypact 5 = YYPACT_NINF ∧ tget yypact 88 = YYPACT_NINF ∧
      tget yypact 69 = YYPACT_NINF ∧ tget yypact 31 = YYPACT_NINF ∧
      tget yypact 22 = YYPACT_NINF ∧ tget yypact 2 ≠ YYPACT_NINF) ∧
    (tget yydefact 0 = 3 ∧ tget yydefact 5 = 87 ∧ tget yydefact 88 = 85 ∧
      tget yydefact 69 = 64 ∧ tget yydefact 31 = 12 ∧ tget yydefact 22 = 4 ∧
      tget yydefact 2 = 2) ∧
    ((tget yyr2 3).toNat = 0 ∧ (tget yyr2 87).toNat = 1 ∧ (tget yyr2 85).toNat = 3 ∧
      (tget yyr2 64).toNat = 2 ∧ (tget yyr2 12).toNat = 1 ∧ (tget yyr2 4).toNat = 2 ∧
      (tget yyr2 2).toNat = 1) ∧
    (tgoto 0 (tget yyr1 3 - YYNTOKENS) = 2 ∧ tgoto 2 (tget yyr1 87 - YYNTOKENS) = 32 ∧
      tgoto 19 (tget yyr1 87 - YYNTOKENS) = 50 ∧ tgoto 2 (tget yyr1 85 - YYNTOKENS) = 32 ∧
      tgoto 19 (tget yyr1 85 - YYNTOKENS) = 50 ∧ tgoto 2 (tget yyr1 64 - YYNTOKENS) = 31 ∧
      tgoto 2 (tget yyr1 12 - YYNTOKENS) = 22 ∧ tgoto 0 (tget yyr1 4 - YYNTOKENS) = 2 ∧
      tgoto 0 (tget yyr1 2 - YYNTOKENS) = 1) := by decide!

theorem parenStack_length (j : Nat) : (parenStack j).length = j + 2 := by
  simp [parenStack]

theorem parenStack_succ (j : Nat) : parenStack (j + 1) = 19 :: parenStack j := by
  simp [parenStack, List.replicate_succ]

theorem parenStack_cases (j : Nat) : ∃ x rest, parenStack j = x :: rest ∧ (x = 2 ∨ x = 19) := by
  cases j with
  | zero => exact ⟨2, [0], rfl, Or.inl rfl⟩
  | succ j => exact ⟨19, parenStack j, parenStack_succ j, Or.inr rfl⟩

/-- After the last closing parenthesis: the statement `expr ;` is completed and the program
accepted. -/
theorem paren_finish (l : Nat) :
    Ends { input := [59], lexed := l, yychar := YYEMPTY, yyss := [32, 2, 0], yyerrs := [] } 0 := by
  obtain ⟨-, hs, hp, hd, hk, hg⟩ := paren_facts
  apply Ends.of_next
  · rw [cstep_shift (s := 32) (a := 59) rfl rfl rfl (by decide) (by rw [paren_facts.1.2.2.2]; exact hs.2.2.2.2.2.1)]
    exact cpush_next (by simp) (by decide)
  apply Ends.of_next
  · rw [cstep_reduce (s := 69) (k := 2) rfl hp.2.2.2.1 hd.2.2.2.1 (by decide) hk.2.2.2.1
      (by simp)]
    simp only [List.drop_succ_cons, List.drop_zero, List.headD_cons, hg.2.2.2.2.2.1]
    exact cpush_next (by simp) (by decide)
  apply Ends.of_next
  · rw [cstep_reduce (s := 31) (k := 1) rfl hp.2.2.2.2.1 hd.2.2.2.2.1 (by decide) hk.2.2.2.2.1
      (by simp)]
    simp only [List.drop_succ_cons, List.drop_zero, List.headD_cons, hg.2.2.2.2.2.2.1]
    exact cpush_next (by simp) (by decide)
  apply Ends.of_next
  · rw [cstep_reduce (s := 22) (k := 2) rfl hp.2.2.2.2.2.1 hd.2.2.2.2.2.1 (by decide)
      hk.2.2.2.2.2.1 (by simp)]
    simp only [List.drop_succ_cons, List.drop_zero, List.headD_cons, hg.2.2.2.2.2.2.2.1]
    exact cpush_next (by simp) (by decide)
  apply Ends.of_next
  · rw [cstep_eof_reduce (s := 2) (k := 1) rfl rfl rfl hp.2.2.2.2.2.2 hs.2.2.2.2.2.2.1
      hd.2.2.2.2.2.2 (by decide) hk.2.2.2.2.2.2 (by simp)]
    simp only [List.drop_succ_cons, List.drop_zero, List.headD_cons, hg.2.2.2.2.2.2.2.2]
    exact cpush_next (by simp) (by decide)
  apply Ends.of_ret
  rw [cstep_eof_shift (s := 1) rfl rfl hs.2.2.2.2.2.2.2]
  exact cpush_accept (by simp)
/-- Closing `j + 1` parentheses when the stack has room: every `( expr )` is reduced, then
the statement is completed. -/
theorem paren_close (j : Nat) : j + 1 ≤ 9995 → ∀ l : Nat,
    Ends { input := List.replicate (j + 1) 41 ++ [59], lexed := l, yychar := YYEMPTY,
           yyss := 50 :: parenStack (j + 1), yyerrs := [] } 0 := by
  obtain ⟨ht, hs, hp, hd, hk, hg⟩ := paren_facts
  induction j with
  | zero =>
    intro _ l
    apply Ends.of_next
    · rw [cstep_shift (s := 50) (a := 41) rfl rfl rfl (by decide)
        (by rw [ht.2.1]; exact hs.2.2.2.2.1)]
      exact cpush_next (by simp [parenStack]) (by decide)
    apply Ends.of_next
    · rw [cstep_reduce (s := 88) (k := 3) rfl hp.2.2.1 hd.2.2.1 (by decide) hk.2.2.1
        (by simp [parenStack])]
      simp only [parenStack, List.replicate, List.cons_append, List.nil_append,
        List.drop_succ_cons, List.drop_zero, List.headD_cons, hg.2.2.2.1]
      exact cpush_next (by simp) (by decide)
    exact paren_finish _
  | succ j ih =>
    intro hj l
    apply Ends.of_next
    · rw [cstep_shift (s := 50) (a := 41) (w := List.replicate (j + 1) 41 ++ [59]) rfl rfl
        (by simp [List.replicate_succ]) (by decide) (by rw [ht.2.1]; exact hs.2.2.2.2.1)]
      exact cpush_next (by simp [parenStack_length]; omega) (by decide)
    apply Ends.of_next
    · rw [cstep_reduce (s := 88) (k := 3) rfl hp.2.2.1 hd.2.2.1 (by decide) hk.2.2.1
        (by simp [parenStack_length])]
      simp only [parenStack_succ, List.drop_succ_cons, List.drop_zero, List.headD_cons,
        hg.2.2.2.2.1]
      exact cpush_next (by simp [parenStack_length]; omega) (by decide)
    have := ih (by omega) (l + 1)
    simpa [parenStack_succ] using this
/-- Closing the first parenthesis when the stack is full: the push of state 88 exhausts it. -/
theorem paren_close_full (j : Nat) (hj : 9995 ≤ j) (l : Nat) :
    Ends { input := List.replicate (j + 1) 41 ++ [59], lexed := l, yychar := YYEMPTY,
           yyss := 50 :: parenStack (j + 1), yyerrs := [] } 2 := by
  obtain ⟨ht, hs, -⟩ := paren_facts
  apply Ends.of_ret
  rw [cstep_shift (s := 50) (a := 41) (w := List.replicate j 41 ++ [59]) rfl rfl
    (by simp [List.replicate_succ]) (by decide) (by rw [ht.2.1]; exact hs.2.2.2.2.1)]
  exact cpush_full (by simp [parenStack_length]; omega)

/-- Opening the remaining `m` parentheses above `j` open ones, then the number. -/
theorem paren_open (m : Nat) : ∀ (j l : Nat), j + 2 < 10000 →
    Ends { input := List.replicate m 40 ++ 259 :: (List.replicate (j + m) 41 ++ [59]),
           lexed := l, yychar := YYEMPTY, yyss := parenStack j, yyerrs := [] }
      (parenResult (j + m)) := by
  obtain ⟨ht, hs, hp, hd, hk, hg⟩ := paren_facts
  induction m with
  | zero =>
    intro j l hj
    obtain ⟨x, rest, hx, hx2⟩ := parenStack_cases j
    have hlen := parenStack_length j
    have hsh : tshift x 4 = some 5 := by
      rcases hx2 with rfl | rfl
      · exact hs.2.2.1
      · exact hs.2.2.2.1
    by_cases hfull : 10000 ≤ j + 3
    · have hres : parenResult (j + 0) = 2 := by
        unfold parenResult; rw [if_neg (by omega)]
      rw [hres]
      apply Ends.of_ret
      rw [cstep_shift (s := x) (a := 259) hx rfl rfl (by decide) (by rw [ht.2.2.1]; exact hsh)]
      exact cpush_full (by simp [hlen]; omega)
    · apply Ends.of_next
      · rw [cstep_shift (s := x) (a := 259) hx rfl rfl (by decide)
          (by rw [ht.2.2.1]; exact hsh)]
        exact cpush_next (by simp [hlen]; omega) (by decide)
      cases j with
      | zero =>
        apply Ends.of_next
        · rw [cstep_reduce (s := 5) (k := 1) rfl hp.2.1 hd.2.1 (by decide) hk.2.1
            (by simp [parenStack])]
          simp only [parenStack, List.replicate, List.nil_append, List.drop_succ_cons,
            List.drop_zero, List.headD_cons, hg.2.1]
          exact cpush_next (by simp) (by decide)
        simpa [parenResult] using paren_finish (l + 1)
      | succ j =>
        apply Ends.of_next
        · rw [cstep_reduce (s := 5) (k := 1) rfl hp.2.1 hd.2.1 (by decide) hk.2.1
            (by simp [parenStack_length])]
          simp only [parenStack_succ, List.drop_succ_cons, List.drop_zero, List.headD_cons,
            hg.2.2.1]
          exact cpush_next (by simp [parenStack_length]; omega) (by decide)
        by_cases hres : j + 1 ≤ 9995
        · have := paren_close j hres (l + 1)
          simpa [parenResult, hres, parenStack_succ] using this
        · have := paren_close_full j (by omega) (l + 1)
          simpa [parenResult, hres, parenStack_succ] using this
  | succ m ih =>
    intro j l hj
    obtain ⟨x, rest, hx, hx2⟩ := parenStack_cases j
    have hlen := parenStack_length j
    have hsh : tshift x 41 = some 19 := by
      rcases hx2 with rfl | rfl
      · exact hs.1
      · exact hs.2.1
    have hin : List.replicate (m + 1) (40 : Int) ++ 259 :: (List.replicate (j + (m + 1)) 41 ++ [59])
        = 40 :: (List.replicate m 40 ++ 259 :: (List.replicate (j + 1 + m) 41 ++ [59])) := by
      have : j + (m + 1) = j + 1 + m := by omega
      simp [List.replicate_succ, this]
    by_cases hfull : 10000 ≤ j + 3
    · have hres : parenResult (j + (m + 1)) = 2 := by
        unfold parenResult; rw [if_neg (by omega)]
      rw [hres]
      apply Ends.of_ret
      rw [cstep_shift (s := x) (a := 40) hx rfl hin (by decide) (by rw [ht.1]; exact hsh)]
      exact cpush_full (by simp [hlen]; omega)
    · apply Ends.of_next
      · rw [cstep_shift (s := x) (a := 40) hx rfl hin (by decide) (by rw [ht.1]; exact hsh)]
        exact cpush_next (by simp [hlen]; omega) (by decide)
      have := ih (j + 1) (l + 1) (by omega)
      have e : j + 1 + m = j + (m + 1) := by omega
      simpa [parenStack_succ, e] using this

theorem parenCodes_eq (n : Nat) :
    parenCodes n = List.replicate n 40 ++ 259 :: (List.replicate n 41 ++ [59]) := by
  simp [parenCodes, ch, Tk.NUM]

/-- The whole run on `n` nested parentheses. -/
theorem paren_ends (n : Nat) : Ends (cinit (parenCodes n)) (parenResult n) := by
  obtain ⟨ht, hs, hp, hd, hk, hg⟩ := paren_facts
  apply Ends.of_next
  · rw [cstep_reduce (c := cinit (parenCodes n)) (s := 0) (u := []) (k := 0) rfl hp.1 hd.1
      (by decide) hk.1 (by simp)]
    simp only [List.drop_zero, List.headD_cons, hg.1]
    exact cpush_next (by simp [cinit]) (by decide)
  have := paren_open n 0 0 (by omega)
  simpa [cinit, parenCodes_eq, parenStack] using this

/-! ## Truncated input -/

theorem cpush_extend (ext : List Int) (c : Ctl) (v : Int) :
    cpush (c.extend ext) v = (cpush c v).extend ext := by
  unfold cpush
  simp only [Ctl.extend]
  split
  · rfl
  · split <;> rfl

theorem cabort_extend (ext : List Int) (c : Ctl) :
    cabort (c.extend ext) = (cabort c).extend ext := rfl

theorem cdefault_extend (ext : List Int) (c : Ctl) :
    cdefault (c.extend ext) = (cdefault c).extend ext := by
  unfold cdefault
  simp only [Ctl.extend]
  split
  · rfl
  · unfold creduce
    simp only
    split
    · rfl
    · exact cpush_extend ext
        { c with yyss := c.yyss.drop (tget yyr2 (tget yydefact (c.yyss.headD 0))).toNat } _

theorem cact_extend (ext : List Int) (c : Ctl) (t : Int) :
    cact (c.extend ext) t = (cact c t).extend ext := by
  unfold cact
  have h : (c.extend ext).yyss.headD 0 = c.yyss.headD 0 := rfl
  rw [h]
  cases tshift (c.yyss.headD 0) t with
  | none => exact cdefault_extend ext c
  | some v => exact cpush_extend ext { c with yychar := YYEMPTY } v

theorem cpeek_extend (ext : List Int) (c : Ctl) (h : c.input ≠ [] ∨ c.yychar ≠ YYEMPTY) :
    cpeek (c.extend ext) = (cpeek c).extend ext := by
  unfold cpeek clex
  simp only [Ctl.extend]
  by_cases hc : c.yychar = YYEMPTY
  · simp only [hc, if_true]
    cases hi : c.input with
    | nil => rcases h with h | h
             · exact absurd hi h
             · exact absurd hc h
    | cons a rest =>
      simp only [List.cons_append]
      split <;> rfl
  · simp only [hc, if_false]
    split <;> rfl

/-- A step that does not fetch from exhausted input is the same step with more input
behind, and it keeps the number of lexer calls plus pending tokens. -/
theorem cstep_extend (ext : List Int) (c : Ctl) (h : ¬ c.starved) :
    cstep (c.extend ext) = (cstep c).extend ext := by
  rw [cstep_eq, cstep_eq]
  have hss : (c.extend ext).yyss = c.yyss := rfl
  rw [hss]
  by_cases hp : tget yypact (c.yyss.headD 0) = YYPACT_NINF
  · rw [if_pos hp, if_pos hp]
    exact cdefault_extend ext c
  · rw [if_neg hp, if_neg hp]
    have hne : c.input ≠ [] ∨ c.yychar ≠ YYEMPTY := by
      by_contra hcon
      push_neg at hcon
      exact h ⟨hcon.1, hcon.2, hp⟩
    rw [cpeek_extend ext c hne]
    have hy : ((cpeek c).extend ext).yychar = (cpeek c).yychar := rfl
    rw [hy]
    split
    · rfl
    · exact cact_extend ext _ _

theorem cpush_frame {c d : Ctl} {v : Int} (h : cpush c v = .next d) :
    d.input = c.input ∧ d.lexed = c.lexed ∧ d.yychar = c.yychar := by
  unfold cpush at h
  simp only at h
  split at h
  · exact absurd h (by simp)
  · split at h
    · exact absurd h (by simp)
    · simp only [CStep.next.injEq] at h
      subst h
      exact ⟨rfl, rfl, rfl⟩

theorem cdefault_frame {c d : Ctl} (h : cdefault c = .next d) :
    d.input = c.input ∧ d.lexed = c.lexed ∧ d.yychar = c.yychar := by
  unfold cdefault at h
  simp only at h
  split at h
  · exact absurd h (by simp [cabort])
  · unfold creduce at h
    simp only at h
    split at h
    · exact absurd h (by simp)
    · exact cpush_frame (c := { c with
        yyss := c.yyss.drop (tget yyr2 (tget yydefact (c.yyss.headD 0))).toNat }) h

theorem cact_frame {c d : Ctl} {t : Int} (h : cact c t = .next d) :
    d.input = c.input ∧ d.lexed = c.lexed := by
  unfold cact at h
  split at h
  · have := cpush_frame (c := { c with yychar := YYEMPTY }) h
    exact ⟨this.1, this.2.1⟩
  · have := cdefault_frame h
    exact ⟨this.1, this.2.1⟩

theorem cpeek_count (c : Ctl) (h : c.input ≠ [] ∨ c.yychar ≠ YYEMPTY) :
    (cpeek c).lexed + (cpeek c).input.length = c.lexed + c.input.length := by
  unfold cpeek clex
  by_cases hc : c.yychar = YYEMPTY
  · simp only [hc, if_true]
    cases hi : c.input with
    | nil => rcases h with h | h
             · exact absurd hi h
             · exact absurd hc h
    | cons a rest =>
      simp only
      split <;> simp only [List.length_cons] <;> omega
  · simp only [hc, if_false]
    split <;> rfl

/-- A step that does not fetch from exhausted input keeps the number of lexer calls plus
pending tokens. -/
theorem cstep_count {c d : Ctl} (h : ¬ c.starved) (hs : cstep c = .next d) :
    d.lexed + d.input.length = c.lexed + c.input.length := by
  rw [cstep_eq] at hs
  by_cases hp : tget yypact (c.yyss.headD 0) = YYPACT_NINF
  · rw [if_pos hp] at hs
    have := cdefault_frame hs
    rw [this.1, this.2.1]
  · rw [if_neg hp] at hs
    have hne : c.input ≠ [] ∨ c.yychar ≠ YYEMPTY := by
      by_contra hcon
      push_neg at hcon
      exact h ⟨hcon.1, hcon.2, hp⟩
    split at hs
    · exact absurd hs (by simp [cabort])
    · have := cact_frame hs
      rw [this.1, this.2, cpeek_count c hne]

theorem crun_split (k m : Nat) : ∀ c : Ctl,
    crun (k + m) c = match crun k c with
      | .next d => crun m d
      | r => r := by
  induction k with
  | zero => intro c; simp [crun]
  | succ k ih =>
    intro c
    have e : k + 1 + m = (k + m) + 1 := by omega
    rw [e]
    simp only [crun]
    cases hs : cstep c with
    | next d => simp only; exact ih d
    | ret r d => rfl
    | fault => rfl

theorem crun_inv (k : Nat) : ∀ c d : Ctl, c.Inv → crun k c = .next d → d.Inv := by
  induction k with
  | zero =>
    intro c d h hs
    simp only [crun, CStep.next.injEq] at hs
    exact hs ▸ h
  | succ k ih =>
    intro c d h hs
    have hp := cstep_post c h
    simp only [crun] at hs
    cases hc : cstep c with
    | next e =>
      rw [hc] at hs hp
      exact ih e d hp.1 hs
    | ret r e => rw [hc] at hs; simp at hs
    | fault => rw [hc] at hs; simp at hs

/-- A run on a prefix of the input either stays in step with the run on the whole input,
or reaches a state in which it fetches from the exhausted input, with every token fetched. -/
theorem prefix_run (ext : List Int) (n : Nat) : ∀ c : Ctl,
    crun n (c.extend ext) = (crun n c).extend ext ∨
    ∃ k d, k < n ∧ crun k c = .next d ∧ d.starved ∧ d.lexed = c.lexed + c.input.length := by
  induction n with
  | zero => intro c; left; rfl
  | succ n ih =>
    intro c
    by_cases hst : c.starved
    · right
      exact ⟨0, c, by omega, rfl, hst, by simp [hst.1]⟩
    · have he := cstep_extend ext c hst
      simp only [crun]
      rw [he]
      cases hs : cstep c with
      | next d =>
        simp only [CStep.extend]
        rcases ih d with h | ⟨k, e, hk, hrun, hse, hle⟩
        · left; exact h
        · right
          refine ⟨k + 1, e, by omega, ?_, hse, ?_⟩
          · simp only [crun, hs]; exact hrun
          · rw [hle]; exact cstep_count hst hs
      | ret r d => left; rfl
      | fault => left; rfl

set_option maxRecDepth 100000 in
theorem final_preds : yypreds 3 = [1] ∧ yypreds 1 = [0] ∧ yypreds 0 = [] := by decide!

/-- The final state is entered from the stack `[1, 0]` only. -/
theorem final_depth {ss : List Int} (h : Path (YYFINAL :: ss)) : ss.length = 2 := by
  obtain ⟨h3, h1, h0⟩ := final_preds
  match ss, h with
  | [], h => simp [Path, YYFINAL] at h
  | [a], h =>
    simp only [Path, YYFINAL, h3, List.mem_singleton] at h
    omega
  | [a, b], _ => rfl
  | a :: b :: c :: rest, h =>
    simp only [Path, YYFINAL, h3, List.mem_singleton] at h
    obtain ⟨ha, hb, hc, -⟩ := h
    subst ha
    rw [h1] at hb
    simp only [List.mem_singleton] at hb
    subst hb
    rw [h0] at hc
    simp at hc

theorem cpeek_of_eof {L : Nat} {c : Ctl} (h : c.atEof L) : cpeek c = c := by
  obtain ⟨-, hc, -⟩ := h
  cases c with
  | mk input lexed yychar yyss yyerrs =>
    simp only at hc
    subst hc
    simp [cpeek, YYEMPTY, YYEOF]

theorem cpush_eof {L : Nat} {c : Ctl} {v : Int} (h : c.atEof L) (hq : c.yyerrs = []) :
    (cpush c v).PostEof L := by
  obtain ⟨hi, hc, hl⟩ := h
  unfold cpush
  simp only
  split
  · right
    exact ⟨"memory exhausted", by simp [creport, hq, hc, hl]⟩
  · split
    · left; rfl
    · exact ⟨hi, hc, hl⟩

/-- One action with end of input held. -/
theorem cstep_eof (L : Nat) (c : Ctl) (h : c.Inv) (he : c.atEof L) : (cstep c).PostEof L := by
  have hpk := cpeek_of_eof he
  obtain ⟨hi, hc, hl⟩ := he
  apply cstep_cases c h
  · intro v hpos _
    rw [hpk, hc] at hpos
    simp [YYEOF] at hpos
  · intro _ hpath
    have hd := final_depth hpath
    have := cpush_accept (c := { cpeek c with yychar := YYEMPTY }) (by simp [cpeek_yyss, hd])
    show CStep.PostEof L (cpush _ 3)
    rw [this]
    left; rfl
  · intro c1 k g hc1 _ _ _
    have : c1 = c := by rcases hc1 with rfl | rfl <;> simp [hpk]
    subst this
    exact cpush_eof (c := { c1 with yyss := c1.yyss.drop k }) ⟨hi, hc, hl⟩ h.quiet
  · intro c1 hc1
    have : c1 = c := by rcases hc1 with rfl | rfl <;> simp [hpk]
    subst this
    right
    exact ⟨"syntax error", by simp [cabort, creport, h.quiet, hc, hl]⟩
  · intro hce
    rw [hpk, hc] at hce
    simp [YYEOF, YYerror] at hce

/-- A run with end of input held ends by accepting or after exactly one report. -/
theorem crun_eof (L : Nat) (n : Nat) : ∀ (c : Ctl) (r : Int) (e : Ctl), c.Inv → c.atEof L →
    crun n c = .ret r e →
    r = 0 ∨ ∃ msg, e.yyerrs = [{ msg := msg, lexed := L + 1, held := YYEOF }] := by
  induction n with
  | zero => intro c r e _ _ h; simp [crun] at h
  | succ n ih =>
    intro c r e h he hrun
    have hp := cstep_post c h
    have hq := cstep_eof L c h he
    simp only [crun] at hrun
    cases hs : cstep c with
    | next d =>
      rw [hs] at hrun hp hq
      exact ih d r e hp.1 hq hrun
    | ret r' e' =>
      rw [hs] at hrun hq
      simp only [CStep.ret.injEq] at hrun
      obtain ⟨rfl, rfl⟩ := hrun
      exact hq
    | fault => rw [hs] at hrun; simp at hrun

theorem cpeek_idem (c : Ctl) : cpeek (cpeek c) = cpeek c := by
  have h0 := cpeek_yychar c
  generalize cpeek c = d at h0
  cases d with
  | mk input lexed yychar yyss yyerrs =>
    simp only at h0
    have h1 : ¬ yychar = -2 := by omega
    simp only [cpeek, YYEMPTY, YYEOF, h1, if_false]
    split
    · rename_i h2
      have : yychar = 0 := by omega
      subst this; rfl
    · rfl

/-- A state that fetches from exhausted input acts as the state that holds end of input. -/
theorem cstep_starved {c : Ctl} (h : c.starved) :
    cstep c = cstep (cpeek c) ∧ (cpeek c).atEof c.lexed := by
  obtain ⟨hi, hc, hp⟩ := h
  constructor
  · rw [cstep_eq, cstep_eq, cpeek_idem, cpeek_yyss, if_neg hp, if_neg hp]
  · unfold cpeek clex
    simp [hc, hi, Ctl.atEof, YYEOF]

theorem cpeek_inv {c : Ctl} (h : c.Inv) : (cpeek c).Inv := by
  obtain ⟨h1, h2, h3, h4⟩ := h
  exact ⟨by rw [cpeek_yyss]; exact h1, by rw [cpeek_yyss]; exact h2,
    by rw [cpeek_yyss]; exact h3, by rw [cpeek_yyerrs]; exact h4⟩

theorem cinit_extend (pc ext : List Int) : cinit (pc ++ ext) = (cinit pc).extend ext := rfl

/-- A run on a prefix of an accepted input that does not accept makes exactly one report,
while end of input is held and after every token of the prefix has been fetched. -/
theorem truncated_run (pc ext : List Int) (n : Nat) (r : Int) (e : Ctl)
    (hw : Ends (cinit (pc ++ ext)) 0) (hp : crun n (cinit pc) = .ret r e) (hr : r ≠ 0) :
    ∃ msg, e.yyerrs = [{ msg := msg, lexed := pc.length + 1, held := YYEOF }] := by
  obtain ⟨m, d, hm⟩ := hw
  rw [cinit_extend] at hm
  rcases prefix_run ext m (cinit pc) with hsync | ⟨k, s, -, hk, hst, hlex⟩
  · rw [hsync] at hm
    cases hc : crun m (cinit pc) with
    | next d' => rw [hc] at hm; simp [CStep.extend] at hm
    | fault => rw [hc] at hm; simp [CStep.extend] at hm
    | ret r' d' =>
      rw [hc] at hm
      simp only [CStep.extend, CStep.ret.injEq] at hm
      have := Ends.unique (c := cinit pc) ⟨m, d', hm.1 ▸ hc⟩ ⟨n, e, hp⟩
      exact absurd this.symm hr
  · have hinv := crun_inv k _ _ (cinit_inv pc) hk
    obtain ⟨hstep, heof⟩ := cstep_starved hst
    have hlex' : s.lexed = pc.length := by simpa [cinit] using hlex
    rw [hlex'] at heof
    by_cases hnk : n ≤ k
    · have := crun_mono n k hnk _ _ _ hp
      rw [hk] at this
      simp at this
    · obtain ⟨j, rfl⟩ : ∃ j, n = k + (j + 1) := ⟨n - k - 1, by omega⟩
      rw [crun_split, hk] at hp
      simp only [crun] at hp
      rw [hstep] at hp
      have hp' : crun (j + 1) (cpeek s) = .ret r e := by simpa only [crun] using hp
      rcases crun_eof pc.length (j + 1) _ r e (cpeek_inv hinv) heof hp' with h0 | h1
      · exact absurd h0 hr
      · exact h1

/-! ## The automaton on symbol kinds -/

theorem ashift_tshift {s t v : Int} (h : ashift s t = some v) :
    tshift s t = some v ∧ 0 ≤ t ∧ t < 47 := by
  unfold ashift at h
  by_cases hr : 0 ≤ t ∧ t < YYNTOKENS
  · rw [if_pos hr] at h
    exact ⟨h, hr.1, by simpa [YYNTOKENS] using hr.2⟩
  · rw [if_neg hr] at h; cases h

theorem ashift_of_tshift {s t v : Int} (h : tshift s t = some v) (h0 : 0 ≤ t) (h1 : t < 47) :
    ashift s t = some v := by
  unfold ashift
  rw [if_pos ⟨h0, by simpa [YYNTOKENS] using h1⟩, h]

theorem ashift_pact {s t v : Int} (h : ashift s t = some v) :
    tget yypact s ≠ YYPACT_NINF := tshift_pact (ashift_tshift h).1

theorem astep_shift {ss inp : List Int} {v : Int}
    (h : ashift (ss.headD 0) (inp.headD 0) = some v) : astep ss inp = apush ss inp.tail v := by
  unfold astep
  rw [if_neg (ashift_pact h), h]

theorem astep_miss {ss inp : List Int} (h : missOk (ss.headD 0) (inp.headD 0) = true) :
    astep ss inp = ared ss inp := by
  unfold astep
  unfold missOk at h
  simp only [Bool.or_eq_true, beq_iff_eq, Option.isNone_iff_eq_none] at h
  by_cases hp : tget yypact (ss.headD 0) = YYPACT_NINF
  · rw [if_pos hp]
  · rw [if_neg hp]
    rcases h with h | h
    · exact absurd h hp
    · rw [h]

theorem apush_next {ss inp : List Int} {v : Int} (hv : v ≠ YYFINAL) :
    apush ss inp v = .next (v :: ss) inp := by
  unfold apush; rw [if_neg hv]

theorem apush_cases (ss inp : List Int) (v : Int) :
    (v = YYFINAL ∧ apush ss inp v = .accept) ∨
    (v ≠ YYFINAL ∧ apush ss inp v = .next (v :: ss) inp) := by
  unfold apush
  by_cases hv : v = YYFINAL
  · left; rw [if_pos hv]; exact ⟨hv, rfl⟩
  · right; rw [if_neg hv]; exact ⟨hv, rfl⟩

theorem Acc.inv_step {ss inp ss1 inp1 : List Int} (h : astep ss inp = .next ss1 inp1)
    (ha : Acc ss inp) : Acc ss1 inp1 := by
  cases ha with
  | done _ _ h0 => rw [h] at h0; cases h0
  | step _ _ s2 i2 h2 ha2 =>
    rw [h] at h2
    simp only [AStep.next.injEq] at h2
    obtain ⟨rfl, rfl⟩ := h2
    exact ha2

theorem Acc.not_reject {ss inp : List Int} (h : astep ss inp = .reject) : ¬ Acc ss inp := by
  intro ha
  cases ha with
  | done _ _ h0 => rw [h] at h0; cases h0
  | step _ _ s2 i2 h2 ha2 => rw [h] at h2; cases h2

/-- A shift of the next symbol. -/
theorem Acc.shift {s : Int} {ss inp : List Int} {t v : Int} (h : ashift s t = some v)
    (hv : v ≠ YYFINAL) (ha : Acc (v :: s :: ss) inp) : Acc (s :: ss) (t :: inp) := by
  refine Acc.step _ _ _ _ ?_ ha
  rw [astep_shift (by simpa using h)]
  exact apush_next hv

/-- The reduction by the default rule of the top state. -/
theorem ared_eq {ss inp : List Int} {r : Int} {k : Nat} (hr : tget yydefact (ss.headD 0) = r)
    (h0 : r ≠ 0) (hk : (tget yyr2 r).toNat = k) :
    ared ss inp =
      apush (ss.drop k) inp (tgoto ((ss.drop k).headD 0) (tget yyr1 r - YYNTOKENS)) := by
  unfold ared
  simp only [hr, hk]
  rw [if_neg h0]

/-! ## The control view follows the automaton -/

set_option maxRecDepth 100000 in
theorem yytranslate_error : YYTRANSLATE 256 = 1 := by decide!

theorem translate_tok {t : Int} (h : 3 ≤ YYTRANSLATE t) : 0 < t ∧ t ≠ 256 := by
  by_cases h0 : t = 0
  · subst h0; rw [yytranslate_eof] at h; omega
  by_cases h1 : t = 256
  · subst h1; rw [yytranslate_error] at h; omega
  refine ⟨?_, h1⟩
  by_contra hn
  unfold YYTRANSLATE at h
  rw [if_neg (by omega)] at h
  simp [YYSYMBOL_YYUNDEF] at h

theorem cpeek_clean (c : Ctl) (hc : c.Clean) :
    (cpeek c).yyss = c.yyss ∧ (∀ t ∈ (cpeek c).input, 3 ≤ YYTRANSLATE t) ∧
    (((cpeek c).yychar = 0 ∧ (cpeek c).input = [] ∧ c.syms = []) ∨
     (3 ≤ YYTRANSLATE (cpeek c).yychar ∧
      c.syms = YYTRANSLATE (cpeek c).yychar :: (cpeek c).input.map YYTRANSLATE)) := by
  refine ⟨cpeek_yyss c, ?_⟩
  obtain ⟨hin, hy⟩ := hc
  by_cases he : c.yychar = YYEMPTY
  · cases hi : c.input with
    | nil =>
      have hpk : cpeek c = { c with lexed := c.lexed + 1, yychar := 0 } := by
        unfold cpeek clex; simp [he, hi, YYEOF]
      have hs : c.syms = [] := by unfold Ctl.syms; simp [he, hi]
      rw [hpk]
      exact ⟨by simp [hi], Or.inl ⟨rfl, hi, hs⟩⟩
    | cons a rest =>
      have ha := hin a (by rw [hi]; simp)
      have ha2 := translate_tok ha
      have hrest : ∀ t ∈ rest, 3 ≤ YYTRANSLATE t := fun t ht => hin t (by rw [hi]; simp [ht])
      have hpk : cpeek c = { c with input := rest, lexed := c.lexed + 1, yychar := a } := by
        unfold cpeek clex
        simp only [he, if_true, hi, YYEOF]
        rw [if_neg (by omega)]
      have hs : c.syms = YYTRANSLATE a :: rest.map YYTRANSLATE := by
        unfold Ctl.syms; simp [he, hi]
      rw [hpk]
      exact ⟨hrest, Or.inr ⟨ha, hs⟩⟩
  · rcases hy with h | ⟨h1, h2⟩ | h
    · exact absurd h he
    · have hpk : cpeek c = { c with yychar := 0 } := by
        simp only [YYEOF] at h1
        unfold cpeek
        simp only [he, if_false, h1, if_true, YYEOF]
      have hs : c.syms = [] := by unfold Ctl.syms; simp [he, h1]
      rw [hpk]
      exact ⟨hin, Or.inl ⟨rfl, h2, hs⟩⟩
    · have h2 := translate_tok h
      have hpk : cpeek c = c := by
        unfold cpeek
        simp only [he, if_false, YYEOF]
        rw [if_neg (by omega)]
      have hs : c.syms = YYTRANSLATE c.yychar :: c.input.map YYTRANSLATE := by
        unfold Ctl.syms
        rw [if_neg he, if_neg (by simp only [YYEOF]; omega)]
      rw [hpk]
      exact ⟨hin, Or.inr ⟨h, hs⟩⟩

theorem cpush_astep (c : Ctl) (v : Int) (inp : List Int) :
    (∀ d, cpush c v = .next d → apush c.yyss inp v = .next d.yyss inp ∧
      d.yychar = c.yychar ∧ d.input = c.input) ∧
    (∀ d, cpush c v ≠ .ret 1 d) := by
  unfold cpush apush
  simp only
  by_cases h1 : YYMAXDEPTH ≤ ((v :: c.yyss).length : Int)
  · rw [if_pos h1]
    exact ⟨fun d hd => (by cases hd), fun d hd => (by cases hd)⟩
  · rw [if_neg h1]
    by_cases h2 : v = YYFINAL
    · rw [if_pos h2]
      exact ⟨fun d hd => (by cases hd), fun d hd => (by cases hd)⟩
    · rw [if_neg h2, if_neg h2]
      refine ⟨fun d hd => ?_, fun d hd => by cases hd⟩
      simp only [CStep.next.injEq] at hd
      subst hd
      exact ⟨rfl, rfl, rfl⟩

theorem cdefault_ared (c : Ctl) (inp : List Int) :
    (∀ d, cdefault c = .next d → ared c.yyss inp = .next d.yyss inp ∧
      d.yychar = c.yychar ∧ d.input = c.input) ∧
    (∀ d, cdefault c = .ret 1 d → ared c.yyss inp = .reject) := by
  unfold cdefault ared
  simp only
  by_cases h0 : tget yydefact (c.yyss.headD 0) = 0
  · rw [if_pos h0, if_pos h0]
    exact ⟨fun d hd => (by simp [cabort] at hd), fun d _ => rfl⟩
  · rw [if_neg h0, if_neg h0]
    unfold creduce
    simp only
    by_cases hl : c.yyss.length ≤ (tget yyr2 (tget yydefact (c.yyss.headD 0))).toNat
    · rw [if_pos hl]
      exact ⟨fun d hd => (by cases hd), fun d hd => (by cases hd)⟩
    · rw [if_neg hl]
      have := cpush_astep
        { c with yyss := c.yyss.drop (tget yyr2 (tget yydefact (c.yyss.headD 0))).toNat }
        (tgoto ((c.yyss.drop (tget yyr2 (tget yydefact (c.yyss.headD 0))).toNat).headD 0)
          (tget yyr1 (tget yydefact (c.yyss.headD 0)) - YYNTOKENS)) inp
      exact ⟨fun d hd => this.1 d hd, fun d hd => absurd hd (this.2 d)⟩

/-- One action of the control view on grammar tokens is an action of the automaton. -/
theorem cstep_astep (c : Ctl) (hc : c.Clean) :
    (∀ d, cstep c = .next d → astep c.yyss c.syms = .next d.yyss d.syms ∧ d.Clean) ∧
    (∀ d, cstep c = .ret 1 d → astep c.yyss c.syms = .reject) := by
  rw [cstep_eq]
  unfold astep
  by_cases hp : tget yypact (c.yyss.headD 0) = YYPACT_NINF
  · simp only [hp, if_true]
    have h := cdefault_ared c c.syms
    refine ⟨fun d hd => ?_, h.2⟩
    obtain ⟨h1, h2, h3⟩ := h.1 d hd
    refine ⟨?_, ?_⟩
    · rw [h1]; unfold Ctl.syms; rw [h2, h3]
    · unfold Ctl.Clean; rw [h2, h3]; exact hc
  · simp only [hp, if_false]
    obtain ⟨hss, hin, hk⟩ := cpeek_clean c hc
    have hne : (cpeek c).yychar ≠ YYerror := by
      rcases hk with ⟨h, -, -⟩ | ⟨h, -⟩
      · rw [h]; simp [YYerror]
      · exact (translate_tok h).2
    rw [if_neg hne]
    have hla : c.syms.headD 0 = YYTRANSLATE (cpeek c).yychar := by
      rcases hk with ⟨h, -, h3⟩ | ⟨-, h⟩
      · rw [h, h3, yytranslate_eof]; rfl
      · rw [h]; rfl
    have hrng := yytranslate_sym (cpeek c).yychar
    unfold cact
    have hh : (cpeek c).yyss.headD 0 = c.yyss.headD 0 := by rw [hss]
    rw [hh, hla]
    cases hsh : tshift (c.yyss.headD 0) (YYTRANSLATE (cpeek c).yychar) with
    | some v =>
      rw [ashift_of_tshift hsh hrng.1 hrng.2]
      simp only
      have h := cpush_astep { cpeek c with yychar := YYEMPTY } v c.syms.tail
      refine ⟨fun d hd => ?_, fun d hd => absurd hd (h.2 d)⟩
      obtain ⟨h1, h2, h3⟩ := h.1 d hd
      simp only at h1 h2 h3
      have hsy : d.syms = c.syms.tail := by
        unfold Ctl.syms
        rw [h2, h3]
        simp only [if_true]
        rcases hk with ⟨-, h4, h5⟩ | ⟨-, h4⟩
        · unfold Ctl.syms at h5; rw [h4]; simp [Ctl.syms] at h5 ⊢; rw [h5]; rfl
        · unfold Ctl.syms at h4; rw [h4]; rfl
      refine ⟨?_, ?_⟩
      · rw [hsy]; rw [hss] at h1; exact h1
      · unfold Ctl.Clean; rw [h2, h3]; exact ⟨hin, Or.inl rfl⟩
    | none =>
      have hn : ashift (c.yyss.headD 0) (YYTRANSLATE (cpeek c).yychar) = none := by
        unfold ashift; rw [if_pos ⟨hrng.1, by simpa [YYNTOKENS] using hrng.2⟩, hsh]
      rw [hn]
      simp only
      have h := cdefault_ared (cpeek c) c.syms
      rw [hss] at h
      refine ⟨fun d hd => ?_, h.2⟩
      obtain ⟨h1, h2, h3⟩ := h.1 d hd
      have hsy : d.syms = c.syms := by
        unfold Ctl.syms
        rw [h2, h3]
        rcases hk with ⟨h4, h5, h6⟩ | ⟨h4, h5⟩
        · unfold Ctl.syms at h6; rw [h4, h5, h6]; simp [YYEMPTY, YYEOF]
        · have h7 := translate_tok h4
          unfold Ctl.syms at h5
          rw [h5, if_neg (by simp only [YYEMPTY]; omega), if_neg (by simp only [YYEOF]; omega)]
      refine ⟨?_, ?_⟩
      · rw [hsy]; exact h1
      · unfold Ctl.Clean; rw [h2, h3]
        refine ⟨hin, ?_⟩
        rcases hk with ⟨h4, h5, -⟩ | ⟨h4, -⟩
        · exact Or.inr (Or.inl ⟨by rw [h4]; simp [YYEOF], h5⟩)
        · exact Or.inr (Or.inr h4)

/-- A run of the control view on grammar tokens that the automaton accepts does not end
with a syntax error. -/
theorem crun_acc (n : Nat) : ∀ c : Ctl, c.Clean → Acc c.yyss c.syms →
    ∀ d, crun n c ≠ .ret 1 d := by
  induction n with
  | zero => intro c _ _ d h; simp [crun] at h
  | succ n ih =>
    intro c hc ha d h
    have hs := cstep_astep c hc
    unfold crun at h
    cases hst : cstep c with
    | next e =>
      rw [hst] at h
      obtain ⟨h1, h2⟩ := hs.1 e hst
      exact ih e h2 (Acc.inv_step h1 ha) d h
    | ret r e =>
      rw [hst] at h
      simp only [CStep.ret.injEq] at h
      obtain ⟨rfl, rfl⟩ := h
      exact Acc.not_reject (hs.2 e hst) ha
    | fault => rw [hst] at h; cases h

/-! ## The symbols that follow a state -/

set_option maxRecDepth 1000000 in
theorem follow_closed : ∀ s ∈ List.range 179, followOk (s : Int) = true := by decide!

theorem followOk_of_range {s : Int} (h0 : 0 ≤ s) (h1 : s < 179) : followOk s = true :=
  int_of_range (P := fun s => followOk s = true) follow_closed s h0 (by simpa using h1)

/-- A symbol shifted in a state follows it. -/
theorem follow_shift {s t v : Int} (h0 : 0 ≤ s) (h1 : s < 179) (h : ashift s t = some v) :
    t ∈ yyfollow s := by
  obtain ⟨hsh, ht0, ht1⟩ := ashift_tshift h
  have hok := followOk_of_range h0 h1
  unfold followOk at hok
  simp only [Bool.and_eq_true, List.all_eq_true, List.mem_range, Bool.or_eq_true] at hok
  rcases hok.1 with hn | hall
  · exact absurd (by simpa using hn) (ashift_pact h)
  · have := hall t.toNat (by omega)
    rw [Int.toNat_of_nonneg ht0, hsh] at this
    rcases this with h2 | h2
    · simp at h2
    · simpa using h2

/-- What a reduction in the top state of a path leads to. -/
theorem follow_reduce (ss : List Int) (hp : Path ss) (hnf : ss.headD 0 ≠ YYFINAL)
    (hr : tget yydefact (ss.headD 0) ≠ 0) (inp : List Int) :
    ∃ g : Int, g ≠ YYFINAL ∧
      ared ss inp =
        .next (g :: ss.drop (tget yyr2 (tget yydefact (ss.headD 0))).toNat) inp ∧
      Path (g :: ss.drop (tget yyr2 (tget yydefact (ss.headD 0))).toNat) ∧
      ∀ t ∈ yyfollow g, t ∈ yyfollow (ss.headD 0) := by
  have hs := hp.top_range
  obtain ⟨g0, hlen, hpath, -, -⟩ := creduce_spec ss hp hnf hr
  have hok := followOk_of_range hs.1 hs.2
  unfold followOk at hok
  simp only [Bool.and_eq_true, Bool.or_eq_true, beq_iff_eq, List.all_eq_true, bne_iff_ne,
    ne_eq] at hok
  generalize hk : (tget yyr2 (tget yydefact (ss.headD 0))).toNat = k at hlen hpath hok ⊢
  have he := hp.back k hlen
  have hdrop : ss.drop k = ss[k] :: ss.drop (k + 1) := List.drop_eq_getElem_cons hlen
  have hhead : (ss.drop k).headD 0 = ss[k] := by rw [hdrop]; rfl
  rcases hok.2 with (h0 | h3) | hb
  · exact absurd h0 hr
  · exact absurd h3 hnf
  · obtain ⟨hg, hsub⟩ := hb _ he
    refine ⟨tgoto ss[k] (tget yyr1 (tget yydefact (ss.headD 0)) - YYNTOKENS), hg, ?_, ?_, ?_⟩
    · rw [ared_eq rfl hr hk, hhead]
      exact apush_next hg
    · have hok2 := int_of_range (P := fun s => reduceOk s = true) reduce_edge _ hs.1
        (by simpa using hs.2)
      unfold reduceOk at hok2
      simp only [Bool.or_eq_true, beq_iff_eq, Bool.and_eq_true, List.all_eq_true,
        List.mem_range, Bool.not_eq_true', decide_eq_true_eq] at hok2
      rcases hok2 with (h0 | h3) | ⟨-, hb2⟩
      · exact absurd h0 hr
      · exact absurd h3 hnf
      · rw [hk] at hb2
        have hd := hp.drop k hlen
        rw [hdrop] at hd ⊢
        exact ⟨by simpa using (hb2 _ he).1, hd⟩
    · intro t ht
      simpa using hsub t ht

/-- The three kinds of action of the automaton on a path. -/
theorem astep_cases (ss inp : List Int) (hp : Path ss) (hnf : ss.headD 0 ≠ YYFINAL) :
    (∃ v, ashift (ss.headD 0) (inp.headD 0) = some v ∧ astep ss inp = apush ss inp.tail v) ∨
    astep ss inp = .reject ∨
    (∃ g : Int, g ≠ YYFINAL ∧
      astep ss inp =
        .next (g :: ss.drop (tget yyr2 (tget yydefact (ss.headD 0))).toNat) inp ∧
      Path (g :: ss.drop (tget yyr2 (tget yydefact (ss.headD 0))).toNat) ∧
      ∀ t ∈ yyfollow g, t ∈ yyfollow (ss.headD 0)) := by
  have hred : astep ss inp = ared ss inp →
      astep ss inp = .reject ∨
      (∃ g : Int, g ≠ YYFINAL ∧
        astep ss inp =
          .next (g :: ss.drop (tget yyr2 (tget yydefact (ss.headD 0))).toNat) inp ∧
        Path (g :: ss.drop (tget yyr2 (tget yydefact (ss.headD 0))).toNat) ∧
        ∀ t ∈ yyfollow g, t ∈ yyfollow (ss.headD 0)) := by
    intro h
    by_cases hr : tget yydefact (ss.headD 0) = 0
    · left; rw [h]; unfold ared; simp only [hr, if_true]
    · right
      obtain ⟨g, hg, h1, h2, h3⟩ := follow_reduce ss hp hnf hr inp
      exact ⟨g, hg, by rw [h, h1], h2, h3⟩
  by_cases hpa : tget yypact (ss.headD 0) = YYPACT_NINF
  · right
    apply hred
    unfold astep; rw [if_pos hpa]
  · cases hsh : ashift (ss.headD 0) (inp.headD 0) with
    | some v => left; exact ⟨v, rfl, astep_shift hsh⟩
    | none =>
      right
      apply hred
      unfold astep; rw [if_neg hpa, hsh]

/-- The next symbol of an accepted input follows the top state. -/
theorem Acc.follow {ss inp : List Int} (ha : Acc ss inp) :
    Path ss → ss.headD 0 ≠ YYFINAL → inp.headD 0 ∈ yyfollow (ss.headD 0) := by
  induction ha with
  | done ss inp h =>
    intro hp hnf
    have hs := hp.top_range
    rcases astep_cases ss inp hp hnf with ⟨v, hv, -⟩ | h1 | ⟨g, -, h1, -, -⟩
    · exact follow_shift hs.1 hs.2 hv
    · rw [h] at h1; cases h1
    · rw [h] at h1; cases h1
  | step ss inp ss1 inp1 h _ ih =>
    intro hp hnf
    have hs := hp.top_range
    rcases astep_cases ss inp hp hnf with ⟨v, hv, -⟩ | h1 | ⟨g, hg, h1, h2, h3⟩
    · exact follow_shift hs.1 hs.2 hv
    · rw [h] at h1; cases h1
    · rw [h] at h1
      simp only [AStep.next.injEq] at h1
      obtain ⟨rfl, rfl⟩ := h1
      exact h3 _ (ih h2 hg)

/-! ## Recognition of a rule -/

theorem Path.cons {ss : List Int} {v : Int} (hp : Path ss) (h : ss.headD 0 ∈ yypreds v) :
    Path (v :: ss) := by
  cases ss with
  | nil => exact absurd hp (by simp [Path])
  | cons e rest => exact ⟨h, hp⟩

theorem shift_pred {s t v : Int} (h0 : 0 ≤ s) (h1 : s < 179) (h : ashift s t = some v) :
    s ∈ yypreds v := by
  obtain ⟨hsh, ht0, ht1⟩ := ashift_tshift h
  have hok : ∀ t ∈ List.range 47, shiftOk s (t : Int) = true :=
    int_of_range (P := fun s => ∀ t ∈ List.range 47, shiftOk s (t : Int) = true)
      shift_edge _ h0 (by simpa using h1)
  have hok2 : shiftOk s t = true :=
    int_of_range (P := fun t => shiftOk s t = true) hok _ ht0 (by simpa using ht1)
  unfold shiftOk at hok2
  rw [hsh] at hok2
  simp only [Bool.and_eq_true] at hok2
  simpa using hok2.1

set_option maxRecDepth 1000000 in
theorem yystartT_size : yystartT.ok = true ∧ yystartT.toList.length = 179 := by decide!

set_option maxRecDepth 1000000 in
theorem start_closed : ∀ e ∈ List.range 179, startOk (e : Int) = true := by decide!

set_option maxRecDepth 1000000 in
theorem base_closed : ∀ e ∈ exprBaseT, baseOk e = true := by decide!

theorem yystarts_out (e : Int) (h : ¬ (0 ≤ e ∧ e < 179)) : yystarts e = [] := by
  unfold yystarts
  split
  · rw [Tbl.get_eq [] yystartT yystartT_size.1]
    apply List.getD_eq_default
    rw [yystartT_size.2]; omega
  · rfl

theorem vstart_spec {e a : Int} (h : vstart e a = true) :
    e ∈ yypreds (tgoto e a) ∧ tgoto e a ≠ YYFINAL := by
  unfold vstart at h
  have hmem : a ∈ yystarts e := by simpa using h
  by_cases hr : 0 ≤ e ∧ e < 179
  · have hok : startOk e = true :=
      int_of_range (P := fun e => startOk e = true) start_closed e hr.1 (by simpa using hr.2)
    unfold startOk at hok
    simp only [List.all_eq_true, Bool.and_eq_true, bne_iff_ne, ne_eq] at hok
    have h2 := hok a hmem
    exact ⟨by simpa using h2.1, h2.2⟩
  · rw [yystarts_out e hr] at hmem
    simp at hmem

theorem exprBase_spec {e : Int} (h : exprBase e = true) :
    vstart e 25 = true ∧ ∀ b ∈ binops, (tshift (tgoto e 25) b).isSome = true := by
  unfold exprBase at h
  have hok := base_closed e (by simpa using h)
  unfold baseOk at hok
  simpa only [Bool.and_eq_true, List.all_eq_true] using hok

theorem exprBase_vstart {e : Int} (h : exprBase e = true) : vstart e 25 = true :=
  (exprBase_spec h).1

theorem Path.goto {ss : List Int} {a : Int} (hp : Path ss)
    (h : vstart (ss.headD 0) a = true) : Path (tgoto (ss.headD 0) a :: ss) :=
  hp.cons (vstart_spec h).1

theorem childState_spec {s x v : Int} (h0 : 0 ≤ s) (h1 : s < 179)
    (h : childState s x = some v) :
    s ∈ yypreds v ∧ v ≠ YYFINAL ∧ (x < 47 → ashift s x = some v) ∧
    (x = 72 → exprBase s = true ∧ v = tgoto s 25) ∧
    (¬ x < 47 → x ≠ 72 → vstart s (x - 47) = true ∧ v = tgoto s (x - 47)) := by
  unfold childState at h
  by_cases hx : x < 47
  · rw [if_pos hx] at h
    cases hsh : ashift s x with
    | none => rw [hsh] at h; cases h
    | some u =>
      rw [hsh] at h
      simp only at h
      by_cases hu : u = YYFINAL
      · rw [if_pos hu] at h; cases h
      · rw [if_neg hu] at h
        simp only [Option.some.injEq] at h
        subst h
        exact ⟨shift_pred h0 h1 hsh, hu, fun _ => rfl, fun h72 => by omega,
          fun hn => absurd hx hn⟩
  · rw [if_neg hx] at h
    by_cases h72 : x = 72
    · rw [if_pos h72] at h
      by_cases hb : exprBase s = true
      · rw [if_pos hb] at h
        simp only [Option.some.injEq] at h
        subst h
        have hv := vstart_spec (exprBase_vstart hb)
        exact ⟨hv.1, hv.2, fun h => absurd h hx, fun _ => ⟨hb, rfl⟩, fun _ hn => absurd h72 hn⟩
      · rw [if_neg hb] at h; cases h
    · rw [if_neg h72] at h
      by_cases hb : vstart s (x - 47) = true
      · rw [if_pos hb] at h
        simp only [Option.some.injEq] at h
        subst h
        have hv := vstart_spec hb
        exact ⟨hv.1, hv.2, fun h => absurd h hx, fun h => absurd h h72, fun _ _ => ⟨hb, rfl⟩⟩
      · rw [if_neg hb] at h; cases h

/-- The automaton pushes the states of `walk` while it reads the phrases of a symbol
string. -/
theorem walk_steps {xs w inp : List Int} (hk : Kids xs w inp) :
    ∀ ss l : List Int, Path ss → walk (ss.headD 0) xs = some l →
      Path (l ++ ss) ∧ (Acc (l ++ ss) inp → Acc ss (w ++ inp)) := by
  induction hk with
  | nil inp =>
    intro ss l hp hw
    simp only [walk, Option.some.injEq] at hw
    subst hw
    exact ⟨hp, fun h => h⟩
  | cons x w xs v inp hkid _ ih =>
    intro ss l hp hw
    have hs := hp.top_range
    unfold walk at hw
    cases hc : childState (ss.headD 0) x with
    | none => rw [hc] at hw; cases hw
    | some v0 =>
      rw [hc] at hw
      simp only [Option.map_eq_some'] at hw
      obtain ⟨l0, hl0, rfl⟩ := hw
      obtain ⟨hpred, hv0, hx1, hx2, hx3⟩ := childState_spec hs.1 hs.2 hc
      have hp1 : Path (v0 :: ss) := hp.cons hpred
      obtain ⟨hp2, hacc⟩ := ih (v0 :: ss) l0 hp1 (by simpa using hl0)
      have e1 : (l0 ++ [v0]) ++ ss = l0 ++ v0 :: ss := by simp
      rw [e1, List.append_assoc]
      refine ⟨hp2, fun ha => ?_⟩
      have h1 := hacc ha
      unfold KidAt at hkid
      by_cases hx : x < 47
      · rw [if_pos hx] at hkid
        subst hkid
        refine Acc.step _ _ _ _ ?_ h1
        have hsh : ashift (ss.headD 0) (([x] ++ (v ++ inp)).headD 0) = some v0 := hx1 hx
        rw [astep_shift hsh]
        exact apush_next hv0
      · rw [if_neg hx] at hkid
        by_cases h72 : x = 72
        · rw [if_pos h72] at hkid
          obtain ⟨hb, rfl⟩ := hx2 h72
          exact hkid ss hp hb h1
        · rw [if_neg h72] at hkid
          obtain ⟨hb, rfl⟩ := hx3 hx h72
          exact hkid ss hp hb h1

theorem headD_append (l ss : List Int) (h : ss ≠ []) :
    (l ++ ss).headD 0 = (l ++ [ss.headD 0]).headD 0 := by
  cases l with
  | nil =>
    cases ss with
    | nil => exact absurd rfl h
    | cons a rest => rfl
  | cons a l => rfl

/-- The automaton recognises rule `r`: it reads the phrases of the right-hand side, reduces
by `r` when the state reached takes the default action, and enters the state of the
left-hand side. -/
theorem rule_steps {r : Nat} {ss w inp : List Int} (hp : Path ss)
    (hv : vstart (ss.headD 0) (tget yyr1 r - YYNTOKENS) = true)
    (hw : walkOk r (ss.headD 0) = true) (hk : Kids (yyrhs r) w inp)
    (hm : missOk (ruleTop r (ss.headD 0)) (inp.headD 0) = true)
    (ha : Acc (tgoto (ss.headD 0) (tget yyr1 r - YYNTOKENS) :: ss) inp) :
    Acc ss (w ++ inp) := by
  unfold walkOk at hw
  rw [hv] at hw
  unfold ruleTop at hm
  cases hwalk : walk (ss.headD 0) (yyrhs r) with
  | none => rw [hwalk] at hw; simp at hw
  | some l =>
    rw [hwalk] at hw hm
    simp only [Bool.not_true, Bool.false_or, Bool.and_eq_true, beq_iff_eq, bne_iff_ne,
      ne_eq] at hw
    obtain ⟨⟨hr, h0⟩, hlen⟩ := hw
    simp only [Option.getD_some] at hm
    have htop : (l ++ ss).headD 0 = (l ++ [ss.headD 0]).headD 0 := headD_append l ss hp.ne_nil
    apply (walk_steps hk ss l hp hwalk).2
    refine Acc.step _ _ _ _ ?_ ha
    rw [astep_miss (by rw [htop]; exact hm)]
    rw [ared_eq (r := (r : Int)) (k := l.length) (by rw [htop]; exact hr)
      (by exact_mod_cast h0) hlen]
    rw [List.drop_left]
    exact apush_next (vstart_spec hv).2

/-! ## Expressions -/

set_option maxRecDepth 1000000 in
theorem prefix_edge : ∀ s ∈ List.range 179, vstart (s : Int) 25 = true →
    ashift (s : Int) 31 = some 18 ∧ ashift (s : Int) 46 = some 21 := by decide!

set_option maxRecDepth 1000000 in
theorem prefix_states : vstart 18 25 = true ∧ vstart 21 25 = true ∧
    spineRed (tgoto 18 25) 2 = true ∧ spineRed (tgoto 21 25) 2 = true := by decide!

set_option maxRecDepth 1000000 in
theorem binop_edge : ∀ s ∈ List.range 179, vstart (s : Int) 25 = true → ∀ b ∈ binops,
    (tshift (tgoto (s : Int) 25) b).all (fun v => v != YYFINAL && vstart v 25 &&
      spineRed (tgoto v 25) 3) = true := by decide!

theorem binops_range : ∀ b ∈ binops, 0 ≤ b ∧ b < 47 := by decide

theorem closers_range : ∀ c ∈ closers, 0 ≤ c ∧ c < 47 := by decide

theorem isBinop_mem {b : Int} (h : isBinop b = true) : b ∈ binops := by
  unfold isBinop at h; simpa using h

theorem isCloser_mem {c : Int} (h : isCloser c = true) : c ∈ closers := by
  unfold isCloser at h; simpa using h

/-- The shift of a unary operator in a state that begins an expression. -/
theorem prefix_spec {s t : Int} (h0 : 0 ≤ s) (h1 : s < 179) (hv : vstart s 25 = true)
    (ht : t = 31 ∨ t = 46) :
    ∃ v, ashift s t = some v ∧ v ≠ YYFINAL ∧ vstart v 25 = true ∧
      spineRed (tgoto v 25) 2 = true := by
  have h := int_of_range (P := fun s => vstart s 25 = true →
    ashift s 31 = some 18 ∧ ashift s 46 = some 21) prefix_edge s h0 (by simpa using h1) hv
  obtain ⟨p1, p2, p3, p4⟩ := prefix_states
  rcases ht with rfl | rfl
  · exact ⟨18, h.1, by simp [YYFINAL], p1, p3⟩
  · exact ⟨21, h.2, by simp [YYFINAL], p2, p4⟩

/-- The shift of a binary operator after an expression. -/
theorem binop_spec {s b v : Int} (h0 : 0 ≤ s) (h1 : s < 179) (hs : vstart s 25 = true)
    (hb : isBinop b = true) (h : tshift (tgoto s 25) b = some v) :
    ashift (tgoto s 25) b = some v ∧ v ≠ YYFINAL ∧ vstart v 25 = true ∧
      spineRed (tgoto v 25) 3 = true := by
  have hm := isBinop_mem hb
  have hr := binops_range b hm
  have hk := int_of_range (P := fun s => vstart s 25 = true → ∀ b ∈ binops,
    (tshift (tgoto s 25) b).all (fun v => v != YYFINAL && vstart v 25 &&
      spineRed (tgoto v 25) 3) = true) binop_edge s h0 (by simpa using h1) hs b hm
  rw [h] at hk
  simp only [Option.all_some, Bool.and_eq_true, bne_iff_ne, ne_eq] at hk
  exact ⟨ashift_of_tshift h hr.1 hr.2, hk.1.1, hk.1.2, hk.2⟩

theorem spineRed_miss {y t : Int} {k : Nat} (hr : spineRed y k = true)
    (hc : isCloser t = true) : missOk y t = true := by
  unfold spineRed at hr
  simp only [Bool.and_eq_true, List.all_eq_true] at hr
  exact hr.2 t (isCloser_mem hc)

/-- The reduction in a state entered on `expr` above an operator. -/
theorem spine_reduce {y : Int} {k : Nat} {rest inp : List Int} (hr : spineRed y k = true)
    (hm : missOk y (inp.headD 0) = true) :
    astep (y :: rest) inp =
      apush ((y :: rest).drop k) inp (tgoto (((y :: rest).drop k).headD 0) 25) := by
  unfold spineRed at hr
  simp only [Bool.and_eq_true, bne_iff_ne, ne_eq, beq_iff_eq] at hr
  obtain ⟨⟨⟨h0, hk⟩, h1⟩, -⟩ := hr
  rw [astep_miss (by simpa using hm)]
  rw [@ared_eq (y :: rest) inp (tget yydefact y) k rfl h0 hk, h1]
  rfl

theorem tshift_miss {s t : Int} (h : tshift s t = none) : missOk s t = true := by
  unfold missOk ashift
  by_cases hr : 0 ≤ t ∧ t < YYNTOKENS
  · rw [if_pos hr, h]; simp
  · rw [if_neg hr]; simp

theorem goto_range {ss : List Int} {a : Int} (hp : Path ss)
    (hv : vstart (ss.headD 0) a = true) :
    0 ≤ tgoto (ss.headD 0) a ∧ tgoto (ss.headD 0) a < 179 :=
  (hp.goto hv).top_range

/-- The stacks of `Spine` are paths whose top state begins an expression. -/
theorem Spine.inv {base ss : List Int} (h : Spine base ss) (hp : Path base)
    (hv : vstart (base.headD 0) 25 = true) :
    Path ss ∧ vstart (ss.headD 0) 25 = true := by
  induction h with
  | nil => exact ⟨hp, hv⟩
  | pre ss t v _ ht hsh ih =>
    obtain ⟨hp1, hv1⟩ := ih
    have hs := hp1.top_range
    obtain ⟨u, hu, -, hu2, -⟩ := prefix_spec hs.1 hs.2 hv1 ht
    have := (ashift_tshift hu).1
    rw [hsh] at this
    simp only [Option.some.injEq] at this
    subst this
    exact ⟨hp1.cons (shift_pred hs.1 hs.2 hu), hu2⟩
  | op ss b v _ hb hsh ih =>
    obtain ⟨hp1, hv1⟩ := ih
    have hx := goto_range hp1 hv1
    have hs := hp1.top_range
    obtain ⟨h1, -, h3, -⟩ := binop_spec hs.1 hs.2 hv1 hb hsh
    exact ⟨(hp1.goto hv1).cons (shift_pred hx.1 hx.2 h1), h3⟩

/-- Before a closing symbol the automaton reduces every pending operator. -/
theorem Spine.collapse {base ss : List Int} (h : Spine base ss) (hp : Path base)
    (hv : vstart (base.headD 0) 25 = true) (inp : List Int)
    (hc : isCloser (inp.headD 0) = true)
    (ha : Acc (tgoto (base.headD 0) 25 :: base) inp) :
    Acc (tgoto (ss.headD 0) 25 :: ss) inp := by
  induction h with
  | nil => exact ha
  | pre ss t v hsp ht hsh ih =>
    obtain ⟨hp1, hv1⟩ := hsp.inv hp hv
    have hs := hp1.top_range
    obtain ⟨u, hu, -, -, hu3⟩ := prefix_spec hs.1 hs.2 hv1 ht
    have := (ashift_tshift hu).1
    rw [hsh] at this
    simp only [Option.some.injEq] at this
    subst this
    refine Acc.step _ _ _ _ ?_ ih
    show astep (tgoto v 25 :: v :: ss) inp = _
    rw [spine_reduce hu3 (spineRed_miss hu3 hc)]
    exact apush_next (vstart_spec hv1).2
  | op ss b v hsp hb hsh ih =>
    obtain ⟨hp1, hv1⟩ := hsp.inv hp hv
    have hs := hp1.top_range
    obtain ⟨-, -, -, h4⟩ := binop_spec hs.1 hs.2 hv1 hb hsh
    refine Acc.step _ _ _ _ ?_ ih
    show astep (tgoto v 25 :: v :: tgoto (ss.headD 0) 25 :: ss) inp = _
    rw [spine_reduce h4 (spineRed_miss h4 hc)]
    exact apush_next (vstart_spec hv1).2

/-- Before a binary operator the automaton reduces the pending operators that bind at
least as tightly, and shifts the operator. -/
theorem Spine.rloop {base ss : List Int} (h : Spine base ss) (hp : Path base)
    (hbase : exprBase (base.headD 0) = true) (b : Int) (hbin : isBinop b = true) :
    ∃ ss1, Spine base ss1 ∧
      ∀ inp, Acc ss1 inp → Acc (tgoto (ss.headD 0) 25 :: ss) (b :: inp) := by
  have hv := exprBase_vstart hbase
  have key : ∀ (l : List Int) (k : Nat), Spine base l →
      spineRed (tgoto (l.headD 0) 25) k = true →
      (∃ ss1, Spine base ss1 ∧ ∀ inp, Acc ss1 inp →
        Acc (tgoto (((tgoto (l.headD 0) 25 :: l).drop k).headD 0) 25 ::
          (tgoto (l.headD 0) 25 :: l).drop k) (b :: inp)) →
      tgoto (((tgoto (l.headD 0) 25 :: l).drop k).headD 0) 25 ≠ YYFINAL →
      ∃ ss1, Spine base ss1 ∧
        ∀ inp, Acc ss1 inp → Acc (tgoto (l.headD 0) 25 :: l) (b :: inp) := by
    intro l k hl hred ih hnf
    obtain ⟨hp1, hv1⟩ := hl.inv hp hv
    have hx := hp1.top_range
    cases hsh : tshift (tgoto (l.headD 0) 25) b with
    | some v =>
      obtain ⟨h1, h2, -, -⟩ := binop_spec hx.1 hx.2 hv1 hbin hsh
      exact ⟨_, Spine.op l b v hl hbin hsh, fun inp ha => Acc.shift h1 h2 ha⟩
    | none =>
      obtain ⟨ss1, hs1, hacc⟩ := ih
      refine ⟨ss1, hs1, fun inp ha => ?_⟩
      refine Acc.step _ _ _ _ ?_ (hacc inp ha)
      rw [spine_reduce hred (by simpa using tshift_miss hsh)]
      exact apush_next hnf
  induction h with
  | nil =>
    have hx := hp.top_range
    have hsome := (exprBase_spec hbase).2 b (isBinop_mem hbin)
    cases hsh : tshift (tgoto (base.headD 0) 25) b with
    | none => rw [hsh] at hsome; simp at hsome
    | some v =>
      obtain ⟨h1, h2, -, -⟩ := binop_spec hx.1 hx.2 hv hbin hsh
      exact ⟨_, Spine.op base b v Spine.nil hbin hsh, fun inp ha => Acc.shift h1 h2 ha⟩
  | pre ss t v hsp ht hsh ih =>
    obtain ⟨hp1, hv1⟩ := hsp.inv hp hv
    have hs := hp1.top_range
    obtain ⟨u, hu, -, -, hu3⟩ := prefix_spec hs.1 hs.2 hv1 ht
    have := (ashift_tshift hu).1
    rw [hsh] at this
    simp only [Option.some.injEq] at this
    subst this
    exact key (v :: ss) 2 (Spine.pre ss t v hsp ht hsh) hu3 ih (vstart_spec hv1).2
  | op ss b0 v hsp hb0 hsh ih =>
    obtain ⟨hp1, hv1⟩ := hsp.inv hp hv
    have hx := hp1.top_range
    obtain ⟨-, -, -, h4⟩ := binop_spec hx.1 hx.2 hv1 hb0 hsh
    exact key (v :: tgoto (ss.headD 0) 25 :: ss) 3 (Spine.op ss b0 v hsp hb0 hsh) h4 ih
      (vstart_spec hv1).2

/-- The automaton reads an expression: begun on `base`, with operators pending on `ss`, it
arrives before the closing symbol in the state entered from `base` on `expr`. -/
theorem Flat.accepted {w : List Int} (h : Flat w) :
    ∀ base ss : List Int, Path base → exprBase (base.headD 0) = true → Spine base ss →
      ∀ inp : List Int, isCloser (inp.headD 0) = true →
        Acc (tgoto (base.headD 0) 25 :: base) inp → Acc ss (w ++ inp) := by
  induction h with
  | prim p hprim =>
    intro base ss hp hb hs inp hc ha
    have hv := exprBase_vstart hb
    obtain ⟨hp1, hv1⟩ := hs.inv hp hv
    exact hprim ss inp hp1 hv1 (Or.inr hc) (hs.collapse hp hv inp hc ha)
  | pre t w ht _ ih =>
    intro base ss hp hb hs inp hc ha
    have hv := exprBase_vstart hb
    obtain ⟨hp1, hv1⟩ := hs.inv hp hv
    have hr := hp1.top_range
    obtain ⟨u, hu, hu1, -, -⟩ := prefix_spec hr.1 hr.2 hv1 ht
    have hsp : Spine base (u :: ss) := Spine.pre ss t u hs ht (ashift_tshift hu).1
    refine Acc.step _ _ _ _ ?_ (ih base (u :: ss) hp hb hsp inp hc ha)
    have hsh : ashift (ss.headD 0) ((t :: w ++ inp).headD 0) = some u := hu
    rw [astep_shift hsh]
    exact apush_next hu1
  | op p b w hprim hbin _ ih =>
    intro base ss hp hb hs inp hc ha
    have hv := exprBase_vstart hb
    obtain ⟨hp1, hv1⟩ := hs.inv hp hv
    obtain ⟨ss1, hs1, hacc⟩ := hs.rloop hp hb b hbin
    have e1 : (p ++ b :: w) ++ inp = p ++ (b :: (w ++ inp)) := by simp
    rw [e1]
    exact hprim ss (b :: (w ++ inp)) hp1 hv1 (Or.inl hbin)
      (hacc _ (ih base ss1 hp hb hs1 inp hc ha))

/-- An expression is recognised before a closing symbol wherever it extends to one. -/
theorem Flat.exprAt {w : List Int} (h : Flat w) (inp : List Int)
    (hc : isCloser (inp.headD 0) = true) : ExprAt w inp :=
  fun ss hp hb ha => h.accepted ss ss hp hb Spine.nil inp hc ha

/-- Two expressions joined by a binary operator form an expression. -/
theorem Flat.binary {w v : List Int} (h : Flat w) (b : Int) (hb : isBinop b = true)
    (hv : Flat v) : Flat (w ++ b :: v) := by
  induction h with
  | prim p hp => exact Flat.op p b v hp hb hv
  | pre t w ht _ ih => exact Flat.pre t _ ht ih
  | op p b0 w hp hb0 _ ih =>
    have e1 : (p ++ b0 :: w) ++ b :: v = p ++ b0 :: (w ++ b :: v) := by simp
    rw [e1]
    exact Flat.op p b0 _ hp hb0 ih

/-! ## The rules, state by state -/

set_option maxRecDepth 1000000 in
theorem walk_edge : ∀ r ∈ List.range 90, (r < 65 ∨ 80 ≤ r) → ∀ e ∈ List.range 179,
    walkOk r (e : Int) = true := by decide!

set_option maxRecDepth 1000000 in
theorem generic_edge : ∀ r ∈ List.range 90, genericRule r = true → ∀ e ∈ List.range 179,
    genericOk r (e : Int) = true := by decide!

set_option maxRecDepth 1000000 in
theorem prim_edge : ∀ r ∈ List.range 90, 80 ≤ r → r ≤ 87 → ∀ e ∈ List.range 179,
    primOk r (e : Int) = true := by decide!

set_option maxRecDepth 1000000 in
theorem stmt_edge : ∀ e ∈ List.range 179,
    (vstart (e : Int) 9 = true →
      (∀ t ∈ yyfollow (tgoto (e : Int) 9), t ≠ 10 → missOk (ruleTop 27 (e : Int)) t = true) ∧
      tget yypact (ruleTop 28 (e : Int)) = YYPACT_NINF) ∧
    (vstart (e : Int) 11 = true → tget yypact (ruleTop 30 (e : Int)) = YYPACT_NINF) ∧
    (vstart (e : Int) 12 = true → tget yypact (ruleTop 31 (e : Int)) = YYPACT_NINF) ∧
    (vstart (e : Int) 3 = true →
      tget yypact (ruleTop 6 (e : Int)) = YYPACT_NINF ∧
      tget yypact (ruleTop 8 (e : Int)) = YYPACT_NINF ∧
      tget yypact (ruleTop 9 (e : Int)) = YYPACT_NINF) := by decide!

set_option maxRecDepth 1000000 in
theorem stmt_lhs : tget yyr1 (6 : Nat) = 50 ∧ tget yyr1 (8 : Nat) = 50 ∧
    tget yyr1 (9 : Nat) = 50 ∧ tget yyr1 (27 : Nat) = 56 ∧ tget yyr1 (28 : Nat) = 56 ∧
    tget yyr1 (30 : Nat) = 58 ∧ tget yyr1 (31 : Nat) = 59 := by decide!

theorem walkOk_of_range {r : Nat} (hr : r < 65 ∨ 80 ≤ r) (hr2 : r < 90) {e : Int}
    (h0 : 0 ≤ e) (h1 : e < 179) : walkOk r e = true :=
  int_of_range (P := fun e => walkOk r e = true)
    (walk_edge r (List.mem_range.2 hr2) hr) e h0 (by simpa using h1)

theorem missOk_ninf {s : Int} (h : tget yypact s = YYPACT_NINF) (t : Int) :
    missOk s t = true := by
  unfold missOk; simp [h]

/-- A rule is recognised, as its left-hand side `x`, before the symbols `inp` when the state
reached takes the default action on the first of them, given that this symbol follows the
state entered after the reduction. -/
theorem rule_star {r : Nat} {x : Int} {w inp : List Int} (hr : r < 65 ∨ 80 ≤ r)
    (hr2 : r < 90) (hl : tget yyr1 r = x) (hk : Kids (yyrhs r) w inp)
    (hm : ∀ e : Int, 0 ≤ e → e < 179 → vstart e (x - 47) = true →
      inp.headD 0 ∈ yyfollow (tgoto e (x - 47)) → missOk (ruleTop r e) (inp.headD 0) = true) :
    StarAt x w inp := by
  intro ss hp hv ha
  have hs := hp.top_range
  have e1 : tget yyr1 r - YYNTOKENS = x - 47 := by rw [hl]; rfl
  have hfol := ha.follow (hp.goto hv) (vstart_spec hv).2
  refine rule_steps hp (by rw [e1]; exact hv) (walkOk_of_range hr hr2 hs.1 hs.2) hk
    (hm _ hs.1 hs.2 hv hfol) (by rw [e1]; exact ha)

theorem Kids.tok (t : Int) (ht : t < 47) {xs v inp : List Int} (h : Kids xs v inp) :
    Kids (t :: xs) (t :: v) inp :=
  Kids.cons t [t] xs v inp (by unfold KidAt; rw [if_pos ht]) h

theorem Kids.expr {e : List Int} (he : Flat e) {xs v inp : List Int}
    (hc : isCloser ((v ++ inp).headD 0) = true) (h : Kids xs v inp) :
    Kids (72 :: xs) (e ++ v) inp :=
  Kids.cons 72 e xs v inp
    (by unfold KidAt; rw [if_neg (by omega), if_pos rfl]; exact he.exprAt _ hc) h

theorem Kids.star (x : Int) (hx : 47 ≤ x) (h72 : x ≠ 72) {w xs v inp : List Int}
    (hw : StarAt x w (v ++ inp)) (h : Kids xs v inp) : Kids (x :: xs) (w ++ v) inp :=
  Kids.cons x w xs v inp
    (by unfold KidAt; rw [if_neg (by omega), if_neg h72]; exact hw) h

theorem Kids.last (x : Int) (hx : 47 ≤ x) (h72 : x ≠ 72) {w inp : List Int}
    (hw : StarAt x w inp) : Kids [x] w inp := by
  have := Kids.star x hx h72 (v := []) hw (Kids.nil inp)
  simpa using this

/-! ## Statements -/

theorem closer_paren : isCloser 42 = true := by decide

theorem stmt_spec {e : Int} (h0 : 0 ≤ e) (h1 : e < 179) :
    (vstart e 9 = true →
      (∀ t ∈ yyfollow (tgoto e 9), t ≠ 10 → missOk (ruleTop 27 e) t = true) ∧
      tget yypact (ruleTop 28 e) = YYPACT_NINF) ∧
    (vstart e 11 = true → tget yypact (ruleTop 30 e) = YYPACT_NINF) ∧
    (vstart e 12 = true → tget yypact (ruleTop 31 e) = YYPACT_NINF) ∧
    (vstart e 3 = true →
      tget yypact (ruleTop 6 e) = YYPACT_NINF ∧
      tget yypact (ruleTop 8 e) = YYPACT_NINF ∧
      tget yypact (ruleTop 9 e) = YYPACT_NINF) :=
  int_of_range (P := fun e =>
    (vstart e 9 = true →
      (∀ t ∈ yyfollow (tgoto e 9), t ≠ 10 → missOk (ruleTop 27 e) t = true) ∧
      tget yypact (ruleTop 28 e) = YYPACT_NINF) ∧
    (vstart e 11 = true → tget yypact (ruleTop 30 e) = YYPACT_NINF) ∧
    (vstart e 12 = true → tget yypact (ruleTop 31 e) = YYPACT_NINF) ∧
    (vstart e 3 = true →
      tget yypact (ruleTop 6 e) = YYPACT_NINF ∧
      tget yypact (ruleTop 8 e) = YYPACT_NINF ∧
      tget yypact (ruleTop 9 e) = YYPACT_NINF)) stmt_edge e h0 (by simpa using h1)

/-- The automaton recognises a statement in which every `else` belongs to the nearest `if`,
before any symbol if the statement is closed and before any symbol but `else` if not. -/
theorem CS.recognised {c : Bool} {x : Int} {w : List Int} (h : CS c x w) :
    ∀ inp : List Int, (c = false → inp.headD 0 ≠ 10) → StarAt x w inp := by
  induction h with
  | closed x w _ hstar => intro inp _; exact hstar inp
  | unit c x w hx _ ih =>
    intro inp hla
    have hk : StarAt x w inp := ih inp hla
    rcases hx with rfl | rfl | rfl
    · refine rule_star (r := 6) (by omega) (by omega) stmt_lhs.1
        (Kids.last 56 (by omega) (by omega) hk) ?_
      intro e h0 h1 hv _
      exact missOk_ninf ((stmt_spec h0 h1).2.2.2 hv).1 _
    · refine rule_star (r := 8) (by omega) (by omega) stmt_lhs.2.1
        (Kids.last 58 (by omega) (by omega) hk) ?_
      intro e h0 h1 hv _
      exact missOk_ninf ((stmt_spec h0 h1).2.2.2 hv).2.1 _
    · refine rule_star (r := 9) (by omega) (by omega) stmt_lhs.2.2.1
        (Kids.last 59 (by omega) (by omega) hk) ?_
      intro e h0 h1 hv _
      exact missOk_ninf ((stmt_spec h0 h1).2.2.2 hv).2.2 _
  | ifThen c e s he _ ih =>
    intro inp hla
    refine rule_star (r := 27) (by omega) (by omega) stmt_lhs.2.2.2.1
      (Kids.tok 9 (by omega) (Kids.tok 41 (by omega) (Kids.expr he closer_paren
        (Kids.tok 42 (by omega) (Kids.last 50 (by omega) (by omega)
          (ih inp (fun hc => hla rfl))))))) ?_
    intro e h0 h1 hv hf
    exact ((stmt_spec h0 h1).1 hv).1 _ hf (hla rfl)
  | ifElse c e s u he _ _ ih1 ih2 =>
    intro inp hla
    refine rule_star (r := 28) (by omega) (by omega) stmt_lhs.2.2.2.2.1
      (Kids.tok 9 (by omega) (Kids.tok 41 (by omega) (Kids.expr he closer_paren
        (Kids.tok 42 (by omega) (Kids.star 50 (by omega) (by omega)
          (ih1 _ (fun hc => by cases hc))
          (Kids.tok 10 (by omega) (Kids.last 50 (by omega) (by omega) (ih2 inp hla)))))))) ?_
    intro e h0 h1 hv _
    exact missOk_ninf ((stmt_spec h0 h1).1 hv).2 _
  | loop c e s he _ ih =>
    intro inp hla
    refine rule_star (r := 30) (by omega) (by omega) stmt_lhs.2.2.2.2.2.1
      (Kids.tok 12 (by omega) (Kids.tok 41 (by omega) (Kids.expr he closer_paren
        (Kids.tok 42 (by omega) (Kids.last 50 (by omega) (by omega) (ih inp hla)))))) ?_
    intro e h0 h1 hv _
    exact missOk_ninf ((stmt_spec h0 h1).2.1 hv) _
  | forLoop c i e u s hi he hu _ ih =>
    intro inp hla
    refine rule_star (r := 31) (by omega) (by omega) stmt_lhs.2.2.2.2.2.2
      (Kids.tok 13 (by omega) (Kids.tok 41 (by omega)
        (Kids.star 60 (by omega) (by omega) (hi _)
          (Kids.tok 36 (by omega) (Kids.star 63 (by omega) (by omega) (he _)
            (Kids.tok 36 (by omega) (Kids.star 64 (by omega) (by omega) (hu _)
              (Kids.tok 42 (by omega)
                (Kids.last 50 (by omega) (by omega) (ih inp hla)))))))))) ?_
    intro e h0 h1 hv _
    exact missOk_ninf ((stmt_spec h0 h1).2.2.1 hv) _

/-- An `else` branch after a statement that is not closed belongs to its last `if`. -/
theorem CS.attach {c : Bool} {x : Int} {w : List Int} (h : CS c x w) :
    c = false → ∀ (c2 : Bool) (u : List Int), CS c2 50 u →
      ∃ c1, CS c1 x (w ++ 10 :: u) := by
  induction h with
  | closed x w _ _ => intro hc; cases hc
  | unit c x w hx _ ih =>
    intro hc c2 u hu
    obtain ⟨c1, h1⟩ := ih hc c2 u hu
    exact ⟨c1, CS.unit c1 x _ hx h1⟩
  | ifThen c e s he hs ih =>
    intro _ c2 u hu
    cases c with
    | true =>
      refine ⟨c2, ?_⟩
      have := CS.ifElse c2 e s u he hs hu
      simpa using this
    | false =>
      obtain ⟨c1, h1⟩ := ih rfl c2 u hu
      refine ⟨false, ?_⟩
      have := CS.ifThen c1 e (s ++ 10 :: u) he h1
      simpa using this
  | ifElse c e s u0 he hs _ _ ih2 =>
    intro hc c2 u hu
    obtain ⟨c1, h1⟩ := ih2 hc c2 u hu
    refine ⟨c1, ?_⟩
    have := CS.ifElse c1 e s (u0 ++ 10 :: u) he hs h1
    simpa using this
  | loop c e s he _ ih =>
    intro hc c2 u hu
    obtain ⟨c1, h1⟩ := ih hc c2 u hu
    refine ⟨c1, ?_⟩
    have := CS.loop c1 e (s ++ 10 :: u) he h1
    simpa using this
  | forLoop c i e u0 s hi he hu0 _ ih =>
    intro hc c2 u hu
    obtain ⟨c1, h1⟩ := ih hc c2 u hu
    refine ⟨c1, ?_⟩
    have := CS.forLoop c1 i e u0 (s ++ 10 :: u) hi he hu0 h1
    simpa using this

/-! ## The phrases of the rules -/

theorem stmtLike_spec {x : Int} (h : stmtLike x = true) :
    x = 50 ∨ x = 56 ∨ x = 58 ∨ x = 59 := by
  unfold stmtLike at h
  simp only [Bool.or_eq_true, beq_iff_eq] at h
  omega

theorem Q_tok {x : Int} {w : List Int} (hx : x < 47) : Q x w ↔ w = [x] := by
  unfold Q; rw [if_pos hx]

theorem Q_expr {w : List Int} : Q 72 w ↔ Flat w := by
  unfold Q; rw [if_neg (by omega), if_pos rfl]

theorem Q_stmt {x : Int} {w : List Int} (hx : stmtLike x = true) :
    Q x w ↔ ∃ c, CS c x w := by
  have := stmtLike_spec hx
  unfold Q; rw [if_neg (by omega), if_neg (by omega), if_pos hx]

theorem Q_of_star {x : Int} {w : List Int} (h1 : 47 ≤ x) (h2 : x ≠ 72) (h : Star x w) :
    Q x w := by
  unfold Q; rw [if_neg (by omega), if_neg h2]
  by_cases hs : stmtLike x = true
  · rw [if_pos hs]; exact ⟨true, CS.closed x w hs h⟩
  · rw [if_neg hs]; exact h

theorem Q_star {x : Int} {w : List Int} (h1 : 47 ≤ x) (h2 : x ≠ 72)
    (h3 : stmtLike x = false) (h : Q x w) : Star x w := by
  unfold Q at h
  rw [if_neg (by omega), if_neg h2, if_neg (by simp [h3])] at h
  exact h

/-- A phrase of a symbol is recognised before a symbol that may follow it. -/
theorem Q_kid {x : Int} {w inp : List Int} (h : Q x w)
    (hf : kidOk x (inp.headD 0) = true) : KidAt x w inp := by
  unfold Q at h
  unfold KidAt
  unfold kidOk at hf
  by_cases hx : x < 47
  · rw [if_pos hx] at h ⊢; exact h
  · rw [if_neg hx] at h ⊢
    by_cases h72 : x = 72
    · rw [if_pos h72] at h hf ⊢; exact h.exprAt inp hf
    · rw [if_neg h72] at h hf ⊢
      by_cases hs : stmtLike x = true
      · rw [if_pos hs] at h hf
        obtain ⟨c, hc⟩ := h
        exact hc.recognised inp (fun _ => by simpa using hf)
      · rw [if_neg hs] at h; exact h inp

theorem Good.nil_inv {w : List Int} (h : Good [] w) : w = [] := by
  cases h; rfl

theorem Good.cons_inv {x : Int} {xs w : List Int} (h : Good (x :: xs) w) :
    ∃ w1 w2, w = w1 ++ w2 ∧ Q x w1 ∧ Good xs w2 := by
  cases h with
  | cons _ w1 _ w2 hq hg => exact ⟨w1, w2, rfl, hq, hg⟩

/-- The phrases of a right-hand side are recognised one after the other when each
expression and each statement in it is followed by a symbol that may follow it. -/
theorem good_kids {xs w : List Int} (h : Good xs w) :
    ∀ inp : List Int, folOk xs (inp.headD 0) = true → Kids xs w inp := by
  induction h with
  | nil => intro inp _; exact Kids.nil inp
  | cons x w xs v hq hg ih =>
    intro inp hf
    cases xs with
    | nil =>
      have hv := hg.nil_inv
      subst hv
      exact Kids.cons x w [] [] inp (Q_kid hq (by simpa [folOk] using hf)) (Kids.nil inp)
    | cons y ys =>
      simp only [folOk, Bool.and_eq_true, Bool.or_eq_true, bne_iff_ne, ne_eq,
        Bool.not_eq_true', decide_eq_true_eq] at hf
      obtain ⟨h1, h2⟩ := hf
      refine Kids.cons x w (y :: ys) v inp (Q_kid hq ?_) (ih inp h2)
      rcases h1 with ⟨h72, hs⟩ | ⟨hy, hk⟩
      · unfold kidOk
        rw [if_neg h72, if_neg (by simp [hs])]
      · obtain ⟨w1, w2, rfl, hq1, -⟩ := hg.cons_inv
        rw [Q_tok hy] at hq1
        subst hq1
        exact hk

theorem genericRule_spec {r : Nat} (hr : genericRule r = true) :
    (r < 65 ∨ 80 ≤ r) ∧ 1 ≤ r := by
  unfold genericRule at hr
  simp only [Bool.or_eq_true, Bool.and_eq_true, decide_eq_true_eq, beq_iff_eq] at hr
  omega

set_option maxRecDepth 1000000 in
theorem generic_lhs : ∀ r ∈ List.range 90, genericRule r = true →
    47 ≤ tget yyr1 r ∧ tget yyr1 r ≠ 72 := by decide!

theorem folOk_split (xs : List Int) (t : Int) : folOk xs t = (folMid xs && folEnd xs t) := by
  induction xs with
  | nil => rfl
  | cons x xs ih =>
    cases xs with
    | nil => simp [folOk, folMid, folEnd]
    | cons y ys =>
      simp only [folOk, folMid, folEnd]
      rw [ih, Bool.and_assoc]

/-- A rule handled alike: its phrases form a phrase of its left-hand side that the
automaton recognises before any symbol. -/
theorem generic_star {r : Nat} (hr : genericRule r = true) (hr2 : r < 90) {w : List Int}
    (hg : Good (yyrhs r) w) : Star (tget yyr1 r) w := by
  intro inp ss hp hv ha
  have hs := hp.top_range
  have hfol := ha.follow (hp.goto hv) (vstart_spec hv).2
  have hok : genericOk r (ss.headD 0) = true :=
    int_of_range (P := fun e => genericOk r e = true)
      (generic_edge r (List.mem_range.2 hr2) hr) _ hs.1 (by simpa using hs.2)
  unfold genericOk at hok
  have hv1 : vstart (ss.headD 0) (tget yyr1 r - YYNTOKENS) = true := hv
  rw [hv1] at hok
  simp only [Bool.not_true, Bool.false_or, List.all_eq_true, Bool.and_eq_true,
    Bool.or_eq_true, beq_iff_eq] at hok
  obtain ⟨⟨hmid, hmiss⟩, hend⟩ := hok
  have hm : missOk (ruleTop r (ss.headD 0)) (inp.headD 0) = true := by
    unfold missOk
    rcases hmiss with h | h
    · rw [h]
      rfl
    · have h2 := h _ hfol
      rw [h2]
      exact Bool.or_true _
  have hf : folOk (yyrhs r) (inp.headD 0) = true := by
    rw [folOk_split, hmid, hend _ hfol]
    rfl
  exact rule_steps hp hv1 (walkOk_of_range (genericRule_spec hr).1 hr2 hs.1 hs.2)
    (good_kids hg inp hf) hm ha

theorem generic_rule {r : Nat} (hr : genericRule r = true) (hr2 : r < 90) {w : List Int}
    (hg : Good (yyrhs r) w) : Q (tget yyr1 r) w := by
  obtain ⟨h1, h2⟩ := generic_lhs r (List.mem_range.2 hr2) hr
  exact Q_of_star h1 h2 (generic_star hr hr2 hg)

/-! ### Rules of expressions -/

set_option maxRecDepth 1000000 in
theorem binary_rhs : ∀ r ∈ List.range 90, 65 ≤ r → r ≤ 77 →
    tget yyr1 r = 72 ∧ yyrhs r = [72, (yyrhs r).getD 1 0, 72] ∧
    isBinop ((yyrhs r).getD 1 0) = true := by decide!

set_option maxRecDepth 1000000 in
theorem expr_lhs : ∀ r ∈ List.range 90, 78 ≤ r → r ≤ 87 → tget yyr1 r = 72 := by decide!

theorem binary_rule {r : Nat} (h1 : 65 ≤ r) (h2 : r ≤ 77) {w : List Int}
    (hg : Good (yyrhs r) w) : Q (tget yyr1 r) w := by
  obtain ⟨hl, hrhs, hb⟩ := binary_rhs r (List.mem_range.2 (by omega)) h1 h2
  rw [hl, Q_expr]
  rw [hrhs] at hg
  generalize (yyrhs r).getD 1 0 = b at hg hb
  have hbr := binops_range b (isBinop_mem hb)
  obtain ⟨w1, v1, rfl, q1, hg⟩ := hg.cons_inv
  obtain ⟨w2, v2, rfl, q2, hg⟩ := hg.cons_inv
  obtain ⟨w3, v3, rfl, q3, hg⟩ := hg.cons_inv
  have := hg.nil_inv
  subst this
  rw [Q_expr] at q1 q3
  rw [Q_tok hbr.2] at q2
  subst q2
  have := q1.binary b hb q3
  simpa using this

theorem unary_rule {r : Nat} (hr : r = 78 ∨ r = 79) {w : List Int}
    (hg : Good (yyrhs r) w) : Q (tget yyr1 r) w := by
  have hl := expr_lhs r (List.mem_range.2 (by omega)) (by omega) (by omega)
  rw [hl, Q_expr]
  rcases hr with rfl | rfl
  · have e1 : yyrhs 78 = [31, 72] := by decide
    rw [e1] at hg
    obtain ⟨w1, v1, rfl, q1, hg⟩ := hg.cons_inv
    obtain ⟨w2, v2, rfl, q2, hg⟩ := hg.cons_inv
    have := hg.nil_inv
    subst this
    rw [Q_tok (by omega)] at q1
    rw [Q_expr] at q2
    subst q1
    have := Flat.pre 31 w2 (Or.inl rfl) q2
    simpa using this
  · have e1 : yyrhs 79 = [46, 72] := by decide
    rw [e1] at hg
    obtain ⟨w1, v1, rfl, q1, hg⟩ := hg.cons_inv
    obtain ⟨w2, v2, rfl, q2, hg⟩ := hg.cons_inv
    have := hg.nil_inv
    subst this
    rw [Q_tok (by omega)] at q1
    rw [Q_expr] at q2
    subst q1
    have := Flat.pre 46 w2 (Or.inr rfl) q2
    simpa using this

/-! ### Operands -/

set_option maxRecDepth 1000000 in
theorem incdec_edge : ∀ e ∈ List.range 179, tshift (e : Int) 3 = some 4 →
    tgoto (e : Int) 25 = 32 ∧ tgoto (e : Int) 24 = 31 := by decide!

set_option maxRecDepth 1000000 in
theorem incdec_states :
    (ashift 32 36 = some 69 ∧ tget yypact 69 = YYPACT_NINF ∧ tget yydefact 69 = 64 ∧
      (tget yyr2 64).toNat = 2 ∧ tget yyr1 64 = 71) ∧
    (ashift 4 18 = some 33 ∧ ashift 33 36 = some 70 ∧ tget yypact 70 = YYPACT_NINF ∧
      tget yydefact 70 = 62 ∧ (tget yyr2 62).toNat = 3 ∧ tget yyr1 62 = 71) ∧
    (ashift 4 19 = some 34 ∧ ashift 34 36 = some 71 ∧ tget yypact 71 = YYPACT_NINF ∧
      tget yydefact 71 = 63 ∧ (tget yyr2 63).toNat = 3 ∧ tget yyr1 63 = 71) := by decide!

/-- A reduction, with the state it enters named. -/
theorem astep_reduce {s : Int} {rest inp : List Int} {r : Int} {k : Nat} {g : Int}
    (hm : missOk s (inp.headD 0) = true) (hr : tget yydefact s = r) (h0 : r ≠ 0)
    (hk : (tget yyr2 r).toNat = k)
    (hg : tgoto (((s :: rest).drop k).headD 0) (tget yyr1 r - YYNTOKENS) = g)
    (hf : g ≠ YYFINAL) :
    astep (s :: rest) inp = .next (g :: (s :: rest).drop k) inp := by
  rw [astep_miss (by simpa using hm)]
  rw [@ared_eq (s :: rest) inp r k hr h0 hk, hg]
  exact apush_next hf

/-- At the beginning of a statement `ID INC ;` and `ID DEC ;` are reduced as statements of
their own, and the automaton arrives where the reduction of the expression and then of the
expression statement would have led. -/
theorem incdec_stmt {ss inp : List Int} {t : Int} (ht : t = 18 ∨ t = 19) (hp : Path ss)
    (h4 : tshift (ss.headD 0) 3 = some 4)
    (ha : Acc (tgoto (ss.headD 0) 25 :: ss) (36 :: inp)) : Acc ss (3 :: t :: 36 :: inp) := by
  have hs := hp.top_range
  obtain ⟨e1, e2⟩ := int_of_range (P := fun e => tshift e 3 = some 4 →
    tgoto e 25 = 32 ∧ tgoto e 24 = 31) incdec_edge _ hs.1 (by simpa using hs.2) h4
  obtain ⟨⟨a1, a2, a3, a4, a5⟩, ⟨b1, b2, b3, b4, b5, b6⟩, ⟨c1, c2, c3, c4, c5, c6⟩⟩ :=
    incdec_states
  rw [e1] at ha
  have h1 : Acc (69 :: 32 :: ss) inp := by
    refine Acc.inv_step ?_ ha
    rw [astep_shift (by simpa using a1)]
    exact apush_next (by simp [YYFINAL])
  have h2 : Acc (31 :: ss) inp := by
    refine Acc.inv_step ?_ h1
    have := @astep_reduce 69 (32 :: ss) inp 64 2 31 (missOk_ninf a2 _) a3 (by omega) a4
      (by rw [a5]; exact e2) (by simp [YYFINAL])
    exact this
  have h3 : ashift (ss.headD 0) 3 = some 4 := ashift_of_tshift h4 (by omega) (by omega)
  refine Acc.step _ _ (4 :: ss) (t :: 36 :: inp) ?_ ?_
  · rw [astep_shift (by simpa using h3)]
    exact apush_next (by simp [YYFINAL])
  rcases ht with rfl | rfl
  · refine Acc.shift b1 (by simp [YYFINAL]) (Acc.shift b2 (by simp [YYFINAL]) ?_)
    refine Acc.step _ _ _ _ ?_ h2
    exact @astep_reduce 70 (33 :: 4 :: ss) inp 62 3 31 (missOk_ninf b3 _) b4 (by omega) b5
      (by rw [b6]; exact e2) (by simp [YYFINAL])
  · refine Acc.shift c1 (by simp [YYFINAL]) (Acc.shift c2 (by simp [YYFINAL]) ?_)
    refine Acc.step _ _ _ _ ?_ h2
    exact @astep_reduce 71 (34 :: 4 :: ss) inp 63 3 31 (missOk_ninf c3 _) c4 (by omega) c5
      (by rw [c6]; exact e2) (by simp [YYFINAL])

/-- The phrases of an operand rule form an operand. -/
theorem prim_rule {r : Nat} (h1 : 80 ≤ r) (h2 : r ≤ 87) {w : List Int}
    (hg : Good (yyrhs r) w) : Prim w := by
  intro ss inp hp hv hla ha
  have hs := hp.top_range
  have hl := expr_lhs r (List.mem_range.2 (by omega)) (by omega) h2
  have hok : primOk r (ss.headD 0) = true :=
    int_of_range (P := fun e => primOk r e = true)
      (prim_edge r (List.mem_range.2 (by omega)) h1 h2) _ hs.1 (by simpa using hs.2)
  unfold primOk at hok
  rw [hv] at hok
  simp only [Bool.not_true, Bool.false_or, Bool.and_eq_true, List.all_eq_true,
    Bool.or_eq_true, beq_iff_eq] at hok
  obtain ⟨hw, hall⟩ := hok
  have hmem : inp.headD 0 ∈ binops ++ closers := by
    rcases hla with h | h
    · exact List.mem_append_left _ (isBinop_mem h)
    · exact List.mem_append_right _ (isCloser_mem h)
  obtain ⟨hf, hm⟩ := hall _ hmem
  rcases hm with hm | ⟨⟨h36, hr⟩, h4⟩
  · have e1 : tget yyr1 r - YYNTOKENS = 25 := by rw [hl]; rfl
    exact rule_steps hp (by rw [e1]; exact hv) hw (good_kids hg inp hf) hm
      (by rw [e1]; exact ha)
  · cases inp with
    | nil => simp at h36
    | cons a inp1 =>
      simp only [List.headD_cons] at h36
      subst h36
      rcases hr with rfl | rfl
      · have e1 : yyrhs 80 = [3, 18] := by decide
        rw [e1] at hg
        obtain ⟨w1, v1, rfl, q1, hg⟩ := hg.cons_inv
        obtain ⟨w2, v2, rfl, q2, hg⟩ := hg.cons_inv
        have := hg.nil_inv
        subst this
        rw [Q_tok (by omega)] at q1 q2
        subst q1 q2
        exact incdec_stmt (Or.inl rfl) hp h4 ha
      · have e1 : yyrhs 81 = [3, 19] := by decide
        rw [e1] at hg
        obtain ⟨w1, v1, rfl, q1, hg⟩ := hg.cons_inv
        obtain ⟨w2, v2, rfl, q2, hg⟩ := hg.cons_inv
        have := hg.nil_inv
        subst this
        rw [Q_tok (by omega)] at q1 q2
        subst q1 q2
        exact incdec_stmt (Or.inr rfl) hp h4 ha

theorem operand_rule {r : Nat} (h1 : 80 ≤ r) (h2 : r ≤ 87) {w : List Int}
    (hg : Good (yyrhs r) w) : Q (tget yyr1 r) w := by
  rw [expr_lhs r (List.mem_range.2 (by omega)) (by omega) h2, Q_expr]
  exact Flat.prim w (prim_rule h1 h2 hg)

/-! ### Rules of statements that end in a statement -/

theorem unit_rule {r : Nat} {x : Int} (hx : x = 56 ∨ x = 58 ∨ x = 59)
    (hrhs : yyrhs r = [x]) (hl : tget yyr1 r = 50) {w : List Int}
    (hg : Good (yyrhs r) w) : Q (tget yyr1 r) w := by
  rw [hl, Q_stmt (by decide)]
  rw [hrhs] at hg
  obtain ⟨w1, v1, rfl, q1, hg⟩ := hg.cons_inv
  have := hg.nil_inv
  subst this
  have hsl : stmtLike x = true := by rcases hx with rfl | rfl | rfl <;> decide
  rw [Q_stmt hsl] at q1
  obtain ⟨c, hc⟩ := q1
  exact ⟨c, by simpa using CS.unit c x w1 hx hc⟩

theorem if_rule {w : List Int} (hg : Good (yyrhs 27) w) : Q (tget yyr1 (27 : Nat)) w := by
  rw [stmt_lhs.2.2.2.1, Q_stmt (by decide)]
  have e1 : yyrhs 27 = [9, 41, 72, 42, 50] := by decide
  rw [e1] at hg
  obtain ⟨w1, v1, rfl, q1, hg⟩ := hg.cons_inv
  obtain ⟨w2, v2, rfl, q2, hg⟩ := hg.cons_inv
  obtain ⟨w3, v3, rfl, q3, hg⟩ := hg.cons_inv
  obtain ⟨w4, v4, rfl, q4, hg⟩ := hg.cons_inv
  obtain ⟨w5, v5, rfl, q5, hg⟩ := hg.cons_inv
  have := hg.nil_inv
  subst this
  rw [Q_tok (by omega)] at q1 q2 q4
  rw [Q_expr] at q3
  rw [Q_stmt (by decide)] at q5
  subst q1 q2 q4
  obtain ⟨c, hc⟩ := q5
  exact ⟨false, by simpa using CS.ifThen c w3 w5 q3 hc⟩

theorem if_else_rule {w : List Int} (hg : Good (yyrhs 28) w) :
    Q (tget yyr1 (28 : Nat)) w := by
  rw [stmt_lhs.2.2.2.2.1, Q_stmt (by decide)]
  have e1 : yyrhs 28 = [9, 41, 72, 42, 50, 10, 50] := by decide
  rw [e1] at hg
  obtain ⟨w1, v1, rfl, q1, hg⟩ := hg.cons_inv
  obtain ⟨w2, v2, rfl, q2, hg⟩ := hg.cons_inv
  obtain ⟨w3, v3, rfl, q3, hg⟩ := hg.cons_inv
  obtain ⟨w4, v4, rfl, q4, hg⟩ := hg.cons_inv
  obtain ⟨w5, v5, rfl, q5, hg⟩ := hg.cons_inv
  obtain ⟨w6, v6, rfl, q6, hg⟩ := hg.cons_inv
  obtain ⟨w7, v7, rfl, q7, hg⟩ := hg.cons_inv
  have := hg.nil_inv
  subst this
  rw [Q_tok (by omega)] at q1 q2 q4 q6
  rw [Q_expr] at q3
  rw [Q_stmt (by decide)] at q5 q7
  subst q1 q2 q4 q6
  obtain ⟨c5, h5⟩ := q5
  obtain ⟨c7, h7⟩ := q7
  cases c5 with
  | true => exact ⟨c7, by simpa using CS.ifElse c7 w3 w5 w7 q3 h5 h7⟩
  | false =>
    obtain ⟨c1, h1⟩ := h5.attach rfl c7 w7 h7
    exact ⟨false, by simpa using CS.ifThen c1 w3 (w5 ++ 10 :: w7) q3 h1⟩

theorem while_rule {w : List Int} (hg : Good (yyrhs 30) w) :
    Q (tget yyr1 (30 : Nat)) w := by
  rw [stmt_lhs.2.2.2.2.2.1, Q_stmt (by decide)]
  have e1 : yyrhs 30 = [12, 41, 72, 42, 50] := by decide
  rw [e1] at hg
  obtain ⟨w1, v1, rfl, q1, hg⟩ := hg.cons_inv
  obtain ⟨w2, v2, rfl, q2, hg⟩ := hg.cons_inv
  obtain ⟨w3, v3, rfl, q3, hg⟩ := hg.cons_inv
  obtain ⟨w4, v4, rfl, q4, hg⟩ := hg.cons_inv
  obtain ⟨w5, v5, rfl, q5, hg⟩ := hg.cons_inv
  have := hg.nil_inv
  subst this
  rw [Q_tok (by omega)] at q1 q2 q4
  rw [Q_expr] at q3
  rw [Q_stmt (by decide)] at q5
  subst q1 q2 q4
  obtain ⟨c, hc⟩ := q5
  exact ⟨c, by simpa using CS.loop c w3 w5 q3 hc⟩

theorem for_rule {w : List Int} (hg : Good (yyrhs 31) w) : Q (tget yyr1 (31 : Nat)) w := by
  rw [stmt_lhs.2.2.2.2.2.2, Q_stmt (by decide)]
  have e1 : yyrhs 31 = [13, 41, 60, 36, 63, 36, 64, 42, 50] := by decide
  rw [e1] at hg
  obtain ⟨w1, v1, rfl, q1, hg⟩ := hg.cons_inv
  obtain ⟨w2, v2, rfl, q2, hg⟩ := hg.cons_inv
  obtain ⟨w3, v3, rfl, q3, hg⟩ := hg.cons_inv
  obtain ⟨w4, v4, rfl, q4, hg⟩ := hg.cons_inv
  obtain ⟨w5, v5, rfl, q5, hg⟩ := hg.cons_inv
  obtain ⟨w6, v6, rfl, q6, hg⟩ := hg.cons_inv
  obtain ⟨w7, v7, rfl, q7, hg⟩ := hg.cons_inv
  obtain ⟨w8, v8, rfl, q8, hg⟩ := hg.cons_inv
  obtain ⟨w9, v9, rfl, q9, hg⟩ := hg.cons_inv
  have := hg.nil_inv
  subst this
  rw [Q_tok (by omega)] at q1 q2 q4 q6 q8
  rw [Q_stmt (by decide)] at q9
  subst q1 q2 q4 q6 q8
  have s3 := Q_star (by omega) (by omega) (by decide) q3
  have s5 := Q_star (by omega) (by omega) (by decide) q5
  have s7 := Q_star (by omega) (by omega) (by decide) q7
  obtain ⟨c, hc⟩ := q9
  exact ⟨c, by simpa using CS.forLoop c w3 w5 w7 w9 s3 s5 s7 hc⟩

/-! ## Every sentence is accepted -/

/-- The phrases of the right-hand side of a rule form a phrase of its left-hand side. -/
theorem rule_good (r : Nat) (h1 : 1 ≤ r) (h2 : r ≤ 89) {w : List Int}
    (hg : Good (yyrhs r) w) : Q (tget yyr1 r) w := by
  by_cases hgen : genericRule r = true
  · exact generic_rule hgen (by omega) hg
  · have hc : r = 6 ∨ r = 8 ∨ r = 9 ∨ r = 27 ∨ r = 28 ∨ r = 30 ∨ r = 31 ∨
        (65 ≤ r ∧ r ≤ 77) ∨ (r = 78 ∨ r = 79) ∨ (80 ≤ r ∧ r ≤ 87) := by
      unfold genericRule at hgen
      simp only [Bool.or_eq_true, Bool.and_eq_true, decide_eq_true_eq, beq_iff_eq] at hgen
      omega
    rcases hc with rfl | rfl | rfl | rfl | rfl | rfl | rfl | ⟨h65, h77⟩ | h78 | ⟨h80, h87⟩
    · exact unit_rule (x := 56) (Or.inl rfl) (by decide) stmt_lhs.1 hg
    · exact unit_rule (x := 58) (Or.inr (Or.inl rfl)) (by decide) stmt_lhs.2.1 hg
    · exact unit_rule (x := 59) (Or.inr (Or.inr rfl)) (by decide) stmt_lhs.2.2.1 hg
    · exact if_rule hg
    · exact if_else_rule hg
    · exact while_rule hg
    · exact for_rule hg
    · exact binary_rule h65 h77 hg
    · exact unary_rule h78 hg
    · exact operand_rule h80 h87 hg

/-- A derivation gives phrases that the automaton recognises. -/
theorem Der.good {xs w : List Int} (h : Der xs w) : Good xs w := by
  induction h with
  | nil => exact Good.nil
  | tok t xs w _ h1 _ ih =>
    exact Good.cons t [t] xs w ((Q_tok (by simpa [YYNTOKENS] using h1)).2 rfl) ih
  | rule r xs w v h1 h2 _ _ ih1 ih2 => exact Good.cons _ w xs v (rule_good r h1 h2 ih1) ih2

set_option maxRecDepth 100000 in
theorem start_edge : vstart 0 1 = true ∧ astep [tgoto 0 1, 0] [] = .accept := by decide!

/-- The automaton accepts every sentence. -/
theorem Sentence.acc {w : List Int} (h : Sentence w) : Acc [0] w := by
  have hg := Der.good h
  obtain ⟨w1, w2, rfl, hq, hn⟩ := hg.cons_inv
  have := hn.nil_inv
  subst this
  have hs : Star 48 w1 := Q_star (by omega) (by omega) (by decide) hq
  have := hs [] [0] (by simp [Path]) start_edge.1 (Acc.done _ _ start_edge.2)
  simpa using this

set_option maxRecDepth 1000000 in
theorem sym_edge : ∀ r ∈ List.range 90, 2 ≤ r → (yyrhs r).all symOk = true := by decide

set_option maxRecDepth 100000 in
theorem accept_lhs : tget yyr1 (1 : Nat) = 47 := by decide!

/-- A sentence consists of tokens of the grammar. -/
theorem Der.syms {xs w : List Int} (h : Der xs w) :
    (∀ x ∈ xs, symOk x = true) → ∀ t ∈ w, 3 ≤ t := by
  induction h with
  | nil => intro _ t ht; simp at ht
  | tok t xs w _ h1 _ ih =>
    intro hx u hu
    rcases List.mem_cons.1 hu with rfl | hu
    · have := hx u (by simp)
      unfold symOk at this
      simp only [Bool.and_eq_true, bne_iff_ne, ne_eq, Bool.or_eq_true,
        decide_eq_true_eq, YYNTOKENS] at this h1
      omega
    · exact ih (fun x hm => hx x (by simp [hm])) u hu
  | rule r xs w v h1 h2 _ _ ih1 ih2 =>
    intro hx u hu
    have hl := hx _ (List.mem_cons_self _ _)
    have hr : 2 ≤ r := by
      by_contra hcon
      have : r = 1 := by omega
      subst this
      rw [accept_lhs] at hl
      simp [symOk] at hl
    have hall := sym_edge r (List.mem_range.2 (by omega)) hr
    simp only [List.all_eq_true] at hall
    rcases List.mem_append.1 hu with hu | hu
    · exact ih1 hall u hu
    · exact ih2 (fun x hm => hx x (by simp [hm])) u hu

/-! ## Acceptance in the final state -/

theorem yysetstate_accepted (p : Parser) : (yysetstate p).Accepted := by
  unfold yysetstate
  simp only [yyexhaustedlab, yyabortlab, yyacceptlab]
  repeat' first | split | dsimp only
  all_goals first
    | trivial
    | (rename_i h; simp [Step.Accepted, h, YYFINAL])

theorem yynewstate_accepted (p : Parser) : (yynewstate p).Accepted :=
  yysetstate_accepted _

theorem yyreduce_accepted (p : Parser) (n : Int) : (yyreduce p n).Accepted := by
  unfold yyreduce
  repeat' first | split | dsimp only
  all_goals first | trivial | exact yynewstate_accepted _

theorem yyerrpop_accepted (l : List Int) : ∀ p : Parser, (yyerrpop l p).Accepted := by
  induction l with
  | nil => intro p; trivial
  | cons a below ih =>
    intro p
    unfold yyerrpop
    repeat' first | split | dsimp only
    all_goals first | trivial | exact yynewstate_accepted _ | exact ih _ | simp [Step.Accepted, yyabortlab]

theorem yyerrlab1_accepted (p : Parser) : (yyerrlab1 p).Accepted :=
  yyerrpop_accepted _ _

theorem yyerrlab_accepted (p : Parser) : (yyerrlab p).Accepted := by
  unfold yyerrlab
  simp only [yyabortlab]
  repeat' first | split | dsimp only
  all_goals first | exact yyerrlab1_accepted _ | simp [Step.Accepted]

theorem yydefault_accepted (p : Parser) : (yydefault p).Accepted := by
  unfold yydefault
  repeat' first | split | dsimp only
  all_goals first | trivial | exact yyerrlab_accepted _ | exact yyreduce_accepted _ _

theorem yyaction_accepted (p : Parser) (n t : Int) : (yyaction p n t).Accepted := by
  unfold yyaction
  repeat' first | split | dsimp only
  all_goals first | trivial | exact yydefault_accepted _ | exact yyreduce_accepted _ _ |
    exact yynewstate_accepted _

theorem yybackup_accepted (p : Parser) : (yybackup p).Accepted := by
  unfold yybackup
  repeat' first | split | dsimp only
  all_goals first | trivial | exact yydefault_accepted _ | exact yyaction_accepted _ _ _ |
    exact yyerrlab1_accepted _

/-- Entering the final state with room on the stack: `yynewstate` returns 0 at once; it
pushes the state and leaves the input, the lookahead and the error bookkeeping alone. -/
theorem yynewstate_final (p : Parser) (hst : p.yystate = YYFINAL)
    (hcap : (p.yyss.length : Int) < p.yystacksize)
    (hroom : (p.yyss.length : Int) + 1 < p.yystacksize ∨ p.yystacksize < YYMAXDEPTH) :
    ∃ q, yynewstate p = .ret 0 q ∧ q.yyss = YYFINAL :: p.yyss ∧ q.input = p.input ∧
      q.lexed = p.lexed ∧ q.yychar = p.yychar ∧ q.yylval = p.yylval ∧
      q.yyerrstatus = p.yyerrstatus ∧ q.yynerrs = p.yynerrs ∧ q.yyerrs = p.yyerrs := by
  unfold yynewstate yysetstate
  simp only [Parser.yyssp, List.length_cons, List.tail_cons, hst, yyacceptlab, yyabortlab,
    yyexhaustedlab, YYMAXDEPTH] at hroom ⊢
  have h1 : ¬ ((((p.yyss.length + 1 : Nat) : Int) - 1 < 0) ∨
      p.yystacksize ≤ ((p.yyss.length + 1 : Nat) : Int) - 1) := by push_cast; omega
  rw [if_neg h1]
  by_cases h2 : p.yystacksize - 1 ≤ ((p.yyss.length + 1 : Nat) : Int) - 1
  · rw [if_pos h2]
    push_cast at h2
    have h3 : ¬ (10000 : Int) ≤ p.yystacksize := by omega
    rw [if_neg h3]
    split
    · rw [if_neg (by push_cast; omega)]
      exact ⟨_, rfl, rfl, rfl, rfl, rfl, rfl, rfl, rfl, rfl⟩
    · rw [if_neg (by push_cast; omega)]
      exact ⟨_, rfl, rfl, rfl, rfl, rfl, rfl, rfl, rfl, rfl⟩
  · rw [if_neg h2]
    exact ⟨_, rfl, rfl, rfl, rfl, rfl, rfl, rfl, rfl, rfl⟩

/-- A run that returns does so in the action taken in some state at `yybackup`. -/
theorem yyloop_last (n : Nat) : ∀ (p : Parser) (r : Int) (q : Parser),
    yyloop n p = .ret r q → ∃ m p1, m < n ∧ yyloop m p = .next p1 ∧ yybackup p1 = .ret r q := by
  induction n with
  | zero => intro p r q h; simp [yyloop] at h
  | succ n ih =>
    intro p r q h
    unfold yyloop at h
    cases hs : yybackup p with
    | next p2 =>
      rw [hs] at h
      obtain ⟨m, p1, hm, h1, h2⟩ := ih p2 r q h
      refine ⟨m + 1, p1, by omega, ?_, h2⟩
      unfold yyloop
      rw [hs]
      exact h1
    | ret r2 q2 =>
      rw [hs] at h
      exact ⟨0, p, by omega, rfl, by rw [hs]; exact h⟩
    | fault p2 => rw [hs] at h; cases h

/-- The parser is never at `yybackup` in the final state. -/
theorem yyparseFuel_nofinal (n : Nat) (g : Globals) (toks : List Token) (p : Parser)
    (h : yyparseFuel n g toks = .next p) : p.yystate ≠ YYFINAL := by
  obtain ⟨h1, h2⟩ := yyparseFuel_ref n g toks
  rw [h] at h1 h2
  have hinv := crun_inv n _ p.ctl (cinit_inv _) h1.symm
  have hh : p.ctl.yyss.headD 0 = p.yystate := Parser.WF.headD h2
  rw [← hh]
  exact hinv.nofinal

/-! ## Error bookkeeping -/

theorem yysetstate_kept (p : Parser) : (yysetstate p).parser.kept = p.kept := by
  unfold yysetstate
  simp only [yyexhaustedlab, yyabortlab, yyacceptlab, yyerror]
  repeat' first | split | dsimp only
  all_goals rfl

theorem yynewstate_kept (p : Parser) : (yynewstate p).parser.kept = p.kept :=
  yysetstate_kept _

set_option maxRecDepth 1000000 in
/-- A state that consults no lookahead has a default reduction. -/
theorem default_reduces : ∀ s ∈ List.range 179,
    tget yypact (s : Int) = YYPACT_NINF → tget yydefact (s : Int) ≠ 0 := by decide!

theorem drop_cons_getD {l : List Int} : ∀ {n : Nat} {t : Int} {rest : List Int},
    l.drop n = t :: rest → l.getD n 0 = t ∧ l.drop (n + 1) = rest := by
  induction l with
  | nil => intro n t rest h; simp at h
  | cons a l ih =>
    intro n t rest h
    cases n with
    | zero =>
      simp only [List.drop_zero, List.cons.injEq] at h
      exact ⟨h.1, by simpa using h.2⟩
    | succ n =>
      simp only [List.drop_succ_cons] at h
      exact ⟨by simpa using (ih h).1, by simpa using (ih h).2⟩

theorem hold_nonneg (x : Int) : 0 ≤ hold x := by
  unfold hold
  simp only [YYEOF]
  split <;> omega

/-- Once `yybackup` has its lookahead, it is the code returned by the last call of the
lexer. -/
theorem cpeek_held {codes : List Int} {c : Ctl} (h : c.Held codes) :
    (cpeek c).input = codes.drop (cpeek c).lexed ∧ 1 ≤ (cpeek c).lexed ∧
    (cpeek c).yychar = hold (lexedCode codes (cpeek c).lexed) := by
  obtain ⟨hin, hk⟩ := h
  unfold cpeek
  by_cases he : c.yychar = YYEMPTY
  · simp only [he, if_true]
    unfold clex
    cases hi : c.input with
    | nil =>
      rw [hi] at hin
      have hlen : codes.length ≤ c.lexed := List.drop_eq_nil_iff.1 hin.symm
      simp only [YYEOF, le_refl, if_true]
      refine ⟨?_, by omega, ?_⟩
      · exact (List.drop_eq_nil_iff.2 (by omega)).symm
      · unfold lexedCode hold
        rw [Nat.add_sub_cancel, List.getD_eq_default _ _ hlen]
        simp [YYEOF]
    | cons t rest =>
      rw [hi] at hin
      obtain ⟨h1, h2⟩ := drop_cons_getD hin.symm
      have hlc : lexedCode codes (c.lexed + 1) = t := by
        unfold lexedCode
        rw [Nat.add_sub_cancel]
        exact h1
      simp only
      by_cases ht : t ≤ YYEOF
      · simp only [ht, if_true]
        refine ⟨h2.symm, by omega, ?_⟩
        rw [hlc]; unfold hold; rw [if_pos ht]
      · simp only [ht, if_false]
        refine ⟨h2.symm, by omega, ?_⟩
        rw [hlc]; unfold hold; rw [if_neg ht]
  · simp only [he, if_false]
    rcases hk with h1 | ⟨h1, h2⟩
    · exact absurd h1 he
    · have h3 := hold_nonneg (lexedCode codes c.lexed)
      by_cases ht : c.yychar ≤ YYEOF
      · simp only [ht, if_true]
        refine ⟨hin, h1, ?_⟩
        simp only [YYEOF] at ht ⊢
        omega
      · simp only [ht, if_false]
        exact ⟨hin, h1, h2⟩

theorem cpush_held {codes : List Int} (c : Ctl) (v : Int) (h : c.Held codes) :
    (cpush c v).HeldPost codes := by
  unfold cpush
  simp only
  split
  · exact ⟨h.1, fun h1 => absurd h1 (by decide)⟩
  · split
    · exact ⟨h.1, fun h1 => absurd h1 (by decide)⟩
    · exact h

theorem cdefault_held {codes : List Int} (c : Ctl) (h : c.Held codes)
    (hr : tget yydefact (c.yyss.headD 0) = 0 →
      1 ≤ c.lexed ∧ c.yychar = hold (lexedCode codes c.lexed)) :
    (cdefault c).HeldPost codes := by
  unfold cdefault
  simp only
  split
  · rename_i h0
    exact ⟨h.1, fun _ _ => hr h0⟩
  · unfold creduce
    simp only
    split
    · trivial
    · exact cpush_held _ _ h

/-- One action keeps the control view in step with the lexer, and reports a syntax error
only while the code returned by the last call of the lexer is held. -/
theorem cstep_held {codes : List Int} (c : Ctl) (hinv : c.Inv) (h : c.Held codes) :
    (cstep c).HeldPost codes := by
  have hs := hinv.head_range
  rw [cstep_eq]
  by_cases hp : tget yypact (c.yyss.headD 0) = YYPACT_NINF
  · rw [if_pos hp]
    refine cdefault_held c h (fun h0 => ?_)
    have := int_of_range
      (P := fun s => tget yypact s = YYPACT_NINF → tget yydefact s ≠ 0)
      default_reduces _ hs.1 (by simpa using hs.2) hp
    exact absurd h0 this
  · rw [if_neg hp]
    obtain ⟨h1, h2, h3⟩ := cpeek_held h
    have hpk : (cpeek c).Held codes := ⟨h1, Or.inr ⟨h2, h3⟩⟩
    have hq : (cpeek c).yyerrs = [] := by rw [cpeek_yyerrs]; exact hinv.quiet
    split
    · unfold cabort
      exact ⟨h1, fun _ hne => absurd hq hne⟩
    · unfold cact
      split
      · exact cpush_held _ _ ⟨h1, Or.inl rfl⟩
      · exact cdefault_held _ hpk (fun _ => ⟨h2, h3⟩)

theorem crun_held {codes : List Int} (n : Nat) : ∀ c : Ctl, c.Inv → c.Held codes →
    (crun n c).HeldPost codes := by
  induction n with
  | zero => intro c _ h; exact h
  | succ n ih =>
    intro c hinv h
    have h1 := cstep_held c hinv h
    have h2 := cstep_post c hinv
    unfold crun
    cases hs : cstep c with
    | next d =>
      rw [hs] at h1 h2
      exact ih d h2.1 h1
    | ret r d => rw [hs] at h1; exact h1
    | fault => trivial

theorem cinit_held (codes : List Int) : (cinit codes).Held codes :=
  ⟨rfl, Or.inl rfl⟩

/-- The report of a syntax error names the code returned by the last call of the lexer, which
is still held when the parse ends, and the tokens after it are never fetched. -/
theorem yyparse_held (g : Globals) (toks : List Token) :
    ∃ r q, yyparse g toks = .ret r q ∧ q.ctl.Final r ∧
      q.input.map Token.code = (toks.map Token.code).drop q.lexed ∧
      (r = 1 → q.yyerrs ≠ [] →
        1 ≤ q.lexed ∧ q.yychar = hold (lexedCode (toks.map Token.code) q.lexed)) := by
  obtain ⟨r, q, hq, hfin, -, hrun⟩ := yyparse_final g toks
  have h := crun_held (5 * toks.length + 5) _ (cinit_inv _) (cinit_held (toks.map Token.code))
  rw [hrun] at h
  exact ⟨r, q, hq, hfin, h.1, h.2⟩

/-! ## Recovery without error shifts -/

/-- The loop of `yyerrlab1` pops the values together with the states: what is left is the
bottom cell of the value stack. -/
theorem yyerrpop_vals (ss : List Int) : ∀ (p : Parser), p.yyss = ss → ss ≠ [] →
    p.yyvs.length = p.yyss.length →
    (0 ≤ p.yystate ∧ p.yystate < YYNSTATES) →
    (∀ s ∈ p.yyss, 0 ≤ s ∧ s < YYNSTATES) →
    (yyerrpop ss p).parser.yyvs = p.yyvs.drop (p.yyvs.length - 1) := by
  induction ss with
  | nil => intro p _ h; exact absurd rfl h
  | cons a below ih =>
    intro p hss _ hpar hst hrng
    simp only [YYNSTATES] at hst
    unfold yyerrpop
    rw [yyerrshift_none p.yystate hst]
    simp only
    by_cases hbot : p.yyssp = 0
    · rw [if_pos hbot]
      simp only [Parser.yyssp] at hbot
      have : p.yyvs.length = 1 := by omega
      simp [yyabortlab, Step.parser, this]
    · rw [if_neg hbot]
      simp only [Parser.yyssp] at hbot
      have hlen : p.yyss.length = below.length + 1 := by rw [hss]; simp
      have hpop : YYPOPSTACK p 1 = some { p with
          yyss := p.yyss.drop 1
          yyvs := p.yyvs.drop 1
          yyvsUp := (p.yyvs.take 1).reverse ++ p.yyvsUp } := by
        unfold YYPOPSTACK
        simp only [Parser.yyssp, Parser.yyvsp]
        rw [if_neg (by omega)]
        rfl
      rw [hpop]
      simp only [hss, List.drop_one, List.tail_cons]
      cases hb : below with
      | nil => rw [hb] at hlen; simp at hlen; omega
      | cons b rest =>
        simp only [List.head?_cons]
        have hb2 : b ∈ p.yyss := by rw [hss, hb]; simp
        have := ih { p with
              yyss := b :: rest
              yyvs := p.yyvs.tail
              yyvsUp := (p.yyvs.take 1).reverse ++ p.yyvsUp
              yystate := b }
          (by simp [hb]) (by simp [hb])
          (by simp only [List.length_tail, List.length_cons]; rw [hpar, hss, hb]; simp)
          (hrng b hb2)
          (by
            intro s hs
            apply hrng
            rw [hss, hb]
            exact List.mem_cons_of_mem _ hs)
        rw [hb] at this
        rw [this]
        simp only [List.length_tail]
        have h2 : 2 ≤ p.yyvs.length := by rw [hpar, hss, hb]; simp
        rw [← List.drop_one, List.drop_drop]
        congr 1
        omega

/-- What `yyerrlab1` does to a state whose stacks are parallel and hold state numbers: it
pops states and values down to the bottom cells and aborts, touching nothing else. -/
theorem yyerrlab1_abort (p : Parser) (hne : p.yyss ≠ []) (hpar : p.yyvs.length = p.yyss.length)
    (hst : 0 ≤ p.yystate ∧ p.yystate < YYNSTATES)
    (hrng : ∀ s ∈ p.yyss, 0 ≤ s ∧ s < YYNSTATES) :
    ∃ q, yyerrlab1 p = .ret 1 q ∧ q.yyss = p.yyss.drop (p.yyss.length - 1) ∧
      q.yyvs = p.yyvs.drop (p.yyvs.length - 1) ∧ q.input = p.input ∧ q.lexed = p.lexed ∧
      q.yychar = p.yychar ∧ q.yyerrs = p.yyerrs ∧ q.yynerrs = p.yynerrs := by
  unfold yyerrlab1
  obtain ⟨q, hq1, hq2, hq3, hq4, hq5, hq6, hq7⟩ :=
    yyerrpop_ref p.yyss { p with yyerrstatus := 3 } rfl hne hpar hst hrng
  have hv := yyerrpop_vals p.yyss { p with yyerrstatus := 3 } rfl hne hpar hst hrng
  simp only at hq1 hq2 hq3 hq4 hq5 hq6 hq7 hv ⊢
  rw [hq1] at hv ⊢
  exact ⟨q, rfl, hq5, hv, hq2, hq3, hq4, hq6, hq7⟩

/-- A syntax error is fatal: when one is reported the parse returns 1 with that single
report, and nothing is fetched, discarded or shifted after it. -/
theorem yyparse_fatal (g : Globals) (toks : List Token) :
    ∀ r ∈ (yyparse g toks).parser.yyerrs, r.msg = "syntax error" →
      (yyparse g toks).result = some 1 ∧ (yyparse g toks).parser.yyerrs = [r] ∧
      (yyparse g toks).parser.yynerrs = wrapInt (g.yynerrs + 1) ∧
      (yyparse g toks).parser.yyss.length = 1 ∧
      (yyparse g toks).parser.lexed = r.lexed ∧ (yyparse g toks).parser.yychar = r.held ∧
      (yyparse g toks).parser.input.map Token.code = (toks.map Token.code).drop r.lexed := by
  obtain ⟨r, q, hq, hfin, hin, -⟩ := yyparse_held g toks
  obtain ⟨r', q', hq', -, hcnt, -⟩ := yyparse_final g toks
  rw [hq] at hq'
  simp only [Step.ret.injEq] at hq'
  obtain ⟨rfl, rfl⟩ := hq'
  rw [hq]
  simp only [Step.parser, Step.result]
  intro rep hrep hmsg
  have he : q.ctl.yyerrs = q.yyerrs := rfl
  have hl : q.ctl.lexed = q.lexed := rfl
  have hc : q.ctl.yychar = q.yychar := rfl
  have hs : q.ctl.yyss = q.yyss := rfl
  rcases hfin with ⟨-, h1, -⟩ | ⟨h0, hlen, h1⟩ | ⟨-, -, h1⟩
  · rw [he] at h1; rw [h1] at hrep; cases hrep
  · rcases h1 with h1 | ⟨h1, -⟩
    · rw [he, hl, hc] at h1
      rw [h1] at hrep hcnt ⊢
      simp only [List.mem_singleton] at hrep
      subst hrep
      rw [hs] at hlen
      refine ⟨by rw [h0], rfl, ?_, hlen, rfl, rfl, hin⟩
      rw [hcnt]
      exact counted_one _ _ (by simp [errCount])
    · rw [he] at h1; rw [h1] at hrep; cases hrep
  · rw [he] at h1
    rw [h1] at hrep
    simp only [List.mem_singleton] at hrep
    subst hrep
    simp at hmsg

/-! ## Runs of the automaton with a bounded stack -/

theorem Moves.length_le {D : Nat} {ss inp ss1 inp1 : List Int} (h : Moves D ss inp ss1 inp1) :
    ss.length ≤ D := by
  cases h with
  | refl _ _ h => exact h
  | step _ _ _ _ _ _ h _ _ => exact h

theorem Moves.append {D : Nat} {ss inp ss1 inp1 ss2 inp2 : List Int}
    (h1 : Moves D ss inp ss1 inp1) (h2 : Moves D ss1 inp1 ss2 inp2) :
    Moves D ss inp ss2 inp2 := by
  induction h1 with
  | refl _ _ _ => exact h2
  | step a b c d e f hl hs _ ih => exact Moves.step a b c d _ _ hl hs (ih h2)

theorem AccB.of_moves {D : Nat} {ss inp ss1 inp1 : List Int} (h1 : Moves D ss inp ss1 inp1)
    (h2 : AccB D ss1 inp1) : AccB D ss inp := by
  obtain ⟨s2, i2, h3, h4⟩ := h2
  exact ⟨s2, i2, h1.append h3, h4⟩

theorem AccB.depth_le {D : Nat} {ss inp : List Int} (h : AccB D ss inp) : ss.length ≤ D := by
  obtain ⟨s2, i2, h3, -⟩ := h
  exact h3.length_le

theorem AccB.after_step {D : Nat} {ss inp ss1 inp1 : List Int}
    (h : astep ss inp = .next ss1 inp1) (ha : AccB D ss inp) : AccB D ss1 inp1 := by
  obtain ⟨s2, i2, h3, h4⟩ := ha
  cases h3 with
  | refl _ _ _ => rw [h] at h4; cases h4
  | step _ _ s3 i3 _ _ _ hs hm =>
    rw [h] at hs
    simp only [AStep.next.injEq] at hs
    obtain ⟨rfl, rfl⟩ := hs
    exact ⟨s2, i2, hm, h4⟩

theorem AccB.unbounded {D : Nat} {ss inp : List Int} (h : AccB D ss inp) : Acc ss inp := by
  obtain ⟨s2, i2, h3, h4⟩ := h
  induction h3 with
  | refl _ _ _ => exact Acc.done _ _ h4
  | step a b c d _ _ _ hs _ ih => exact Acc.step a b c d hs (ih h4)

/-- An action that consults no symbol after `seg` is the same action with more symbols
behind. -/
theorem astep_frame {ss seg ss1 seg1 : List Int} (R : List Int)
    (hla : seg ≠ [] ∨ tget yypact (ss.headD 0) = YYPACT_NINF)
    (h : astep ss seg = .next ss1 seg1) : astep ss (seg ++ R) = .next ss1 (seg1 ++ R) := by
  have hred : ∀ i s1 i1, ared ss i = .next s1 i1 → i1 = i ∧ ared ss (i ++ R) = .next s1 (i ++ R) := by
    intro i s1 i1 hr
    unfold ared at hr ⊢
    simp only at hr ⊢
    split at hr
    · cases hr
    · rename_i h0
      rw [if_neg h0]
      unfold apush at hr ⊢
      split at hr
      · cases hr
      · rename_i h1
        rw [if_neg h1]
        simp only [AStep.next.injEq] at hr
        exact ⟨hr.2.symm, by rw [hr.1]⟩
  unfold astep at h ⊢
  by_cases hp : tget yypact (ss.headD 0) = YYPACT_NINF
  · rw [if_pos hp] at h ⊢
    obtain ⟨h1, h2⟩ := hred _ _ _ h
    rw [h1]; exact h2
  · rw [if_neg hp] at h ⊢
    cases seg with
    | nil => rcases hla with h0 | h0
             · exact absurd rfl h0
             · exact absurd h0 hp
    | cons t rest =>
      have hh : ((t :: rest) ++ R).headD 0 = (t :: rest).headD 0 := rfl
      rw [hh]
      cases hsh : ashift (ss.headD 0) ((t :: rest).headD 0) with
      | some v =>
        rw [hsh] at h
        simp only at h ⊢
        unfold apush at h ⊢
        split at h
        · cases h
        · rename_i hv
          rw [if_neg hv]
          simp only [AStep.next.injEq] at h
          rw [← h.1, ← h.2]
          rfl
      | none =>
        rw [hsh] at h
        simp only at h ⊢
        obtain ⟨h1, h2⟩ := hred _ _ _ h
        rw [h1]; exact h2

/-- A run on a segment of the input is a run on the whole input. -/
theorem lrun_moves {D : Nat} {goal : List Int} (n : Nat) : ∀ {ss seg seg1 : List Int},
    lrun D goal n ss seg = some seg1 → ∀ R : List Int,
    Moves D ss (seg ++ R) goal (seg1 ++ R) := by
  induction n with
  | zero =>
    intro ss seg seg1 h R
    simp [lrun] at h
  | succ n ih =>
    intro ss seg seg1 h R
    unfold lrun at h
    split at h
    · rename_i hl
      split at h
      · rename_i hgoal
        simp only [Bool.and_eq_true, decide_eq_true_eq, beq_iff_eq] at hgoal
        simp only [Option.some.injEq] at h
        rw [← h, ← hgoal.2]
        exact Moves.refl _ _ hl
      · split at h
        · cases h
        · rename_i hstop
          have hla : seg ≠ [] ∨ tget yypact (ss.headD 0) = YYPACT_NINF := by
            by_contra hcon
            push_neg at hcon
            apply hstop
            rw [hcon.1]
            simp only [List.isEmpty_nil, Bool.true_and, bne_iff_ne, ne_eq]
            exact hcon.2
          cases hs : astep ss seg with
          | next s2 i2 =>
            rw [hs] at h
            exact Moves.step _ _ _ _ _ _ hl (astep_frame R hla hs) (ih h R)
          | accept => rw [hs] at h; cases h
          | reject => rw [hs] at h; cases h
    · cases h

/-- A repeated phrase: when each phrase of `chunks`, read from stack `ss` before a symbol of
`L`, leads back to `ss`, and each phrase begins with a symbol of `L`, so do all of them in
a row. -/
theorem Moves.iter {D : Nat} {ss L : List Int} (chunks : List (List Int))
    (hc : ∀ x ∈ chunks, ∀ la ∈ L, ∀ R : List Int, Moves D ss (x ++ la :: R) ss (la :: R))
    (hh : ∀ x ∈ chunks, x.head? ∈ L.map some) (hl : ss.length ≤ D) :
    ∀ la ∈ L, ∀ R : List Int, Moves D ss (chunks.flatten ++ la :: R) ss (la :: R) := by
  induction chunks with
  | nil => intro la _ R; exact Moves.refl _ _ hl
  | cons x xs ih =>
    intro la hla R
    have ih2 := ih (fun y hy => hc y (List.mem_cons_of_mem _ hy))
      (fun y hy => hh y (List.mem_cons_of_mem _ hy)) la hla R
    rw [List.flatten_cons, List.append_assoc]
    cases xs with
    | nil =>
      simp only [List.flatten_nil, List.nil_append] at ih2 ⊢
      exact (hc x (List.mem_cons_self _ _) la hla R).append ih2
    | cons y ys =>
      have hy := hh y (List.mem_cons_of_mem _ (List.mem_cons_self _ _))
      simp only [List.mem_map] at hy
      obtain ⟨c, hc1, hc2⟩ := hy
      cases y with
      | nil => simp at hc2
      | cons c2 y2 =>
        simp only [List.head?_cons, Option.some.injEq] at hc2
        subst hc2
        have := hc x (List.mem_cons_self _ _) c hc1 (y2 ++ (ys.flatten ++ la :: R))
        simp only [List.flatten_cons, List.cons_append, List.append_assoc] at ih2 ⊢
        exact this.append ih2

theorem Moves.length_last {D : Nat} {ss inp ss1 inp1 : List Int}
    (h : Moves D ss inp ss1 inp1) : ss1.length ≤ D := by
  induction h with
  | refl _ _ h => exact h
  | step _ _ _ _ _ _ _ _ _ ih => exact ih

/-- A phrase followed by repeated phrases: when the phrase `first`, read from stack `ss0`
before a symbol of `L`, leads to stack `ss`, and each phrase of `chunks`, which begins with
a symbol of `L`, leads from `ss` back to `ss`, then all of them in a row lead from `ss0` to
`ss`. -/
theorem Moves.family {D n0 n1 : Nat} {ss0 ss L : List Int} (first : List Int)
    (chunks : List (List Int))
    (h0 : ∀ la ∈ L, lrun D ss n0 ss0 (first ++ [la]) = some [la])
    (hc : ∀ x ∈ chunks, ∀ la ∈ L, lrun D ss n1 ss (x ++ [la]) = some [la])
    (hh : ∀ x ∈ chunks, x.head? ∈ L.map some) :
    ∀ la ∈ L, ∀ R : List Int,
      Moves D ss0 (first ++ chunks.flatten ++ la :: R) ss (la :: R) := by
  have key : ∀ {n : Nat} {s1 x : List Int} {la : Int},
      lrun D ss n s1 (x ++ [la]) = some [la] → ∀ R : List Int,
      Moves D s1 (x ++ la :: R) ss (la :: R) := by
    intro n s1 x la h R
    have := lrun_moves n h R
    simpa using this
  intro la hla R
  have hl : ss.length ≤ D := (key (h0 la hla) []).length_last
  have h2 := Moves.iter chunks (fun x hx la hla R => key (hc x hx la hla) R) hh hl la hla R
  rw [List.append_assoc]
  cases chunks with
  | nil =>
    simp only [List.flatten_nil, List.nil_append]
    exact key (h0 la hla) R
  | cons y ys =>
    have hy := hh y (List.mem_cons_self _ _)
    simp only [List.mem_map] at hy
    obtain ⟨c, hc1, hc2⟩ := hy
    cases y with
    | nil => simp at hc2
    | cons c2 y2 =>
      simp only [List.head?_cons, Option.some.injEq] at hc2
      subst hc2
      have h3 := key (h0 c hc1) (y2 ++ (ys.flatten ++ la :: R))
      simp only [List.flatten_cons, List.cons_append, List.append_assoc] at h2 ⊢
      exact h3.append h2

theorem arun_accB {D : Nat} (n : Nat) : ∀ {ss inp : List Int}, arun D n ss inp = true →
    AccB D ss inp := by
  induction n with
  | zero => intro ss inp h; simp [arun] at h
  | succ n ih =>
    intro ss inp h
    unfold arun at h
    simp only [Bool.and_eq_true, decide_eq_true_eq] at h
    obtain ⟨hl, h2⟩ := h
    cases hs : astep ss inp with
    | next s2 i2 =>
      rw [hs] at h2
      obtain ⟨s3, i3, h3, h4⟩ := ih h2
      exact ⟨s3, i3, Moves.step _ _ _ _ _ _ hl hs h3, h4⟩
    | accept => exact ⟨ss, inp, Moves.refl _ _ hl, hs⟩
    | reject => rw [hs] at h2; cases h2

theorem sepBy_cons (sep : Int) (x : List Int) (xs : List (List Int)) :
    sepBy sep (x :: xs) = x ++ (xs.map (fun y => sep :: y)).flatten := by
  induction xs generalizing x with
  | nil => simp [sepBy]
  | cons y ys ih =>
    simp only [sepBy, List.map_cons, List.flatten_cons]
    rw [ih y]
    simp

theorem clean_family (first last : List Int) (chunks : List (List Int))
    (h1 : ∀ k ∈ first, (3 : Int) ≤ k) (h2 : ∀ x ∈ chunks, ∀ k ∈ x, (3 : Int) ≤ k)
    (h3 : ∀ k ∈ last, (3 : Int) ≤ k) : ∀ k ∈ first ++ chunks.flatten ++ last, (3 : Int) ≤ k := by
  intro k hk
  simp only [List.mem_append, List.mem_flatten] at hk
  rcases hk with (hk | ⟨x, hx, hk⟩) | hk
  · exact h1 k hk
  · exact h2 x hx k hk
  · exact h3 k hk

theorem clean_append {a b : List Int} (ha : ∀ k ∈ a, (3 : Int) ≤ k)
    (hb : ∀ k ∈ b, (3 : Int) ≤ k) : ∀ k ∈ a ++ b, (3 : Int) ≤ k := by
  intro k hk
  rcases List.mem_append.1 hk with h | h
  · exact ha k h
  · exact hb k h

theorem clean_cons {x : Int} {b : List Int} (hx : (3 : Int) ≤ x)
    (hb : ∀ k ∈ b, (3 : Int) ≤ k) : ∀ k ∈ x :: b, (3 : Int) ≤ k := by
  intro k hk
  rcases List.mem_cons.1 hk with h | h
  · rw [h]; exact hx
  · exact hb k h

theorem clean_replicate {n : Nat} {x : List Int} (hx : ∀ k ∈ x, (3 : Int) ≤ k) :
    ∀ k ∈ (List.replicate n x).flatten, (3 : Int) ≤ k := by
  intro k hk
  obtain ⟨y, hy, hk2⟩ := List.mem_flatten.1 hk
  rw [List.eq_of_mem_replicate hy] at hk2
  exact hx k hk2

/-- A family of inputs: a phrase, repeated phrases and a closing phrase, each read from the
stack the one before leaves.  The automaton accepts every member with a bounded stack. -/
theorem AccB.of_family {D n0 n1 n2 : Nat} {ss L : List Int} (first : List Int)
    (chunks : List (List Int)) (last : List Int)
    (h0 : ∀ la ∈ L, lrun D ss n0 [0] (first ++ [la]) = some [la])
    (hc : ∀ x ∈ chunks, ∀ la ∈ L, lrun D ss n1 ss (x ++ [la]) = some [la])
    (hh : ∀ x ∈ chunks, x.head? ∈ L.map some)
    (hl : last.head? ∈ L.map some) (hfin : arun D n2 ss last = true) :
    AccB D [0] (first ++ chunks.flatten ++ last) := by
  cases last with
  | nil => simp at hl
  | cons la R =>
    simp only [List.head?_cons, List.mem_map, Option.some.injEq] at hl
    obtain ⟨c, hc1, rfl⟩ := hl
    exact AccB.of_moves (Moves.family first chunks h0 hc hh c hc1 R) (arun_accB n2 hfin)

/-! ## From the automaton to the parser -/

theorem cpush_two {c d : Ctl} {v : Int} (h : cpush c v = .ret 2 d) :
    YYMAXDEPTH ≤ (c.yyss.length : Int) + 1 := by
  unfold cpush at h
  simp only at h
  split at h
  · rename_i h1
    simpa using h1
  · split at h
    · simp at h
    · cases h

theorem cdefault_two {c d : Ctl} (h : cdefault c = .ret 2 d) :
    YYMAXDEPTH ≤ (c.yyss.length : Int) + 1 := by
  unfold cdefault at h
  simp only at h
  split at h
  · simp [cabort] at h
  · unfold creduce at h
    simp only at h
    split at h
    · cases h
    · have := cpush_two h
      simp only [List.length_drop] at this
      omega

/-- An action ends with exhaustion only when the stack is one cell short of the limit. -/
theorem cstep_two {c d : Ctl} (h : cstep c = .ret 2 d) :
    YYMAXDEPTH ≤ (c.yyss.length : Int) + 1 := by
  rw [cstep_eq] at h
  split at h
  · exact cdefault_two h
  · split at h
    · simp [cabort] at h
    · unfold cact at h
      split at h
      · have := cpush_two h
        simpa [cpeek_yyss] using this
      · have := cdefault_two h
        simpa [cpeek_yyss] using this

/-- A run of the control view on grammar tokens that the automaton accepts with a bounded
stack does not end with exhaustion. -/
theorem crun_accB {D : Nat} (hD : D + 1 < 10000) (n : Nat) : ∀ c : Ctl, c.Clean →
    AccB D c.yyss c.syms → ∀ d, crun n c ≠ .ret 2 d := by
  induction n with
  | zero => intro c _ _ d h; simp [crun] at h
  | succ n ih =>
    intro c hc ha d h
    have hs := cstep_astep c hc
    unfold crun at h
    cases hst : cstep c with
    | next e =>
      rw [hst] at h
      obtain ⟨h1, h2⟩ := hs.1 e hst
      exact ih e h2 (AccB.after_step h1 ha) d h
    | ret r e =>
      rw [hst] at h
      simp only [CStep.ret.injEq] at h
      obtain ⟨rfl, rfl⟩ := h
      have h1 := cstep_two hst
      have h2 := ha.depth_le
      simp only [YYMAXDEPTH] at h1
      omega
    | fault => rw [hst] at h; cases h

/-- Grammar tokens that the automaton accepts with a bounded stack are accepted by
`yyparse`: it returns 0, reports nothing and leaves `yynerrs` alone. -/
theorem yyparse_accB (g : Globals) (toks : List Token) (codes : List Int)
    (hcodes : toks.map Token.code = codes) (D : Nat) (hD : D + 1 < 10000)
    (hclean : ∀ k ∈ codes.map YYTRANSLATE, 3 ≤ k)
    (h : AccB D [0] (codes.map YYTRANSLATE)) :
    (yyparse g toks).result = some 0 ∧ (yyparse g toks).parser.yyerrs = [] ∧
    (yyparse g toks).parser.yynerrs = g.yynerrs := by
  obtain ⟨r, q, hq, hfin, hcnt, hrun⟩ := yyparse_final g toks
  rw [hcodes] at hrun
  have hw : (cinit codes).syms = codes.map YYTRANSLATE := by
    simp [cinit, Ctl.syms]
  have hcl : (cinit codes).Clean := by
    refine ⟨?_, Or.inl rfl⟩
    intro t ht
    exact hclean _ (List.mem_map.2 ⟨t, ht, rfl⟩)
  have hacc : AccB D (cinit codes).yyss (cinit codes).syms := by
    rw [hw]; exact h
  have h1 : r ≠ 1 := by
    rintro rfl
    exact crun_acc _ _ hcl hacc.unbounded _ hrun
  have h2 : r ≠ 2 := by
    rintro rfl
    exact crun_accB hD _ _ hcl hacc _ hrun
  rw [hq]
  simp only [Step.result, Step.parser, Option.some.injEq]
  rcases hfin with ⟨h0, he, -, -⟩ | ⟨hr, -⟩ | ⟨hr, -⟩
  · refine ⟨h0, he, ?_⟩
    have he2 : q.yyerrs = [] := he
    rw [hcnt, he2, counted_nil]
  · exact absurd hr h1
  · exact absurd hr h2

/-! ## Runs up to a rejected token -/

theorem cfeed_stop (c : Ctl) :
    (c.input.isEmpty && c.yychar == YYEMPTY &&
      tget yypact (c.yyss.headD 0) != YYPACT_NINF) = true ↔ c.starved := by
  unfold Ctl.starved
  simp only [Bool.and_eq_true, List.isEmpty_iff, beq_iff_eq, bne_iff_ne, ne_eq, and_assoc]

/-- A run of the control view up to the point where it needs a token that the input does
not have is the same run with more input behind. -/
theorem cfeed_run (ext : List Int) (n : Nat) : ∀ c d : Ctl, cfeed n c = some d →
    d.starved ∧ ∃ k, crun k (c.extend ext) = .next (d.extend ext) := by
  induction n with
  | zero =>
    intro c d h
    unfold cfeed at h
    split at h
    · rename_i hs
      simp only [Option.some.injEq] at h
      subst h
      exact ⟨(cfeed_stop c).1 hs, 0, rfl⟩
    · cases h
  | succ n ih =>
    intro c d h
    unfold cfeed at h
    split at h
    · rename_i hs
      simp only [Option.some.injEq] at h
      subst h
      exact ⟨(cfeed_stop c).1 hs, 0, rfl⟩
    · rename_i hs
      have hns : ¬ c.starved := fun h1 => hs ((cfeed_stop c).2 h1)
      have he := cstep_extend ext c hns
      cases hst : cstep c with
      | next e =>
        rw [hst] at h he
        obtain ⟨h1, k, hk⟩ := ih e d h
        refine ⟨h1, k + 1, ?_⟩
        unfold crun
        rw [he]
        exact hk
      | ret r e => rw [hst] at h; cases h
      | fault => rw [hst] at h; cases h

theorem crun_then {k : Nat} {c d e : Ctl} {r : Int} (h1 : crun k c = .next d)
    (h2 : cstep d = .ret r e) : crun (k + 1) c = .ret r e := by
  rw [crun_split k 1 c, h1]
  simp only [crun, h2]

/-- The action on a token that the top state neither shifts nor reduces on: it is fetched and
reported, and the parse is aborted with the token held. -/
theorem cstep_reject {c : Ctl} {a : Int} {w : List Int} (hin : c.input = a :: w)
    (hc : c.yychar = YYEMPTY) (hp : tget yypact (c.yyss.headD 0) ≠ YYPACT_NINF)
    (ha : a ≠ YYerror) (hsh : tshift (c.yyss.headD 0) (YYTRANSLATE (hold a)) = none)
    (hr : tget yydefact (c.yyss.headD 0) = 0) :
    cstep c = .ret 1 {
      input := w
      lexed := c.lexed + 1
      yychar := hold a
      yyss := c.yyss.drop (c.yyss.length - 1)
      yyerrs := c.yyerrs ++
        [{ msg := "syntax error", lexed := c.lexed + 1, held := hold a }] } := by
  have hpk : cpeek c = { c with input := w, lexed := c.lexed + 1, yychar := hold a } := by
    unfold cpeek clex hold
    simp only [hc, if_true, hin]
    by_cases h0 : a ≤ YYEOF
    · simp only [h0, if_true]
    · simp only [h0, if_false]
  have hne : hold a ≠ YYerror := by
    unfold hold
    split
    · simp [YYEOF, YYerror]
    · exact ha
  rw [cstep_eq, if_neg hp, hpk]
  simp only
  rw [if_neg hne]
  unfold cact
  simp only
  rw [hsh]
  simp only
  unfold cdefault
  simp only
  rw [if_pos hr]
  rfl

/-- The result of a run of the control view is the result of `yyparse`. -/
theorem yyparse_of_run (g : Globals) (toks : List Token) (codes : List Int)
    (h : toks.map Token.code = codes) {k : Nat} {r : Int} {d : Ctl}
    (hrun : crun k (cinit codes) = .ret r d) :
    (yyparse g toks).result = some r ∧ (yyparse g toks).parser.yyerrs = d.yyerrs ∧
    (yyparse g toks).parser.yynerrs = counted g.yynerrs d.yyerrs := by
  obtain ⟨r', q, hq, -, hcnt, hrun'⟩ := yyparse_final g toks
  rw [h] at hrun'
  have h1 := crun_mono k (max k (5 * toks.length + 5)) (le_max_left _ _) _ _ _ hrun
  have h2 := crun_mono _ (max k (5 * toks.length + 5)) (le_max_right _ _) _ _ _ hrun'
  rw [h1] at h2
  simp only [CStep.ret.injEq] at h2
  obtain ⟨rfl, rfl⟩ := h2
  rw [hq]
  exact ⟨rfl, rfl, hcnt⟩

/-! ## Pushing a state, in detail -/

theorem yycopy_full (vs up : List (Option Int)) :
    (yycopy (vs.reverse ++ up) vs.length).reverse = vs := by
  unfold yycopy
  rw [List.append_assoc, List.take_append_of_le_length (by simp)]
  rw [List.take_of_length_le (by simp)]
  exact List.reverse_reverse vs

/-- The outcome of `yynewstate` when the state stack has room for the new cell. -/
theorem yynewstate_cases (p : Parser) (hcap : (p.yyss.length : Int) < p.yystacksize)
    (hst : 0 ≤ p.yystate ∧ p.yystate < 256) :
    yynewstate p =
      if (p.yyss.length : Int) + 1 = p.yystacksize then
        if YYMAXDEPTH ≤ p.yystacksize then
          .ret 2 (yyerror { p with yyss := p.yystate :: p.yyss } "memory exhausted")
        else if p.yystate = YYFINAL then
          .ret 0 { p with
            yyss := p.yystate :: p.yyss
            yystacksize := min (2 * p.yystacksize) YYMAXDEPTH
            yyvs := (yycopy (p.yyvs.reverse ++ p.yyvsUp) (p.yyss.length + 1)).reverse
            yyvsUp := [] }
        else
          .next { p with
            yyss := p.yystate :: p.yyss
            yystacksize := min (2 * p.yystacksize) YYMAXDEPTH
            yyvs := (yycopy (p.yyvs.reverse ++ p.yyvsUp) (p.yyss.length + 1)).reverse
            yyvsUp := [] }
      else if p.yystate = YYFINAL then .ret 0 { p with yyss := p.yystate :: p.yyss }
      else .next { p with yyss := p.yystate :: p.yyss } := by
  have hmod : p.yystate % 256 = p.yystate := by omega
  unfold yynewstate yysetstate
  simp only [Parser.yyssp, List.length_cons, List.tail_cons, hmod, yyacceptlab, yyabortlab,
    yyexhaustedlab]
  have h1 : ¬ ((((p.yyss.length + 1 : Nat) : Int) - 1 < 0) ∨
      p.yystacksize ≤ ((p.yyss.length + 1 : Nat) : Int) - 1) := by push_cast; omega
  rw [if_neg h1]
  by_cases hfull : (p.yyss.length : Int) + 1 = p.yystacksize
  · rw [if_pos hfull, if_pos (by push_cast; omega)]
    by_cases h3 : YYMAXDEPTH ≤ p.yystacksize
    · rw [if_pos h3, if_pos h3]
    · rw [if_neg h3, if_neg h3]
      have hsz : (if YYMAXDEPTH < p.yystacksize * 2 then YYMAXDEPTH else p.yystacksize * 2) =
          min (2 * p.yystacksize) YYMAXDEPTH := by
        simp only [YYMAXDEPTH]
        split <;> omega
      have hn : (((p.yyss.length + 1 : Nat) : Int) - 1 + 1).toNat = p.yyss.length + 1 := by
        omega
      rw [hsz, hn, if_neg (by simp only [YYMAXDEPTH] at h3 ⊢; push_cast; omega)]
  · rw [if_neg hfull, if_neg (by push_cast; omega)]

/-- What `yynewstate` does when the stacks have room for the new cell and the value stack
has been pushed already: the state is stored on top of the state stack, nothing below it and
nothing on the value stack changes, the capacity grows when the new cell is the last one of
the arrays, and the parse ends when the arrays cannot grow or the state is final. -/
theorem yynewstate_push (p : Parser) (hcap : (p.yyss.length : Int) < p.yystacksize)
    (hpar : p.yyvs.length = p.yyss.length + 1) (hst : 0 ≤ p.yystate ∧ p.yystate < 256) :
    (yynewstate p).parser.yyss = p.yystate :: p.yyss ∧
    (yynewstate p).parser.yyvs = p.yyvs ∧
    (yynewstate p).parser.yystate = p.yystate ∧
    (yynewstate p).parser.yylval = p.yylval ∧
    (yynewstate p).parser.yystacksize =
      (if (p.yyss.length : Int) + 1 = p.yystacksize ∧ p.yystacksize < YYMAXDEPTH
        then min (2 * p.yystacksize) YYMAXDEPTH else p.yystacksize) ∧
    (yynewstate p).result =
      (if (p.yyss.length : Int) + 1 = p.yystacksize ∧ YYMAXDEPTH ≤ p.yystacksize then some 2
        else if p.yystate = YYFINAL then some 0 else none) ∧
    (∀ q, yynewstate p ≠ .fault q) := by
  have hv : (yycopy (p.yyvs.reverse ++ p.yyvsUp) (p.yyss.length + 1)).reverse = p.yyvs := by
    rw [← hpar]
    exact yycopy_full _ _
  rw [yynewstate_cases p hcap hst]
  simp only [YYMAXDEPTH]
  split_ifs <;>
    first
    | exact ⟨rfl, rfl, rfl, rfl, rfl, rfl, fun q h => by cases h⟩
    | exact ⟨rfl, hv, rfl, rfl, rfl, rfl, fun q h => by cases h⟩
    | (exfalso; omega)

/-! ## The shift step -/

/-- The action of `yybackup` in terms of the lookahead it holds. -/
theorem yybackup_peek (p : Parser) (n : Int) (hn : rd yypact p.yystate = some n)
    (hne : n ≠ YYPACT_NINF) :
    yybackup p =
      if (yypeek p).yychar = YYerror then yyerrlab1 { yypeek p with yychar := YYUNDEF }
      else yyaction (yypeek p) n (YYTRANSLATE (yypeek p).yychar) := by
  unfold yybackup yypeek
  rw [hn]
  simp only
  rw [if_neg hne]
  generalize (if p.yychar = YYEMPTY then yylex p else p) = p1
  simp only [YYEOF, YYerror, YYSYMBOL_YYEOF]
  by_cases h1 : p1.yychar ≤ 0
  · simp only [h1, if_true]
    simp [yytranslate_eof]
  · simp only [h1, if_false]

theorem yypeek_stacks (p : Parser) :
    (yypeek p).yyss = p.yyss ∧ (yypeek p).yyvs = p.yyvs ∧ (yypeek p).yyvsUp = p.yyvsUp ∧
    (yypeek p).yystate = p.yystate ∧ (yypeek p).yystacksize = p.yystacksize ∧
    (yypeek p).yyerrstatus = p.yyerrstatus ∧ (yypeek p).yynerrs = p.yynerrs ∧
    (yypeek p).yyerrs = p.yyerrs := by
  unfold yypeek yylex
  simp only
  split <;> split <;> (try split) <;> exact ⟨rfl, rfl, rfl, rfl, rfl, rfl, rfl, rfl⟩

/-- A table hit with a positive entry `v`: the action pushes the semantic value of the
lookahead and state `v`, and marks the lookahead as consumed. -/
theorem yyaction_shift (p : Parser) (n t v : Int)
    (hpar : p.yyvs.length = p.yyss.length) (hcap : (p.yyss.length : Int) < p.yystacksize)
    (hi : 0 ≤ n + t ∧ n + t ≤ YYLAST) (hck : rd yycheck (n + t) = some t)
    (htb : rd yytable (n + t) = some v) (hv : 0 < v) :
    (yyaction p n t).parser.yyss = v :: p.yyss ∧
    (yyaction p n t).parser.yyvs = some p.yylval :: p.yyvs ∧
    (yyaction p n t).parser.yychar = YYEMPTY ∧
    (yyaction p n t).parser.yystate = v ∧
    (yyaction p n t).parser.input = p.input ∧ (yyaction p n t).parser.lexed = p.lexed ∧
    (yyaction p n t).parser.yystacksize =
      (if (p.yyss.length : Int) + 1 = p.yystacksize ∧ p.yystacksize < YYMAXDEPTH
        then min (2 * p.yystacksize) YYMAXDEPTH else p.yystacksize) ∧
    (yyaction p n t).result =
      (if (p.yyss.length : Int) + 1 = p.yystacksize ∧ YYMAXDEPTH ≤ p.yystacksize then some 2
        else if v = YYFINAL then some 0 else none) ∧
    (∀ q, yyaction p n t ≠ .fault q) := by
  have hvr : 0 ≤ v ∧ v < 179 := by
    have h0 : (n + t).toNat < yytable.length := by
      simp only [YYLAST] at hi; rw [yytable_length]; omega
    apply yytable_range
    unfold rd at htb
    rw [if_pos hi.1, List.getElem?_eq_getElem h0] at htb
    simp only [Option.some.injEq] at htb
    rw [← htb]
    exact List.getElem_mem _
  unfold yyaction
  simp only
  rw [if_neg (by omega), hck]
  simp only [ne_eq, not_true_eq_false, if_false]
  rw [htb]
  simp only
  rw [if_neg (by omega)]
  by_cases he : p.yyerrstatus = 0
  · rw [if_neg (not_not_intro he)]
    unfold yyvpush
    simp only [Parser.yyvsp]
    rw [if_neg (by rw [hpar]; omega)]
    simp only
    have h := yynewstate_push { p with
        yystate := v
        yyvs := some p.yylval :: p.yyvs
        yyvsUp := p.yyvsUp.tail
        yychar := YYEMPTY } hcap (by simp [hpar])
        (show (0 : Int) ≤ v ∧ v < 256 from ⟨hvr.1, by omega⟩)
    have hk := yynewstate_kept { p with
        yystate := v
        yyvs := some p.yylval :: p.yyvs
        yyvsUp := p.yyvsUp.tail
        yychar := YYEMPTY }
    simp only [Parser.kept, Prod.mk.injEq] at hk
    exact ⟨h.1, h.2.1, hk.2.2.1, h.2.2.1, hk.1, hk.2.1, h.2.2.2.2.1, h.2.2.2.2.2.1,
      h.2.2.2.2.2.2⟩
  · rw [if_pos he]
    unfold yyvpush
    simp only [Parser.yyvsp]
    rw [if_neg (by rw [hpar]; omega)]
    simp only
    have h := yynewstate_push { p with
        yyerrstatus := p.yyerrstatus - 1
        yystate := v
        yyvs := some p.yylval :: p.yyvs
        yyvsUp := p.yyvsUp.tail
        yychar := YYEMPTY } hcap (by simp [hpar])
        (show (0 : Int) ≤ v ∧ v < 256 from ⟨hvr.1, by omega⟩)
    have hk := yynewstate_kept { p with
        yyerrstatus := p.yyerrstatus - 1
        yystate := v
        yyvs := some p.yylval :: p.yyvs
        yyvsUp := p.yyvsUp.tail
        yychar := YYEMPTY }
    simp only [Parser.kept, Prod.mk.injEq] at hk
    exact ⟨h.1, h.2.1, hk.2.2.1, h.2.2.1, hk.1, hk.2.1, h.2.2.2.2.1, h.2.2.2.2.2.1,
      h.2.2.2.2.2.2⟩

/-! ## The reduce step -/

/-- The goto computation of `yyreduce`, read off the source tables. -/
theorem tgoto_rd (e lhs : Int) (hl : 0 ≤ lhs ∧ lhs < 27) :
    ∃ base, rd yypgoto lhs = some base ∧
      (if 0 ≤ base + e ∧ base + e ≤ YYLAST ∧ rd yycheck (base + e) = some e
        then rd yytable (base + e) else rd yydefgoto lhs) = some (tgoto e lhs) := by
  refine ⟨tget yypgoto lhs, rd_eq_some hl.1 (by rw [yypgoto_length]; omega), ?_⟩
  unfold tgoto
  simp only [YYLAST]
  by_cases hi : 0 ≤ tget yypgoto lhs + e ∧ tget yypgoto lhs + e ≤ 415
  · rw [rd_eq_some hi.1 (by rw [yycheck_length]; omega)]
    by_cases hc : tget yycheck (tget yypgoto lhs + e) = e
    · rw [if_pos ⟨hi.1, hi.2, by rw [hc]⟩, if_pos ⟨hi.1, hi.2, hc⟩]
      exact rd_eq_some hi.1 (by rw [yytable_length]; omega)
    · rw [if_neg (by simp only [Option.some.injEq]; tauto), if_neg (by tauto)]
      exact rd_eq_some hl.1 (by rw [yydefgoto_length]; omega)
  · rw [if_neg (by tauto), if_neg (by tauto)]
    exact rd_eq_some hl.1 (by rw [yydefgoto_length]; omega)

/-- A reduction on a stack that is deep enough for the rule: the cells of the right-hand
side are popped, the value of its first symbol and the goto state are pushed. -/
theorem yyreduce_eq (p : Parser) (r : Int) (hr : 1 ≤ r ∧ r < 90)
    (hpar : p.yyvs.length = p.yyss.length) (hcap : (p.yyss.length : Int) < p.yystacksize)
    (hdeep : (tget yyr2 r).toNat < p.yyss.length) :
    ∃ v, (1 ≤ tget yyr2 r → p.yyvs[(tget yyr2 r).toNat - 1]? = some v) ∧
      yyreduce p r = yynewstate { p with
        yystate := tgoto ((p.yyss.drop (tget yyr2 r).toNat).headD 0) (tget yyr1 r - YYNTOKENS)
        yyss := p.yyss.drop (tget yyr2 r).toNat
        yyvs := v :: p.yyvs.drop (tget yyr2 r).toNat
        yyvsUp := ((p.yyvs.take (tget yyr2 r).toNat).reverse ++ p.yyvsUp).tail } := by
  have hk := yyr2_len r ⟨by omega, hr.2⟩
  have hl := yyr1_lhs r hr
  have hcell : ∃ v, (if tget yyr2 r = 0 then
        (if p.yystacksize ≤ p.yyvsp + 1 then none else some (p.yyvsUp.headD none))
      else if tget yyr2 r < 0 then none
      else p.yyvs[(tget yyr2 r - 1).toNat]?) = some v ∧
      (1 ≤ tget yyr2 r → p.yyvs[(tget yyr2 r).toNat - 1]? = some v) := by
    by_cases hk0 : tget yyr2 r = 0
    · rw [if_pos hk0, if_neg (by simp only [Parser.yyvsp]; omega)]
      exact ⟨_, rfl, fun h => by omega⟩
    · rw [if_neg hk0, if_neg (by omega)]
      have hin : (tget yyr2 r - 1).toNat < p.yyvs.length := by omega
      have he : (tget yyr2 r - 1).toNat = (tget yyr2 r).toNat - 1 := by omega
      rw [he] at hin ⊢
      rw [List.getElem?_eq_getElem hin]
      exact ⟨_, rfl, fun _ => rfl⟩
  obtain ⟨v, hv, hv1⟩ := hcell
  refine ⟨v, hv1, ?_⟩
  unfold yyreduce
  rw [rd_eq_some (by omega) (by rw [yyr2_length]; omega)]
  simp only
  rw [hv]
  simp only
  rw [rd_eq_some (by omega) (by rw [yyr1_length]; omega)]
  simp only
  have hpop : YYPOPSTACK p (tget yyr2 r) = some { p with
      yyss := p.yyss.drop (tget yyr2 r).toNat
      yyvs := p.yyvs.drop (tget yyr2 r).toNat
      yyvsUp := (p.yyvs.take (tget yyr2 r).toNat).reverse ++ p.yyvsUp } := by
    unfold YYPOPSTACK
    simp only [Parser.yyssp, Parser.yyvsp]
    rw [if_neg]; omega
  rw [hpop]
  simp only
  unfold yyvpush
  simp only [Parser.yyvsp, List.length_drop]
  rw [if_neg (by omega)]
  simp only [YYNTOKENS]
  rw [rd_eq_some (by omega) (by rw [yypgoto_length]; omega)]
  have hdrop : ∃ x rest, p.yyss.drop (tget yyr2 r).toNat = x :: rest := by
    cases hd : p.yyss.drop (tget yyr2 r).toNat with
    | nil =>
      have := congrArg List.length hd
      simp only [List.length_drop, List.length_nil] at this
      omega
    | cons x rest => exact ⟨x, rest, rfl⟩
  obtain ⟨x, rest, hd⟩ := hdrop
  simp only [hd, List.head?_cons, List.headD_cons]
  unfold tgoto
  simp only [YYLAST]
  by_cases hi : 0 ≤ tget yypgoto (tget yyr1 r - 47) + x ∧
      tget yypgoto (tget yyr1 r - 47) + x ≤ 415
  · rw [if_pos hi]
    rw [rd_eq_some hi.1 (by rw [yycheck_length]; omega)]
    simp only
    by_cases hc2 : tget yycheck (tget yypgoto (tget yyr1 r - 47) + x) = x
    · rw [if_pos hc2]
      rw [rd_eq_some hi.1 (by rw [yytable_length]; omega)]
      simp only
      rw [if_pos ⟨hi.1, hi.2, hc2⟩]
    · rw [if_neg hc2]
      rw [rd_eq_some (by omega) (by rw [yydefgoto_length]; omega)]
      simp only
      rw [if_neg (by tauto)]
  · rw [if_neg hi]
    rw [rd_eq_some (by omega) (by rw [yydefgoto_length]; omega)]
    simp only
    rw [if_neg (by tauto)]

/-- The outcome of a reduction, field by field. -/
theorem yyreduce_push (p : Parser) (r : Int) (hr : 1 ≤ r ∧ r < 90)
    (hpar : p.yyvs.length = p.yyss.length) (hcap : (p.yyss.length : Int) < p.yystacksize)
    (hdeep : (tget yyr2 r).toNat < p.yyss.length) :
    ∃ v, (1 ≤ tget yyr2 r → p.yyvs[(tget yyr2 r).toNat - 1]? = some v) ∧
      (yyreduce p r).parser.yyss =
        tgoto ((p.yyss.drop (tget yyr2 r).toNat).headD 0) (tget yyr1 r - YYNTOKENS) ::
          p.yyss.drop (tget yyr2 r).toNat ∧
      (yyreduce p r).parser.yyvs = v :: p.yyvs.drop (tget yyr2 r).toNat ∧
      (yyreduce p r).parser.yystate =
        tgoto ((p.yyss.drop (tget yyr2 r).toNat).headD 0) (tget yyr1 r - YYNTOKENS) ∧
      (yyreduce p r).parser.yylval = p.yylval ∧
      (yyreduce p r).parser.kept = p.kept ∧
      (yyreduce p r).parser.yystacksize =
        (if ((p.yyss.length - (tget yyr2 r).toNat : Nat) : Int) + 1 = p.yystacksize ∧
            p.yystacksize < YYMAXDEPTH
          then min (2 * p.yystacksize) YYMAXDEPTH else p.yystacksize) ∧
      (yyreduce p r).result =
        (if ((p.yyss.length - (tget yyr2 r).toNat : Nat) : Int) + 1 = p.yystacksize ∧
            YYMAXDEPTH ≤ p.yystacksize then some 2
          else if tgoto ((p.yyss.drop (tget yyr2 r).toNat).headD 0) (tget yyr1 r - YYNTOKENS)
            = YYFINAL then some 0 else none) ∧
      (∀ q, yyreduce p r ≠ .fault q) := by
  obtain ⟨v, hv, heq⟩ := yyreduce_eq p r hr hpar hcap hdeep
  have hl := yyr1_lhs r hr
  have hg := tgoto_range ((p.yyss.drop (tget yyr2 r).toNat).headD 0) (tget yyr1 r - YYNTOKENS)
    (by simp only [YYNTOKENS]; omega)
  have h := yynewstate_push { p with
      yystate := tgoto ((p.yyss.drop (tget yyr2 r).toNat).headD 0) (tget yyr1 r - YYNTOKENS)
      yyss := p.yyss.drop (tget yyr2 r).toNat
      yyvs := v :: p.yyvs.drop (tget yyr2 r).toNat
      yyvsUp := ((p.yyvs.take (tget yyr2 r).toNat).reverse ++ p.yyvsUp).tail }
    (by simp only [List.length_drop]; omega)
    (by simp only [List.length_cons, List.length_drop]; omega)
    (show (0 : Int) ≤ tgoto _ _ ∧ tgoto _ _ < 256 from ⟨hg.1, by have := hg.2; simp only [YYNSTATES] at this; omega⟩)
  have hk := yynewstate_kept { p with
      yystate := tgoto ((p.yyss.drop (tget yyr2 r).toNat).headD 0) (tget yyr1 r - YYNTOKENS)
      yyss := p.yyss.drop (tget yyr2 r).toNat
      yyvs := v :: p.yyvs.drop (tget yyr2 r).toNat
      yyvsUp := ((p.yyvs.take (tget yyr2 r).toNat).reverse ++ p.yyvsUp).tail }
  rw [← heq] at h hk
  simp only [List.length_drop] at h
  exact ⟨v, hv, h.1, h.2.1, h.2.2.1, h.2.2.2.1, hk, h.2.2.2.2.1, h.2.2.2.2.2.1,
    h.2.2.2.2.2.2⟩

/-! ## The kinds of action -/

/-- A table hit for a symbol is a shift: the entry is positive. -/
theorem yytable_shift (i t : Int) (hi : 0 ≤ i ∧ i ≤ YYLAST) (ht : 0 ≤ t)
    (hc : rd yycheck i = some t) : ∃ v, rd yytable i = some v ∧ 0 < v := by
  simp only [YYLAST] at hi
  rw [rd_eq_some hi.1 (by rw [yycheck_length]; omega)] at hc
  refine ⟨_, rd_eq_some hi.1 (by rw [yytable_length]; omega), ?_⟩
  apply yytable_hit i hi
  rw [Option.some.inj hc]
  exact ht

/-- A lookup that misses falls through to the default action. -/
theorem yyaction_miss (p : Parser) (n t : Int)
    (h : n + t < 0 ∨ YYLAST < n + t ∨ ∃ c, rd yycheck (n + t) = some c ∧ c ≠ t) :
    yyaction p n t = yydefault p := by
  unfold yyaction
  simp only
  by_cases hr : n + t < 0 ∨ YYLAST < n + t
  · rw [if_pos hr]
  · rw [if_neg hr]
    rcases h with h | h | ⟨c, hc, hne⟩
    · exact absurd (Or.inl h) hr
    · exact absurd (Or.inr h) hr
    · rw [hc]
      simp only
      rw [if_pos hne]

/-- A lookup for a symbol either misses or hits a positive entry. -/
theorem yyaction_cases (n t : Int) (ht : 0 ≤ t) :
    (n + t < 0 ∨ YYLAST < n + t ∨ ∃ c, rd yycheck (n + t) = some c ∧ c ≠ t) ∨
    ((0 ≤ n + t ∧ n + t ≤ YYLAST) ∧ rd yycheck (n + t) = some t ∧
      ∃ v, rd yytable (n + t) = some v ∧ 0 < v) := by
  by_cases hr : n + t < 0 ∨ YYLAST < n + t
  · rcases hr with hr | hr
    · exact Or.inl (Or.inl hr)
    · exact Or.inl (Or.inr (Or.inl hr))
  · have hi : 0 ≤ n + t ∧ n + t ≤ YYLAST := by omega
    have hc : rd yycheck (n + t) = some (tget yycheck (n + t)) := rd_eq_some hi.1
      (by have := hi.2; simp only [YYLAST] at this; rw [yycheck_length]; omega)
    by_cases he : tget yycheck (n + t) = t
    · rw [he] at hc
      exact Or.inr ⟨hi, hc, yytable_shift _ _ hi ht hc⟩
    · exact Or.inl (Or.inr (Or.inr ⟨_, hc, he⟩))

/-- The default action: an error for the entry 0, else the reduction by the entry. -/
theorem yydefault_cases (p : Parser) (R : Int) (h : rd yydefact p.yystate = some R) :
    yydefault p = if R = 0 then yyerrlab p else yyreduce p R := by
  unfold yydefault
  rw [h]

/-- The four kinds of action of `yybackup`: the default action without a lookahead, the
error token, the default action after a miss, and a shift. -/
theorem yybackup_cases (p : Parser) (n : Int) (hn : rd yypact p.yystate = some n) :
    (n = YYPACT_NINF ∧ yyheld p = p ∧ yyshifted p = none ∧ yybackup p = yydefault p) ∨
    (n ≠ YYPACT_NINF ∧ yyheld p = yypeek p ∧ yyshifted p = none ∧
      (yypeek p).yychar = YYerror ∧
      yybackup p = yyerrlab1 { yypeek p with yychar := YYUNDEF }) ∨
    (n ≠ YYPACT_NINF ∧ yyheld p = yypeek p ∧ yyshifted p = none ∧
      yybackup p = yydefault (yypeek p)) ∨
    (n ≠ YYPACT_NINF ∧ yyheld p = yypeek p ∧ yyshifted p = some (yypeek p).yychar ∧
      ∃ v, 0 < v ∧ (0 ≤ n + YYTRANSLATE (yypeek p).yychar ∧
          n + YYTRANSLATE (yypeek p).yychar ≤ YYLAST) ∧
        rd yycheck (n + YYTRANSLATE (yypeek p).yychar) = some (YYTRANSLATE (yypeek p).yychar) ∧
        rd yytable (n + YYTRANSLATE (yypeek p).yychar) = some v ∧
        yybackup p = yyaction (yypeek p) n (YYTRANSLATE (yypeek p).yychar)) := by
  by_cases hne : n = YYPACT_NINF
  · left
    refine ⟨hne, ?_, ?_, ?_⟩
    · unfold yyheld; rw [hn]; simp only; rw [if_pos hne]
    · unfold yyshifted; rw [hn]; simp only; rw [if_pos hne]
    · unfold yybackup; rw [hn]; simp only; rw [if_pos hne]
  · right
    have hh : yyheld p = yypeek p := by
      unfold yyheld; rw [hn]; simp only; rw [if_neg hne]
    have hb := yybackup_peek p n hn hne
    by_cases he : (yypeek p).yychar = YYerror
    · left
      rw [if_pos he] at hb
      refine ⟨hne, hh, ?_, he, hb⟩
      unfold yyshifted; rw [hn]; simp only; rw [if_neg hne, if_pos he]
    · right
      rw [if_neg he] at hb
      rcases yyaction_cases n (YYTRANSLATE (yypeek p).yychar) (yytranslate_sym _).1 with
        hm | ⟨hi, hc, v, hv, hv0⟩
      · left
        refine ⟨hne, hh, ?_, by rw [hb]; exact yyaction_miss _ _ _ hm⟩
        unfold yyshifted; rw [hn]; simp only; rw [if_neg hne, if_neg he]
        by_cases hr : n + YYTRANSLATE (yypeek p).yychar < 0 ∨
            YYLAST < n + YYTRANSLATE (yypeek p).yychar
        · rw [if_pos hr]
        · rw [if_neg hr]
          rcases hm with hm | hm | ⟨c, hc, hcne⟩
          · exact absurd (Or.inl hm) hr
          · exact absurd (Or.inr hm) hr
          · rw [hc]
            cases rd yytable (n + YYTRANSLATE (yypeek p).yychar) with
            | none => rfl
            | some v => simp only; rw [if_neg (by tauto)]
      · right
        refine ⟨hne, hh, ?_, v, hv0, hi, hc, hv, hb⟩
        unfold yyshifted; rw [hn]; simp only; rw [if_neg hne, if_neg he]
        rw [if_neg (by omega), hc, hv]
        simp only [true_and]
        rw [if_pos hv0]

set_option maxRecDepth 1000000 in
theorem yytable_zero_aux : ∀ i ∈ List.range 416,
    (tget yytable (i : Int) = 0 ↔ tget yycheck (i : Int) = -1) := by decide!

/-- An entry of `yytable` is 0 exactly where `yycheck` holds -1, the mark of an unused cell. -/
theorem yytable_zero (i : Int) (hi : 0 ≤ i ∧ i ≤ YYLAST) :
    (rd yytable i = some 0 ↔ rd yycheck i = some (-1)) ∧ ∃ v, rd yytable i = some v ∧ 0 ≤ v := by
  simp only [YYLAST] at hi
  have h := int_of_range (P := fun i => tget yytable i = 0 ↔ tget yycheck i = -1)
    yytable_zero_aux i hi.1 (by omega)
  rw [rd_eq_some hi.1 (by rw [yytable_length]; omega),
    rd_eq_some hi.1 (by rw [yycheck_length]; omega)]
  simp only [Option.some.injEq]
  exact ⟨h, _, rfl, (yytable_range _ (tget_mem hi.1 (by rw [yytable_length]; omega))).1⟩

/-! ## The error actions -/

/-- The loop of `yyerrlab1` leaves the capacity of the stacks and `yylval` alone. -/
theorem yyerrpop_frame (ss : List Int) : ∀ (p : Parser), p.yyss = ss → ss ≠ [] →
    p.yyvs.length = p.yyss.length →
    (0 ≤ p.yystate ∧ p.yystate < YYNSTATES) →
    (∀ s ∈ p.yyss, 0 ≤ s ∧ s < YYNSTATES) →
    (yyerrpop ss p).parser.yystacksize = p.yystacksize ∧
    (yyerrpop ss p).parser.yylval = p.yylval := by
  induction ss with
  | nil => intro p _ h; exact absurd rfl h
  | cons a below ih =>
    intro p hss _ hpar hst hrng
    simp only [YYNSTATES] at hst
    unfold yyerrpop
    rw [yyerrshift_none p.yystate hst]
    simp only
    by_cases hbot : p.yyssp = 0
    · rw [if_pos hbot]
      exact ⟨rfl, rfl⟩
    · rw [if_neg hbot]
      simp only [Parser.yyssp] at hbot
      have hlen : p.yyss.length = below.length + 1 := by rw [hss]; simp
      have hpop : YYPOPSTACK p 1 = some { p with
          yyss := p.yyss.drop 1
          yyvs := p.yyvs.drop 1
          yyvsUp := (p.yyvs.take 1).reverse ++ p.yyvsUp } := by
        unfold YYPOPSTACK
        simp only [Parser.yyssp, Parser.yyvsp]
        rw [if_neg (by omega)]
        rfl
      rw [hpop]
      simp only [hss, List.drop_one, List.tail_cons]
      cases hb : below with
      | nil => rw [hb] at hlen; simp at hlen; omega
      | cons b rest =>
        simp only [List.head?_cons]
        have hb2 : b ∈ p.yyss := by rw [hss, hb]; simp
        have := ih { p with
              yyss := b :: rest
              yyvs := p.yyvs.tail
              yyvsUp := (p.yyvs.take 1).reverse ++ p.yyvsUp
              yystate := b }
          (by simp [hb]) (by simp [hb])
          (by simp only [List.length_tail, List.length_cons]; rw [hpar, hss, hb]; simp)
          (hrng b hb2)
          (by
            intro s hs
            apply hrng
            rw [hss, hb]
            exact List.mem_cons_of_mem _ hs)
        rw [hb] at this
        exact this

/-- With this table `yyerrlab1` ends the parse: it pops both stacks down to their bottom
cells and returns 1; the lookahead, the input, the reports and the capacity stay. -/
theorem yyerrlab1_stop (p : Parser) (hne : p.yyss ≠ []) (hpar : p.yyvs.length = p.yyss.length)
    (hst : 0 ≤ p.yystate ∧ p.yystate < YYNSTATES)
    (hrng : ∀ s ∈ p.yyss, 0 ≤ s ∧ s < YYNSTATES) :
    ∃ q, yyerrlab1 p = .ret 1 q ∧ q.yyss = p.yyss.drop (p.yyss.length - 1) ∧
      q.yyvs = p.yyvs.drop (p.yyvs.length - 1) ∧ q.input = p.input ∧ q.lexed = p.lexed ∧
      q.yychar = p.yychar ∧ q.yyerrs = p.yyerrs ∧ q.yystacksize = p.yystacksize ∧
      q.yylval = p.yylval := by
  obtain ⟨q, hq, h1, h2, h3, h4, h5, h6, -⟩ := yyerrlab1_abort p hne hpar hst hrng
  have hf := yyerrpop_frame p.yyss { p with yyerrstatus := 3 } rfl hne hpar hst hrng
  unfold yyerrlab1 at hq
  simp only at hq hf
  rw [hq] at hf
  exact ⟨q, by unfold yyerrlab1; exact hq, h1, h2, h3, h4, h5, h6, hf.1, hf.2⟩

/-- Outside recovery `yyerrlab` reports the syntax error and ends the parse like
`yyerrlab1`. -/
theorem yyerrlab_stop (p : Parser) (hne : p.yyss ≠ []) (hpar : p.yyvs.length = p.yyss.length)
    (hst : 0 ≤ p.yystate ∧ p.yystate < YYNSTATES)
    (hrng : ∀ s ∈ p.yyss, 0 ≤ s ∧ s < YYNSTATES) (hcalm : p.yyerrstatus = 0) :
    ∃ q, yyerrlab p = .ret 1 q ∧ q.yyss = p.yyss.drop (p.yyss.length - 1) ∧
      q.yyvs = p.yyvs.drop (p.yyvs.length - 1) ∧ q.input = p.input ∧ q.lexed = p.lexed ∧
      q.yychar = p.yychar ∧
      q.yyerrs = p.yyerrs ++ [{ msg := "syntax error", lexed := p.lexed, held := p.yychar }] ∧
      q.yystacksize = p.yystacksize ∧ q.yylval = p.yylval := by
  unfold yyerrlab
  rw [if_pos hcalm]
  have h3 : ¬ (yyerror { p with yynerrs := wrapInt (p.yynerrs + 1) } "syntax error").yyerrstatus = 3 := by
    simp [yyerror, hcalm]
  simp only [h3, if_false]
  obtain ⟨q, hq, h⟩ := yyerrlab1_stop (yyerror { p with yynerrs := wrapInt (p.yynerrs + 1) } "syntax error")
    hne hpar hst hrng
  exact ⟨q, hq, h⟩

/-! ## The final state is entered by the shift of end of input only -/

set_option maxRecDepth 1000000 in
theorem yytable_final_aux : ∀ i ∈ List.range 416, tget yytable (i : Int) = 3 → i = 24 := by
  decide!

set_option maxRecDepth 1000000 in
theorem yypact_final_aux : ∀ s ∈ List.range 179, tget yypact (s : Int) = 24 → s = 1 := by
  decide!

set_option maxRecDepth 1000000 in
theorem yytranslate_zero_aux : ∀ x ∈ List.range 286, yytranslate.getD x 2 = 0 → x = 0 := by
  decide!

theorem yygoto_final_aux : (∀ v ∈ yypgoto, v ≠ 24) ∧ (∀ v ∈ yydefgoto, v ≠ 3) ∧
    tget yycheck 24 = 0 := by decide!

/-- Only end of input has symbol number 0. -/
theorem yytranslate_zero (x : Int) (h : YYTRANSLATE x = 0) : x = 0 := by
  unfold YYTRANSLATE at h
  simp only [YYMAXUTOK, YYSYMBOL_YYUNDEF] at h
  split at h
  · rename_i hx
    have := yytranslate_zero_aux x.toNat (by simp; omega) h
    omega
  · cases h

/-- No reduction enters the final state. -/
theorem tgoto_nonfinal (e lhs : Int) (hl : 0 ≤ lhs ∧ lhs < 27) : tgoto e lhs ≠ YYFINAL := by
  obtain ⟨h1, h2, h3⟩ := yygoto_final_aux
  unfold tgoto
  simp only [YYFINAL, YYLAST]
  split
  · rename_i hi
    intro h
    have h24 := int_of_range (P := fun i => tget yytable i = 3 → i = 24)
      (fun i hi h => by have := yytable_final_aux i hi h; omega) _ hi.1 (by omega) h
    rw [h24, h3] at hi
    have hp : tget yypgoto lhs = 24 := by omega
    exact h1 _ (tget_mem hl.1 (by rw [yypgoto_length]; omega)) hp
  · exact h2 _ (tget_mem hl.1 (by rw [yydefgoto_length]; omega))

/-- A shift enters the final state only from state 1, on end of input. -/
theorem yytable_final (s n t : Int) (hs : 0 ≤ s ∧ s < 179) (hn : rd yypact s = some n)
    (hi : 0 ≤ n + t ∧ n + t ≤ YYLAST) (hc : rd yycheck (n + t) = some t)
    (hv : rd yytable (n + t) = some YYFINAL) : s = 1 ∧ t = 0 := by
  obtain ⟨-, -, h3⟩ := yygoto_final_aux
  simp only [YYLAST] at hi
  rw [rd_eq_some hi.1 (by rw [yytable_length]; omega)] at hv
  rw [rd_eq_some hi.1 (by rw [yycheck_length]; omega)] at hc
  rw [rd_eq_some hs.1 (by rw [yypact_length]; omega)] at hn
  simp only [Option.some.injEq, YYFINAL] at hv hc hn
  have h24 := int_of_range (P := fun i => tget yytable i = 3 → i = 24)
    (fun i hi h => by have := yytable_final_aux i hi h; omega) _ hi.1 (by omega) hv
  rw [h24, h3] at hc
  have hp : tget yypact s = 24 := by omega
  have := int_of_range (P := fun s => tget yypact s = 24 → s = 1)
    (fun i hi h => by have := yypact_final_aux i hi h; omega) s hs.1 (by omega) hp
  exact ⟨this, hc.symm⟩

/-! ## One action on a reachable state -/

set_option maxRecDepth 1000000 in
theorem yycheck_eof_aux : (∀ i ∈ List.range 416, tget yycheck (i : Int) = 0 → i = 24) ∧
    tget yytable 24 = 3 := by decide!

/-- The shift of end of input enters the final state. -/
theorem yytable_eof (i : Int) (hi : 0 ≤ i ∧ i ≤ YYLAST) (hc : rd yycheck i = some 0) :
    rd yytable i = some YYFINAL := by
  simp only [YYLAST] at hi
  rw [rd_eq_some hi.1 (by rw [yycheck_length]; omega)] at hc
  simp only [Option.some.injEq] at hc
  have h24 := int_of_range (P := fun i => tget yycheck i = 0 → i = 24)
    (fun i hi h => by have := yycheck_eof_aux.1 i hi h; omega) _ hi.1 (by omega) hc
  rw [rd_eq_some hi.1 (by rw [yytable_length]; omega), h24, yycheck_eof_aux.2]
  rfl

/-- A path that ends in state 1 is the stack `[1, 0]`. -/
theorem Path.of_one {ss : List Int} (h : Path ss) (h1 : ss.head? = some 1) : ss = [1, 0] := by
  obtain ⟨h3, h1p, h0⟩ := final_preds
  match ss, h, h1 with
  | [a], h, h1 =>
    simp only [Path] at h
    simp only [List.head?_cons, Option.some.injEq] at h1
    omega
  | [a, b], h, h1 =>
    simp only [List.head?_cons, Option.some.injEq] at h1
    subst h1
    simp only [Path, h1p, List.mem_singleton] at h
    rw [h.1]
  | a :: b :: c :: rest, h, h1 =>
    simp only [List.head?_cons, Option.some.injEq] at h1
    subst h1
    simp only [Path, h1p, List.mem_singleton] at h
    obtain ⟨hb, hc, -⟩ := h
    subst hb
    rw [h0] at hc
    cases hc

/-- The default action on a reachable state: a reduction on a stack deep enough for the
rule, which never enters the final state, or the end of the parse with result 1.  The
state `p1` is `p` with another lookahead. -/
theorem yydefault_elim (e : Int) (p p1 : Parser) (h : p.WF e) (hinv : p.ctl.Inv)
    (hss : p1.yyss = p.yyss) (hvs : p1.yyvs = p.yyvs) (hstate : p1.yystate = p.yystate)
    (hsize : p1.yystacksize = p.yystacksize) (hcalm : p1.yyerrstatus = p.yyerrstatus)
    (Q : Step → Prop)
    (hreduce : ∀ (s : Step) (R g : Int) (val : Option Int),
      rd yydefact p.yystate = some R → 1 ≤ R ∧ R < 90 → (tget yyr2 R).toNat < p.yyss.length →
      (1 ≤ tget yyr2 R → p.yyvs[(tget yyr2 R).toNat - 1]? = some val) →
      s.parser.yyss = g :: p.yyss.drop (tget yyr2 R).toNat →
      s.parser.yyvs = val :: p.yyvs.drop (tget yyr2 R).toNat →
      g ≠ YYFINAL → 0 ≤ g ∧ g < 179 → s.parser.yystate = g →
      s.parser.kept = p1.kept → s.parser.yylval = p1.yylval →
      s.parser.yystacksize =
        (if (s.parser.yyss.length : Int) = p.yystacksize ∧ p.yystacksize < YYMAXDEPTH
          then min (2 * p.yystacksize) YYMAXDEPTH else p.yystacksize) →
      s.result =
        (if (s.parser.yyss.length : Int) = p.yystacksize ∧ YYMAXDEPTH ≤ p.yystacksize
          then some 2 else none) →
      (∀ q, s ≠ .fault q) → Q s)
    (herror : ∀ q : Parser, rd yydefact p.yystate = some 0 →
      q.yyss = p.yyss.drop (p.yyss.length - 1) →
      q.yyvs = p.yyvs.drop (p.yyvs.length - 1) → q.input = p1.input → q.lexed = p1.lexed →
      q.yychar = p1.yychar → q.yystacksize = p.yystacksize → q.yylval = p1.yylval →
      Q (.ret 1 q)) :
    Q (yydefault p1) := by
  have hst := h.state_range
  have hh : p.ctl.yyss.headD 0 = p.yystate := h.headD
  have hne : p.yyss ≠ [] := by
    intro h0; have := h.top; rw [h0] at this; simp at this
  have hd : rd yydefact p.yystate = some (tget yydefact p.yystate) :=
    rd_eq_some hst.1 (by rw [yydefact_length]; omega)
  have hR := yydefact_rule p.yystate hst
  rw [yydefault_cases p1 _ (by rw [hstate]; exact hd)]
  by_cases h0 : tget yydefact p.yystate = 0
  · rw [if_pos h0]
    rw [h0] at hd
    obtain ⟨q, hq, h1, h2, h3, h4, h5, -, h7, h8⟩ := yyerrlab_stop p1 (by rw [hss]; exact hne)
      (by rw [hss, hvs]; exact h.par) (by rw [hstate]; simpa [YYNSTATES] using hst)
      (by rw [hss]; exact h.rng) (by rw [hcalm]; exact h.calm)
    rw [hq]
    rw [hss] at h1
    rw [hvs] at h2
    exact herror q hd h1 h2 h3 h4 h5 (by rw [h7, hsize]) h8
  · rw [if_neg h0]
    have hr : 1 ≤ tget yydefact p.yystate ∧ tget yydefact p.yystate < 90 := by omega
    obtain ⟨g', hdeep, -, -, -⟩ := creduce_spec p.ctl.yyss hinv.path hinv.nofinal
      (by rw [hh]; exact h0)
    rw [hh] at hdeep
    have hdeep2 : (tget yyr2 (tget yydefact p.yystate)).toNat < p.yyss.length := hdeep
    obtain ⟨val, hval, h1, h2, h3, h4, h5, h6, h7, h8⟩ := yyreduce_push p1 _ hr
      (by rw [hss, hvs]; exact h.par) (by rw [hss, hsize]; exact h.cap)
      (by rw [hss]; exact hdeep2)
    have hl := yyr1_lhs _ hr
    have hlr : 0 ≤ tget yyr1 (tget yydefact p.yystate) - YYNTOKENS ∧
        tget yyr1 (tget yydefact p.yystate) - YYNTOKENS < 27 := by
      simp only [YYNTOKENS]; omega
    rw [hss] at h1 h6 h7
    rw [hvs] at h2 hval
    rw [hsize] at h6 h7
    have hlen : ((yyreduce p1 (tget yydefact p.yystate)).parser.yyss.length : Int) =
        ((p.yyss.length - (tget yyr2 (tget yydefact p.yystate)).toNat : Nat) : Int) + 1 := by
      rw [h1]; simp
    refine hreduce _ _ _ val hd hr hdeep2 hval h1 h2 (tgoto_nonfinal _ _ hlr)
      (tgoto_range _ _ hlr) ?_ h5 h4 ?_ ?_ h8
    · rw [h3, hss]
    · rw [h6, hlen]
    · rw [h7, hlen, if_neg (tgoto_nonfinal _ _ hlr)]

/-- Case analysis of one action of `yybackup` on a reachable state: a shift, which enters
the final state exactly on end of input and then from the stack `[1, 0]`; a default
reduction; or the end of the parse with result 1. -/
theorem yybackup_elim (e : Int) (p : Parser) (h : p.WF e) (hinv : p.ctl.Inv)
    (Q : Step → Prop)
    (hshift : ∀ (s : Step) (v : Int), 0 < v ∧ v < 179 → yyheld p = yypeek p →
      yyshifted p = some (yypeek p).yychar →
      s.parser.yyss = v :: p.yyss → s.parser.yyvs = some (yypeek p).yylval :: p.yyvs →
      s.parser.yychar = YYEMPTY → s.parser.yystate = v →
      s.parser.input = (yypeek p).input → s.parser.lexed = (yypeek p).lexed →
      (v = YYFINAL ↔ (yypeek p).yychar = YYEOF) → (v = YYFINAL → p.yyss = [1, 0]) →
      s.parser.yystacksize =
        (if (s.parser.yyss.length : Int) = p.yystacksize ∧ p.yystacksize < YYMAXDEPTH
          then min (2 * p.yystacksize) YYMAXDEPTH else p.yystacksize) →
      s.result =
        (if (s.parser.yyss.length : Int) = p.yystacksize ∧ YYMAXDEPTH ≤ p.yystacksize
          then some 2 else if v = YYFINAL then some 0 else none) →
      (∀ q, s ≠ .fault q) → Q s)
    (hreduce : ∀ (s : Step) (R g : Int) (val : Option Int), yyshifted p = none →
      rd yydefact p.yystate = some R → 1 ≤ R ∧ R < 90 → (tget yyr2 R).toNat < p.yyss.length →
      (1 ≤ tget yyr2 R → p.yyvs[(tget yyr2 R).toNat - 1]? = some val) →
      s.parser.yyss = g :: p.yyss.drop (tget yyr2 R).toNat →
      s.parser.yyvs = val :: p.yyvs.drop (tget yyr2 R).toNat →
      g ≠ YYFINAL → 0 ≤ g ∧ g < 179 → s.parser.yystate = g →
      s.parser.kept = (yyheld p).kept → s.parser.yylval = (yyheld p).yylval →
      s.parser.yystacksize =
        (if (s.parser.yyss.length : Int) = p.yystacksize ∧ p.yystacksize < YYMAXDEPTH
          then min (2 * p.yystacksize) YYMAXDEPTH else p.yystacksize) →
      s.result =
        (if (s.parser.yyss.length : Int) = p.yystacksize ∧ YYMAXDEPTH ≤ p.yystacksize
          then some 2 else none) →
      (∀ q, s ≠ .fault q) → Q s)
    (herror : ∀ q : Parser, yyshifted p = none →
      q.yyss = p.yyss.drop (p.yyss.length - 1) →
      q.yyvs = p.yyvs.drop (p.yyvs.length - 1) →
      q.input = (yyheld p).input → q.lexed = (yyheld p).lexed →
      (q.yychar = (yyheld p).yychar ∨
        ((yyheld p).yychar = YYerror ∧ q.yychar = YYUNDEF)) →
      q.yystacksize = p.yystacksize → q.yylval = (yyheld p).yylval → Q (.ret 1 q)) :
    Q (yybackup p) := by
  have hst := h.state_range
  have hne : p.yyss ≠ [] := by
    intro h0; have := h.top; rw [h0] at this; simp at this
  have hn : rd yypact p.yystate = some (tget yypact p.yystate) :=
    rd_eq_some hst.1 (by rw [yypact_length]; omega)
  obtain ⟨h1, h2, -, h4, h5, h6, -, -⟩ := yypeek_stacks p
  rcases yybackup_cases p _ hn with ⟨-, hh, hs, hb⟩ | ⟨-, hh, hs, hc, hb⟩ | ⟨-, hh, hs, hb⟩ |
      ⟨-, hh, hs, v, hv, hi, hck, htb, hb⟩
  · -- the default action without a lookahead
    rw [hb]
    rw [hh] at hreduce herror
    exact yydefault_elim e p p h hinv rfl rfl rfl rfl rfl Q
      (fun s R g val a1 a2 a3 a4 a5 a6 a7 a8 a9 a10 a11 a12 a13 a14 =>
        hreduce s R g val hs a1 a2 a3 a4 a5 a6 a7 a8 a9 a10 a11 a12 a13 a14)
      (fun q _ b1 b2 b3 b4 b5 b6 b7 => herror q hs b1 b2 b3 b4 (Or.inl b5) b6 b7)
  · -- the error token
    rw [hb]
    obtain ⟨q, hq, q1, q2, q3, q4, q5, -, q7, q8⟩ :=
      yyerrlab1_stop { yypeek p with yychar := YYUNDEF } (by simp only; rw [h1]; exact hne)
        (by simp only; rw [h1, h2]; exact h.par)
        (by simp only; rw [h4]; simpa [YYNSTATES] using hst)
        (by simp only; rw [h1]; exact h.rng)
    simp only at q1 q2 q3 q4 q5 q7 q8
    rw [hq]
    rw [h1] at q1
    rw [h2] at q2
    rw [hh] at herror
    exact herror q hs q1 q2 q3 q4 (Or.inr ⟨hc, q5⟩) (by rw [q7, h5]) q8
  · -- the default action after a miss
    rw [hb]
    rw [hh] at hreduce herror
    exact yydefault_elim e p (yypeek p) h hinv h1 h2 h4 h5 h6 Q
      (fun s R g val a1 a2 a3 a4 a5 a6 a7 a8 a9 a10 a11 a12 a13 a14 =>
        hreduce s R g val hs a1 a2 a3 a4 a5 a6 a7 a8 a9 a10 a11 a12 a13 a14)
      (fun q _ b1 b2 b3 b4 b5 b6 b7 => herror q hs b1 b2 b3 b4 (Or.inl b5) b6 b7)
  · -- a shift
    rw [hb]
    have hsh := yyaction_shift (yypeek p) _ _ v (by rw [h1, h2]; exact h.par)
      (by rw [h1, h5]; exact h.cap) hi hck htb hv
    rw [h1, h2, h5] at hsh
    obtain ⟨s1, s2, s3, s4, s5, s6, s7, s8, s9⟩ := hsh
    have hvr : 0 ≤ v ∧ v < 179 := by
      have h0 : (tget yypact p.yystate + YYTRANSLATE (yypeek p).yychar).toNat
          < yytable.length := by
        simp only [YYLAST] at hi; rw [yytable_length]; omega
      apply yytable_range
      unfold rd at htb
      rw [if_pos hi.1, List.getElem?_eq_getElem h0] at htb
      simp only [Option.some.injEq] at htb
      rw [← htb]
      exact List.getElem_mem _
    have hfin : v = YYFINAL → p.yystate = 1 ∧ (yypeek p).yychar = YYEOF := by
      intro hv3
      rw [hv3] at htb
      have := yytable_final p.yystate _ _ hst hn hi hck htb
      exact ⟨this.1, yytranslate_zero _ this.2⟩
    have hlen : ((yyaction (yypeek p) (tget yypact p.yystate)
        (YYTRANSLATE (yypeek p).yychar)).parser.yyss.length : Int) = p.yyss.length + 1 := by
      rw [s1]; simp
    refine hshift _ v ⟨hv, hvr.2⟩ hh hs s1 s2 s3 s4 s5 s6 ⟨fun hv3 => (hfin hv3).2, ?_⟩ ?_ ?_ ?_
      s9
    · intro hc0
      have ht0 : YYTRANSLATE (yypeek p).yychar = 0 := by rw [hc0]; exact yytranslate_eof
      rw [ht0] at hck htb hi
      have := yytable_eof _ hi hck
      rw [htb] at this
      exact Option.some.inj this
    · intro hv3
      have htop := h.top
      rw [(hfin hv3).1] at htop
      exact Path.of_one hinv.path htop
    · rw [s7, hlen]
    · rw [s8, hlen]

/-! ## Induction over the actions of a run -/

/-- An action that goes back to `yybackup` leaves a reachable state. -/
theorem yybackup_next (e : Int) (p q : Parser) (h : p.WF e) (hinv : p.ctl.Inv)
    (hb : yybackup p = .next q) : q.WF e ∧ q.ctl.Inv := by
  obtain ⟨h1, h2⟩ := yybackup_ref e p h
  have hp := cstep_post p.ctl hinv
  rw [hb] at h1 h2
  rw [← h1] at hp
  exact ⟨h2, hp.1⟩

/-- Induction over the actions of `yyloop`: a property of the lookaheads shifted so far and
the state, kept by every action, holds after any number of actions. -/
theorem yyloop_induct (e : Int) (I : List Int → Parser → Prop)
    (F : List Int → Int → Parser → Prop)
    (hstep : ∀ pre p, p.WF e → p.ctl.Inv → I pre p →
      (∀ q, yybackup p = .next q → I (pre ++ (yyshifted p).toList) q) ∧
      (∀ r q, yybackup p = .ret r q → F (pre ++ (yyshifted p).toList) r q)) :
    ∀ (n : Nat) (pre : List Int) (p : Parser), p.WF e → p.ctl.Inv → I pre p →
      (∀ q, yyloop n p = .next q → I (pre ++ yyshifts n p) q ∧ q.WF e ∧ q.ctl.Inv) ∧
      (∀ r q, yyloop n p = .ret r q → F (pre ++ yyshifts n p) r q) := by
  intro n
  induction n with
  | zero =>
    intro pre p h hinv hI
    refine ⟨?_, ?_⟩
    · intro q hq
      simp only [yyloop, Step.next.injEq] at hq
      subst hq
      simpa [yyshifts] using ⟨hI, h, hinv⟩
    · intro r q hq
      simp [yyloop] at hq
  | succ n ih =>
    intro pre p h hinv hI
    obtain ⟨hs1, hs2⟩ := hstep pre p h hinv hI
    cases hb : yybackup p with
    | next p2 =>
      obtain ⟨hw, hi2⟩ := yybackup_next e p p2 h hinv hb
      have := ih (pre ++ (yyshifted p).toList) p2 hw hi2 (hs1 p2 hb)
      have hl : yyloop (n + 1) p = yyloop n p2 := by
        rw [yyloop, hb]
      have hsh : yyshifts (n + 1) p = (yyshifted p).toList ++ yyshifts n p2 := by
        rw [yyshifts, hb]
      rw [hl, hsh, ← List.append_assoc]
      exact this
    | ret r2 q2 =>
      have hl : yyloop (n + 1) p = .ret r2 q2 := by
        rw [yyloop, hb]
      have hsh : yyshifts (n + 1) p = (yyshifted p).toList := by
        rw [yyshifts, hb]; simp
      rw [hl, hsh]
      refine ⟨fun q hq => (by cases hq), ?_⟩
      intro r q hq
      simp only [Step.ret.injEq] at hq
      rw [← hq.1, ← hq.2]
      exact hs2 r2 q2 hb
    | fault q2 =>
      have hl : yyloop (n + 1) p = .fault q2 := by
        rw [yyloop, hb]
      rw [hl]
      exact ⟨fun q hq => (by cases hq), fun r q hq => (by cases hq)⟩

/-- Induction over the actions of `yyparse`. -/
theorem yyparseFuel_induct (g : Globals) (toks : List Token)
    (I : List Int → Parser → Prop) (F : List Int → Int → Parser → Prop)
    (h0 : I [] (yyinit g toks))
    (hstep : ∀ pre p, p.WF g.yynerrs → p.ctl.Inv → I pre p →
      (∀ q, yybackup p = .next q → I (pre ++ (yyshifted p).toList) q) ∧
      (∀ r q, yybackup p = .ret r q → F (pre ++ (yyshifted p).toList) r q)) (n : Nat) :
    (∀ q, yyparseFuel n g toks = .next q →
      I (yyshifts n (yyinit g toks)) q ∧ q.WF g.yynerrs ∧ q.ctl.Inv) ∧
    (∀ r q, yyparseFuel n g toks = .ret r q → F (yyshifts n (yyinit g toks)) r q) := by
  have := yyloop_induct g.yynerrs I F hstep n [] (yyinit g toks) (yyinit_wf g toks)
    (cinit_inv _) h0
  unfold yyparseFuel
  rw [yyinit_step]
  simpa using this

/-- Every action of a run is taken in a reachable state. -/
theorem yyparseFuel_state (g : Globals) (toks : List Token) (n : Nat) (q : Parser)
    (h : yyparseFuel n g toks = .next q) : q.WF g.yynerrs ∧ q.ctl.Inv :=
  ((yyparseFuel_induct g toks (fun _ _ => True) (fun _ _ _ => True) trivial
    (fun _ _ _ _ _ => ⟨fun _ _ => trivial, fun _ _ _ => trivial⟩) n).1 q h).2

/-- A parse that returns does so in the action taken in a reachable state. -/
theorem yyparse_last (g : Globals) (toks : List Token) (r : Int) (q : Parser)
    (h : yyparse g toks = .ret r q) :
    ∃ m p, yyparseFuel m g toks = .next p ∧ yybackup p = .ret r q := by
  unfold yyparse yyparseFuel at h
  rw [yyinit_step] at h
  obtain ⟨m, p1, -, h1, h2⟩ := yyloop_last _ _ _ _ h
  refine ⟨m, p1, ?_, h2⟩
  unfold yyparseFuel
  rw [yyinit_step]
  exact h1

/-! ## The bottom of the state stack -/

theorem getLast_push {α : Type} (a : α) {l : List α} (h : l ≠ []) :
    (a :: l).getLast? = l.getLast? := by
  cases l with
  | nil => exact absurd rfl h
  | cons b l => simp [List.getLast?_cons_cons]

theorem getLast_drop {α : Type} (l : List α) (k : Nat) (h : k < l.length) :
    (l.drop k).getLast? = l.getLast? := by
  rw [List.getLast?_eq_getElem?, List.getLast?_eq_getElem?, List.getElem?_drop,
    List.length_drop]
  congr 1
  omega

theorem drop_to_last {α : Type} (l : List α) (a : α) (h : l.getLast? = some a) :
    l.drop (l.length - 1) = [a] := by
  have hne : l ≠ [] := by
    intro h0; rw [h0] at h; cases h
  have hlen : 0 < l.length := List.length_pos.2 hne
  rw [List.getLast?_eq_getElem?, List.getElem?_eq_getElem (by omega)] at h
  rw [List.drop_eq_getElem_cons (by omega)]
  simp only [Option.some.injEq] at h
  rw [h, List.drop_of_length_le (by omega)]

/-- The bottom cell of a reachable stack holds state 0. -/
theorem Path.last_zero {ss : List Int} (h : Path ss) : ss.getLast? = some 0 := by
  rw [List.getLast?_eq_getElem?]
  exact h.bottom

/-- In a reachable state the stack is deep enough for the default rule of the state. -/
theorem Parser.WF.deep {e : Int} {p : Parser} (h : p.WF e) (hinv : p.ctl.Inv) (R len : Int)
    (hd : rd yydefact p.yystate = some R) (hR : R ≠ 0) (hl : rd yyr2 R = some len) :
    0 ≤ len ∧ len + 1 ≤ p.yyss.length := by
  have hst := h.state_range
  have hh : p.ctl.yyss.headD 0 = p.yystate := h.headD
  rw [rd_eq_some hst.1 (by rw [yydefact_length]; omega)] at hd
  simp only [Option.some.injEq] at hd
  have hr := yydefact_rule p.yystate hst
  rw [hd] at hr
  rw [rd_eq_some hr.1 (by rw [yyr2_length]; omega)] at hl
  simp only [Option.some.injEq] at hl
  have hk := yyr2_len R hr
  obtain ⟨g', hdeep, -⟩ := creduce_spec p.ctl.yyss hinv.path hinv.nofinal
    (by rw [hh, hd]; exact hR)
  rw [hh, hd, hl] at hdeep
  have hdeep2 : len.toNat < p.yyss.length := hdeep
  rw [← hl]
  omega

/-! ## No access outside the arrays -/

/-- An action on a reachable state stays inside the tables and the stacks. -/
theorem yybackup_sound (e : Int) (p : Parser) (h : p.WF e) (hinv : p.ctl.Inv) :
    ∀ q, yybackup p ≠ .fault q := by
  refine yybackup_elim e p h hinv (fun s => ∀ q, s ≠ .fault q) ?_ ?_ ?_
  · intro s v _ _ _ _ _ _ _ _ _ _ _ _ _ hnf
    exact hnf
  · intro s R gs val _ _ _ _ _ _ _ _ _ _ _ _ _ _ hnf
    exact hnf
  · intro q _ _ _ _ _ _ _ _ q2 hq
    cases hq

/-- A run from a reachable state stays inside the tables and the stacks. -/
theorem yyloop_sound (e : Int) (n : Nat) : ∀ p : Parser, p.WF e → p.ctl.Inv →
    ∀ q, yyloop n p ≠ .fault q := by
  induction n with
  | zero => intro p _ _ q hq; simp [yyloop] at hq
  | succ n ih =>
    intro p h hinv q hq
    unfold yyloop at hq
    cases hb : yybackup p with
    | next p2 =>
      rw [hb] at hq
      obtain ⟨hw, hi2⟩ := yybackup_next e p p2 h hinv hb
      exact ih p2 hw hi2 q hq
    | ret r p2 => rw [hb] at hq; cases hq
    | fault p2 => exact yybackup_sound e p h hinv p2 hb

/-- The states on the stack after an action on a reachable state are state numbers. -/
theorem yybackup_states (e : Int) (p : Parser) (h : p.WF e) (hinv : p.ctl.Inv) :
    ∀ s ∈ (yybackup p).parser.yyss, 0 ≤ s ∧ s < YYNSTATES := by
  have hrng := h.rng
  refine yybackup_elim e p h hinv (fun st => ∀ s ∈ st.parser.yyss, 0 ≤ s ∧ s < YYNSTATES)
    ?_ ?_ ?_
  · intro st v hv _ _ h1 _ _ _ _ _ _ _ _ _ _ s hs
    rw [h1] at hs
    simp only [List.mem_cons] at hs
    rcases hs with rfl | hs
    · simp only [YYNSTATES]; omega
    · exact hrng s hs
  · intro st R gs val _ _ _ _ _ h1 _ _ hg _ _ _ _ _ _ s hs
    rw [h1] at hs
    simp only [List.mem_cons] at hs
    rcases hs with rfl | hs
    · simpa [YYNSTATES] using hg
    · exact hrng s (List.mem_of_mem_drop hs)
  · intro q _ h1 _ _ _ _ _ _ s hs
    simp only [Step.parser] at hs
    rw [h1] at hs
    exact hrng s (List.mem_of_mem_drop hs)

/-! ## The capacity of the stacks -/

theorem capacity_next (c : Int) (hc : c ∈ [200, 400, 800, 1600, 3200, 6400, (10000 : Int)]) :
    min (2 * c) YYMAXDEPTH ∈ [200, 400, 800, 1600, 3200, 6400, (10000 : Int)] := by
  simp only [List.mem_cons, List.mem_singleton, List.not_mem_nil, or_false] at hc
  rcases hc with rfl | rfl | rfl | rfl | rfl | rfl | rfl <;> decide

/-- What an action on a reachable state does to the capacity: it changes only when the new
depth equals it, which happens at a push on top of the old entries only. -/
theorem yybackup_capacity (e : Int) (p : Parser) (h : p.WF e) (hinv : p.ctl.Inv) :
    (yybackup p).parser.yystacksize =
      (if ((yybackup p).parser.yyss.length : Int) = p.yystacksize
        then min (2 * p.yystacksize) YYMAXDEPTH else p.yystacksize) ∧
    (((yybackup p).parser.yyss.length : Int) = p.yystacksize →
      (yybackup p).parser.yyss.tail = p.yyss ∧ (yybackup p).parser.yyvs.tail = p.yyvs) := by
  have hcap := h.cap
  have hlim := h.lim
  have hne : 0 < p.yyss.length := List.length_pos.2 hinv.path.ne_nil
  have key : ∀ s : Step, s.parser.yystacksize =
      (if (s.parser.yyss.length : Int) = p.yystacksize ∧ p.yystacksize < YYMAXDEPTH
        then min (2 * p.yystacksize) YYMAXDEPTH else p.yystacksize) →
      s.parser.yystacksize =
      (if (s.parser.yyss.length : Int) = p.yystacksize
        then min (2 * p.yystacksize) YYMAXDEPTH else p.yystacksize) := by
    intro s hs
    rw [hs]
    simp only [YYMAXDEPTH] at hlim ⊢
    by_cases h1 : (s.parser.yyss.length : Int) = p.yystacksize
    · by_cases h2 : p.yystacksize < 10000
      · rw [if_pos ⟨h1, h2⟩, if_pos h1]
      · rw [if_neg (by tauto), if_pos h1]
        have : p.yystacksize = 10000 := by omega
        rw [this]; decide
    · rw [if_neg (by tauto), if_neg h1]
  refine yybackup_elim e p h hinv (fun s =>
    s.parser.yystacksize =
      (if (s.parser.yyss.length : Int) = p.yystacksize
        then min (2 * p.yystacksize) YYMAXDEPTH else p.yystacksize) ∧
    ((s.parser.yyss.length : Int) = p.yystacksize →
      s.parser.yyss.tail = p.yyss ∧ s.parser.yyvs.tail = p.yyvs)) ?_ ?_ ?_
  · intro s v _ _ _ h1 h2 _ _ _ _ _ _ hsz _ _
    exact ⟨key s hsz, fun _ => ⟨by rw [h1]; rfl, by rw [h2]; rfl⟩⟩
  · intro s R gs val _ _ hr hdeep _ h1 h2 _ _ _ _ _ hsz _ _
    refine ⟨key s hsz, ?_⟩
    intro hfull
    have hk := yyr2_len R ⟨by omega, hr.2⟩
    have h0 : (tget yyr2 R).toNat = 0 := by
      rw [h1] at hfull
      simp only [List.length_cons, List.length_drop] at hfull
      omega
    rw [h1, h2, h0]
    exact ⟨rfl, rfl⟩
  · intro q _ h1 _ _ _ _ hsz _
    simp only [Step.parser]
    have hl : q.yyss.length = 1 := by
      rw [h1]; simp only [List.length_drop]; omega
    have hn : ¬ (q.yyss.length : Int) = p.yystacksize := by
      rw [hl]; omega
    rw [if_neg hn]
    exact ⟨hsz, fun h => absurd h hn⟩

/-! ## Codes that are not positive -/

theorem cpush_norm (c : Ctl) (v : Int) : cpush c.norm v = (cpush c v).norm := by
  unfold cpush
  simp only [Ctl.norm]
  split
  · rfl
  · split <;> rfl

theorem cdefault_norm (c : Ctl) : cdefault c.norm = (cdefault c).norm := by
  unfold cdefault
  simp only [Ctl.norm]
  split
  · rfl
  · unfold creduce
    simp only
    split
    · rfl
    · exact cpush_norm
        { c with yyss := c.yyss.drop (tget yyr2 (tget yydefact (c.yyss.headD 0))).toNat } _

theorem cact_norm (c : Ctl) (t : Int) : cact c.norm t = (cact c t).norm := by
  unfold cact
  have h : c.norm.yyss.headD 0 = c.yyss.headD 0 := rfl
  rw [h]
  cases tshift (c.yyss.headD 0) t with
  | none => exact cdefault_norm c
  | some v => exact cpush_norm { c with yychar := YYEMPTY } v

/-- The lookahead that `yybackup` holds does not tell one code that is not positive from
another. -/
theorem cpeek_norm (c : Ctl) : cpeek c.norm = (cpeek c).norm := by
  unfold cpeek clex
  simp only [Ctl.norm]
  by_cases hc : c.yychar = YYEMPTY
  · simp only [hc, if_true]
    cases hi : c.input with
    | nil => simp only [List.map_nil]; split <;> rfl
    | cons a rest =>
      simp only [List.map_cons, hold, YYEOF]
      by_cases ha : a ≤ 0
      · simp only [ha, if_true, le_refl]
      · simp only [ha, if_false]
  · simp only [hc, if_false]
    split <;> rfl

theorem cstep_norm (c : Ctl) : cstep c.norm = (cstep c).norm := by
  rw [cstep_eq, cstep_eq]
  have hss : c.norm.yyss = c.yyss := rfl
  rw [hss]
  by_cases hp : tget yypact (c.yyss.headD 0) = YYPACT_NINF
  · rw [if_pos hp, if_pos hp]
    exact cdefault_norm c
  · rw [if_neg hp, if_neg hp, cpeek_norm]
    have hy : (cpeek c).norm.yychar = (cpeek c).yychar := rfl
    rw [hy]
    split
    · rfl
    · exact cact_norm _ _

theorem crun_norm (n : Nat) : ∀ c : Ctl, crun n c.norm = (crun n c).norm := by
  induction n with
  | zero => intro c; rfl
  | succ n ih =>
    intro c
    unfold crun
    rw [cstep_norm]
    cases cstep c with
    | next d => exact ih d
    | ret r d => rfl
    | fault => rfl

theorem hold_hold (x : Int) : hold (hold x) = hold x := by
  unfold hold
  simp only [YYEOF]
  split <;> simp_all

/-- Two token sequences whose codes `yybackup` holds alike are parsed alike. -/
theorem yyparse_norm (g : Globals) (toks toks2 : List Token)
    (h : toks2.map (fun t => hold t.code) = toks.map (fun t => hold t.code)) :
    (yyparse g toks2).result = (yyparse g toks).result ∧
    (yyparse g toks2).parser.yyerrs = (yyparse g toks).parser.yyerrs ∧
    (yyparse g toks2).parser.yynerrs = (yyparse g toks).parser.yynerrs := by
  obtain ⟨r, q, hq, -, hcnt, hrun⟩ := yyparse_final g toks
  obtain ⟨r2, q2, hq2, -, hcnt2, hrun2⟩ := yyparse_final g toks2
  have hlen : toks2.length = toks.length := by
    have := congrArg List.length h
    simpa using this
  have hinit : (cinit (toks2.map Token.code)).norm = (cinit (toks.map Token.code)).norm := by
    simp only [cinit, Ctl.norm, List.map_map]
    rw [Ctl.mk.injEq]
    exact ⟨h, rfl, rfl, rfl, rfl⟩
  have h1 := crun_norm (5 * toks.length + 5) (cinit (toks.map Token.code))
  have h2 := crun_norm (5 * toks2.length + 5) (cinit (toks2.map Token.code))
  rw [hrun] at h1
  rw [hrun2, hinit, hlen, h1] at h2
  simp only [CStep.norm, CStep.ret.injEq] at h2
  have he : q.yyerrs = q2.yyerrs := by
    have := congrArg Ctl.yyerrs h2.2
    exact this
  rw [hq, hq2]
  simp only [Step.result, Step.parser]
  rw [hcnt, hcnt2, he, h2.1]
  exact ⟨rfl, rfl, rfl⟩

/-! ## The parser and the lexer -/

theorem lexedCodes_length (codes : List Int) (k : Nat) : (lexedCodes codes k).length = k := by
  simp [lexedCodes]

theorem lexedCodes_succ (codes : List Int) (k : Nat) :
    lexedCodes codes (k + 1) = lexedCodes codes k ++ [hold (lexedCode codes (k + 1))] := by
  simp [lexedCodes, List.range_succ]

theorem hold_pos {x : Int} (h : 0 < hold x) : 0 < x ∧ hold x = x := by
  unfold hold at h ⊢
  simp only [YYEOF] at h ⊢
  split at h
  · omega
  · rename_i hx
    rw [if_neg hx]
    omega

theorem lexedCodes_get (codes : List Int) (k i : Nat) (h : i < k) :
    (lexedCodes codes k)[i]? = some (hold (lexedCode codes (i + 1))) := by
  simp [lexedCodes, List.getElem?_map, List.getElem?_range h]

/-- When the shifted codes are positive, the calls that returned them returned positive
codes. -/
theorem lexedCodes_pos {codes sh : List Int} (h : sh = lexedCodes codes sh.length)
    (hpos : ∀ x ∈ sh, 0 < x) (i : Nat) (hi : i < sh.length) : 0 < lexedCode codes (i + 1) := by
  have h1 := lexedCodes_get codes sh.length i hi
  rw [← h] at h1
  have h2 : hold (lexedCode codes (i + 1)) ∈ sh := List.mem_iff_getElem?.2 ⟨i, h1⟩
  exact (hold_pos (hpos _ h2)).1

theorem drop_cons_next {α : Type} {l : List α} : ∀ {n : Nat} {t : α} {rest : List α},
    l.drop n = t :: rest → l.drop (n + 1) = rest := by
  induction l with
  | nil => intro n t rest h; simp at h
  | cons a l ih =>
    intro n t rest h
    cases n with
    | zero =>
      simp only [List.drop_zero, List.cons.injEq] at h
      simpa using h.2
    | succ n =>
      simp only [List.drop_succ_cons] at h ⊢
      exact ih h

/-- Once `yybackup` has its lookahead, it is the code returned by the last call of the
lexer, and the tokens behind it are pending. -/
theorem yypeek_fed (toks : List Token) (k : Nat) (p : Parser)
    (hin : p.input = toks.drop p.lexed)
    (hc : (p.yychar = YYEMPTY ∧ p.lexed = k) ∨
      (p.lexed = k + 1 ∧ p.yychar = hold (lexedCode (toks.map Token.code) p.lexed))) :
    (yypeek p).input = toks.drop (yypeek p).lexed ∧ (yypeek p).lexed = k + 1 ∧
    (yypeek p).yychar = hold (lexedCode (toks.map Token.code) (k + 1)) ∧
    (yypeek p).lexed = p.lexed + (if p.yychar = YYEMPTY then 1 else 0) := by
  unfold yypeek
  by_cases he : p.yychar = YYEMPTY
  · have hk : p.lexed = k := by
      rcases hc with h | h
      · exact h.2
      · have := hold_nonneg (lexedCode (toks.map Token.code) p.lexed)
        rw [← h.2, he] at this
        simp [YYEMPTY] at this
    simp only [he, if_true]
    unfold yylex
    cases hi : p.input with
    | nil =>
      rw [hi] at hin
      have hlen : toks.length ≤ p.lexed := List.drop_eq_nil_iff.1 hin.symm
      simp only [YYEOF, le_refl, if_true]
      refine ⟨?_, by omega, ?_, by simp⟩
      · exact (List.drop_eq_nil_iff.2 (by omega)).symm
      · unfold lexedCode hold
        rw [Nat.add_sub_cancel, List.getD_eq_default _ _ (by simpa [hk] using hlen)]
        simp [YYEOF]
    | cons t rest =>
      rw [hi] at hin
      have hcodes : (toks.map Token.code).drop p.lexed = t.code :: rest.map Token.code := by
        rw [← List.map_drop, ← hin]; rfl
      obtain ⟨h1, -⟩ := drop_cons_getD hcodes
      have h2 := drop_cons_next hin.symm
      have hlc : lexedCode (toks.map Token.code) (k + 1) = t.code := by
        unfold lexedCode
        rw [Nat.add_sub_cancel, ← hk]
        exact h1
      simp only
      by_cases ht : t.code ≤ YYEOF
      · simp only [ht, if_true]
        refine ⟨h2.symm, by omega, ?_, by simp⟩
        rw [hlc]; unfold hold; rw [if_pos ht]
      · simp only [ht, if_false]
        refine ⟨h2.symm, by omega, ?_, by simp⟩
        rw [hlc]; unfold hold; rw [if_neg ht]
  · simp only [he, if_false]
    rcases hc with h1 | ⟨h1, h2⟩
    · exact absurd h1.1 he
    · have h3 := hold_nonneg (lexedCode (toks.map Token.code) p.lexed)
      rw [h1] at h2 h3
      by_cases ht : p.yychar ≤ YYEOF
      · simp only [ht, if_true]
        refine ⟨hin, h1, ?_, by simp [he]⟩
        simp only [YYEOF] at ht ⊢
        omega
      · simp only [ht, if_false]
        exact ⟨hin, h1, h2, by simp [he]⟩

theorem yyheld_cases (p : Parser) : yyheld p = p ∨ yyheld p = yypeek p := by
  unfold yyheld
  split
  · exact Or.inl rfl
  · split
    · exact Or.inl rfl
    · exact Or.inr rfl

/-- The state in which `yybackup` acts is in step with the lexer. -/
theorem yyheld_fed {toks : List Token} {pre : List Int} {p : Parser} (h : p.Fed toks pre) :
    (yyheld p).input = toks.drop (yyheld p).lexed ∧
    (((yyheld p).yychar = YYEMPTY ∧ (yyheld p).lexed = pre.length) ∨
      ((yyheld p).lexed = pre.length + 1 ∧
        (yyheld p).yychar = hold (lexedCode (toks.map Token.code) (yyheld p).lexed))) := by
  obtain ⟨-, -, hin, hc⟩ := h
  rcases yyheld_cases p with h1 | h1
  · rw [h1]; exact ⟨hin, hc⟩
  · rw [h1]
    obtain ⟨a, b, c, -⟩ := yypeek_fed toks pre.length p hin hc
    exact ⟨a, Or.inr ⟨b, by rw [b]; exact c⟩⟩

theorem hold_zero {x : Int} (h : hold x = 0) : x ≤ 0 := by
  unfold hold at h
  simp only [YYEOF] at h
  split at h
  · assumption
  · omega

/-- One action keeps the parser in step with the lexer. -/
theorem yybackup_fed (toks : List Token) (e : Int) (pre : List Int) (p : Parser)
    (h : p.WF e) (hinv : p.ctl.Inv) (hI : p.Fed toks pre) :
    (∀ q, yybackup p = .next q → q.Fed toks (pre ++ (yyshifted p).toList)) ∧
    (∀ r q, yybackup p = .ret r q → q.Done toks (pre ++ (yyshifted p).toList) r) := by
  have hheld := yyheld_fed hI
  obtain ⟨hpre, hpos, hin, hc⟩ := hI
  have hposc := fun i hi => lexedCodes_pos hpre hpos i hi
  refine yybackup_elim e p h hinv (fun s =>
    (∀ q, s = .next q → q.Fed toks (pre ++ (yyshifted p).toList)) ∧
    (∀ r q, s = .ret r q → q.Done toks (pre ++ (yyshifted p).toList) r)) ?_ ?_ ?_
  · -- a shift
    intro s v hv _ hs h1 _ h3 _ h5 h6 hfin hstack _ hres _
    obtain ⟨a, b, c, -⟩ := yypeek_fed toks pre.length p hin hc
    rw [hs]
    simp only [Option.toList]
    have hlen : (pre ++ [(yypeek p).yychar]).length = pre.length + 1 := by simp
    have hpre2 : pre ++ [(yypeek p).yychar] =
        lexedCodes (toks.map Token.code) (pre ++ [(yypeek p).yychar]).length := by
      rw [hlen, lexedCodes_succ, ← hpre, c]
    have hnn := hold_nonneg (lexedCode (toks.map Token.code) (pre.length + 1))
    rw [← c] at hnn
    refine ⟨?_, ?_⟩
    · intro q hq
      subst hq
      simp only [Step.parser, Step.result] at h1 h3 h5 h6 hres
      have hv3 : v ≠ YYFINAL := by
        intro hv3
        rw [if_pos hv3] at hres
        split_ifs at hres
      have hc0 : (yypeek p).yychar ≠ 0 := fun h0 => hv3 (hfin.2 h0)
      refine ⟨hpre2, ?_, by rw [h5, h6]; exact a, Or.inl ⟨h3, by rw [h6, hlen, b]⟩⟩
      intro x hx
      simp only [List.mem_append, List.mem_singleton] at hx
      rcases hx with hx | hx
      · exact hpos x hx
      · rw [hx]; omega
    · intro r q hq
      subst hq
      simp only [Step.parser, Step.result] at h1 h3 h5 h6 hres
      refine ⟨hpre2, by rw [h5, h6]; exact a, by rw [h6, hlen, b], by rw [h6, hlen, b]; omega,
        ?_, ?_⟩
      · intro i hi
        rw [h6, b] at hi
        exact hposc i (by omega)
      · intro hr
        subst hr
        have hv3 : v = YYFINAL := by
          by_contra hv3
          rw [if_neg hv3] at hres
          split_ifs at hres
          cases hres
        have hc0 := hfin.1 hv3
        refine ⟨by rw [h6, hlen, b], h3, by rw [h1, hv3, hstack hv3], by rw [h6, b]; omega, ?_⟩
        rw [h6, b]
        apply hold_zero
        rw [← c, hc0]
        rfl
  · -- a reduction
    intro s R gs val hs _ _ _ _ _ _ _ _ _ hk _ _ hres _
    rw [hs]
    simp only [Option.toList, List.append_nil]
    simp only [Parser.kept, Prod.mk.injEq] at hk
    obtain ⟨k1, k2, k3, -, -⟩ := hk
    refine ⟨?_, ?_⟩
    · intro q hq
      subst hq
      simp only [Step.parser] at k1 k2 k3
      refine ⟨hpre, hpos, by rw [k1, k2]; exact hheld.1, ?_⟩
      rw [k2, k3]
      exact hheld.2
    · intro r q hq
      subst hq
      simp only [Step.parser, Step.result] at k1 k2 k3 hres
      have hl : pre.length ≤ q.lexed ∧ q.lexed ≤ pre.length + 1 := by
        rw [k2]
        rcases hheld.2 with h0 | h0 <;> omega
      refine ⟨hpre, by rw [k1, k2]; exact hheld.1, hl.1, hl.2, ?_, ?_⟩
      · intro i hi
        exact hposc i (by omega)
      · intro hr
        subst hr
        split_ifs at hres
        cases hres
  · -- the end of the parse with result 1
    intro q hs _ _ k1 k2 _ _ _
    rw [hs]
    simp only [Option.toList, List.append_nil]
    refine ⟨fun q2 hq => (by cases hq), ?_⟩
    intro r q2 hq
    simp only [Step.ret.injEq] at hq
    obtain ⟨hr, hq⟩ := hq
    subst hq
    subst hr
    have hl : pre.length ≤ q.lexed ∧ q.lexed ≤ pre.length + 1 := by
      rw [k2]
      rcases hheld.2 with h0 | h0 <;> omega
    refine ⟨hpre, by rw [k1, k2]; exact hheld.1, hl.1, hl.2, ?_, ?_⟩
    · intro i hi
      exact hposc i (by omega)
    · intro hr
      exact absurd hr (by decide)

/-- The parser stays in step with the lexer through the whole parse. -/
theorem yyparseFuel_fed (g : Globals) (toks : List Token) (n : Nat) :
    (∀ q, yyparseFuel n g toks = .next q →
      q.Fed toks (yyshifts n (yyinit g toks)) ∧ q.WF g.yynerrs ∧ q.ctl.Inv) ∧
    (∀ r q, yyparseFuel n g toks = .ret r q → q.Done toks (yyshifts n (yyinit g toks)) r) :=
  yyparseFuel_induct g toks (fun sh p => p.Fed toks sh) (fun sh r q => q.Done toks sh r)
    ⟨rfl, fun x hx => (by cases hx), rfl, Or.inl ⟨rfl, rfl⟩⟩
    (fun pre p hwf hinv hI => yybackup_fed toks g.yynerrs pre p hwf hinv hI) n

theorem yyparseShifts_eq (g : Globals) (toks : List Token) :
    yyparseShifts g toks = yyshifts (5 * toks.length + 5) (yyinit g toks) := by
  unfold yyparseShifts
  rw [yyinit_step]

theorem yypeek_lexed (p : Parser) :
    (yypeek p).lexed = p.lexed + (if p.yychar = YYEMPTY then 1 else 0) := by
  unfold yypeek yylex
  by_cases he : p.yychar = YYEMPTY
  · simp only [he, if_true]
    cases p.input with
    | nil => simp only; split <;> rfl
    | cons t rest => simp only; split <;> rfl
  · simp only [he, if_false]
    split <;> rfl

/-- The lexer is called by an action exactly when no lookahead is held and the state has
an action that depends on the lookahead. -/
theorem yyheld_lexed (p : Parser) :
    (yyheld p).lexed = p.lexed +
      (if p.yychar = YYEMPTY ∧ (∃ n, rd yypact p.yystate = some n ∧ n ≠ YYPACT_NINF)
        then 1 else 0) := by
  unfold yyheld
  cases hn : rd yypact p.yystate with
  | none => simp
  | some n =>
    simp only
    by_cases hne : n = YYPACT_NINF
    · rw [if_pos hne, if_neg]
      · rfl
      · rintro ⟨-, m, hm, hmne⟩
        rw [Option.some.inj hm] at hne
        exact hmne hne
    · rw [if_neg hne, yypeek_lexed]
      by_cases he : p.yychar = YYEMPTY
      · rw [if_pos he, if_pos ⟨he, n, rfl, hne⟩]
      · rw [if_neg he, if_neg (fun h => he h.1)]

/-- An action on a reachable state calls the lexer only through `yyheld`. -/
theorem yybackup_lexed (e : Int) (p : Parser) (h : p.WF e) (hinv : p.ctl.Inv) :
    (yybackup p).parser.lexed = (yyheld p).lexed ∧
    (yybackup p).parser.input = (yyheld p).input := by
  refine yybackup_elim e p h hinv (fun s =>
    s.parser.lexed = (yyheld p).lexed ∧ s.parser.input = (yyheld p).input) ?_ ?_ ?_
  · intro s v _ hh _ _ _ _ _ h5 h6 _ _ _ _ _
    rw [hh]; exact ⟨h6, h5⟩
  · intro s R gs val _ _ _ _ _ _ _ _ _ _ hk _ _ _ _
    simp only [Parser.kept, Prod.mk.injEq] at hk
    exact ⟨hk.2.1, hk.1⟩
  · intro q _ _ _ k1 k2 _ _ _
    exact ⟨k2, k1⟩

/-! ## Acceptance -/

/-- An action that accepts is the shift of end of input in state 1, on the stack
`[1, 0]`. -/
theorem yybackup_accept (e : Int) (p q : Parser) (h : p.WF e) (hinv : p.ctl.Inv)
    (hb : yybackup p = .ret 0 q) :
    p.yyss = [1, 0] ∧ p.yystate = 1 ∧ yyshifted p = some YYEOF ∧
    q.yyss = [YYFINAL, 1, 0] := by
  have key : p.yyss = [1, 0] ∧ yyshifted p = some YYEOF ∧ q.yyss = [YYFINAL, 1, 0] := by
    refine yybackup_elim e p h hinv (fun s => s = .ret 0 q →
      p.yyss = [1, 0] ∧ yyshifted p = some YYEOF ∧ q.yyss = [YYFINAL, 1, 0]) ?_ ?_ ?_ hb
    · intro s v _ _ hs h1 _ _ _ _ _ hfin hstack _ hres _ hq
      subst hq
      simp only [Step.parser, Step.result] at h1 hres
      have hv3 : v = YYFINAL := by
        by_contra hv3
        rw [if_neg hv3] at hres
        split_ifs at hres
        cases hres
      refine ⟨hstack hv3, by rw [hs, hfin.1 hv3], by rw [h1, hv3, hstack hv3]⟩
    · intro s R gs val _ _ _ _ _ _ _ _ _ _ _ _ _ hres _ hq
      subst hq
      simp only [Step.result] at hres
      split_ifs at hres
      cases hres
    · intro q2 _ _ _ _ _ _ _ _ hq
      simp only [Step.ret.injEq] at hq
      exact absurd hq.1 (by decide)
  refine ⟨key.1, ?_, key.2.1, key.2.2⟩
  have := h.top
  rw [key.1] at this
  simp only [List.head?_cons, Option.some.injEq] at this
  exact this.symm

theorem lexedCode_pos (toks : List Token) (i : Nat)
    (h : 0 < lexedCode (toks.map Token.code) (i + 1)) :
    ∃ t, toks[i]? = some t ∧ 0 < t.code := by
  unfold lexedCode at h
  rw [Nat.add_sub_cancel] at h
  by_cases hi : i < toks.length
  · refine ⟨toks[i], List.getElem?_eq_getElem hi, ?_⟩
    rw [List.getD_eq_getElem _ _ (by simpa using hi)] at h
    simpa using h
  · rw [List.getD_eq_default _ _ (by simpa using hi)] at h
    simp [YYEOF] at h

theorem lexedCode_last (toks : List Token) (k : Nat)
    (h : lexedCode (toks.map Token.code) k ≤ 0) (t : Token) (ht : toks[k - 1]? = some t) :
    t.code ≤ 0 := by
  unfold lexedCode at h
  have hi : k - 1 < toks.length := by
    by_contra hcon
    rw [List.getElem?_eq_none (by omega)] at ht
    cases ht
  rw [List.getD_eq_getElem _ _ (by simpa using hi)] at h
  rw [List.getElem?_eq_getElem hi] at ht
  simp only [Option.some.injEq] at ht
  rw [← ht]
  simpa using h

/-- The codes returned by the calls that read the tokens themselves. -/
theorem lexedCodes_take (codes : List Int) : ∀ k : Nat, k ≤ codes.length →
    lexedCodes codes k = (codes.take k).map hold := by
  intro k
  induction k with
  | zero => intro _; rfl
  | succ k ih =>
    intro hk
    rw [lexedCodes_succ, ih (by omega), List.take_succ, List.map_append]
    congr 1
    unfold lexedCode
    rw [Nat.add_sub_cancel, List.getD_eq_getElem _ _ (by omega),
      List.getElem?_eq_getElem (by omega)]
    rfl

theorem lexedCodes_all (codes : List Int) (hpos : ∀ c ∈ codes, 0 < c) :
    lexedCodes codes (codes.length + 1) = codes ++ [YYEOF] := by
  rw [lexedCodes_succ, lexedCodes_take codes _ (le_refl _), List.take_length]
  have h1 : codes.map hold = codes := by
    conv_rhs => rw [← List.map_id codes]
    apply List.map_congr_left
    intro c hc
    unfold hold
    rw [if_neg (by have := hpos c hc; simp only [YYEOF]; omega)]
    rfl
  have h2 : hold (lexedCode codes (codes.length + 1)) = YYEOF := by
    unfold lexedCode
    rw [Nat.add_sub_cancel, List.getD_eq_default _ _ (le_refl _)]
    rfl
  rw [h1, h2]

/-- The goto computation never yields the final state. -/
theorem yygoto_nonfinal (e lhs base gs : Int) (hb : rd yypgoto lhs = some base)
    (hg : (if 0 ≤ base + e ∧ base + e ≤ YYLAST ∧ rd yycheck (base + e) = some e
      then rd yytable (base + e) else rd yydefgoto lhs) = some gs) : gs ≠ YYFINAL := by
  have hl : 0 ≤ lhs ∧ lhs < 27 := by
    by_contra hcon
    unfold rd at hb
    split at hb
    · rw [List.getElem?_eq_none (by rw [yypgoto_length]; omega)] at hb
      cases hb
    · cases hb
  obtain ⟨base2, hb2, hg2⟩ := tgoto_rd e lhs hl
  rw [hb] at hb2
  rw [← Option.some.inj hb2, hg] at hg2
  rw [Option.some.inj hg2]
  exact tgoto_nonfinal e lhs hl

/-! ## The translation of token codes -/

set_option maxRecDepth 1000000 in
theorem yytokens_aux :
    (∀ x ∈ List.range 286, YYTRANSLATE (x : Int) ≠ 2 → (x : Int) ∈ yytokens) ∧
    yytokens.map YYTRANSLATE =
      [0, 46, 34, 41, 42, 32, 30, 37, 31, 33, 45, 36, 38, 39, 40, 43, 44, 1, 3, 4, 5, 6, 7, 8,
        9, 10, 11, 12, 13, 14, 15, 16, 17, 18, 19, 20, 21, 22, 23, 24, 25, 26, 27, 28, 29, 35] ∧
    (yytokens.map YYTRANSLATE).Nodup ∧
    (∀ s ∈ List.range 47, (s : Int) ≠ 2 → (s : Int) ∈ yytokens.map YYTRANSLATE) ∧
    (∀ x ∈ yytokens, YYTRANSLATE x ≠ 2) := by decide!

theorem yytranslate_out (x : Int) (h : x < 0 ∨ YYMAXUTOK < x) :
    YYTRANSLATE x = YYSYMBOL_YYUNDEF := by
  unfold YYTRANSLATE
  rw [if_neg (by omega)]

/-- A code with a symbol other than the invalid token is one of `yytokens`. -/
theorem yytokens_mem (x : Int) (h : YYTRANSLATE x ≠ 2) : x ∈ yytokens := by
  by_cases hx : 0 ≤ x ∧ x ≤ 285
  · exact int_of_range (P := fun x => YYTRANSLATE x ≠ 2 → x ∈ yytokens) yytokens_aux.1 x hx.1
      (by omega) h
  · exact absurd (yytranslate_out x (by simp only [YYMAXUTOK]; omega)) h

theorem yytranslate_inj (x y : Int) (hx : YYTRANSLATE x ≠ 2)
    (h : YYTRANSLATE x = YYTRANSLATE y) : x = y :=
  List.inj_on_of_nodup_map yytokens_aux.2.2.1 (yytokens_mem x hx)
    (yytokens_mem y (by rw [← h]; exact hx)) h

/-! ## Invalid tokens -/

set_option maxRecDepth 1000000 in
theorem yycheck_no_undef : ∀ c ∈ yycheck, c ≠ 2 := by decide!

/-- A lookahead that is shifted has a symbol that `yycheck` holds: never the invalid
token. -/
theorem yyshifted_sym (p : Parser) (c : Int) (h : yyshifted p = some c) :
    YYTRANSLATE c ≠ YYSYMBOL_YYUNDEF ∧ c ≠ YYerror := by
  unfold yyshifted at h
  split at h
  · cases h
  · simp only at h
    split at h
    · cases h
    · split at h
      · cases h
      · rename_i hne
        split at h
        · cases h
        · rename_i hi
          split at h
          · rename_i ck v hck hv
            split at h
            · rename_i hc
              simp only [Option.some.injEq] at h
              subst h
              refine ⟨?_, hne⟩
              intro h2
              rw [h2] at hc hck
              unfold rd at hck
              split at hck
              · have hm := List.mem_iff_getElem?.2 ⟨_, hck⟩
                exact yycheck_no_undef ck hm (by rw [hc.1]; rfl)
              · cases hck
            · cases h
          · cases h

/-- No invalid token is among the lookaheads shifted by a run. -/
theorem yyshifts_sym (n : Nat) : ∀ (p : Parser), ∀ c ∈ yyshifts n p,
    YYTRANSLATE c ≠ YYSYMBOL_YYUNDEF ∧ c ≠ YYerror := by
  induction n with
  | zero => intro p c hc; simp [yyshifts] at hc
  | succ n ih =>
    intro p c hc
    unfold yyshifts at hc
    rcases List.mem_append.1 hc with h | h
    · cases hs : yyshifted p with
      | none => rw [hs] at h; simp at h
      | some x =>
        rw [hs] at h
        simp only [Option.toList, List.mem_singleton] at h
        rw [h]
        exact yyshifted_sym p x hs
    · cases hb : yybackup p with
      | next q => rw [hb] at h; exact ih q c h
      | ret r q => rw [hb] at h; simp at h
      | fault q => rw [hb] at h; simp at h

/-! ## The error token as lookahead -/

theorem cpush_errtok {codes : List Int} (c : Ctl) (v : Int) (h : c.NoErrTok codes) :
    (cpush c v).ErrPost codes := by
  have hr : ∀ (r : Int) (d : Ctl), r ≠ 1 → d.lexed = c.lexed →
      CStep.ErrPost codes (.ret r d) := by
    intro r d hr hd
    refine ⟨fun i h1 h2 => h i h1 (by rw [hd] at h2; omega), ?_⟩
    constructor
    · intro h1; exact absurd h1.1 hr
    · intro h1; rw [hd] at h1; exact absurd h1.2 (h _ h1.1 (le_refl _))
  unfold cpush
  simp only
  split
  · exact hr _ _ (by decide) rfl
  · split
    · exact hr _ _ (by decide) rfl
    · exact h

theorem cdefault_errtok {codes : List Int} (c : Ctl) (h : c.NoErrTok codes) :
    (cdefault c).ErrPost codes := by
  unfold cdefault
  simp only
  split
  · unfold cabort creport
    refine ⟨fun i h1 h2 => h i h1 (by simp only at h2; omega), ?_⟩
    constructor
    · intro h1; simp at h1
    · intro h1; exact absurd h1.2 (h _ h1.1 (le_refl _))
  · unfold creduce
    simp only
    split
    · trivial
    · exact cpush_errtok _ _ h

theorem cpeek_lexed (c : Ctl) :
    (cpeek c).lexed = c.lexed + (if c.yychar = YYEMPTY then 1 else 0) := by
  unfold cpeek clex
  by_cases he : c.yychar = YYEMPTY
  · simp only [he, if_true]
    cases c.input with
    | nil => simp only; split <;> rfl
    | cons t rest => simp only; split <;> rfl
  · simp only [he, if_false]
    split <;> rfl

/-- One action and the error token: it ends the parse at once, with result 1 and without a
report, and nothing else does. -/
theorem cstep_errtok {codes : List Int} (c : Ctl) (hinv : c.Inv) (hheld : c.Held codes)
    (h : c.NoErrTok codes) : (cstep c).ErrPost codes := by
  rw [cstep_eq]
  by_cases hp : tget yypact (c.yyss.headD 0) = YYPACT_NINF
  · rw [if_pos hp]
    exact cdefault_errtok c h
  · rw [if_neg hp]
    obtain ⟨h1, h2, h3⟩ := cpeek_held hheld
    have hl := cpeek_lexed c
    have hle : (cpeek c).lexed ≤ c.lexed + 1 := by rw [hl]; split <;> omega
    have hq : (cpeek c).yyerrs = [] := by rw [cpeek_yyerrs]; exact hinv.quiet
    split
    · rename_i he
      unfold cabort
      refine ⟨fun i a b => h i a (by simp only at b; omega), ?_⟩
      simp only
      constructor
      · intro _
        refine ⟨h2, ?_⟩
        have hpos : 0 < hold (lexedCode codes (cpeek c).lexed) := by
          rw [← h3, he]; decide
        rw [← (hold_pos hpos).2, ← h3, he]
      · intro _
        exact ⟨trivial, hq⟩
    · rename_i he
      have hk : (cpeek c).NoErrTok codes := by
        intro i a b
        by_cases hi : i ≤ c.lexed
        · exact h i a hi
        · have hi2 : i = (cpeek c).lexed := by omega
          rw [hi2]
          intro h256
          rw [h256] at h3
          exact he h3
      unfold cact
      split
      · exact cpush_errtok _ _ hk
      · exact cdefault_errtok _ hk

theorem crun_errtok {codes : List Int} (n : Nat) : ∀ c : Ctl, c.Inv → c.Held codes →
    c.NoErrTok codes → (crun n c).ErrPost codes := by
  induction n with
  | zero => intro c _ _ h; exact h
  | succ n ih =>
    intro c hinv hheld h
    have h1 := cstep_errtok c hinv hheld h
    have h2 := cstep_post c hinv
    have h3 := cstep_held c hinv hheld
    unfold crun
    cases hs : cstep c with
    | next d =>
      rw [hs] at h1 h2 h3
      exact ih d h2.1 h3 h1
    | ret r d => rw [hs] at h1; exact h1
    | fault => trivial

/-- The error token and the result of the parse: no call of the lexer but the last has
returned it, and the last call has exactly when the parse returns 1 without a report. -/
theorem yyparse_errtok (g : Globals) (toks : List Token) :
    ∃ r q, yyparse g toks = .ret r q ∧ q.ctl.Final r ∧
      q.yynerrs = counted g.yynerrs q.yyerrs ∧
      (∀ i, 1 ≤ i → i < q.lexed → lexedCode (toks.map Token.code) i ≠ YYerror) ∧
      ((r = 1 ∧ q.yyerrs = []) ↔
        (1 ≤ q.lexed ∧ lexedCode (toks.map Token.code) q.lexed = YYerror)) := by
  obtain ⟨r, q, hq, hfin, hcnt, hrun⟩ := yyparse_final g toks
  have h := crun_errtok (5 * toks.length + 5) _ (cinit_inv _)
    (cinit_held (toks.map Token.code)) (fun i a b => by simp only [cinit] at b; omega)
  rw [hrun] at h
  exact ⟨r, q, hq, hfin, hcnt, h.1, h.2⟩

/-- The error token as first token: the parse ends in its second action. -/
theorem crun_errtok_first (rest : List Int) :
    crun 2 (cinit (YYerror :: rest)) =
      .ret 1 { input := rest, lexed := 1, yychar := YYUNDEF, yyss := [0], yyerrs := [] } := by
  obtain ⟨-, -, hp, hd, hk, hg⟩ := paren_facts
  have h1 : cstep (cinit (YYerror :: rest)) =
      .next { cinit (YYerror :: rest) with yyss := [2, 0] } := by
    rw [cstep_reduce (c := cinit (YYerror :: rest)) (s := 0) (u := []) (k := 0) rfl hp.1 hd.1
      (by decide) hk.1 (by simp)]
    simp only [List.drop_zero, List.headD_cons, hg.1]
    exact cpush_next (by simp [cinit]) (by decide)
  have h2 : cstep { cinit (YYerror :: rest) with yyss := [2, 0] } =
      .ret 1 { input := rest, lexed := 1, yychar := YYUNDEF, yyss := [0], yyerrs := [] } := by
    rw [cstep_eq]
    simp only [List.headD_cons]
    rw [if_neg hp.2.2.2.2.2.2]
    have hpk : cpeek { cinit (YYerror :: rest) with yyss := [2, 0] } =
        { input := rest, lexed := 1, yychar := YYerror, yyss := [2, 0], yyerrs := [] } := by
      simp [cpeek, clex, cinit, YYerror, YYEOF]
    rw [hpk]
    simp [cabort]
  simp [crun, h1, h2]

/-! ## The depth of the stack along a run -/

theorem cdepth_self (n : Nat) (c : Ctl) : c.yyss.length ≤ cdepth n c := by
  cases n with
  | zero => exact le_refl _
  | succ n => unfold cdepth; exact le_max_left _ _

theorem yydepths_self (n : Nat) (p : Parser) : p.yyss.length ≤ yydepths n p := by
  cases n with
  | zero => exact le_refl _
  | succ n => unfold yydepths; exact le_max_left _ _

/-- Once the run has returned, more fuel does not change the depth it reached. -/
theorem cdepth_mono (n m : Nat) (hnm : n ≤ m) : ∀ (c : Ctl) (r : Int) (d : Ctl),
    crun n c = .ret r d → cdepth m c = cdepth n c := by
  induction n generalizing m with
  | zero => intro c r d h; simp [crun] at h
  | succ n ih =>
    intro c r d h
    obtain ⟨m', rfl⟩ : ∃ m', m = m' + 1 := ⟨m - 1, by omega⟩
    unfold crun at h
    unfold cdepth
    cases hs : cstep c with
    | next e =>
      rw [hs] at h
      simp only at h ⊢
      rw [ih m' (by omega) e r d h]
    | ret r' d' => rfl
    | fault => rfl

theorem Peak.after_next {c d : Ctl} {r : Int} {m : Nat} (h : cstep c = .next d)
    (hd : Peak d r m) : Peak c r (max c.yyss.length m) := by
  obtain ⟨n, e, he, hm⟩ := hd
  exact ⟨n + 1, e, by simp [crun, h, he], by simp [cdepth, h, hm]⟩

theorem Peak.at_ret {c d : Ctl} {r : Int} (h : cstep c = .ret r d) :
    Peak c r (max c.yyss.length d.yyss.length) :=
  ⟨1, d, by simp [crun, h], by simp [cdepth, h]⟩

theorem Peak.cast {c : Ctl} {r : Int} {m k : Nat} (h : Peak c r m) (hk : m = k) :
    Peak c r k := hk ▸ h

theorem Peak.ends {c : Ctl} {r : Int} {m : Nat} (h : Peak c r m) : Ends c r := by
  obtain ⟨n, d, hd, -⟩ := h
  exact ⟨n, d, hd⟩

/-- The depths of the model are those of its control view. -/
theorem yydepths_ref (e : Int) (n : Nat) : ∀ p : Parser, p.WF e → p.ctl.Inv →
    yydepths n p = cdepth n p.ctl := by
  induction n with
  | zero => intro p _ _; rfl
  | succ n ih =>
    intro p h hinv
    obtain ⟨h1, -⟩ := yybackup_ref e p h
    unfold yydepths cdepth
    rw [← h1]
    cases hb : yybackup p with
    | next q =>
      obtain ⟨hw, hi⟩ := yybackup_next e p q h hinv hb
      simp only [Step.ctl]
      rw [ih q hw hi]
      rfl
    | ret r q => rfl
    | fault q => exact absurd hb (yybackup_sound e p h hinv q)

theorem yyparseDepth_ref (g : Globals) (toks : List Token) :
    yyparseDepth g toks = cdepth (5 * toks.length + 5) (cinit (toks.map Token.code)) := by
  unfold yyparseDepth
  rw [yyinit_step]
  exact yydepths_ref g.yynerrs _ _ (yyinit_wf g toks) (cinit_inv _)

/-- The result and the depth of `yyparse` from a run of the control view. -/
theorem yyparse_of_peak (g : Globals) (toks : List Token) (codes : List Int)
    (h : toks.map Token.code = codes) {r : Int} {m : Nat} (hp : Peak (cinit codes) r m) :
    (yyparse g toks).result = some r ∧ yyparseDepth g toks = m := by
  obtain ⟨n, d, hrun, hdep⟩ := hp
  obtain ⟨r2, q, hq, -, -, hrun2⟩ := yyparse_final g toks
  rw [h] at hrun2
  have h1 := crun_mono n (max n (5 * toks.length + 5)) (le_max_left _ _) _ r d hrun
  have h2 := crun_mono _ (max n (5 * toks.length + 5)) (le_max_right _ _) _ r2 _ hrun2
  rw [h1] at h2
  simp only [CStep.ret.injEq] at h2
  have d1 := cdepth_mono n (max n (5 * toks.length + 5)) (le_max_left _ _) _ r d hrun
  have d2 := cdepth_mono _ (max n (5 * toks.length + 5)) (le_max_right _ _) _ r2 _ hrun2
  refine ⟨?_, ?_⟩
  · rw [hq, h2.1]; rfl
  · rw [yyparseDepth_ref, h, ← d2, d1, hdep]

theorem cpush_zero {c d : Ctl} {v : Int} (h : cpush c v = .ret 0 d) :
    v = YYFINAL ∧ d.yyss = v :: c.yyss := by
  unfold cpush at h
  simp only at h
  split at h
  · cases h
  · split at h
    · rename_i hv
      simp only [CStep.ret.injEq, true_and] at h
      rw [← h]
      exact ⟨hv, rfl⟩
    · cases h

/-- The accepting action leaves three states on the stack. -/
theorem cstep_zero (c : Ctl) (h : c.Inv) : ∀ d, cstep c = .ret 0 d → d.yyss.length = 3 := by
  refine cstep_cases c h (fun s => ∀ d, s = .ret 0 d → d.yyss.length = 3) ?_ ?_ ?_ ?_ ?_
  · intro v _ hpath d hd
    obtain ⟨hv, hss⟩ := cpush_zero hd
    rw [hv] at hpath hss
    have hl := final_depth hpath
    rw [hss, List.length_cons]
    simp only [cpeek_yyss]
    omega
  · intro _ hpath d hd
    obtain ⟨-, hss⟩ := cpush_zero hd
    have hl := final_depth hpath
    rw [hss, List.length_cons]
    simp only [cpeek_yyss]
    omega
  · intro c1 k g _ _ hpath _ d hd
    obtain ⟨hv, hss⟩ := cpush_zero hd
    rw [hv] at hpath hss
    rw [hss, List.length_cons]
    have := final_depth hpath
    simp only at this ⊢
    omega
  · intro c1 _ d hd
    simp [cabort] at hd
  · intro _ d hd
    simp [cabort] at hd

/-- On grammar tokens that the automaton accepts with at most `D` cells on the stack, the
stack of the parser never holds more than `D` cells. -/
theorem cdepth_accB {D : Nat} (h3 : 3 ≤ D) (hD : D + 1 < 10000) (n : Nat) : ∀ c : Ctl,
    c.Inv → c.Clean → AccB D c.yyss c.syms → cdepth n c ≤ D := by
  induction n with
  | zero => intro c _ _ ha; exact ha.depth_le
  | succ n ih =>
    intro c hinv hc ha
    have hs := cstep_astep c hc
    have hpost := cstep_post c hinv
    unfold cdepth
    refine max_le ha.depth_le ?_
    cases hst : cstep c with
    | next e =>
      rw [hst] at hpost
      obtain ⟨h1, h2⟩ := hs.1 e hst
      exact ih e hpost.1 h2 (AccB.after_step h1 ha)
    | ret r e =>
      simp only
      rw [hst] at hpost
      have hrun : crun 1 c = .ret r e := by simp [crun, hst]
      have hr : r = 0 := by
        rcases hpost with hf | hf | hf
        · exact hf.1
        · exfalso
          have h1 := hf.1
          subst h1
          exact crun_acc 1 c hc ha.unbounded e hrun
        · exfalso
          have h1 := hf.1
          subst h1
          exact crun_accB hD 1 c hc ha e hrun
      subst hr
      rw [cstep_zero c hinv e hst]
      exact h3
    | fault => exact Nat.zero_le _

/-- While the stack stays below the capacity, the capacity stays as it is. -/
theorem yyloop_small (e : Int) (n : Nat) : ∀ p : Parser, p.WF e → p.ctl.Inv →
    (yydepths n p : Int) < p.yystacksize →
    (yyloop n p).parser.yystacksize = p.yystacksize := by
  induction n with
  | zero => intro p _ _ _; rfl
  | succ n ih =>
    intro p h hinv hd
    have hcap := (yybackup_capacity e p h hinv).1
    unfold yydepths at hd
    unfold yyloop
    cases hb : yybackup p with
    | next q =>
      rw [hb] at hd hcap
      simp only [Step.parser] at hd hcap ⊢
      obtain ⟨hw, hi⟩ := yybackup_next e p q h hinv hb
      have hq := yydepths_self n q
      have hne : ¬ (q.yyss.length : Int) = p.yystacksize := by omega
      rw [if_neg hne] at hcap
      have := ih q hw hi (by rw [hcap]; omega)
      rw [hcap] at this
      exact this
    | ret r q =>
      rw [hb] at hd hcap
      simp only [Step.parser] at hd hcap ⊢
      have hne : ¬ (q.yyss.length : Int) = p.yystacksize := by omega
      rw [if_neg hne] at hcap
      exact hcap
    | fault q => exact absurd hb (yybackup_sound e p h hinv q)

/-- The states met by a run are not deeper than the depth of the run. -/
theorem yydepths_next (n : Nat) : ∀ p q : Parser, yyloop n p = .next q →
    q.yyss.length ≤ yydepths n p := by
  induction n with
  | zero =>
    intro p q h
    simp only [yyloop, Step.next.injEq] at h
    rw [h]; exact le_refl _
  | succ n ih =>
    intro p q h
    unfold yyloop at h
    unfold yydepths
    cases hb : yybackup p with
    | next p2 =>
      rw [hb] at h
      exact le_trans (ih p2 q h) (le_max_right _ _)
    | ret r p2 => rw [hb] at h; cases h
    | fault p2 => rw [hb] at h; cases h

theorem yydepths_ret (n : Nat) : ∀ (p : Parser) (r : Int) (q : Parser),
    yyloop n p = .ret r q → q.yyss.length ≤ yydepths n p := by
  induction n with
  | zero => intro p r q h; simp [yyloop] at h
  | succ n ih =>
    intro p r q h
    unfold yyloop at h
    unfold yydepths
    cases hb : yybackup p with
    | next p2 =>
      rw [hb] at h
      exact le_trans (ih p2 r q h) (le_max_right _ _)
    | ret r2 p2 =>
      rw [hb] at h
      simp only [Step.ret.injEq] at h
      rw [← h.2]
      exact le_max_right _ _
    | fault p2 => rw [hb] at h; cases h

/-! ## The depth reached on nested parentheses -/

/-- After the last closing parenthesis the stack reaches four cells. -/
theorem paren_finish_peak (l : Nat) :
    Peak { input := [59], lexed := l, yychar := YYEMPTY, yyss := [32, 2, 0], yyerrs := [] }
      0 4 := by
  obtain ⟨-, hs, hp, hd, hk, hg⟩ := paren_facts
  apply Peak.cast
  apply Peak.after_next
  · rw [cstep_shift (s := 32) (a := 59) rfl rfl rfl (by decide) (by rw [paren_facts.1.2.2.2]; exact hs.2.2.2.2.2.1)]
    exact cpush_next (by simp) (by decide)
  apply Peak.after_next
  · rw [cstep_reduce (s := 69) (k := 2) rfl hp.2.2.2.1 hd.2.2.2.1 (by decide) hk.2.2.2.1
      (by simp)]
    simp only [List.drop_succ_cons, List.drop_zero, List.headD_cons, hg.2.2.2.2.2.1]
    exact cpush_next (by simp) (by decide)
  apply Peak.after_next
  · rw [cstep_reduce (s := 31) (k := 1) rfl hp.2.2.2.2.1 hd.2.2.2.2.1 (by decide) hk.2.2.2.2.1
      (by simp)]
    simp only [List.drop_succ_cons, List.drop_zero, List.headD_cons, hg.2.2.2.2.2.2.1]
    exact cpush_next (by simp) (by decide)
  apply Peak.after_next
  · rw [cstep_reduce (s := 22) (k := 2) rfl hp.2.2.2.2.2.1 hd.2.2.2.2.2.1 (by decide)
      hk.2.2.2.2.2.1 (by simp)]
    simp only [List.drop_succ_cons, List.drop_zero, List.headD_cons, hg.2.2.2.2.2.2.2.1]
    exact cpush_next (by simp) (by decide)
  apply Peak.after_next
  · rw [cstep_eof_reduce (s := 2) (k := 1) rfl rfl rfl hp.2.2.2.2.2.2 hs.2.2.2.2.2.2.1
      hd.2.2.2.2.2.2 (by decide) hk.2.2.2.2.2.2 (by simp)]
    simp only [List.drop_succ_cons, List.drop_zero, List.headD_cons, hg.2.2.2.2.2.2.2.2]
    exact cpush_next (by simp) (by decide)
  apply Peak.at_ret
  · rw [cstep_eof_shift (s := 1) rfl rfl hs.2.2.2.2.2.2.2]
    exact cpush_accept (by simp)
  · simp only [List.length_cons, List.length_nil]; omega

/-- Closing `j + 1` parentheses when the stack has room: the first closing parenthesis is
pushed onto `j + 4` cells. -/
theorem paren_close_peak (j : Nat) : j + 1 ≤ 9995 → ∀ l : Nat,
    Peak { input := List.replicate (j + 1) 41 ++ [59], lexed := l, yychar := YYEMPTY,
           yyss := 50 :: parenStack (j + 1), yyerrs := [] } 0 (j + 5) := by
  obtain ⟨ht, hs, hp, hd, hk, hg⟩ := paren_facts
  induction j with
  | zero =>
    intro _ l
    apply Peak.cast
    apply Peak.after_next
    · rw [cstep_shift (s := 50) (a := 41) rfl rfl rfl (by decide)
        (by rw [ht.2.1]; exact hs.2.2.2.2.1)]
      exact cpush_next (by simp [parenStack]) (by decide)
    apply Peak.after_next
    · rw [cstep_reduce (s := 88) (k := 3) rfl hp.2.2.1 hd.2.2.1 (by decide) hk.2.2.1
        (by simp [parenStack])]
      simp only [parenStack, List.replicate, List.cons_append, List.nil_append,
        List.drop_succ_cons, List.drop_zero, List.headD_cons, hg.2.2.2.1]
      exact cpush_next (by simp) (by decide)
    exact paren_finish_peak _
    · simp only [List.length_cons, List.length_nil, parenStack, List.length_append,
        List.length_replicate]; omega
  | succ j ih =>
    intro hj l
    apply Peak.cast
    apply Peak.after_next
    · rw [cstep_shift (s := 50) (a := 41) (w := List.replicate (j + 1) 41 ++ [59]) rfl rfl
        (by simp [List.replicate_succ]) (by decide) (by rw [ht.2.1]; exact hs.2.2.2.2.1)]
      exact cpush_next (by simp [parenStack_length]; omega) (by decide)
    apply Peak.after_next
    · rw [cstep_reduce (s := 88) (k := 3) rfl hp.2.2.1 hd.2.2.1 (by decide) hk.2.2.1
        (by simp [parenStack_length])]
      simp only [parenStack_succ, List.drop_succ_cons, List.drop_zero, List.headD_cons,
        hg.2.2.2.2.1]
      exact cpush_next (by simp [parenStack_length]; omega) (by decide)
    · have := ih (by omega) (l + 1)
      rw [parenStack_succ] at this
      exact this
    · simp only [List.length_cons, List.length_nil, parenStack_length, creport, cinit]; omega

/-- Closing the first parenthesis when the stack is full: the push of state 88 exhausts it. -/
theorem paren_close_full_peak (j : Nat) (hj : 9995 ≤ j) (l : Nat) :
    Peak { input := List.replicate (j + 1) 41 ++ [59], lexed := l, yychar := YYEMPTY,
           yyss := 50 :: parenStack (j + 1), yyerrs := [] } 2 (j + 5) := by
  obtain ⟨ht, hs, -⟩ := paren_facts
  apply Peak.cast
  apply Peak.at_ret
  · rw [cstep_shift (s := 50) (a := 41) (w := List.replicate j 41 ++ [59]) rfl rfl
      (by simp [List.replicate_succ]) (by decide) (by rw [ht.2.1]; exact hs.2.2.2.2.1)]
    exact cpush_full (by simp [parenStack_length]; omega)
  · simp [creport, parenStack_length]

/-- Opening the remaining `m` parentheses above `j` open ones, then the number: the stack
reaches `j + m + 4` cells unless the limit of 10000 cells stops it. -/
theorem paren_open_peak (m : Nat) : ∀ (j l : Nat), j + 2 < 10000 →
    Peak { input := List.replicate m 40 ++ 259 :: (List.replicate (j + m) 41 ++ [59]),
           lexed := l, yychar := YYEMPTY, yyss := parenStack j, yyerrs := [] }
      (parenResult (j + m)) (min (j + m + 4) 10000) := by
  obtain ⟨ht, hs, hp, hd, hk, hg⟩ := paren_facts
  induction m with
  | zero =>
    intro j l hj
    obtain ⟨x, rest, hx, hx2⟩ := parenStack_cases j
    have hlen := parenStack_length j
    have hsh : tshift x 4 = some 5 := by
      rcases hx2 with rfl | rfl
      · exact hs.2.2.1
      · exact hs.2.2.2.1
    by_cases hfull : 10000 ≤ j + 3
    · have hres : parenResult (j + 0) = 2 := by
        unfold parenResult; rw [if_neg (by omega)]
      rw [hres]
      apply Peak.cast
      apply Peak.at_ret
      · rw [cstep_shift (s := x) (a := 259) hx rfl rfl (by decide) (by rw [ht.2.2.1]; exact hsh)]
        exact cpush_full (by simp [hlen]; omega)
      · clear ht hs hp hd hk hg
        simp only [List.length_cons, List.length_nil, parenStack_length, creport, cinit]; omega
    · cases j with
      | zero =>
        apply Peak.cast
        apply Peak.after_next
        · rw [cstep_shift (s := x) (a := 259) hx rfl rfl (by decide)
            (by rw [ht.2.2.1]; exact hsh)]
          exact cpush_next (by simp [hlen]) (by decide)
        apply Peak.after_next
        · rw [cstep_reduce (s := 5) (k := 1) rfl hp.2.1 hd.2.1 (by decide) hk.2.1
            (by simp [parenStack])]
          simp only [parenStack, List.replicate, List.nil_append, List.drop_succ_cons,
            List.drop_zero, List.headD_cons, hg.2.1]
          exact cpush_next (by simp) (by decide)
        · have := paren_finish_peak (l + 1)
          simpa [parenResult] using this
        · clear ht hs hp hd hk hg
          simp only [List.length_cons, List.length_nil, parenStack, List.length_append,
            List.length_replicate]; omega
      | succ j =>
        by_cases hres : j + 1 ≤ 9995
        · apply Peak.cast
          apply Peak.after_next
          · rw [cstep_shift (s := x) (a := 259) hx rfl rfl (by decide)
              (by rw [ht.2.2.1]; exact hsh)]
            exact cpush_next (by simp [hlen]; omega) (by decide)
          apply Peak.after_next
          · rw [cstep_reduce (s := 5) (k := 1) rfl hp.2.1 hd.2.1 (by decide) hk.2.1
              (by simp [parenStack_length])]
            simp only [parenStack_succ, List.drop_succ_cons, List.drop_zero, List.headD_cons,
              hg.2.2.1]
            exact cpush_next (by simp [parenStack_length]; omega) (by decide)
          · have := paren_close_peak j hres (l + 1)
            simpa [parenResult, hres, parenStack_succ] using this
          · clear ht hs hp hd hk hg
            simp only [List.length_cons, List.length_nil, parenStack_length, creport, cinit]; omega
        · apply Peak.cast
          apply Peak.after_next
          · rw [cstep_shift (s := x) (a := 259) hx rfl rfl (by decide)
              (by rw [ht.2.2.1]; exact hsh)]
            exact cpush_next (by simp [hlen]; omega) (by decide)
          apply Peak.after_next
          · rw [cstep_reduce (s := 5) (k := 1) rfl hp.2.1 hd.2.1 (by decide) hk.2.1
              (by simp [parenStack_length])]
            simp only [parenStack_succ, List.drop_succ_cons, List.drop_zero, List.headD_cons,
              hg.2.2.1]
            exact cpush_next (by simp [parenStack_length]; omega) (by decide)
          · have := paren_close_full_peak j (by omega) (l + 1)
            simpa [parenResult, hres, parenStack_succ] using this
          · clear ht hs hp hd hk hg
            simp only [List.length_cons, List.length_nil, parenStack_length, creport, cinit]; omega
  | succ m ih =>
    intro j l hj
    obtain ⟨x, rest, hx, hx2⟩ := parenStack_cases j
    have hlen := parenStack_length j
    have hsh : tshift x 41 = some 19 := by
      rcases hx2 with rfl | rfl
      · exact hs.1
      · exact hs.2.1
    have hin : List.replicate (m + 1) (40 : Int) ++ 259 :: (List.replicate (j + (m + 1)) 41 ++ [59])
        = 40 :: (List.replicate m 40 ++ 259 :: (List.replicate (j + 1 + m) 41 ++ [59])) := by
      have : j + (m + 1) = j + 1 + m := by omega
      simp [List.replicate_succ, this]
    by_cases hfull : 10000 ≤ j + 3
    · have hres : parenResult (j + (m + 1)) = 2 := by
        unfold parenResult; rw [if_neg (by omega)]
      rw [hres]
      apply Peak.cast
      apply Peak.at_ret
      · rw [cstep_shift (s := x) (a := 40) hx rfl hin (by decide) (by rw [ht.1]; exact hsh)]
        exact cpush_full (by simp [hlen]; omega)
      · clear ht hs hp hd hk hg
        simp only [List.length_cons, List.length_nil, parenStack_length, creport, cinit]; omega
    · apply Peak.cast
      apply Peak.after_next
      · rw [cstep_shift (s := x) (a := 40) hx rfl hin (by decide) (by rw [ht.1]; exact hsh)]
        exact cpush_next (by simp [hlen]; omega) (by decide)
      · have := ih (j + 1) (l + 1) (by omega)
        have e : parenResult (j + 1 + m) = parenResult (j + (m + 1)) := by
          rw [show j + 1 + m = j + (m + 1) from by omega]
        rw [e, parenStack_succ] at this
        exact this
      · clear ht hs hp hd hk hg
        simp only [List.length_cons, List.length_nil, parenStack_length, creport, cinit]; omega

/-- The whole run on `n` nested parentheses, with the depth it reaches. -/
theorem paren_peak (n : Nat) :
    Peak (cinit (parenCodes n)) (parenResult n) (min (n + 4) 10000) := by
  obtain ⟨ht, hs, hp, hd, hk, hg⟩ := paren_facts
  apply Peak.cast
  apply Peak.after_next
  · rw [cstep_reduce (c := cinit (parenCodes n)) (s := 0) (u := []) (k := 0) rfl hp.1 hd.1
      (by decide) hk.1 (by simp)]
    simp only [List.drop_zero, List.headD_cons, hg.1]
    exact cpush_next (by simp [cinit]) (by decide)
  · have := paren_open_peak n 0 0 (by omega)
    simpa [cinit, parenCodes_eq, parenStack] using this
  · clear ht hs hp hd hk hg
    simp only [List.length_cons, List.length_nil, parenStack_length, creport, cinit]; omega

/-- The result and the depth of `yyparse` on `n` nested parentheses. -/
theorem yyparseDepth_paren (n : Nat) (g : Globals) (toks : List Token)
    (h : toks.map Token.code = parenCodes n) :
    (yyparse g toks).result = some (parenResult n) ∧
    yyparseDepth g toks = min (n + 4) 10000 :=
  yyparse_of_peak g toks _ h (paren_peak n)

/-! ## Statement lists -/

/-- Grammar tokens that the automaton accepts with at most `D` cells, `D` below the initial
capacity: the stack of `yyparse` never holds more than `D` cells and the capacity stays at
`YYINITDEPTH`. -/
theorem yyparse_depth_accB (g : Globals) (toks : List Token) (codes : List Int)
    (hcodes : toks.map Token.code = codes) (D : Nat) (h3 : 3 ≤ D) (hD : D < 200)
    (hclean : ∀ k ∈ codes.map YYTRANSLATE, 3 ≤ k)
    (h : AccB D [0] (codes.map YYTRANSLATE)) :
    yyparseDepth g toks ≤ D ∧
    (∀ k p, yyparseFuel k g toks = .next p →
      p.yyss.length ≤ D ∧ p.yystacksize = YYINITDEPTH) ∧
    (yyparse g toks).parser.yyss.length ≤ D ∧
    (yyparse g toks).parser.yystacksize = YYINITDEPTH := by
  have hw : (cinit codes).syms = codes.map YYTRANSLATE := by
    simp [cinit, Ctl.syms]
  have hcl : (cinit codes).Clean := by
    refine ⟨?_, Or.inl rfl⟩
    intro t ht
    exact hclean _ (List.mem_map.2 ⟨t, ht, rfl⟩)
  have hacc : AccB D (cinit codes).yyss (cinit codes).syms := by
    rw [hw]; exact h
  have hctl : (yyinit g toks).ctl = cinit codes := by
    rw [← hcodes]; rfl
  have hdep : ∀ k, yydepths k (yyinit g toks) ≤ D := by
    intro k
    rw [yydepths_ref g.yynerrs k _ (yyinit_wf g toks) (by rw [hctl]; exact cinit_inv _), hctl]
    exact cdepth_accB h3 (by omega) k _ (cinit_inv _) hcl hacc
  have hfuel : ∀ k, yyparseFuel k g toks = yyloop k (yyinit g toks) := by
    intro k
    unfold yyparseFuel
    rw [yyinit_step]
  have hsize : ∀ k, (yyparseFuel k g toks).parser.yystacksize = YYINITDEPTH := by
    intro k
    rw [hfuel]
    have := yyloop_small g.yynerrs k _ (yyinit_wf g toks) (by rw [hctl]; exact cinit_inv _)
      (by
        have h1 := hdep k
        have h2 : (yyinit g toks).yystacksize = 200 := rfl
        rw [h2]
        omega)
    rw [this]
    rfl
  refine ⟨?_, ?_, ?_, hsize _⟩
  · unfold yyparseDepth
    rw [yyinit_step]
    exact hdep _
  · intro k p hp
    refine ⟨?_, ?_⟩
    · rw [hfuel] at hp
      exact le_trans (yydepths_next k _ p hp) (hdep k)
    · have := hsize k
      rw [hp] at this
      exact this
  · obtain ⟨r, q, hq, -⟩ := yyparse_final g toks
    rw [hq]
    unfold yyparse at hq
    rw [hfuel] at hq
    exact le_trans (yydepths_ret _ _ r q hq) (hdep _)

set_option maxRecDepth 1000000 in
theorem stmtList_facts :
    ((∀ la ∈ [3], lrun 6 [2, 0] 40 [0] (([] : List Int) ++ [la]) = some [la]) ∧
      (∀ la ∈ [3], lrun 6 [2, 0] 40 [2, 0]
        ([Tk.ID, ch '=', Tk.NUM, ch ';'].map YYTRANSLATE ++ [la]) = some [la]) ∧
      ([Tk.ID, ch '=', Tk.NUM, ch ';'].map YYTRANSLATE).head? ∈ [3].map some ∧
      arun 6 40 [2, 0] ([Tk.ID, ch '=', Tk.NUM, ch ';'].map YYTRANSLATE) = true ∧
      arun 6 40 [0] [] = true) ∧
    (∀ k ∈ [Tk.ID, ch '=', Tk.NUM, ch ';'].map YYTRANSLATE, 3 ≤ k) := by
  decide!

/-- The automaton accepts every statement list `ID = NUM ;` ... with at most six cells. -/
theorem stmtList_accB (n : Nat) :
    AccB 6 [0] ((stmtListCodes n).map YYTRANSLATE) ∧
    (∀ k ∈ (stmtListCodes n).map YYTRANSLATE, 3 ≤ k) := by
  obtain ⟨⟨a0, a1, a2, a3, a4⟩, c0⟩ := stmtList_facts
  have hkinds : ∀ m, (stmtListCodes m).map YYTRANSLATE =
      (List.replicate m ([Tk.ID, ch '=', Tk.NUM, ch ';'].map YYTRANSLATE)).flatten := by
    intro m
    unfold stmtListCodes
    simp only [List.map_flatten, List.map_replicate]
  refine ⟨?_, ?_⟩
  · cases n with
    | zero => exact arun_accB 40 a4
    | succ n =>
      have hsplit : (stmtListCodes (n + 1)).map YYTRANSLATE =
          [] ++ (List.replicate n ([Tk.ID, ch '=', Tk.NUM, ch ';'].map YYTRANSLATE)).flatten ++
            [Tk.ID, ch '=', Tk.NUM, ch ';'].map YYTRANSLATE := by
        rw [hkinds, List.replicate_succ', List.flatten_append]
        simp only [List.nil_append, List.flatten_cons, List.flatten_nil, List.append_nil]
      rw [hsplit]
      exact AccB.of_family _ _ _ a0
        (fun x hx => by rw [List.eq_of_mem_replicate hx]; exact a1)
        (fun x hx => by rw [List.eq_of_mem_replicate hx]; exact a2) a2 a3
  · rw [hkinds]
    exact clean_replicate c0

/-! ## The actions of a run, on the control view -/

theorem yypeek_ctl (p : Parser) : (yypeek p).ctl = cpeek p.ctl := by
  unfold yypeek cpeek
  simp only
  by_cases he : p.yychar = YYEMPTY
  · have he2 : p.ctl.yychar = YYEMPTY := he
    rw [if_pos he, if_pos he2, ← yylex_ctl]
    generalize yylex p = q
    have : q.ctl.yychar = q.yychar := rfl
    rw [this]
    split <;> rfl
  · have he2 : ¬ p.ctl.yychar = YYEMPTY := he
    rw [if_neg he, if_neg he2]
    have : p.ctl.yychar = p.yychar := rfl
    rw [this]
    split <;> rfl

/-- A reduction announced by `yyreduced` is the one `yybackup` makes. -/
theorem yyreduced_sound (p : Parser) (r : Int) (h : yyreduced p = some r) :
    yybackup p = yyreduce (yyheld p) r := by
  unfold yyreduced at h
  cases hn : rd yypact p.yystate with
  | none => rw [hn] at h; cases h
  | some n =>
    rw [hn] at h
    simp only at h
    have hdef : ∀ q : Parser, yydefaultRule q = some r → yydefault q = yyreduce q r := by
      intro q hq
      unfold yydefaultRule at hq
      unfold yydefault
      cases hd : rd yydefact q.yystate with
      | none => rw [hd] at hq; cases hq
      | some R =>
        rw [hd] at hq
        simp only at hq ⊢
        by_cases h0 : R = 0
        · rw [if_pos h0] at hq; cases hq
        · rw [if_neg h0] at hq
          rw [if_neg h0, Option.some.inj hq]
    by_cases hne : n = YYPACT_NINF
    · rw [if_pos hne] at h
      have hh : yyheld p = p := by
        unfold yyheld; rw [hn]; simp only; rw [if_pos hne]
      rw [hh]
      unfold yybackup
      rw [hn]
      simp only
      rw [if_pos hne]
      exact hdef p h
    · rw [if_neg hne] at h
      have hh : yyheld p = yypeek p := by
        unfold yyheld; rw [hn]; simp only; rw [if_neg hne]
      rw [hh, yybackup_peek p n hn hne]
      by_cases he : (yypeek p).yychar = YYerror
      · rw [if_pos he] at h; cases h
      · rw [if_neg he] at h
        rw [if_neg he]
        unfold yyaction
        simp only
        by_cases hr : n + YYTRANSLATE (yypeek p).yychar < 0 ∨
            YYLAST < n + YYTRANSLATE (yypeek p).yychar
        · rw [if_pos hr] at h
          rw [if_pos hr]
          exact hdef _ h
        · rw [if_neg hr] at h
          rw [if_neg hr]
          cases hc : rd yycheck (n + YYTRANSLATE (yypeek p).yychar) with
          | none => rw [hc] at h; cases h
          | some c =>
            rw [hc] at h
            simp only at h ⊢
            by_cases hct : c ≠ YYTRANSLATE (yypeek p).yychar
            · rw [if_pos hct] at h
              rw [if_pos hct]
              exact hdef _ h
            · rw [if_neg hct] at h
              rw [if_neg hct]
              cases ht : rd yytable (n + YYTRANSLATE (yypeek p).yychar) with
              | none => rw [ht] at h; cases h
              | some v =>
                rw [ht] at h
                simp only at h ⊢
                by_cases hv : v ≤ 0
                · rw [if_pos hv] at h
                  rw [if_pos hv, Option.some.inj h]
                · rw [if_neg hv] at h; cases h

/-- The action of the model is the action of its control view. -/
theorem yyevent_ref (e : Int) (p : Parser) (h : p.WF e) : yyevent p = cevent p.ctl := by
  have hst := h.state_range
  have hh : p.ctl.yyss.headD 0 = p.yystate := h.headD
  have hn : rd yypact p.yystate = some (tget yypact p.yystate) :=
    rd_eq_some hst.1 (by rw [yypact_length]; omega)
  have hd : rd yydefact p.yystate = some (tget yydefact p.yystate) :=
    rd_eq_some hst.1 (by rw [yydefact_length]; omega)
  have hdef : ∀ q : Parser, q.yystate = p.yystate →
      (yydefaultRule q).map Event.reduce =
        (if tget yydefact p.yystate = 0 then none
          else some (Event.reduce (tget yydefact p.yystate))) := by
    intro q hq
    unfold yydefaultRule
    rw [hq, hd]
    simp only
    split <;> rfl
  unfold yyevent yyshifted yyreduced cevent
  rw [hn, hh]
  simp only
  by_cases hne : tget yypact p.yystate = YYPACT_NINF
  · rw [if_pos hne, if_pos hne, if_pos hne]
    exact hdef p rfl
  · rw [if_neg hne, if_neg hne, if_neg hne]
    have hq : (cpeek p.ctl).yychar = (yypeek p).yychar := by
      rw [← yypeek_ctl]; rfl
    rw [hq]
    by_cases he : (yypeek p).yychar = YYerror
    · rw [if_pos he, if_pos he, if_pos he]
      rfl
    · rw [if_neg he, if_neg he, if_neg he]
      have ht := yytranslate_sym (yypeek p).yychar
      have hdq := hdef (yypeek p) (yypeek_stacks p).2.2.2.1
      unfold tshift
      rw [if_neg hne]
      simp only
      by_cases hr : tget yypact p.yystate + YYTRANSLATE (yypeek p).yychar < 0 ∨
          YYLAST < tget yypact p.yystate + YYTRANSLATE (yypeek p).yychar
      · rw [if_pos hr, if_pos hr, if_pos hr]
        exact hdq
      · rw [if_neg hr, if_neg hr, if_neg hr]
        have hi : 0 ≤ tget yypact p.yystate + YYTRANSLATE (yypeek p).yychar ∧
            tget yypact p.yystate + YYTRANSLATE (yypeek p).yychar ≤ 415 := by
          simp only [YYLAST] at hr; omega
        have hc : rd yycheck (tget yypact p.yystate + YYTRANSLATE (yypeek p).yychar) =
            some (tget yycheck (tget yypact p.yystate + YYTRANSLATE (yypeek p).yychar)) :=
          rd_eq_some hi.1 (by rw [yycheck_length]; omega)
        have hb : rd yytable (tget yypact p.yystate + YYTRANSLATE (yypeek p).yychar) =
            some (tget yytable (tget yypact p.yystate + YYTRANSLATE (yypeek p).yychar)) :=
          rd_eq_some hi.1 (by rw [yytable_length]; omega)
        rw [hc, hb]
        simp only
        by_cases hct : tget yycheck (tget yypact p.yystate + YYTRANSLATE (yypeek p).yychar) =
            YYTRANSLATE (yypeek p).yychar
        · have hv := yytable_hit _ hi (by rw [hct]; exact ht.1)
          rw [if_pos ⟨hct, hv⟩, if_neg (not_not_intro hct), if_neg (not_not_intro hct)]
        · rw [if_neg (fun hx => hct hx.1), if_pos hct, if_pos hct]
          exact hdq

theorem yyevents_ref (e : Int) (n : Nat) : ∀ p : Parser, p.WF e → p.ctl.Inv →
    yyevents n p = cevents n p.ctl := by
  induction n with
  | zero => intro p _ _; rfl
  | succ n ih =>
    intro p h hinv
    obtain ⟨h1, -⟩ := yybackup_ref e p h
    unfold yyevents cevents
    rw [← h1, yyevent_ref e p h]
    cases hb : yybackup p with
    | next q =>
      obtain ⟨hw, hi⟩ := yybackup_next e p q h hinv hb
      simp only [Step.ctl]
      rw [ih q hw hi]
    | ret r q => rfl
    | fault q => rfl

theorem yyparseEvents_ref (g : Globals) (toks : List Token) :
    yyparseEvents g toks = cevents (5 * toks.length + 5) (cinit (toks.map Token.code)) := by
  unfold yyparseEvents
  rw [yyinit_step]
  exact yyevents_ref g.yynerrs _ _ (yyinit_wf g toks) (cinit_inv _)

/-! ## Operator precedence -/

/-- A lookup that hits: the action is the shift of the lookahead. -/
theorem yyevent_hit (p : Parser) (n v : Int) (hn : rd yypact p.yystate = some n)
    (hne : n ≠ YYPACT_NINF) (he : (yypeek p).yychar ≠ YYerror)
    (hi : 0 ≤ n + YYTRANSLATE (yypeek p).yychar ∧ n + YYTRANSLATE (yypeek p).yychar ≤ YYLAST)
    (hck : rd yycheck (n + YYTRANSLATE (yypeek p).yychar) =
      some (YYTRANSLATE (yypeek p).yychar))
    (htb : rd yytable (n + YYTRANSLATE (yypeek p).yychar) = some v) (hv : 0 < v) :
    yyshifted p = some (yypeek p).yychar ∧ yyevent p = some (.shift (yypeek p).yychar) := by
  have h1 : yyshifted p = some (yypeek p).yychar := by
    unfold yyshifted
    rw [hn]
    simp only
    rw [if_neg hne, if_neg he, if_neg (by omega), hck, htb]
    simp only [true_and]
    rw [if_pos hv]
  refine ⟨h1, ?_⟩
  unfold yyevent
  rw [h1]

/-- A lookup that misses in a state with a default rule: the action is the reduction by
that rule. -/
theorem yyevent_miss (p : Parser) (n c R : Int) (hn : rd yypact p.yystate = some n)
    (hne : n ≠ YYPACT_NINF) (he : (yypeek p).yychar ≠ YYerror)
    (hi : 0 ≤ n + YYTRANSLATE (yypeek p).yychar ∧ n + YYTRANSLATE (yypeek p).yychar ≤ YYLAST)
    (hck : rd yycheck (n + YYTRANSLATE (yypeek p).yychar) = some c)
    (hc : c ≠ YYTRANSLATE (yypeek p).yychar)
    (hd : rd yydefact p.yystate = some R) (hR : R ≠ 0) :
    yyshifted p = none ∧ yyreduced p = some R ∧ yyevent p = some (.reduce R) ∧
    yybackup p = yyreduce (yypeek p) R := by
  have h1 : yyshifted p = none := by
    unfold yyshifted
    rw [hn]
    simp only
    rw [if_neg hne, if_neg he, if_neg (by omega), hck]
    cases rd yytable (n + YYTRANSLATE (yypeek p).yychar) with
    | none => rfl
    | some v =>
      simp only
      rw [if_neg (fun hx => hc hx.1)]
  have h2 : yyreduced p = some R := by
    unfold yyreduced
    rw [hn]
    simp only
    rw [if_neg hne, if_neg he, if_neg (by omega), hck]
    simp only
    rw [if_pos hc]
    unfold yydefaultRule
    rw [(yypeek_stacks p).2.2.2.1, hd]
    simp only
    rw [if_neg hR]
  have hh : yyheld p = yypeek p := by
    unfold yyheld; rw [hn]; simp only; rw [if_neg hne]
  refine ⟨h1, h2, ?_, ?_⟩
  · unfold yyevent
    rw [h1, h2]
    rfl
  · rw [← hh]
    exact yyreduced_sound p R h2

set_option maxRecDepth 1000000 in
theorem precedence_facts :
    (rd yypact 103 = some (-2) ∧ rd yydefact 103 = some 65 ∧
      rd yyr1 65 = some 72 ∧ rd yyr2 65 = some 3 ∧ rd yyr1 67 = some 72 ∧
      rd yyr2 67 = some 3) ∧
    (∀ x ∈ [(ch '*', (66 : Int)), (ch '/', 67), (ch '%', 68)],
      x.1 ≠ YYerror ∧ 0 < x.1 ∧ x.1 ≠ YYEMPTY ∧
      (0 ≤ -2 + YYTRANSLATE x.1 ∧ -2 + YYTRANSLATE x.1 ≤ YYLAST) ∧
      rd yycheck (-2 + YYTRANSLATE x.1) = some (YYTRANSLATE x.1) ∧
      rd yytable (-2 + YYTRANSLATE x.1) = some x.2 ∧ 0 < x.2) ∧
    (∀ c ∈ [ch '+', ch '-', Tk.EQ, Tk.NEQ, Tk.LE, Tk.GE, Tk.LT, Tk.GT, Tk.AND, Tk.OR],
      c ≠ YYerror ∧ 0 < c ∧
      (0 ≤ -2 + YYTRANSLATE c ∧ -2 + YYTRANSLATE c ≤ YYLAST) ∧
      rd yycheck (-2 + YYTRANSLATE c) = some (tget yycheck (-2 + YYTRANSLATE c)) ∧
      tget yycheck (-2 + YYTRANSLATE c) ≠ YYTRANSLATE c) ∧
    (yypreds 103 = [64] ∧ tgoto 64 (72 - YYNTOKENS) = 103 ∧
      (∀ s ∈ List.range 179, tshift (s : Int) 30 = none ∨ tshift (s : Int) 30 = some 64) ∧
      (∀ s ∈ yypreds 64, tshift s 30 = some 64 ∧ tget yystos s = 72) ∧
      tget yystos 64 = 30 ∧ tget yystos 103 = 72 ∧ YYTRANSLATE (ch '+') = 30) ∧
    (cevents 35 (cinit sumProductCodes) =
        [.reduce 3, .shift Tk.NUM, .reduce 87, .shift (ch '+'), .shift Tk.NUM, .reduce 87,
          .shift (ch '*'), .shift Tk.NUM, .reduce 87, .reduce 67, .reduce 65, .shift (ch ';'),
          .reduce 64, .reduce 12, .reduce 4, .reduce 2, .shift 0] ∧
      (crun 35 (cinit sumProductCodes)).result = some 0 ∧
      (crun 35 (cinit sumProductCodes)).yyerrs = [] ∧
      crun 6 (cinit sumProductCodes) = .next
        { input := [ch '*', Tk.NUM, ch ';'], lexed := 3, yychar := YYEMPTY,
          yyss := [103, 64, 32, 2, 0], yyerrs := [] }) ∧
    (cevents 35 (cinit sumSumCodes) =
        [.reduce 3, .shift Tk.NUM, .reduce 87, .shift (ch '+'), .shift Tk.NUM, .reduce 87,
          .reduce 65, .shift (ch '+'), .shift Tk.NUM, .reduce 87, .reduce 65, .shift (ch ';'),
          .reduce 64, .reduce 12, .reduce 4, .reduce 2, .shift 0] ∧
      (crun 35 (cinit sumSumCodes)).result = some 0 ∧
      (crun 35 (cinit sumSumCodes)).yyerrs = [] ∧
      crun 6 (cinit sumSumCodes) = .next
        { input := [ch '+', Tk.NUM, ch ';'], lexed := 3, yychar := YYEMPTY,
          yyss := [103, 64, 32, 2, 0], yyerrs := [] }) ∧
    ((cpeek { input := [ch '*', Tk.NUM, ch ';'], lexed := 3, yychar := YYEMPTY,
              yyss := [103, 64, 32, 2, 0], yyerrs := [] }).yychar = ch '*' ∧
      (cpeek { input := [ch '+', Tk.NUM, ch ';'], lexed := 3, yychar := YYEMPTY,
               yyss := [103, 64, 32, 2, 0], yyerrs := [] }).yychar = ch '+' ∧
      (cevents 35 (cinit sumProductCodes)).indexOf (.reduce 67) <
        (cevents 35 (cinit sumProductCodes)).indexOf (.reduce 65) ∧
      (cevents 35 (cinit sumSumCodes)).take 8 =
        [.reduce 3, .shift Tk.NUM, .reduce 87, .shift (ch '+'), .shift Tk.NUM, .reduce 87,
          .reduce 65, .shift (ch '+')]) := by
  decide!

set_option linter.constructorNameAsVariable false in
/-- The parser state after `n` actions, from the run of the control view. -/
theorem yyparseFuel_at (g : Globals) (toks : List Token) (codes : List Int) (d : Ctl)
    {n : Nat} (h : toks.map Token.code = codes) (hrun : crun n (cinit codes) = .next d) :
    ∃ p, yyparseFuel n g toks = .next p ∧ p.WF g.yynerrs ∧ p.ctl = d := by
  obtain ⟨h1, h2⟩ := yyparseFuel_ref n g toks
  rw [h, hrun] at h1
  cases hs : yyparseFuel n g toks with
  | next q =>
    rw [hs] at h1 h2
    simp only [Step.ctl, CStep.next.injEq] at h1
    exact ⟨q, rfl, h2, h1⟩
  | ret r q => rw [hs] at h1; simp [Step.ctl] at h1
  | fault q => rw [hs] at h1; simp [Step.ctl] at h1

/-! ## The last action of a run -/

theorem yyloop_succ (n : Nat) : ∀ p : Parser,
    yyloop (n + 1) p = match yyloop n p with
      | .next q => yybackup q
      | r => r := by
  induction n with
  | zero =>
    intro p
    simp only [yyloop]
    cases yybackup p <;> rfl
  | succ n ih =>
    intro p
    rw [yyloop]
    cases hb : yybackup p with
    | next q =>
      simp only
      rw [ih q]
      conv_rhs => rw [yyloop, hb]
    | ret r q =>
      simp only
      conv_rhs => rw [yyloop, hb]
    | fault q =>
      simp only
      conv_rhs => rw [yyloop, hb]

set_option linter.constructorNameAsVariable false in
/-- The action that ends the parse in a reachable state gives the result of `yyparse`. -/
theorem yyparse_of_step (g : Globals) (toks : List Token) (n : Nat) (p : Parser)
    (hp : yyparseFuel n g toks = .next p) (r : Int) (q : Parser)
    (hb : yybackup p = .ret r q) : yyparse g toks = .ret r q := by
  have hfuel : ∀ k, yyparseFuel k g toks = yyloop k (yyinit g toks) := by
    intro k
    unfold yyparseFuel
    rw [yyinit_step]
  have h1 : yyloop (n + 1) (yyinit g toks) = .ret r q := by
    rw [yyloop_succ, ← hfuel, hp]
    exact hb
  obtain ⟨r2, q2, hq2, -⟩ := yyparse_final g toks
  have h2 : yyloop (5 * toks.length + 5) (yyinit g toks) = .ret r2 q2 := by
    rw [← hfuel]; exact hq2
  have h3 := yyloop_mono _ (max (n + 1) (5 * toks.length + 5)) (le_max_left _ _) _ r q h1
  have h4 := yyloop_mono _ (max (n + 1) (5 * toks.length + 5)) (le_max_right _ _) _ r2 q2 h2
  rw [h3] at h4
  rw [hq2, ← h4]

/-- An action that ends the parse with result 1 leaves state 0 alone on the stack. -/
theorem yybackup_floor (e : Int) (p : Parser) (h : p.WF e) (hinv : p.ctl.Inv) :
    (yybackup p).result = some 1 → (yybackup p).parser.yyss = [0] ∧
      (yybackup p).parser.yyvs.length = 1 := by
  have hlast := hinv.path.last_zero
  have hpar := h.par
  have hne : 0 < p.yyss.length := List.length_pos.2 hinv.path.ne_nil
  refine yybackup_elim e p h hinv (fun s => s.result = some 1 → s.parser.yyss = [0] ∧
      s.parser.yyvs.length = 1) ?_ ?_ ?_
  · intro s v _ _ _ _ _ _ _ _ _ _ _ _ hres _ h1
    rw [h1] at hres; split_ifs at hres <;> cases hres
  · intro s R gs val _ _ _ _ _ _ _ _ _ _ _ _ _ hres _ h1
    rw [h1] at hres; split_ifs at hres; cases hres
  · intro q _ h1 h2 _ _ _ _ _ _
    simp only [Step.parser]
    refine ⟨by rw [h1]; exact drop_to_last _ _ hlast, ?_⟩
    rw [h2, List.length_drop]
    omega

/-- A parse that returns 1 has popped both stacks to their bottom cell. -/
theorem yyparse_floor (g : Globals) (toks : List Token)
    (h : (yyparse g toks).result = some 1) :
    (yyparse g toks).parser.yyss = [0] ∧ (yyparse g toks).parser.yyvs.length = 1 := by
  obtain ⟨r, q, hq, -⟩ := yyparse_final g toks
  obtain ⟨m, p, hp, hb⟩ := yyparse_last g toks r q hq
  obtain ⟨hwf, hinv⟩ := yyparseFuel_state g toks m p hp
  have := yybackup_floor g.yynerrs p hwf hinv
  rw [hb] at this
  rw [hq] at h ⊢
  exact this h

/-- An action on a reachable state leaves 10000 cells on the state stack exactly when it
ends the parse with result 2; a shift always pushes one cell. -/
theorem yybackup_full (e : Int) (p : Parser) (h : p.WF e) (hinv : p.ctl.Inv) :
    (((yybackup p).parser.yyss.length : Int) = YYMAXDEPTH ↔ (yybackup p).result = some 2) ∧
    (∀ c, yyshifted p = some c → (yybackup p).parser.yyss.length = p.yyss.length + 1) := by
  have hcap := h.cap
  have hlim := h.lim
  have hne : 0 < p.yyss.length := List.length_pos.2 hinv.path.ne_nil
  refine yybackup_elim e p h hinv (fun s =>
    (((s.parser.yyss.length : Int) = YYMAXDEPTH ↔ s.result = some 2) ∧
    (∀ c, yyshifted p = some c → s.parser.yyss.length = p.yyss.length + 1))) ?_ ?_ ?_
  · intro s v _ _ hs h1 _ _ _ _ _ _ _ hsz hres _
    have hl : s.parser.yyss.length = p.yyss.length + 1 := by rw [h1]; rfl
    refine ⟨?_, fun _ _ => hl⟩
    rw [hres]
    simp only [YYMAXDEPTH] at hlim ⊢
    rw [hl]
    push_cast
    constructor
    · intro h10
      rw [if_pos ⟨by omega, by omega⟩]
    · intro h2
      split_ifs at h2 with ha hb
      · omega
      · cases h2
  · intro s R gs val hs hd hr hlen _ h1 _ _ _ _ _ _ hsz hres _
    have hl : s.parser.yyss.length = p.yyss.length - (tget yyr2 R).toNat + 1 := by
      rw [h1]; simp only [List.length_cons, List.length_drop]
    refine ⟨?_, fun c hc => (by rw [hs] at hc; cases hc)⟩
    rw [hres]
    simp only [YYMAXDEPTH] at hlim ⊢
    rw [hl]
    constructor
    · intro h10
      rw [if_pos ⟨by omega, by omega⟩]
    · intro h2
      split_ifs at h2 with ha
      omega
  · intro q hs h1 _ _ _ _ _ _
    simp only [Step.parser, Step.result]
    have hl : q.yyss.length = 1 := by
      rw [h1, List.length_drop]; omega
    refine ⟨?_, fun c hc => (by rw [hs] at hc; cases hc)⟩
    rw [hl]
    simp [YYMAXDEPTH]

/-- How a parse ends with exhaustion: with 10000 cells on the state stack, exactly then, and
with the one report of it and `yynerrs` as on entry. -/
theorem yyparse_two (g : Globals) (toks : List Token) (r : Int) (q : Parser)
    (hq : yyparse g toks = .ret r q) :
    ((q.yyss.length : Int) = YYMAXDEPTH ↔ r = 2) ∧
    (r = 2 → q.yyerrs = [{ msg := "memory exhausted", lexed := q.lexed, held := q.yychar }] ∧
      q.yynerrs = g.yynerrs) := by
  obtain ⟨r', q', hq', hfin, hcnt, -⟩ := yyparse_final g toks
  rw [hq] at hq'
  simp only [Step.ret.injEq] at hq'
  obtain ⟨rfl, rfl⟩ := hq'
  have hl : q.ctl.yyss.length = q.yyss.length := rfl
  have he : q.ctl.yyerrs = q.yyerrs := rfl
  simp only [Ctl.Final, YYMAXDEPTH, YYFINAL] at hfin
  simp only [YYMAXDEPTH]
  rcases hfin with h | h | h
  · obtain ⟨h0, -, -, hlen⟩ := h
    rw [hl] at hlen
    constructor
    · constructor <;> intro <;> omega
    · intro; omega
  · obtain ⟨h0, hlen, -⟩ := h
    rw [hl] at hlen
    constructor
    · constructor <;> intro <;> omega
    · intro; omega
  · obtain ⟨h0, hlen, herr⟩ := h
    rw [hl] at hlen
    rw [he] at herr
    refine ⟨⟨fun _ => h0, fun _ => hlen⟩, fun _ => ⟨herr, ?_⟩⟩
    rw [hcnt, herr]
    exact counted_zero _ _ (by simp [errCount])

set_option linter.constructorNameAsVariable false in
/-- An action of a run that returns 2 ends the parse: its outcome is the outcome of
`yyparse`. -/
theorem yybackup_two (g : Globals) (toks : List Token) (n : Nat) (p : Parser)
    (hp : yyparseFuel n g toks = .next p) (h2 : (yybackup p).result = some 2) :
    yyparse g toks = yybackup p ∧
    (yybackup p).parser.yyerrs =
      [{ msg := "memory exhausted", lexed := (yybackup p).parser.lexed,
         held := (yybackup p).parser.yychar }] ∧
    (yybackup p).parser.yynerrs = g.yynerrs := by
  cases hb : yybackup p with
  | next q => rw [hb] at h2; cases h2
  | fault q => rw [hb] at h2; cases h2
  | ret r q =>
    rw [hb] at h2
    simp only [Step.result, Option.some.injEq] at h2
    subst h2
    have hq := yyparse_of_step g toks n p hp 2 q hb
    exact ⟨hq, (yyparse_two g toks 2 q hq).2 rfl⟩

set_option linter.constructorNameAsVariable false in
theorem yyparse_two_full (g : Globals) (toks : List Token)
    (h2 : (yyparse g toks).result = some 2) :
    ((yyparse g toks).parser.yyss.length : Int) = YYMAXDEPTH := by
  cases hb : yyparse g toks with
  | next q => rw [hb] at h2; cases h2
  | fault q => rw [hb] at h2; cases h2
  | ret r q =>
    rw [hb] at h2
    simp only [Step.result, Option.some.injEq] at h2
    subst h2
    exact (yyparse_two g toks 2 q hb).1.2 rfl

theorem cpush_late (l : Nat) (c d : Ctl) (v : Int) (h : cpush c v = .next d) :
    cpush (c.late l) v = .next (d.late l) := by
  unfold cpush at h ⊢
  simp only [Ctl.late] at h ⊢
  split at h
  · cases h
  · rename_i h1
    split at h
    · cases h
    · rename_i h2
      rw [if_neg h1, if_neg h2]
      simp only [CStep.next.injEq] at h
      subst h
      rfl

theorem cdefault_late (l : Nat) (c d : Ctl) (h : cdefault c = .next d) :
    cdefault (c.late l) = .next (d.late l) := by
  unfold cdefault at h ⊢
  have hss : (c.late l).yyss = c.yyss := rfl
  simp only [hss] at h ⊢
  split at h
  · cases h
  · rename_i h1
    rw [if_neg h1]
    unfold creduce at h ⊢
    simp only [hss] at h ⊢
    split at h
    · cases h
    · rename_i h2
      rw [if_neg h2]
      exact cpush_late l _ d _ h

theorem cact_late (l : Nat) (c d : Ctl) (t : Int) (h : cact c t = .next d) :
    cact (c.late l) t = .next (d.late l) := by
  unfold cact at h ⊢
  have hss : (c.late l).yyss = c.yyss := rfl
  rw [hss]
  cases hs : tshift (c.yyss.headD 0) t with
  | none =>
    rw [hs] at h
    exact cdefault_late l c d h
  | some v =>
    rw [hs] at h
    exact cpush_late l { c with yychar := YYEMPTY } d v h

theorem cpeek_late (l : Nat) (c : Ctl) : cpeek (c.late l) = (cpeek c).late l := by
  unfold cpeek clex
  simp only [Ctl.late]
  by_cases hc : c.yychar = YYEMPTY
  · simp only [hc, if_true]
    cases c.input with
    | nil => simp only; split <;> rfl
    | cons a rest => simp only; split <;> rfl
  · simp only [hc, if_false]
    split <;> rfl

/-- An action that continues does not depend on the number of calls of the lexer made
before it. -/
theorem cstep_late (l : Nat) (c d : Ctl) (h : cstep c = .next d) :
    cstep (c.late l) = .next (d.late l) := by
  rw [cstep_eq] at h ⊢
  have hss : (c.late l).yyss = c.yyss := rfl
  rw [hss, cpeek_late]
  split at h
  · rename_i h1
    rw [if_pos h1]
    exact cdefault_late l c d h
  · rename_i h1
    rw [if_neg h1]
    have hy : ((cpeek c).late l).yychar = (cpeek c).yychar := rfl
    rw [hy]
    split at h
    · cases h
    · rename_i h2
      rw [if_neg h2]
      exact cact_late l _ d _ h

theorem crun_late (l : Nat) (k : Nat) : ∀ c d : Ctl, crun k c = .next d →
    crun k (c.late l) = .next (d.late l) := by
  induction k with
  | zero =>
    intro c d h
    simp only [crun, CStep.next.injEq] at h
    subst h
    rfl
  | succ k ih =>
    intro c d h
    unfold crun at h ⊢
    cases hs : cstep c with
    | next e =>
      rw [hs] at h
      rw [cstep_late l c e hs]
      exact ih e d h
    | ret r e => rw [hs] at h; cases h
    | fault => rw [hs] at h; cases h

/-- A run on the codes `chunk` alone that stops for lack of input is a run on `chunk`
followed by anything, after any number of earlier tokens. -/
theorem eats_of_feed (chunk : List Int) {S S2 : List Int} (n : Nat)
    (h : cfeed n { input := chunk, lexed := 0, yychar := YYEMPTY, yyss := S, yyerrs := [] } =
      some { input := [], lexed := chunk.length, yychar := YYEMPTY, yyss := S2,
             yyerrs := [] }) : Eats chunk S S2 := by
  intro l X
  obtain ⟨-, k, hk⟩ := cfeed_run X n _ _ h
  exact ⟨k, crun_late l k _ _ hk⟩

theorem eats_nil (S : List Int) : Eats [] S S := fun _ _ => ⟨0, rfl⟩

theorem eats_trans {c1 c2 S S2 S3 : List Int} (h1 : Eats c1 S S2) (h2 : Eats c2 S2 S3) :
    Eats (c1 ++ c2) S S3 := by
  intro l X
  obtain ⟨k1, e1⟩ := h1 l (c2 ++ X)
  obtain ⟨k2, e2⟩ := h2 (l + c1.length) X
  refine ⟨k1 + k2, ?_⟩
  rw [crun_split, List.append_assoc, e1]
  simp only
  rw [e2, List.length_append, Nat.add_assoc]

set_option maxRecDepth 1000000 in
theorem dim_facts :
    (cfeed 10 { input := [Tk.INT, Tk.ID], lexed := 0, yychar := YYEMPTY, yyss := [0],
                yyerrs := [] } =
        some { input := [], lexed := 2, yychar := YYEMPTY, yyss := [53, 24, 2, 0],
               yyerrs := [] }) ∧
    (∀ B ∈ [[24, 2, 0], [94, 54, 24, 2, 0]],
      cfeed 10 { input := [ch '[', Tk.NUM, ch ']'], lexed := 0, yychar := YYEMPTY,
                 yyss := 53 :: B, yyerrs := [] } =
        some { input := [], lexed := 3, yychar := YYEMPTY, yyss := 92 :: 53 :: B,
               yyerrs := [] } ∧
      cfeed 10 { input := [ch '[', Tk.NUM, ch ']'], lexed := 0, yychar := YYEMPTY,
                 yyss := 92 :: 53 :: B, yyerrs := [] } =
        some { input := [], lexed := 3, yychar := YYEMPTY, yyss := 92 :: 53 :: B,
               yyerrs := [] } ∧
      cfeed 10 { input := [ch ',', Tk.ID], lexed := 0, yychar := YYEMPTY,
                 yyss := 53 :: B, yyerrs := [] } =
        some { input := [], lexed := 2, yychar := YYEMPTY, yyss := [53, 94, 54, 24, 2, 0],
               yyerrs := [] } ∧
      cfeed 10 { input := [ch ',', Tk.ID], lexed := 0, yychar := YYEMPTY,
                 yyss := 92 :: 53 :: B, yyerrs := [] } =
        some { input := [], lexed := 2, yychar := YYEMPTY, yyss := [53, 94, 54, 24, 2, 0],
               yyerrs := [] } ∧
      cfeed 10 { input := [ch '['], lexed := 0, yychar := YYEMPTY,
                 yyss := 53 :: B, yyerrs := [] } =
        some { input := [], lexed := 1, yychar := YYEMPTY, yyss := 91 :: 53 :: B,
               yyerrs := [] } ∧
      cfeed 10 { input := [ch '['], lexed := 0, yychar := YYEMPTY,
                 yyss := 92 :: 53 :: B, yyerrs := [] } =
        some { input := [], lexed := 1, yychar := YYEMPTY, yyss := 124 :: 92 :: 53 :: B,
               yyerrs := [] }) ∧
    (∀ s ∈ [(91 : Int), 124],
      tget yypact s ≠ YYPACT_NINF ∧ tget yydefact s = 0 ∧
      (∀ t ∈ List.range 47, (t : Int) ≠ 4 → tshift s (t : Int) = none)) ∧
    (∀ c ∈ List.range 286, YYTRANSLATE (c : Int) = 4 → (c : Int) = Tk.NUM) := by
  decide!
/-- Only the code of `NUM` is translated to symbol 4. -/
theorem translate_num {c : Int} (h : YYTRANSLATE c = 4) : c = Tk.NUM := by
  by_cases hr : 0 ≤ c ∧ c ≤ YYMAXUTOK
  · exact int_of_range (P := fun c => YYTRANSLATE c = 4 → c = Tk.NUM) dim_facts.2.2.2 c hr.1
      (by have := hr.2; simp only [YYMAXUTOK] at this; push_cast; omega) h
  · unfold YYTRANSLATE at h
    rw [if_neg hr] at h
    simp [YYSYMBOL_YYUNDEF] at h

theorem dimCodes_succ (j : Nat) :
    dimCodes (j + 1) = dimCodes j ++ [ch '[', Tk.NUM, ch ']'] := by
  unfold dimCodes
  rw [List.replicate_succ', List.flatten_append]
  simp

/-- One or more complete dimensions after the identifier of a declarator. -/
theorem dims_eats {B : List Int} (hB : B ∈ [[24, 2, 0], [94, 54, 24, 2, 0]]) (j : Nat) :
    Eats (dimCodes (j + 1)) (53 :: B) (92 :: 53 :: B) := by
  obtain ⟨f1, f2, -⟩ := dim_facts.2.1 B hB
  induction j with
  | zero =>
    have h := eats_of_feed [ch '[', Tk.NUM, ch ']'] 10 f1
    simpa [dimCodes] using h
  | succ j ih =>
    rw [dimCodes_succ]
    exact eats_trans ih (eats_of_feed [ch '[', Tk.NUM, ch ']'] 10 f2)

/-- A declarator with `k` dimensions and the comma and identifier after it. -/
theorem decl_eats {B : List Int} (hB : B ∈ [[24, 2, 0], [94, 54, 24, 2, 0]]) (k : Nat) :
    Eats (dimCodes k ++ [ch ',', Tk.ID]) (53 :: B) [53, 94, 54, 24, 2, 0] := by
  obtain ⟨-, -, f3, f4, -⟩ := dim_facts.2.1 B hB
  cases k with
  | zero =>
    have h := eats_of_feed [ch ',', Tk.ID] 10 f3
    simpa [dimCodes] using h
  | succ k => exact eats_trans (dims_eats hB k) (eats_of_feed [ch ',', Tk.ID] 10 f4)

/-- Any number of declarators, each followed by a comma and the next identifier. -/
theorem decls_eats (ks : List Nat) : ∀ {B : List Int}, B ∈ [[24, 2, 0], [94, 54, 24, 2, 0]] →
    ∃ B2 ∈ [[24, 2, 0], [94, 54, 24, 2, 0]],
      Eats (ks.map (fun k => dimCodes k ++ [ch ',', Tk.ID])).flatten (53 :: B) (53 :: B2) := by
  induction ks with
  | nil => intro B hB; exact ⟨B, hB, eats_nil _⟩
  | cons k ks ih =>
    intro B hB
    obtain ⟨B2, hB2, h2⟩ := ih (B := [94, 54, 24, 2, 0]) (by simp)
    refine ⟨B2, hB2, ?_⟩
    rw [List.map_cons, List.flatten_cons]
    exact eats_trans (decl_eats hB k) h2

/-- The last declarator up to the opening bracket of a dimension: the parser is then in
state 91 or 124, where only `NUM` can be shifted. -/
theorem open_eats {B : List Int} (hB : B ∈ [[24, 2, 0], [94, 54, 24, 2, 0]]) (j : Nat) :
    ∃ T : List Int, T.headD 0 ∈ [(91 : Int), 124] ∧
      Eats (dimCodes j ++ [ch '[']) (53 :: B) T := by
  obtain ⟨-, -, -, -, f5, f6⟩ := dim_facts.2.1 B hB
  cases j with
  | zero =>
    refine ⟨91 :: 53 :: B, by simp, ?_⟩
    have h := eats_of_feed [ch '['] 10 f5
    simpa [dimCodes] using h
  | succ j =>
    exact ⟨124 :: 92 :: 53 :: B, by simp,
      eats_trans (dims_eats hB j) (eats_of_feed [ch '['] 10 f6)⟩

theorem dimPrefix_eats (ks : List Nat) (j : Nat) :
    ∃ T : List Int, T.headD 0 ∈ [(91 : Int), 124] ∧ Eats (dimPrefix ks j) [0] T := by
  obtain ⟨B, hB, h1⟩ := decls_eats ks (B := [24, 2, 0]) (by simp)
  obtain ⟨T, hT, h2⟩ := open_eats hB j
  refine ⟨T, hT, ?_⟩
  have h0 := eats_of_feed [Tk.INT, Tk.ID] 10 dim_facts.1
  have := eats_trans (eats_trans h0 h1) h2
  unfold dimPrefix
  rw [List.append_assoc ([Tk.INT, Tk.ID] ++ _)]
  exact this

/-- The action on the error token in a state that consults the lookahead: it is fetched and
the parse is aborted without a report. -/
theorem cstep_silent {c : Ctl} {w : List Int} (hin : c.input = YYerror :: w)
    (hc : c.yychar = YYEMPTY) (hp : tget yypact (c.yyss.headD 0) ≠ YYPACT_NINF) :
    cstep c = .ret 1 {
      input := w
      lexed := c.lexed + 1
      yychar := YYUNDEF
      yyss := c.yyss.drop (c.yyss.length - 1)
      yyerrs := c.yyerrs } := by
  have hpk : cpeek c = { c with input := w, lexed := c.lexed + 1, yychar := YYerror } := by
    unfold cpeek clex
    simp only [hc, if_true, hin]
    simp [YYerror, YYEOF]
  rw [cstep_eq, if_neg hp, hpk]
  simp only [if_true]
  rfl

/-- A dimension that does not start with `NUM`, in any dimension of any declarator of a
declaration: the parse is aborted at the token after the bracket, with one report, or with
none when this token is the error token. -/
theorem yyparse_dim (g : Globals) (ks : List Nat) (j : Nat) (c : Int) (rest : List Int)
    (toks : List Token) (hc : c ≠ Tk.NUM)
    (h : toks.map Token.code = dimPrefix ks j ++ c :: rest) :
    (yyparse g toks).result = some 1 ∧
    (c ≠ YYerror →
      (yyparse g toks).parser.yyerrs =
        [{ msg := "syntax error", lexed := (dimPrefix ks j).length + 1, held := hold c }] ∧
      (yyparse g toks).parser.yynerrs = wrapInt (g.yynerrs + 1)) ∧
    (c = YYerror →
      (yyparse g toks).parser.yyerrs = [] ∧ (yyparse g toks).parser.yynerrs = g.yynerrs) := by
  obtain ⟨T, hT, he⟩ := dimPrefix_eats ks j
  obtain ⟨k, hk⟩ := he 0 (c :: rest)
  rw [Nat.zero_add] at hk
  have hf : tget yypact (T.headD 0) ≠ YYPACT_NINF ∧ tget yydefact (T.headD 0) = 0 ∧
      (∀ t ∈ List.range 47, (t : Int) ≠ 4 → tshift (T.headD 0) (t : Int) = none) :=
    dim_facts.2.2.1 _ hT
  by_cases h256 : c = YYerror
  · subst h256
    have hst := cstep_silent (c := ⟨YYerror :: rest, (dimPrefix ks j).length, YYEMPTY, T, []⟩)
      (w := rest) rfl rfl hf.1
    have hfin := yyparse_of_run g toks _ h (crun_then hk hst)
    simp only at hfin
    refine ⟨hfin.1, fun hne => absurd rfl hne, fun _ => ⟨hfin.2.1, ?_⟩⟩
    rw [hfin.2.2, counted_nil]
  · have hst := cstep_reject (c := ⟨c :: rest, (dimPrefix ks j).length, YYEMPTY, T, []⟩)
      (a := c) (w := rest) rfl rfl hf.1 h256
      (by
        have hs := yytranslate_sym (hold c)
        have hne : YYTRANSLATE (hold c) ≠ 4 := by
          intro h4
          have := translate_num h4
          unfold hold at this
          split at this
          · simp [YYEOF, Tk.NUM] at this
          · exact hc this
        exact int_of_range (P := fun t => t ≠ 4 → tshift (T.headD 0) t = none) hf.2.2 _ hs.1
          (by simpa using hs.2) hne)
      hf.2.1
    have hfin := yyparse_of_run g toks _ h (crun_then hk hst)
    simp only [List.nil_append] at hfin
    refine ⟨hfin.1, fun _ => ⟨hfin.2.1, ?_⟩, fun he => absurd he h256⟩
    rw [hfin.2.2]
    exact counted_one _ _ (by simp [errCount])

/-! ## The error counter at `INT_MAX` -/

set_option linter.constructorNameAsVariable false in
theorem Step.ctl_ret {s : Step} {r : Int} {d : Ctl} (h : s.ctl = .ret r d) :
    ∃ q, s = .ret r q ∧ q.ctl = d := by
  cases s with
  | next q => simp [Step.ctl] at h
  | fault q => simp [Step.ctl] at h
  | ret r2 q =>
    simp only [Step.ctl, CStep.ret.injEq] at h
    exact ⟨q, by rw [h.1], h.2⟩

/-- The action on a lookahead that the top state neither shifts nor reduces on. -/
theorem cstep_refuse {c : Ctl} (hp : tget yypact (c.yyss.headD 0) ≠ YYPACT_NINF)
    (hne : (cpeek c).yychar ≠ YYerror)
    (hsh : tshift (c.yyss.headD 0) (YYTRANSLATE (cpeek c).yychar) = none)
    (hr : tget yydefact (c.yyss.headD 0) = 0) :
    cstep c = cabort (creport (cpeek c) "syntax error") := by
  have hss : (cpeek c).yyss = c.yyss := cpeek_yyss c
  rw [cstep_eq, if_neg hp, if_neg hne]
  unfold cact
  rw [hss, hsh]
  simp only
  unfold cdefault
  rw [hss]
  simp only
  rw [if_pos hr]

/-- The action on the error token as lookahead. -/
theorem cstep_hush {c : Ctl} (hp : tget yypact (c.yyss.headD 0) ≠ YYPACT_NINF)
    (he : (cpeek c).yychar = YYerror) :
    cstep c = cabort { cpeek c with yychar := YYUNDEF } := by
  rw [cstep_eq, if_neg hp, if_pos he]

set_option maxRecDepth 1000000 in
theorem dimState_facts :
    (∀ s ∈ List.range 179, ∀ t ∈ List.range 47,
      (tshift (s : Int) (t : Int) = some 91 ↔ (s = 53 ∧ t = 39)) ∧
      (tshift (s : Int) (t : Int) = some 124 ↔ (s = 92 ∧ t = 39))) ∧
    (∀ e ∈ List.range 179, ∀ a ∈ List.range 27,
      tgoto (e : Int) (a : Int) ≠ 91 ∧ tgoto (e : Int) (a : Int) ≠ 124) ∧
    YYTRANSLATE (ch '[') = 39 ∧ YYTRANSLATE Tk.NUM = 4 := by
  decide!

/-- In the states entered by the opening bracket of a dimension, 91 and 124, a lookahead
other than `NUM` ends the parse: with one report of it or, for the error token, with
none. -/
theorem yyparse_dimState (g : Globals) (toks : List Token) (n : Nat) (p : Parser)
    (hp : yyparseFuel n g toks = .next p) (hs : p.yystate = 91 ∨ p.yystate = 124)
    (hc : (yypeek p).yychar ≠ Tk.NUM) :
    (yyparse g toks).result = some 1 ∧
    ((yypeek p).yychar ≠ YYerror →
      (yyparse g toks).parser.yyerrs =
        [{ msg := "syntax error", lexed := (yypeek p).lexed, held := (yypeek p).yychar }] ∧
      (yyparse g toks).parser.yynerrs = wrapInt (g.yynerrs + 1)) ∧
    ((yypeek p).yychar = YYerror →
      (yyparse g toks).parser.yyerrs = [] ∧ (yyparse g toks).parser.yynerrs = g.yynerrs) := by
  obtain ⟨hwf, hinv⟩ := yyparseFuel_state g toks n p hp
  have hh : p.ctl.yyss.headD 0 = p.yystate := hwf.headD
  have hmem : p.ctl.yyss.headD 0 ∈ [(91 : Int), 124] := by
    rw [hh]; rcases hs with h | h <;> simp [h]
  obtain ⟨f1, f2, f3⟩ := dim_facts.2.2.1 _ hmem
  have hq0 : p.yyerrs = [] := hinv.quiet
  have hpk : (yypeek p).ctl = cpeek p.ctl := yypeek_ctl p
  have hy : (cpeek p.ctl).yychar = (yypeek p).yychar := by rw [← hpk]; rfl
  have hl : (cpeek p.ctl).lexed = (yypeek p).lexed := by rw [← hpk]; rfl
  have he : (cpeek p.ctl).yyerrs = [] := by rw [cpeek_yyerrs]; exact hq0
  have href := (yybackup_ref g.yynerrs p hwf).1
  have fin : ∀ (d : Ctl), cstep p.ctl = .ret 1 d →
      (yyparse g toks).result = some 1 ∧ (yyparse g toks).parser.yyerrs = d.yyerrs ∧
      (yyparse g toks).parser.yynerrs = counted g.yynerrs d.yyerrs := by
    intro d hd
    rw [hd] at href
    obtain ⟨q, hq, hqd⟩ := Step.ctl_ret href
    have hfinal := yyparse_of_step g toks n p hp 1 q hq
    obtain ⟨r2, q2, hq2, -, hcnt, -⟩ := yyparse_final g toks
    rw [hfinal] at hq2
    simp only [Step.ret.injEq] at hq2
    obtain ⟨-, rfl⟩ := hq2
    rw [hfinal]
    have : q.yyerrs = d.yyerrs := by rw [← hqd]; rfl
    exact ⟨rfl, this, by rw [← this]; exact hcnt⟩
  by_cases h256 : (yypeek p).yychar = YYerror
  · have hst := cstep_hush (c := p.ctl) f1 (by rw [hy]; exact h256)
    obtain ⟨h1, h2, h3⟩ := fin _ hst
    simp only [he] at h2 h3
    exact ⟨h1, fun hne => absurd h256 hne, fun _ => ⟨h2, by rw [h3, counted_nil]⟩⟩
  · have hst := cstep_refuse (c := p.ctl) f1 (by rw [hy]; exact h256)
      (by
        rw [hy]
        have hsym := yytranslate_sym (yypeek p).yychar
        have hne : YYTRANSLATE (yypeek p).yychar ≠ 4 := fun h4 => hc (translate_num h4)
        exact int_of_range (P := fun t => t ≠ 4 → tshift (p.ctl.yyss.headD 0) t = none) f3 _
          hsym.1 (by simpa using hsym.2) hne)
      f2
    obtain ⟨h1, h2, h3⟩ := fin _ hst
    simp only [cabort, creport, he, hy, hl, List.nil_append] at h2 h3
    refine ⟨h1, fun _ => ⟨h2, ?_⟩, fun h => absurd h h256⟩
    rw [h3]
    exact counted_one _ _ (by simp [errCount])

set_option maxRecDepth 1000000 in
theorem declAssign_run :
    (crun (5 * declAssignCodes.length + 5) (cinit declAssignCodes)).result = some 0 ∧
    (crun (5 * declAssignCodes.length + 5) (cinit declAssignCodes)).yyerrs = [] := by decide!

/-- C2: on the token sequence of `int a, b; a = 1 + 2 * (3 - 1);`, whatever semantic values
the lexer attaches and whatever the globals held, `yyparse` returns 0, makes no report and
leaves `yynerrs` unchanged. -/
theorem yyparse_declAssign (g : Globals) (toks : List Token)
    (h : toks.map Token.code = declAssignCodes) :
    (yyparse g toks).result = some 0 ∧ (yyparse g toks).parser.yyerrs = [] ∧
      (yyparse g toks).parser.yynerrs = g.yynerrs := by
  have := yyparse_eval g toks _ h 0 [] declAssign_run
  simpa [counted_nil] using this

theorem yyparse_declAssign_witness :
    (declAssignCodes.map tok).map Token.code = declAssignCodes ∧
    (yyparse ⟨0, 0, 0⟩ (declAssignCodes.map tok)).result = some 0 ∧
    (yyparse ⟨0, 0, 0⟩ (declAssignCodes.map tok)).parser.yyerrs = [] ∧
    (yyparse ⟨0, 0, 0⟩ (declAssignCodes.map tok)).parser.yynerrs = 0 :=
  ⟨by decide, yyparse_declAssign ⟨0, 0, 0⟩ (declAssignCodes.map tok) (by decide)⟩

set_option maxRecDepth 1000000 in
theorem missingParen_run :
    (crun (5 * missingParenCodes.length + 5) (cinit missingParenCodes)).result = some 1 ∧
    (crun (5 * missingParenCodes.length + 5) (cinit missingParenCodes)).yyerrs =
      [{ msg := "syntax error", lexed := 6, held := ch '{' }] := by decide!

/-- C3: on the token sequence of `if (a > b { a = 1; }` the parser makes exactly one report,
a syntax error raised while the sixth token `{` is the held lookahead, counts one error in
`yynerrs` (one execution of `++yynerrs`, which adds 1 to every `int` below `INT_MAX`), and
returns 1; the run reaches `yyreturnlab`, so no table or stack cell was accessed out of
range (that would end the run in `Step.fault`). -/
theorem yyparse_missingParen (g : Globals) (toks : List Token)
    (h : toks.map Token.code = missingParenCodes) :
    (yyparse g toks).result = some 1 ∧
      (yyparse g toks).parser.yyerrs = [{ msg := "syntax error", lexed := 6, held := ch '{' }] ∧
      (yyparse g toks).parser.yynerrs = wrapInt (g.yynerrs + 1) ∧
      (-2147483648 ≤ g.yynerrs → g.yynerrs < 2147483647 →
        (yyparse g toks).parser.yynerrs = g.yynerrs + 1) := by
  have := yyparse_eval g toks _ h 1 _ missingParen_run
  have hn : (yyparse g toks).parser.yynerrs = wrapInt (g.yynerrs + 1) := by
    rw [this.2.2]; exact counted_one _ _ (by simp [errCount])
  refine ⟨this.1, this.2.1, hn, ?_⟩
  intro h0 h1
  rw [hn, wrapInt_next _ h0 h1]

theorem yyparse_missingParen_witness :
    (missingParenCodes.map tok).map Token.code = missingParenCodes ∧
    (yyparse ⟨0, 0, 0⟩ (missingParenCodes.map tok)).result = some 1 ∧
    (yyparse ⟨0, 0, 0⟩ (missingParenCodes.map tok)).parser.yyerrs =
      [{ msg := "syntax error", lexed := 6, held := ch '{' }] ∧
    (yyparse ⟨0, 0, 0⟩ (missingParenCodes.map tok)).parser.yynerrs = 0 + 1 :=
  have h := yyparse_missingParen ⟨0, 0, 0⟩ (missingParenCodes.map tok) (by decide)
  ⟨by decide, h.1, h.2.1, h.2.2.2 (by decide) (by decide)⟩

set_option maxRecDepth 1000000 in
theorem doWhile_run :
    (crun (5 * doWhileCodes.length + 5) (cinit doWhileCodes)).result = some 0 ∧
    (crun (5 * doWhileCodes.length + 5) (cinit doWhileCodes)).yyerrs = [] := by decide!

/-- C4: on the token sequence of `do { a = a + 1; } while (a <= 100);` the parser returns 0,
makes no report and leaves `yynerrs` unchanged. -/
theorem yyparse_doWhile (g : Globals) (toks : List Token)
    (h : toks.map Token.code = doWhileCodes) :
    (yyparse g toks).result = some 0 ∧ (yyparse g toks).parser.yyerrs = [] ∧
      (yyparse g toks).parser.yynerrs = g.yynerrs := by
  have := yyparse_eval g toks _ h 0 [] doWhile_run
  simpa [counted_nil] using this

theorem yyparse_doWhile_witness :
    (doWhileCodes.map tok).map Token.code = doWhileCodes ∧
    (yyparse ⟨0, 0, 0⟩ (doWhileCodes.map tok)).result = some 0 ∧
    (yyparse ⟨0, 0, 0⟩ (doWhileCodes.map tok)).parser.yyerrs = [] ∧
    (yyparse ⟨0, 0, 0⟩ (doWhileCodes.map tok)).parser.yynerrs = 0 :=
  ⟨by decide, yyparse_doWhile ⟨0, 0, 0⟩ (doWhileCodes.map tok) (by decide)⟩

/-- C6: for every finite token sequence (arbitrary integer codes, the lexer returning end of
input once the sequence is exhausted) `yyparse` reaches `yyreturnlab` with result 0, 1 or 2
after at most `5 * toks.length + 5` actions (shifts, reductions and the final error or
accept), so the reductions between two shifts are bounded and recovery does not loop; more
fuel leaves the run unchanged. -/
theorem yyparse_terminates (g : Globals) (toks : List Token) :
    (∃ r q, yyparse g toks = .ret r q ∧ (r = 0 ∨ r = 1 ∨ r = 2)) ∧
    (∀ n, 5 * toks.length + 5 ≤ n → yyparseFuel n g toks = yyparse g toks) := by
  obtain ⟨r, q, hq, hfin, -, -⟩ := yyparse_final g toks
  refine ⟨⟨r, q, hq, ?_⟩, ?_⟩
  · rcases hfin with h | h | h
    · exact Or.inl h.1
    · exact Or.inr (Or.inl h.1)
    · exact Or.inr (Or.inr h.1)
  · intro n hn
    rw [hq]
    unfold yyparse yyparseFuel at hq
    unfold yyparseFuel
    rw [yyinit_step] at hq ⊢
    exact yyloop_mono _ n hn _ r q hq

/-- C7: if `yyparse` reported anything, by a syntax error or for exhaustion, it returns a
nonzero value and `main` prints nothing and returns that value; a result of 0 comes with an
empty report log and with `yynerrs` as it was on entry. -/
theorem yyparse_error_nonzero (g : Globals) (toks : List Token) :
    ((yyparse g toks).parser.yyerrs ≠ [] →
      ∃ r, (yyparse g toks).result = some r ∧ r ≠ 0 ∧ main g toks = some ("", r)) ∧
    ((yyparse g toks).result = some 0 →
      (yyparse g toks).parser.yyerrs = [] ∧ (yyparse g toks).parser.yynerrs = g.yynerrs ∧
      main g toks = some ("Syntax valid.\n", 0)) := by
  obtain ⟨r, q, hq, hfin, hcnt, -⟩ := yyparse_final g toks
  unfold main
  rw [hq]
  simp only [Step.parser, Step.result, Option.some.injEq]
  have hz : r = 0 → q.yyerrs = [] := by
    intro h0
    rcases hfin with h | h | h
    · exact h.2.1
    · omega
    · omega
  constructor
  · intro hne
    have hr : r ≠ 0 := fun h0 => hne (hz h0)
    exact ⟨r, rfl, hr, by simp [hr]⟩
  · intro h0
    subst h0
    have := hz rfl
    refine ⟨this, ?_, by simp⟩
    rw [hcnt, this, counted_nil]

/-- C8: the value `yyparse` returns and the reports it makes are the same whatever
`yychar`, `yylval` and `yynerrs` held on entry; in particular a second run on the same token
sequence, started from the globals the first run left behind, repeats the first. -/
theorem yyparse_idempotent (g g' : Globals) (toks : List Token) :
    ((yyparse g toks).result = (yyparse g' toks).result ∧
      (yyparse g toks).parser.yyerrs = (yyparse g' toks).parser.yyerrs) ∧
    ((yyparse (yyparse g toks).parser.globals toks).result = (yyparse g toks).result ∧
      (yyparse (yyparse g toks).parser.globals toks).parser.yyerrs =
        (yyparse g toks).parser.yyerrs) := by
  have key : ∀ g1 g2 : Globals, (yyparse g1 toks).result = (yyparse g2 toks).result ∧
      (yyparse g1 toks).parser.yyerrs = (yyparse g2 toks).parser.yyerrs := by
    intro g1 g2
    obtain ⟨r1, q1, h1, -, -, hc1⟩ := yyparse_final g1 toks
    obtain ⟨r2, q2, h2, -, -, hc2⟩ := yyparse_final g2 toks
    rw [hc1] at hc2
    simp only [CStep.ret.injEq] at hc2
    rw [h1, h2]
    simp only [Step.result, Step.parser]
    refine ⟨by rw [hc2.1], ?_⟩
    exact congrArg Ctl.yyerrs hc2.2
  exact ⟨key g g', key _ g⟩

theorem map_code_tok (codes : List Int) : (codes.map tok).map Token.code = codes := by
  induction codes with
  | nil => rfl
  | cons a l ih => simp only [List.map_cons, ih]; rfl

/-- C9: on `n` opening parentheses, a number, `n` closing parentheses and a semicolon the
parser either returns 0 without any report or returns 2 after the one report of stack
exhaustion; it never returns 1 and never reports a syntax error, `yynerrs` stays as it was,
and the run reaches `yyreturnlab`, so no stack cell outside the allocated arrays is read or
written (that would end the run in `Step.fault`).  With 10000 levels the result is 2. -/
theorem yyparse_paren (n : Nat) (g : Globals) (toks : List Token)
    (h : toks.map Token.code = parenCodes n) :
    (((yyparse g toks).result = some 0 ∧ (yyparse g toks).parser.yyerrs = []) ∨
     ((yyparse g toks).result = some 2 ∧ ∃ l c,
        (yyparse g toks).parser.yyerrs = [{ msg := "memory exhausted", lexed := l, held := c }])) ∧
    (yyparse g toks).parser.yynerrs = g.yynerrs ∧
    (n = 10000 → (yyparse g toks).result = some 2) := by
  obtain ⟨r, q, hq, hfin, hcnt, hrun⟩ := yyparse_final g toks
  have hr : r = parenResult n := by
    rw [h] at hrun
    exact Ends.unique ⟨_, _, hrun⟩ (paren_ends n)
  rw [hq]
  simp only [Step.result, Step.parser, Option.some.injEq]
  have he : q.ctl.yyerrs = q.yyerrs := rfl
  rcases hfin with hf | hf | hf
  · refine ⟨Or.inl ⟨hf.1, by rw [← he]; exact hf.2.1⟩, ?_, ?_⟩
    · rw [hcnt, ← he, hf.2.1, counted_nil]
    · intro hn
      rw [hr, hn] at hf
      exact absurd hf.1 (by decide)
  · exfalso
    have := hf.1
    rw [hr] at this
    unfold parenResult at this
    split at this <;> omega
  · refine ⟨Or.inr ⟨hf.1, _, _, by rw [← he]; exact hf.2.2⟩, ?_, fun _ => hf.1⟩
    rw [hcnt, ← he, hf.2.2]; exact counted_zero _ _ (by simp [errCount])

theorem yyparse_paren_witness :
    ((parenCodes 10000).map tok).map Token.code = parenCodes 10000 ∧
    (yyparse ⟨0, 0, 0⟩ ((parenCodes 10000).map tok)).result = some 2 :=
  ⟨map_code_tok _, (yyparse_paren 10000 ⟨0, 0, 0⟩ _ (map_code_tok _)).2.2 rfl⟩

/-- C5: when `yyparse` accepts a token sequence and does not accept a prefix of it, then on
the prefix it returns 1 or 2 and invokes `yyerror` exactly once, and that report is made
after call number `p.length + 1` of the lexer, the one that returned end of input, with end
of input as the held lookahead: every token of the prefix was fetched and shifted before,
and no error is reported at any of them. -/
theorem yyparse_truncated (g : Globals) (p ext : List Token)
    (hw : (yyparse g (p ++ ext)).result = some 0) (hp : (yyparse g p).result ≠ some 0) :
    ∃ r msg, (yyparse g p).result = some r ∧
      (yyparse g p).parser.yyerrs = [{ msg := msg, lexed := p.length + 1, held := YYEOF }] ∧
      ((r = 1 ∧ msg = "syntax error") ∨ (r = 2 ∧ msg = "memory exhausted")) := by
  obtain ⟨r, q, hq, hfin, -, hrun⟩ := yyparse_final g p
  obtain ⟨r', q', hq', -, -, hrun'⟩ := yyparse_final g (p ++ ext)
  rw [hq'] at hw
  simp only [Step.result, Option.some.injEq] at hw
  subst hw
  rw [hq] at hp ⊢
  simp only [Step.result, Option.some.injEq, ne_eq, Step.parser] at hp ⊢
  rw [List.map_append] at hrun'
  obtain ⟨msg, hmsg⟩ := truncated_run _ _ _ r q.ctl ⟨_, _, hrun'⟩ hrun hp
  rw [List.length_map] at hmsg
  have he : q.ctl.yyerrs = q.yyerrs := rfl
  rw [he] at hmsg
  refine ⟨r, msg, rfl, hmsg, ?_⟩
  rcases hfin with hf | hf | hf
  · exact absurd hf.1 hp
  · left
    refine ⟨hf.1, ?_⟩
    rcases hf.2.2 with h1 | h1
    · rw [he, hmsg] at h1
      simp only [List.cons.injEq, Report.mk.injEq, and_true] at h1
      exact h1.1
    · rw [he, hmsg] at h1
      simp at h1
  · right
    refine ⟨hf.1, ?_⟩
    have h1 := hf.2.2
    rw [he, hmsg] at h1
    simp only [List.cons.injEq, Report.mk.injEq, and_true] at h1
    exact h1.1

set_option maxRecDepth 1000000 in
theorem missingBrace_run :
    ((crun (5 * (missingBraceCodes ++ [ch '}']).length + 5)
        (cinit (missingBraceCodes ++ [ch '}']))).result = some 0 ∧
     (crun (5 * (missingBraceCodes ++ [ch '}']).length + 5)
        (cinit (missingBraceCodes ++ [ch '}']))).yyerrs = []) ∧
    ((crun (5 * missingBraceCodes.length + 5) (cinit missingBraceCodes)).result = some 1 ∧
     (crun (5 * missingBraceCodes.length + 5) (cinit missingBraceCodes)).yyerrs =
       [{ msg := "syntax error", lexed := 12, held := 0 }]) := by decide!

theorem yyparse_truncated_witness :
    (yyparse ⟨0, 0, 0⟩ (missingBraceCodes.map tok ++ [tok (ch '}')])).result = some 0 ∧
    (yyparse ⟨0, 0, 0⟩ (missingBraceCodes.map tok)).result ≠ some 0 ∧
    ∃ r msg, (yyparse ⟨0, 0, 0⟩ (missingBraceCodes.map tok)).result = some r ∧
      (yyparse ⟨0, 0, 0⟩ (missingBraceCodes.map tok)).parser.yyerrs =
        [{ msg := msg, lexed := (missingBraceCodes.map tok).length + 1, held := YYEOF }] ∧
      ((r = 1 ∧ msg = "syntax error") ∨ (r = 2 ∧ msg = "memory exhausted")) :=
  have h1 : (yyparse ⟨0, 0, 0⟩ (missingBraceCodes.map tok ++ [tok (ch '}')])).result = some 0 :=
    (yyparse_eval _ _ (missingBraceCodes ++ [ch '}']) (by decide) 0 [] missingBrace_run.1).1
  have h2 : (yyparse ⟨0, 0, 0⟩ (missingBraceCodes.map tok)).result ≠ some 0 := by
    rw [(yyparse_eval _ _ missingBraceCodes (by decide) 1 _ missingBrace_run.2).1]
    decide
  ⟨h1, h2, yyparse_truncated ⟨0, 0, 0⟩ (missingBraceCodes.map tok) [tok (ch '}')] h1 h2⟩

/-- The right-hand sides `yyrhs` are those the tables encode: every rule is the default
reduction of some state, and for every state that reduces a rule, the rule has the recorded
length and its symbols are the accessing symbols of the states below, on every path. -/
theorem yyrhs_encoded :
    (∀ r ∈ List.range 90, 1 ≤ r → ∃ s ∈ List.range 179, tget yydefact (s : Int) = r) ∧
    ∀ s ∈ List.range 179, rhsOk (s : Int) = true := by
  constructor
  · set_option maxRecDepth 1000000 in decide!
  · set_option maxRecDepth 1000000 in decide!

/-- A derivation that `derive` has checked is a derivation of the grammar. -/
theorem derive_sound (n : Nat) : ∀ (rs : List Nat) (xs w : List Int) (rs1 : List Nat)
    (w1 : List Int), derive n rs xs w = some (rs1, w1) → ∃ u, w = u ++ w1 ∧ Der xs u := by
  induction n with
  | zero => intro rs xs w rs1 w1 h; simp [derive] at h
  | succ n ih =>
    intro rs xs w rs1 w1 h
    cases xs with
    | nil =>
      simp only [derive, Option.some.injEq, Prod.mk.injEq] at h
      exact ⟨[], by simp [h.2], Der.nil⟩
    | cons x xs =>
      unfold derive at h
      by_cases hx : x < YYNTOKENS
      · rw [if_pos hx] at h
        cases w with
        | nil => simp at h
        | cons t w2 =>
          simp only at h
          by_cases ht : t = x ∧ 0 ≤ x
          · rw [if_pos ht] at h
            obtain ⟨u, hu, hd⟩ := ih rs xs w2 rs1 w1 h
            obtain ⟨rfl, h0⟩ := ht
            exact ⟨t :: u, by simp [hu], Der.tok t xs u h0 hx hd⟩
          · rw [if_neg ht] at h; cases h
      · rw [if_neg hx] at h
        cases rs with
        | nil => simp at h
        | cons r rs2 =>
          simp only at h
          by_cases hr : 1 ≤ r ∧ r ≤ 89 ∧ tget yyr1 r = x
          · rw [if_pos hr] at h
            cases h1 : derive n rs2 (yyrhs r) w with
            | none => rw [h1] at h; cases h
            | some p =>
              obtain ⟨rs3, w3⟩ := p
              rw [h1] at h
              simp only at h
              obtain ⟨u, hu, hd⟩ := ih rs2 (yyrhs r) w rs3 w3 h1
              obtain ⟨v, hv, hd2⟩ := ih rs3 xs w3 rs1 w1 h
              obtain ⟨hr1, hr2, rfl⟩ := hr
              exact ⟨u ++ v, by simp [hu, hv], Der.rule r xs u v hr1 hr2 hd hd2⟩
          · rw [if_neg hr] at h; cases h

set_option maxRecDepth 1000000 in
theorem testValid_derive :
    derive 200 testValidRules [48] (testValidCodes.map YYTRANSLATE) = some ([], []) := by
  decide!

/-- The program of `test_valid.c` is a sentence of the grammar. -/
theorem testValid_sentence : Sentence (testValidCodes.map YYTRANSLATE) := by
  obtain ⟨u, hu, hd⟩ := derive_sound 200 _ _ _ _ _ testValid_derive
  rw [List.append_nil] at hu
  rw [hu]
  exact hd

set_option maxRecDepth 1000000 in
theorem testValid_run :
    (crun (5 * testValidCodes.length + 5) (cinit testValidCodes)).result = some 0 ∧
    (crun (5 * testValidCodes.length + 5) (cinit testValidCodes)).yyerrs = [] := by decide!

/-- An accepting run ends with fewer than `YYMAXDEPTH` cells on the state stack. -/
theorem yyparse_accept_depth (g : Globals) (toks : List Token)
    (h : (yyparse g toks).result = some 0) :
    ((yyparse g toks).parser.yyss.length : Int) < YYMAXDEPTH := by
  obtain ⟨r, q, hq, hfin, -, -⟩ := yyparse_final g toks
  rw [hq] at h ⊢
  simp only [Step.result, Option.some.injEq] at h
  subst h
  rcases hfin with ⟨-, -, -, hl⟩ | ⟨hr, -⟩ | ⟨hr, -⟩
  · exact hl
  · omega
  · omega

/-- C1: for every token sequence whose symbol kinds form a sentence of the grammar encoded
by the tables (start symbol `program`, rules 1 to 89 with the left-hand sides `yyr1`, the
lengths `yyr2` and the right-hand sides `yyrhs` that the states spell, theorem
`yyrhs_encoded`), followed by end of input, and whose parse does not fill the state stack,
`yyparse` returns 0, never invokes `yyerror` and leaves `yynerrs` unchanged.  The stack is
full when it holds `YYMAXDEPTH` = 10000 cells; a run that fills it ends at once, with these
cells on the stack, so the hypothesis `hd` on the stack of the final state says that the
parse never needed 10000 stack entries. -/
theorem yyparse_sentence (g : Globals) (toks : List Token)
    (h : Sentence (toks.map (fun t => YYTRANSLATE t.code)))
    (hd : ((yyparse g toks).parser.yyss.length : Int) < YYMAXDEPTH) :
    (yyparse g toks).result = some 0 ∧ (yyparse g toks).parser.yyerrs = [] ∧
    (yyparse g toks).parser.yynerrs = g.yynerrs := by
  obtain ⟨r, q, hq, hfin, hcnt, hrun⟩ := yyparse_final g toks
  have hw : (cinit (toks.map Token.code)).syms = toks.map (fun t => YYTRANSLATE t.code) := by
    simp [cinit, Ctl.syms, Function.comp_def]
  have hclean : (cinit (toks.map Token.code)).Clean := by
    refine ⟨?_, Or.inl rfl⟩
    intro t ht
    have hs := Der.syms h (by decide)
    simp only [cinit, List.mem_map] at ht
    obtain ⟨a, ha, rfl⟩ := ht
    exact hs _ (List.mem_map.2 ⟨a, ha, rfl⟩)
  have hacc : Acc (cinit (toks.map Token.code)).yyss (cinit (toks.map Token.code)).syms := by
    rw [hw]; exact h.acc
  have h1 : r ≠ 1 := by
    rintro rfl
    exact crun_acc _ _ hclean hacc _ hrun
  rw [hq] at hd ⊢
  simp only [Step.result, Step.parser, Option.some.injEq] at hd ⊢
  rcases hfin with ⟨h0, he, -, -⟩ | ⟨hr, -⟩ | ⟨-, hl, -⟩
  · refine ⟨h0, he, ?_⟩
    have he2 : q.yyerrs = [] := he
    rw [hcnt, he2, counted_nil]
  · exact absurd hr h1
  · have hl2 : (q.yyss.length : Int) = YYMAXDEPTH := hl
    omega

theorem yyparse_sentence_witness :
    Sentence ((testValidCodes.map tok).map (fun t => YYTRANSLATE t.code)) ∧
    ((yyparse ⟨0, 0, 0⟩ (testValidCodes.map tok)).parser.yyss.length : Int) < YYMAXDEPTH ∧
    (yyparse ⟨0, 0, 0⟩ (testValidCodes.map tok)).result = some 0 ∧
    (yyparse ⟨0, 0, 0⟩ (testValidCodes.map tok)).parser.yyerrs = [] ∧
    (yyparse ⟨0, 0, 0⟩ (testValidCodes.map tok)).parser.yynerrs = 0 :=
  have hs : Sentence ((testValidCodes.map tok).map (fun t => YYTRANSLATE t.code)) := by
    have e : (testValidCodes.map tok).map (fun t => YYTRANSLATE t.code) =
        testValidCodes.map YYTRANSLATE := by
      simp [List.map_map, Function.comp_def, tok]
    rw [e]; exact testValid_sentence
  have hr : ((yyparse ⟨0, 0, 0⟩ (testValidCodes.map tok)).parser.yyss.length : Int) <
      YYMAXDEPTH :=
    yyparse_accept_depth _ _
      (yyparse_eval ⟨0, 0, 0⟩ (testValidCodes.map tok) testValidCodes
        (by simp [List.map_map, Function.comp_def, tok]) 0 [] testValid_run).1
  ⟨hs, hr, yyparse_sentence ⟨0, 0, 0⟩ (testValidCodes.map tok) hs hr⟩

/-- C11: `yyparse` returns 0 exactly when the final state `YYFINAL` = 3 has just been pushed
with the depth limit not hit.  When `yynewstate` is reached with `yystate` = 3 and the stack
has room for the new cell (or can still grow), it returns 0 at once: the result is a
function of the parser state alone, no table is read, and the pending input, the number of
lexer calls, the lookahead `yychar`, `yylval`, `yyerrstatus`, `yynerrs` and the reports are
as they were, whatever they are.  Conversely an action that returns 0, from any state at
`yybackup`, ends with state 3 as current state on top of the stack; a parse that returns 0
did so in an action that pushed state 3, below the depth limit; and the parser is never at
`yybackup` in state 3, so the push is the only way to it. -/
theorem yyparse_accept_final (g : Globals) (toks : List Token) :
    (∀ p : Parser, p.yystate = YYFINAL → (p.yyss.length : Int) < p.yystacksize →
      ((p.yyss.length : Int) + 1 < p.yystacksize ∨ p.yystacksize < YYMAXDEPTH) →
      ∃ q, yynewstate p = .ret 0 q ∧ q.yyss = YYFINAL :: p.yyss ∧ q.input = p.input ∧
        q.lexed = p.lexed ∧ q.yychar = p.yychar ∧ q.yylval = p.yylval ∧
        q.yyerrstatus = p.yyerrstatus ∧ q.yynerrs = p.yynerrs ∧ q.yyerrs = p.yyerrs) ∧
    (∀ p q : Parser, yybackup p = .ret 0 q →
      q.yystate = YYFINAL ∧ q.yyss.head? = some YYFINAL) ∧
    (∀ q : Parser, yyparse g toks = .ret 0 q →
      q.yystate = YYFINAL ∧ q.yyss.head? = some YYFINAL ∧
      (q.yyss.length : Int) < YYMAXDEPTH ∧
      ∃ n p, yyparseFuel n g toks = .next p ∧ yybackup p = .ret 0 q) ∧
    (∀ n p, yyparseFuel n g toks = .next p → p.yystate ≠ YYFINAL) := by
  refine ⟨fun p h1 h2 h3 => yynewstate_final p h1 h2 h3, ?_, ?_,
    fun n p h => yyparseFuel_nofinal n g toks p h⟩
  · intro p q h
    have := yybackup_accepted p
    rw [h] at this
    exact this rfl
  · intro q h
    have hd := yyparse_accept_depth g toks (by rw [h]; rfl)
    rw [h] at hd
    have hrun := h
    unfold yyparse yyparseFuel at hrun
    rw [yyinit_step] at hrun
    obtain ⟨m, p1, -, h1, h2⟩ := yyloop_last _ _ _ _ hrun
    have hacc := yybackup_accepted p1
    rw [h2] at hacc
    refine ⟨(hacc rfl).1, (hacc rfl).2, hd, m, p1, ?_, h2⟩
    unfold yyparseFuel
    rw [yyinit_step]
    exact h1

/-- C13: whenever `yyerror` is invoked for a syntax error a lookahead is held: the report is
made with `yychar` different from `YYEMPTY`, after at least one call of the lexer, and
`yychar` is the code that the most recent call returned (a code that is not positive being
held as `YYEOF`); that token has not been shifted, it is still held when `yyparse` returns,
and no token after it is fetched.  This rests on the table fact that every state `s` with
`yypact[s]` = -39, in which no lookahead is consulted, has `yydefact[s]` different from 0. -/
theorem yyerror_lookahead (g : Globals) (toks : List Token) :
    (∀ s : Int, rd yypact s = some YYPACT_NINF → ∃ r, rd yydefact s = some r ∧ r ≠ 0) ∧
    (∀ r ∈ (yyparse g toks).parser.yyerrs, r.msg = "syntax error" →
      r.held ≠ YYEMPTY ∧ 1 ≤ r.lexed ∧
      r.held = hold (lexedCode (toks.map Token.code) r.lexed) ∧
      (yyparse g toks).parser.yychar = r.held ∧ (yyparse g toks).parser.lexed = r.lexed ∧
      (yyparse g toks).parser.input.map Token.code = (toks.map Token.code).drop r.lexed) := by
  constructor
  · intro s hs
    have h0 : 0 ≤ s := by
      by_contra hn
      simp [rd, hn] at hs
    have h1 : s < 179 := by
      by_contra hn
      have : yypact.length ≤ s.toNat := by rw [yypact_length]; omega
      simp [rd, h0, List.getElem?_eq_none this] at hs
    rw [rd_eq_some h0 (by rw [yypact_length]; omega)] at hs
    simp only [Option.some.injEq] at hs
    refine ⟨_, rd_eq_some h0 (by rw [yydefact_length]; omega), ?_⟩
    exact int_of_range (P := fun s => tget yypact s = YYPACT_NINF → tget yydefact s ≠ 0)
      default_reduces _ h0 (by simpa using h1) hs
  · obtain ⟨r, q, hq, hfin, hin, hheld⟩ := yyparse_held g toks
    rw [hq]
    simp only [Step.parser]
    intro rep hrep hmsg
    have he : q.ctl.yyerrs = q.yyerrs := rfl
    have hl : q.ctl.lexed = q.lexed := rfl
    have hc : q.ctl.yychar = q.yychar := rfl
    rcases hfin with ⟨-, h1, -⟩ | ⟨h0, -, h1⟩ | ⟨-, -, h1⟩
    · rw [he] at h1; rw [h1] at hrep; cases hrep
    · rcases h1 with h1 | ⟨h1, -⟩
      · rw [he, hl, hc] at h1
        obtain ⟨h2, h3⟩ := hheld h0 (by rw [h1]; simp)
        rw [h1] at hrep
        simp only [List.mem_singleton] at hrep
        subst hrep
        refine ⟨?_, h2, h3, rfl, rfl, hin⟩
        have := hold_nonneg (lexedCode (toks.map Token.code) q.lexed)
        rw [h3]
        simp only [YYEMPTY]
        omega
      · rw [he] at h1; rw [h1] at hrep; cases hrep
    · rw [he] at h1
      rw [h1] at hrep
      simp only [List.mem_singleton] at hrep
      subst hrep
      simp at hmsg

/-- C14: the recovery of `yyerrlab1` looks for a state that shifts the error terminal
(symbol 1), popping states together with their values, and aborts with result 1 when the
bottom state has none.  No entry of `yycheck` equals 1, so no state has such a shift
(`yyerrshift` finds none in any state): from a state with parallel stacks `yyerrlab1` pops
both stacks down to their bottom cells and returns 1, with the input, the count of lexer
calls, the lookahead, the reports and `yynerrs` untouched.  So for every token sequence at
most one syntax error is reported, and when one is reported `yyparse` returns 1 with that
single report, `yynerrs` incremented once (one more than on entry for every `int` below
`INT_MAX`) and one cell left on the state stack, and
nothing is fetched, discarded or shifted after the report: the count of lexer calls and the
lookahead are those of the report and the tokens after it are still pending. -/
theorem yyerrlab1_fatal (g : Globals) (toks : List Token) :
    (∀ c ∈ yycheck, c ≠ YYSYMBOL_YYerror) ∧
    (∀ s : Int, 0 ≤ s → s < YYNSTATES → yyerrshift s = some none) ∧
    (∀ p : Parser, p.yyss ≠ [] → p.yyvs.length = p.yyss.length →
      (0 ≤ p.yystate ∧ p.yystate < YYNSTATES) → (∀ s ∈ p.yyss, 0 ≤ s ∧ s < YYNSTATES) →
      ∃ q, yyerrlab1 p = .ret 1 q ∧ q.yyss = p.yyss.drop (p.yyss.length - 1) ∧
        q.yyvs = p.yyvs.drop (p.yyvs.length - 1) ∧ q.input = p.input ∧ q.lexed = p.lexed ∧
        q.yychar = p.yychar ∧ q.yyerrs = p.yyerrs ∧ q.yynerrs = p.yynerrs) ∧
    errCount (yyparse g toks).parser.yyerrs ≤ 1 ∧
    (∀ r ∈ (yyparse g toks).parser.yyerrs, r.msg = "syntax error" →
      (yyparse g toks).result = some 1 ∧ (yyparse g toks).parser.yyerrs = [r] ∧
      ((yyparse g toks).parser.yynerrs = wrapInt (g.yynerrs + 1) ∧
        (-2147483648 ≤ g.yynerrs → g.yynerrs < 2147483647 →
          (yyparse g toks).parser.yynerrs = g.yynerrs + 1)) ∧
      (yyparse g toks).parser.yyss.length = 1 ∧
      (yyparse g toks).parser.lexed = r.lexed ∧ (yyparse g toks).parser.yychar = r.held ∧
      (yyparse g toks).parser.input.map Token.code = (toks.map Token.code).drop r.lexed) := by
  refine ⟨yycheck_no_error, fun s h0 h1 => yyerrshift_none s ⟨h0, by simpa [YYNSTATES] using h1⟩,
    fun p h1 h2 h3 h4 => yyerrlab1_abort p h1 h2 h3 h4, ?_, ?_⟩
  · obtain ⟨r, q, hq, hfin, -, -⟩ := yyparse_final g toks
    rw [hq]
    simp only [Step.parser]
    have he : q.ctl.yyerrs = q.yyerrs := rfl
    rcases hfin with ⟨-, h1, -⟩ | ⟨-, -, h1 | ⟨h1, -⟩⟩ | ⟨-, -, h1⟩ <;> rw [he] at h1 <;>
      rw [h1] <;> simp [errCount]
  · intro r hr hmsg
    obtain ⟨h1, h2, h3, h4⟩ := yyparse_fatal g toks r hr hmsg
    exact ⟨h1, h2, ⟨h3, fun a b => by rw [h3, wrapInt_next _ a b]⟩, h4⟩

set_option maxRecDepth 1000000 in
theorem malformed_run :
    (crun (5 * malformedCodes.length + 5) (cinit malformedCodes)).result = some 1 ∧
    (crun (5 * malformedCodes.length + 5) (cinit malformedCodes)).yyerrs =
      [{ msg := "syntax error", lexed := 5, held := ch ')' }] := by decide!

/-- C15 (amended): given an input in which three consecutive tokens `t1`, `t2`, `t3` are
malformed, a syntax error being reported at `t1`, the token after the tokens `pre`,
`yyparse` discards no token and fetches no further lookahead: it reports `t1` once,
increments `yynerrs` once (`++yynerrs`: by 1 when the `int` was below `INT_MAX` on entry),
pops both stacks to their bottom cell, state 0, and returns 1 with `t1` still held, after
exactly `pre.length + 1` calls of the lexer, so `t2`, `t3` and everything after them are
still pending when it returns.  The branch of `yyerrlab` that discards a token needs
`yyerrstatus` = 3, and `yyerrstatus` is 0 whenever the parser is at `yybackup`. -/
theorem yyparse_malformed (g : Globals) (pre : List Token) (t1 t2 t3 : Token)
    (post : List Token)
    (h : ∃ r ∈ (yyparse g (pre ++ t1 :: t2 :: t3 :: post)).parser.yyerrs,
      r.msg = "syntax error" ∧ r.lexed = pre.length + 1) :
    (yyparse g (pre ++ t1 :: t2 :: t3 :: post)).result = some 1 ∧
    (yyparse g (pre ++ t1 :: t2 :: t3 :: post)).parser.yyerrs =
      [{ msg := "syntax error", lexed := pre.length + 1, held := hold t1.code }] ∧
    ((yyparse g (pre ++ t1 :: t2 :: t3 :: post)).parser.yynerrs = wrapInt (g.yynerrs + 1) ∧
      (-2147483648 ≤ g.yynerrs → g.yynerrs < 2147483647 →
        (yyparse g (pre ++ t1 :: t2 :: t3 :: post)).parser.yynerrs = g.yynerrs + 1)) ∧
    (yyparse g (pre ++ t1 :: t2 :: t3 :: post)).parser.lexed = pre.length + 1 ∧
    (yyparse g (pre ++ t1 :: t2 :: t3 :: post)).parser.yychar = hold t1.code ∧
    (yyparse g (pre ++ t1 :: t2 :: t3 :: post)).parser.input.map Token.code =
      (t2 :: t3 :: post).map Token.code ∧
    (∀ n p, yyparseFuel n g (pre ++ t1 :: t2 :: t3 :: post) = .next p →
      p.yyerrstatus = 0) ∧
    (yyparse g (pre ++ t1 :: t2 :: t3 :: post)).parser.yyss = [0] ∧
    (yyparse g (pre ++ t1 :: t2 :: t3 :: post)).parser.yyvs.length = 1 := by
  obtain ⟨r, hr, hmsg, hlex⟩ := h
  obtain ⟨h1, h2, h3, -, h5, h6, h7⟩ := yyparse_fatal g _ r hr hmsg
  obtain ⟨r', q, hq, -, -, hheld⟩ := yyparse_held g (pre ++ t1 :: t2 :: t3 :: post)
  have hcode : lexedCode ((pre ++ t1 :: t2 :: t3 :: post).map Token.code) (pre.length + 1) =
      t1.code := by
    unfold lexedCode
    rw [Nat.add_sub_cancel, List.map_append, List.getD_append_right _ _ _ _ (by simp)]
    simp
  have hdrop : ((pre ++ t1 :: t2 :: t3 :: post).map Token.code).drop (pre.length + 1) =
      (t2 :: t3 :: post).map Token.code := by
    rw [List.map_append, List.drop_append_eq_append_drop]
    simp
  have hk : r.held = hold t1.code := by
    rw [hq] at h1 h2 h5 h6
    simp only [Step.result, Step.parser, Option.some.injEq] at h1 h2 h5 h6
    obtain ⟨-, hy⟩ := hheld h1 (by rw [h2]; simp)
    rw [← h6, hy, h5, hlex, hcode]
  have hrep : r = { msg := "syntax error", lexed := pre.length + 1, held := hold t1.code } := by
    cases r with
    | mk m l k =>
      simp only at hmsg hlex hk
      rw [hmsg, hlex, hk]
  refine ⟨h1, by rw [h2, hrep], ⟨h3, fun a b => by rw [h3, wrapInt_next _ a b]⟩,
    by rw [h5, hlex], by rw [h6, hk], by rw [h7, hlex, hdrop], ?_, yyparse_floor g _ h1⟩
  intro n p hp
  have := (yyparseFuel_ref n g (pre ++ t1 :: t2 :: t3 :: post)).2
  rw [hp] at this
  exact this.calm

theorem yyparse_malformed_witness :
    (∃ r ∈ (yyparse ⟨0, 0, 0⟩ ([Tk.ID, ch '=', Tk.NUM, ch ';'].map tok ++
        tok (ch ')') :: tok (ch ')') :: tok (ch ')') ::
          [Tk.ID, ch '=', Tk.NUM, ch ';'].map tok)).parser.yyerrs,
      r.msg = "syntax error" ∧ r.lexed = ([Tk.ID, ch '=', Tk.NUM, ch ';'].map tok).length + 1) ∧
    (yyparse ⟨0, 0, 0⟩ ([Tk.ID, ch '=', Tk.NUM, ch ';'].map tok ++
        tok (ch ')') :: tok (ch ')') :: tok (ch ')') ::
          [Tk.ID, ch '=', Tk.NUM, ch ';'].map tok)).parser.lexed = 5 ∧
    (yyparse ⟨0, 0, 0⟩ ([Tk.ID, ch '=', Tk.NUM, ch ';'].map tok ++
        tok (ch ')') :: tok (ch ')') :: tok (ch ')') ::
          [Tk.ID, ch '=', Tk.NUM, ch ';'].map tok)).parser.yychar = ch ')' ∧
    (yyparse ⟨0, 0, 0⟩ ([Tk.ID, ch '=', Tk.NUM, ch ';'].map tok ++
        tok (ch ')') :: tok (ch ')') :: tok (ch ')') ::
          [Tk.ID, ch '=', Tk.NUM, ch ';'].map tok)).parser.yyss = [0] ∧
    (yyparse ⟨0, 0, 0⟩ ([Tk.ID, ch '=', Tk.NUM, ch ';'].map tok ++
        tok (ch ')') :: tok (ch ')') :: tok (ch ')') ::
          [Tk.ID, ch '=', Tk.NUM, ch ';'].map tok)).parser.yynerrs = 0 + 1 :=
  have e : [Tk.ID, ch '=', Tk.NUM, ch ';'].map tok ++
      tok (ch ')') :: tok (ch ')') :: tok (ch ')') :: [Tk.ID, ch '=', Tk.NUM, ch ';'].map tok =
      malformedCodes.map tok := rfl
  have hrun := yyparse_eval ⟨0, 0, 0⟩ (malformedCodes.map tok) malformedCodes
    (by simp [List.map_map, Function.comp_def, tok]) 1 _ malformed_run
  have hex : ∃ r ∈ (yyparse ⟨0, 0, 0⟩ ([Tk.ID, ch '=', Tk.NUM, ch ';'].map tok ++
        tok (ch ')') :: tok (ch ')') :: tok (ch ')') ::
          [Tk.ID, ch '=', Tk.NUM, ch ';'].map tok)).parser.yyerrs,
      r.msg = "syntax error" ∧
        r.lexed = ([Tk.ID, ch '=', Tk.NUM, ch ';'].map tok).length + 1 := by
    rw [e, hrun.2.1]
    exact ⟨_, List.mem_singleton.2 rfl, rfl, rfl⟩
  have hm := yyparse_malformed ⟨0, 0, 0⟩ ([Tk.ID, ch '=', Tk.NUM, ch ';'].map tok)
    (tok (ch ')')) (tok (ch ')')) (tok (ch ')')) ([Tk.ID, ch '=', Tk.NUM, ch ';'].map tok) hex
  ⟨hex, hm.2.2.2.1, hm.2.2.2.2.1, hm.2.2.2.2.2.2.2.1, hm.2.2.1.2 (by decide) (by decide)⟩

/-- On `a = 1 ; ) ) ) b = 2 ;` the parser discards nothing: it returns 1 after five calls of
the lexer, with the first closing parenthesis still held and the other two, like the
statement after them, never fetched. -/
theorem yyparse_malformed_stops :
    (yyparse ⟨0, 0, 0⟩ (malformedCodes.map tok)).result = some 1 ∧
    (yyparse ⟨0, 0, 0⟩ (malformedCodes.map tok)).parser.yyerrs =
      [{ msg := "syntax error", lexed := 5, held := ch ')' }] ∧
    (yyparse ⟨0, 0, 0⟩ (malformedCodes.map tok)).parser.lexed = 5 ∧
    (yyparse ⟨0, 0, 0⟩ (malformedCodes.map tok)).parser.yychar = ch ')' ∧
    (yyparse ⟨0, 0, 0⟩ (malformedCodes.map tok)).parser.input.map Token.code =
      [ch ')', ch ')', Tk.ID, ch '=', Tk.NUM, ch ';'] := by
  have hrun := yyparse_eval ⟨0, 0, 0⟩ (malformedCodes.map tok) malformedCodes
    (by simp [List.map_map, Function.comp_def, tok]) 1 _ malformed_run
  obtain ⟨-, -, -, -, h5, h6, h7⟩ := yyparse_fatal ⟨0, 0, 0⟩ (malformedCodes.map tok)
    { msg := "syntax error", lexed := 5, held := ch ')' }
    (by rw [hrun.2.1]; exact List.mem_singleton.2 rfl) rfl
  refine ⟨hrun.1, hrun.2.1, h5, h6, ?_⟩
  rw [h7]
  simp [List.map_map, Function.comp_def, tok, malformedCodes]

/-- C16: `main` always returns, and its exit status is the result of `yyparse`, which is 0,
1 or 2.  It prints exactly "Syntax valid.\n" on standard output if and only if `yyparse`
returns 0, and prints nothing there otherwise.  Status 0 is acceptance (the final state on
top of the stack, nothing reported), status 1 is a syntax failure (the stack popped to its
bottom cell, after at most one report), status 2 is exhaustion (`YYMAXDEPTH` cells on the
stack and the report "memory exhausted"). -/
theorem main_prints (g : Globals) (toks : List Token) :
    ∃ r q, yyparse g toks = .ret r q ∧ (r = 0 ∨ r = 1 ∨ r = 2) ∧
      main g toks = some (if r = 0 then "Syntax valid.\n" else "", r) ∧
      (main g toks = some ("Syntax valid.\n", r) ↔ r = 0) ∧
      (r ≠ 0 → main g toks = some ("", r)) ∧
      (r = 0 → q.yyss.head? = some YYFINAL ∧ q.yyerrs = []) ∧
      (r = 1 → q.yyss.length = 1 ∧ errCount q.yyerrs ≤ 1 ∧
        ∀ e ∈ q.yyerrs, e.msg = "syntax error") ∧
      (r = 2 → (q.yyss.length : Int) = YYMAXDEPTH ∧
        q.yyerrs = [{ msg := "memory exhausted", lexed := q.lexed, held := q.yychar }]) := by
  obtain ⟨r, q, hq, hfin, -, -⟩ := yyparse_final g toks
  have hm : main g toks = some (if r = 0 then "Syntax valid.\n" else "", r) := by
    unfold main
    rw [hq]
  have he : q.ctl.yyerrs = q.yyerrs := rfl
  have hs : q.ctl.yyss = q.yyss := rfl
  refine ⟨r, q, hq, ?_, hm, ?_, ?_, ?_, ?_, ?_⟩
  · rcases hfin with h | h | h
    · exact Or.inl h.1
    · exact Or.inr (Or.inl h.1)
    · exact Or.inr (Or.inr h.1)
  · rw [hm]
    by_cases h0 : r = 0
    · simp [h0]
    · simp [h0]
  · intro h0
    rw [hm, if_neg h0]
  · intro h0
    rcases hfin with ⟨-, h1, h2, -⟩ | ⟨h1, -⟩ | ⟨h1, -⟩
    · rw [he] at h1
      rw [hs] at h2
      refine ⟨?_, h1⟩
      cases hss : q.yyss with
      | nil => rw [hss] at h2; simp [YYFINAL] at h2
      | cons a l => rw [hss] at h2; simpa using h2
    · omega
    · omega
  · intro h0
    rcases hfin with ⟨h1, -⟩ | ⟨-, h1, h2⟩ | ⟨h1, -⟩
    · omega
    · rw [hs] at h1
      rw [he] at h2
      refine ⟨h1, ?_, ?_⟩
      · rcases h2 with h2 | ⟨h2, -⟩ <;> rw [h2] <;> simp [errCount]
      · rcases h2 with h2 | ⟨h2, -⟩ <;> rw [h2] <;> simp
    · omega
  · intro h0
    rcases hfin with ⟨h1, -⟩ | ⟨h1, -⟩ | ⟨-, h1, h2⟩
    · omega
    · omega
    · exact ⟨h1, h2⟩

set_option maxRecDepth 1000000 in
theorem for_facts :
    ((∀ la ∈ [36, 37], lrun 20 [83, 43, 13, 2, 0] 40 [0]
        ([Tk.FOR, ch '(', Tk.ID, ch '=', Tk.NUM].map YYTRANSLATE ++ [la]) = some [la]) ∧
      (∀ la ∈ [36, 37], lrun 20 [83, 43, 13, 2, 0] 40 [83, 43, 13, 2, 0]
        ([ch ',', Tk.ID, ch '=', Tk.NUM].map YYTRANSLATE ++ [la]) = some [la]) ∧
      ([ch ',', Tk.ID, ch '=', Tk.NUM].map YYTRANSLATE).head? ∈ [36, 37].map some) ∧
    ((∀ la ∈ [42, 37], lrun 20 [151, 142, 132, 118, 82, 43, 13, 2, 0] 40 [83, 43, 13, 2, 0]
        (36 :: [Tk.ID, Tk.LT, Tk.ID, Tk.AND, Tk.ID, Tk.LT, Tk.ID, ch ';', Tk.ID,
          Tk.INC].map YYTRANSLATE ++ [la]) = some [la]) ∧
      (∀ la ∈ [42, 37], lrun 20 [151, 142, 132, 118, 82, 43, 13, 2, 0] 40
        [151, 142, 132, 118, 82, 43, 13, 2, 0]
        ([ch ',', Tk.ID, Tk.INC].map YYTRANSLATE ++ [la]) = some [la]) ∧
      ([ch ',', Tk.ID, Tk.INC].map YYTRANSLATE).head? ∈ [42, 37].map some) ∧
    arun 20 40 [151, 142, 132, 118, 82, 43, 13, 2, 0] [42, 43, 44] = true ∧
    (YYTRANSLATE (ch ';') = 36 ∧ YYTRANSLATE (ch ')') = 42 ∧ YYTRANSLATE (ch '{') = 43 ∧
      YYTRANSLATE (ch '}') = 44) ∧
    (∀ k ∈ [Tk.FOR, ch '(', Tk.ID, ch '=', Tk.NUM, ch ',', Tk.LT, Tk.AND, Tk.INC,
      ch ';'].map YYTRANSLATE, 3 ≤ k) := by decide!

/-- The symbol kinds of the statement with `m + 1` initialisations and `n + 1` updates. -/
theorem forCodes_kinds (m n : Nat) :
    (forCodes (m + 1) (n + 1)).map YYTRANSLATE =
      [Tk.FOR, ch '(', Tk.ID, ch '=', Tk.NUM].map YYTRANSLATE ++
        (List.replicate m ([ch ',', Tk.ID, ch '=', Tk.NUM].map YYTRANSLATE)).flatten ++
        36 :: ([Tk.ID, Tk.LT, Tk.ID, Tk.AND, Tk.ID, Tk.LT, Tk.ID, ch ';', Tk.ID,
            Tk.INC].map YYTRANSLATE ++
          (List.replicate n ([ch ',', Tk.ID, Tk.INC].map YYTRANSLATE)).flatten ++
          42 :: [43, 44]) := by
  obtain ⟨-, -, -, ⟨e1, e2, e3, e4⟩, -⟩ := for_facts
  unfold forCodes
  rw [List.replicate_succ, List.replicate_succ, sepBy_cons, sepBy_cons]
  simp only [List.map_append, List.map_cons, List.map_nil, List.map_flatten, List.map_map,
    Function.comp_def, List.map_replicate, List.cons_append, List.nil_append,
    List.append_assoc, e1, e2, e3, e4]

/-- C17: for every m >= 1 and n >= 1 the statement
`FOR ( I_1 , ... , I_m ; ID LT ID AND ID LT ID ; U_1 , ... , U_n ) { }` followed by end of
input, each `I_k` being `ID = NUM` and each `U_k` being `ID INC`, is accepted: `yyparse`
returns 0, reports nothing and leaves `yynerrs` unchanged. -/
theorem yyparse_forLists (g : Globals) (m n : Nat) (toks : List Token)
    (hm : 1 ≤ m) (hn : 1 ≤ n) (h : toks.map Token.code = forCodes m n) :
    (yyparse g toks).result = some 0 ∧ (yyparse g toks).parser.yyerrs = [] ∧
    (yyparse g toks).parser.yynerrs = g.yynerrs := by
  obtain ⟨m, rfl⟩ : ∃ m', m = m' + 1 := ⟨m - 1, by omega⟩
  obtain ⟨n, rfl⟩ : ∃ n', n = n' + 1 := ⟨n - 1, by omega⟩
  obtain ⟨⟨a0, a1, a2⟩, ⟨b0, b1, b2⟩, hfin, -, hcl⟩ := for_facts
  have hmem : ∀ (l : List Int), (∀ c ∈ l, c ∈ [Tk.FOR, ch '(', Tk.ID, ch '=', Tk.NUM, ch ',',
      Tk.LT, Tk.AND, Tk.INC, ch ';']) → ∀ k ∈ l.map YYTRANSLATE, 3 ≤ k := by
    intro l hl k hk
    obtain ⟨c, hc, rfl⟩ := List.mem_map.1 hk
    exact hcl _ (List.mem_map.2 ⟨c, hl c hc, rfl⟩)
  refine yyparse_accB g toks _ h 20 (by omega) ?_ ?_
  · rw [forCodes_kinds]
    exact clean_append (clean_append (hmem _ (by decide)) (clean_replicate (hmem _ (by decide))))
      (clean_cons (by omega) (clean_append
        (clean_append (hmem _ (by decide)) (clean_replicate (hmem _ (by decide))))
        (by decide)))
  · rw [forCodes_kinds]
    have hA := Moves.family (D := 20) (L := [36, 37])
      ([Tk.FOR, ch '(', Tk.ID, ch '=', Tk.NUM].map YYTRANSLATE)
      (List.replicate m ([ch ',', Tk.ID, ch '=', Tk.NUM].map YYTRANSLATE))
      a0 (fun x hx => by rw [List.eq_of_mem_replicate hx]; exact a1)
      (fun x hx => by rw [List.eq_of_mem_replicate hx]; exact a2)
      36 (by simp)
      ([Tk.ID, Tk.LT, Tk.ID, Tk.AND, Tk.ID, Tk.LT, Tk.ID, ch ';', Tk.ID,
            Tk.INC].map YYTRANSLATE ++
          (List.replicate n ([ch ',', Tk.ID, Tk.INC].map YYTRANSLATE)).flatten ++
          42 :: [43, 44])
    have hB := Moves.family (D := 20) (L := [42, 37])
      (36 :: [Tk.ID, Tk.LT, Tk.ID, Tk.AND, Tk.ID, Tk.LT, Tk.ID, ch ';', Tk.ID,
            Tk.INC].map YYTRANSLATE)
      (List.replicate n ([ch ',', Tk.ID, Tk.INC].map YYTRANSLATE))
      b0 (fun x hx => by rw [List.eq_of_mem_replicate hx]; exact b1)
      (fun x hx => by rw [List.eq_of_mem_replicate hx]; exact b2)
      42 (by simp) [43, 44]
    simp only [List.cons_append, List.append_assoc] at hA hB ⊢
    exact AccB.of_moves (hA.append hB) (arun_accB 40 hfin)

theorem yyparse_forLists_witness :
    1 ≤ 2 ∧ ((forCodes 2 2).map tok).map Token.code = forCodes 2 2 ∧
    forCodes 2 2 =
      [Tk.FOR, ch '(', Tk.ID, ch '=', Tk.NUM, ch ',', Tk.ID, ch '=', Tk.NUM, ch ';',
        Tk.ID, Tk.LT, Tk.ID, Tk.AND, Tk.ID, Tk.LT, Tk.ID, ch ';',
        Tk.ID, Tk.INC, ch ',', Tk.ID, Tk.INC, ch ')', ch '{', ch '}'] ∧
    (yyparse ⟨0, 0, 0⟩ ((forCodes 2 2).map tok)).result = some 0 ∧
    (yyparse ⟨0, 0, 0⟩ ((forCodes 2 2).map tok)).parser.yyerrs = [] ∧
    (yyparse ⟨0, 0, 0⟩ ((forCodes 2 2).map tok)).parser.yynerrs = 0 :=
  ⟨by decide, by decide, by decide,
    yyparse_forLists ⟨0, 0, 0⟩ 2 2 _ (by decide) (by decide) (by decide)⟩

set_option maxRecDepth 1000000 in
theorem array_facts :
    ((∀ la ∈ [39, 36], lrun 16 [92, 53, 24, 2, 0] 40 [0]
        ([Tk.INT, Tk.ID, ch '[', Tk.NUM, ch ']'].map YYTRANSLATE ++ [la]) = some [la]) ∧
      (∀ la ∈ [39, 36], lrun 16 [92, 53, 24, 2, 0] 40 [92, 53, 24, 2, 0]
        ([ch '[', Tk.NUM, ch ']'].map YYTRANSLATE ++ [la]) = some [la]) ∧
      ([ch '[', Tk.NUM, ch ']'].map YYTRANSLATE).head? ∈ [39, 36].map some ∧
      ([ch ';'].map YYTRANSLATE).head? ∈ [39, 36].map some ∧
      arun 16 40 [92, 53, 24, 2, 0] ([ch ';'].map YYTRANSLATE) = true) ∧
    ((∀ k ∈ [Tk.INT, Tk.ID, ch '[', Tk.NUM, ch ']'].map YYTRANSLATE, 3 ≤ k) ∧
      (∀ k ∈ [ch '[', Tk.NUM, ch ']'].map YYTRANSLATE, 3 ≤ k) ∧
      (∀ k ∈ [ch ';'].map YYTRANSLATE, 3 ≤ k)) ∧
    ((crun (5 * mixedArrayCodes.length + 5) (cinit mixedArrayCodes)).result = some 0 ∧
      (crun (5 * mixedArrayCodes.length + 5) (cinit mixedArrayCodes)).yyerrs = []) := by
  decide!

/-- C18 (amended): for every k >= 1 the declaration `INT ID` with `k` groups `[ NUM ]`, then
`;` and end of input, is accepted (`yyparse` returns 0, reports nothing and leaves `yynerrs`
unchanged), and so is the declarator list `int a[4][4], b[5];`.  A dimension that is not a
`NUM` token is rejected, in any dimension of any declarator of the list: on a declaration
`int ID dims , ... , ID dims [ c ...` (`dimPrefix ks j` followed by `c`) with a code `c`
other than `NUM`, whatever follows, `yyparse` returns 1.  It does so after exactly one
report, made at `c`, the token after `[`, while it is the held lookahead, and one
`++yynerrs`; except when `c` is the reserved code 256 of the error token: then `yyparse`
returns 1 without a report and with `yynerrs` unchanged.  The same holds in any context:
the parser states 91 and 124 are entered only by shifting `[`, from the state after the
identifier of a declarator (53) and from the state after its dimensions (92), and whenever
`yyparse` is in one of them and the next token is not `NUM` it returns 1 in this way. -/
theorem yyparse_arrayDims (g : Globals) :
    (∀ (k : Nat) (toks : List Token), 1 ≤ k → toks.map Token.code = arrayCodes k →
      (yyparse g toks).result = some 0 ∧ (yyparse g toks).parser.yyerrs = [] ∧
      (yyparse g toks).parser.yynerrs = g.yynerrs) ∧
    (∀ toks : List Token, toks.map Token.code = mixedArrayCodes →
      (yyparse g toks).result = some 0 ∧ (yyparse g toks).parser.yyerrs = [] ∧
      (yyparse g toks).parser.yynerrs = g.yynerrs) ∧
    (∀ (ks : List Nat) (j : Nat) (c : Int) (rest : List Int) (toks : List Token),
      c ≠ Tk.NUM → toks.map Token.code = dimPrefix ks j ++ c :: rest →
      (yyparse g toks).result = some 1 ∧
      (c ≠ YYerror →
        (yyparse g toks).parser.yyerrs =
          [{ msg := "syntax error", lexed := (dimPrefix ks j).length + 1, held := hold c }] ∧
        (yyparse g toks).parser.yynerrs = wrapInt (g.yynerrs + 1) ∧
        (-2147483648 ≤ g.yynerrs → g.yynerrs < 2147483647 →
          (yyparse g toks).parser.yynerrs = g.yynerrs + 1)) ∧
      (c = YYerror →
        (yyparse g toks).parser.yyerrs = [] ∧
        (yyparse g toks).parser.yynerrs = g.yynerrs)) ∧
    (∀ (c : Int) (rest : List Int) (toks : List Token), c ≠ Tk.NUM → c ≠ YYerror →
      toks.map Token.code = Tk.INT :: Tk.ID :: ch '[' :: c :: rest →
      (yyparse g toks).result = some 1 ∧
      (yyparse g toks).parser.yyerrs = [{ msg := "syntax error", lexed := 4, held := hold c }]) ∧
    (∀ (toks : List Token) (n : Nat) (p : Parser), yyparseFuel n g toks = .next p →
      p.yystate = 91 ∨ p.yystate = 124 → (yypeek p).yychar ≠ Tk.NUM →
      (yyparse g toks).result = some 1 ∧
      ((yypeek p).yychar ≠ YYerror →
        (yyparse g toks).parser.yyerrs =
          [{ msg := "syntax error", lexed := (yypeek p).lexed, held := (yypeek p).yychar }] ∧
        (yyparse g toks).parser.yynerrs = wrapInt (g.yynerrs + 1)) ∧
      ((yypeek p).yychar = YYerror →
        (yyparse g toks).parser.yyerrs = [] ∧
        (yyparse g toks).parser.yynerrs = g.yynerrs)) ∧
    ((∀ s ∈ List.range 179, ∀ t ∈ List.range 47,
        (tshift (s : Int) (t : Int) = some 91 ↔ (s = 53 ∧ t = 39)) ∧
        (tshift (s : Int) (t : Int) = some 124 ↔ (s = 92 ∧ t = 39))) ∧
      (∀ e ∈ List.range 179, ∀ a ∈ List.range 27,
        tgoto (e : Int) (a : Int) ≠ 91 ∧ tgoto (e : Int) (a : Int) ≠ 124) ∧
      YYTRANSLATE (ch '[') = 39 ∧ YYTRANSLATE Tk.NUM = 4) := by
  obtain ⟨⟨a0, a1, a2, a3, a4⟩, ⟨c0, c1, c2⟩, hmix⟩ := array_facts
  refine ⟨?_, ?_, ?_, ?_, fun toks n p hp hs hc => yyparse_dimState g toks n p hp hs hc,
    dimState_facts⟩
  · intro k toks hk h
    obtain ⟨k, rfl⟩ : ∃ k', k = k' + 1 := ⟨k - 1, by omega⟩
    have hkinds : (arrayCodes (k + 1)).map YYTRANSLATE =
        [Tk.INT, Tk.ID, ch '[', Tk.NUM, ch ']'].map YYTRANSLATE ++
          (List.replicate k ([ch '[', Tk.NUM, ch ']'].map YYTRANSLATE)).flatten ++
          [ch ';'].map YYTRANSLATE := by
      unfold arrayCodes
      rw [List.replicate_succ, List.flatten_cons]
      simp only [List.map_append, List.map_flatten, List.map_replicate, List.append_assoc,
        List.cons_append, List.nil_append, List.map_cons, List.map_nil]
    refine yyparse_accB g toks _ h 16 (by omega) ?_ ?_
    · rw [hkinds]
      exact clean_append (clean_append c0 (clean_replicate c1)) c2
    · rw [hkinds]
      exact AccB.of_family _ _ _ a0
        (fun x hx => by rw [List.eq_of_mem_replicate hx]; exact a1)
        (fun x hx => by rw [List.eq_of_mem_replicate hx]; exact a2) a3 a4
  · intro toks h
    have := yyparse_eval g toks _ h 0 [] hmix
    simpa [counted_nil] using this
  · intro ks j c rest toks hc h
    obtain ⟨h1, h2, h3⟩ := yyparse_dim g ks j c rest toks hc h
    refine ⟨h1, fun hne => ⟨(h2 hne).1, (h2 hne).2, fun a b => ?_⟩, h3⟩
    rw [(h2 hne).2, wrapInt_next _ a b]
  · intro c rest toks hc hne h
    obtain ⟨h1, h2, -⟩ := yyparse_dim g [] 0 c rest toks hc h
    exact ⟨h1, (h2 hne).1⟩

theorem yyparse_arrayDims_witness :
    (yyparse ⟨0, 0, 0⟩ ((arrayCodes 1).map tok)).result = some 0 ∧
    (yyparse ⟨0, 0, 0⟩ ((arrayCodes 2).map tok)).result = some 0 ∧
    arrayCodes 2 = [Tk.INT, Tk.ID, ch '[', Tk.NUM, ch ']', ch '[', Tk.NUM, ch ']', ch ';'] ∧
    (yyparse ⟨0, 0, 0⟩ (mixedArrayCodes.map tok)).result = some 0 ∧
    (yyparse ⟨0, 0, 0⟩ ([Tk.INT, Tk.ID, ch '[', Tk.ID, ch ']', ch ';'].map tok)).result =
      some 1 ∧
    (yyparse ⟨0, 0, 0⟩ ([Tk.INT, Tk.ID, ch '[', Tk.ID, ch ']', ch ';'].map tok)).parser.yyerrs =
      [{ msg := "syntax error", lexed := 4, held := Tk.ID }] ∧
    (yyparse ⟨0, 0, 0⟩ ([Tk.INT, Tk.ID, ch '[', Tk.NUM, ch ']', ch '[', Tk.ID, ch ']',
      ch ';'].map tok)).parser.yyerrs =
      [{ msg := "syntax error", lexed := 7, held := Tk.ID }] ∧
    (yyparse ⟨0, 0, 0⟩ ([Tk.INT, Tk.ID, ch ',', Tk.ID, ch '[', Tk.ID, ch ']',
      ch ';'].map tok)).parser.yyerrs =
      [{ msg := "syntax error", lexed := 6, held := Tk.ID }] :=
  have h := yyparse_arrayDims ⟨0, 0, 0⟩
  have h3 := h.2.2.2.1 Tk.ID [ch ']', ch ';']
    ([Tk.INT, Tk.ID, ch '[', Tk.ID, ch ']', ch ';'].map tok) (by decide) (by decide) (by decide)
  have h4 := h.2.2.1 [] 1 Tk.ID [ch ']', ch ';']
    ([Tk.INT, Tk.ID, ch '[', Tk.NUM, ch ']', ch '[', Tk.ID, ch ']', ch ';'].map tok)
    (by decide) (by decide)
  have h5 := h.2.2.1 [0] 0 Tk.ID [ch ']', ch ';']
    ([Tk.INT, Tk.ID, ch ',', Tk.ID, ch '[', Tk.ID, ch ']', ch ';'].map tok)
    (by decide) (by decide)
  ⟨(h.1 1 _ (by decide) (by decide)).1, (h.1 2 _ (by decide) (by decide)).1, by decide,
    (h.2.1 _ (by decide)).1, h3.1, h3.2, (h4.2.1 (by decide)).1, (h5.2.1 (by decide)).1⟩

/-- On `int ID [ error ] ;`, where the token after the bracket is the error token, code 256,
which is not `NUM`, the declaration is rejected without any report. -/
theorem yyparse_arrayDims_silent :
    YYerror ≠ Tk.NUM ∧
    (yyparse ⟨0, 0, 0⟩ ([Tk.INT, Tk.ID, ch '[', YYerror, ch ']', ch ';'].map tok)).result =
      some 1 ∧
    (yyparse ⟨0, 0, 0⟩
      ([Tk.INT, Tk.ID, ch '[', YYerror, ch ']', ch ';'].map tok)).parser.yyerrs = [] ∧
    (yyparse ⟨0, 0, 0⟩
      ([Tk.INT, Tk.ID, ch '[', YYerror, ch ']', ch ';'].map tok)).parser.yynerrs = 0 := by
  obtain ⟨h1, -, h3⟩ := yyparse_dim ⟨0, 0, 0⟩ [] 0 YYerror [ch ']', ch ';']
    ([Tk.INT, Tk.ID, ch '[', YYerror, ch ']', ch ';'].map tok) (by decide) (by decide)
  exact ⟨by decide, h1, (h3 rfl).1, (h3 rfl).2⟩

set_option maxRecDepth 1000000 in
theorem decl_facts :
    (∀ b : Bool, ∀ la ∈ [36, 37],
      lrun 16 [54, 24, 2, 0] 40 [0] ((Tk.INT :: declarator b).map YYTRANSLATE ++ [la]) =
        some [la]) ∧
    (∀ b : Bool, ∀ la ∈ [36, 37],
      lrun 16 [54, 24, 2, 0] 40 [54, 24, 2, 0]
        ((ch ',' :: declarator b).map YYTRANSLATE ++ [la]) = some [la]) ∧
    (∀ b : Bool, ((ch ',' :: declarator b).map YYTRANSLATE).head? ∈ [36, 37].map some) ∧
    arun 16 40 [54, 24, 2, 0] [36] = true ∧
    (∀ b : Bool, ∀ k ∈ (Tk.INT :: declarator b).map YYTRANSLATE, 3 ≤ k) ∧
    (∀ b : Bool, ∀ k ∈ (ch ',' :: declarator b).map YYTRANSLATE, 3 ≤ k) := by decide!

/-- C19: for every n >= 1 and every choice, per declarator, between the forms `ID` and
`ID = NUM`, the declaration `INT D_1 , ... , D_n ;` followed by end of input is accepted:
`yyparse` returns 0, reports nothing and leaves `yynerrs` unchanged. -/
theorem yyparse_declList (g : Globals) (ds : List Bool) (toks : List Token)
    (hn : ds ≠ []) (h : toks.map Token.code = declCodes ds) :
    (yyparse g toks).result = some 0 ∧ (yyparse g toks).parser.yyerrs = [] ∧
    (yyparse g toks).parser.yynerrs = g.yynerrs := by
  obtain ⟨f0, f1, f2, f3, f4, f5⟩ := decl_facts
  cases ds with
  | nil => exact absurd rfl hn
  | cons d ds =>
    have hk : (declCodes (d :: ds)).map YYTRANSLATE =
        (Tk.INT :: declarator d).map YYTRANSLATE ++
          (ds.map (fun b => (ch ',' :: declarator b).map YYTRANSLATE)).flatten ++ 36 :: [] := by
      have e : YYTRANSLATE (ch ';') = 36 := by decide
      unfold declCodes
      rw [List.map_cons, sepBy_cons]
      simp only [List.map_append, List.map_cons, List.map_nil, List.map_flatten, List.map_map,
        Function.comp_def, List.cons_append, e]
    refine yyparse_accB g toks _ h 16 (by omega) ?_ ?_
    · rw [hk]
      refine clean_family _ _ _ (f4 d) (fun x hx => ?_) (by simp)
      obtain ⟨b, -, rfl⟩ := List.mem_map.1 hx
      exact f5 b
    · rw [hk]
      have hm := Moves.family (D := 16) (L := [36, 37]) ((Tk.INT :: declarator d).map YYTRANSLATE)
        (ds.map (fun b => (ch ',' :: declarator b).map YYTRANSLATE))
        (fun la hla => f0 d la hla)
        (fun x hx la hla => by
          obtain ⟨b, -, rfl⟩ := List.mem_map.1 hx
          exact f1 b la hla)
        (fun x hx => by
          obtain ⟨b, -, rfl⟩ := List.mem_map.1 hx
          exact f2 b)
        36 (by simp) []
      exact AccB.of_moves hm (arun_accB 40 f3)

theorem yyparse_declList_witness :
    [true, false, false, true] ≠ [] ∧
    ((declCodes [true, false, false, true]).map tok).map Token.code =
      declCodes [true, false, false, true] ∧
    declCodes [true, false, false, true] =
      [Tk.INT, Tk.ID, ch '=', Tk.NUM, ch ',', Tk.ID, ch ',', Tk.ID, ch ',', Tk.ID, ch '=',
        Tk.NUM, ch ';'] ∧
    (yyparse ⟨0, 0, 0⟩ ((declCodes [true, false, false, true]).map tok)).result = some 0 ∧
    (yyparse ⟨0, 0, 0⟩ ((declCodes [true, false, false, true]).map tok)).parser.yyerrs = [] ∧
    (yyparse ⟨0, 0, 0⟩ ((declCodes [true, false, false, true]).map tok)).parser.yynerrs = 0 :=
  ⟨by decide, by decide, by decide,
    yyparse_declList ⟨0, 0, 0⟩ [true, false, false, true] _ (by decide) (by decide)⟩

set_option maxRecDepth 1000000 in
theorem switch_facts :
    (∀ la ∈ [15, 16, 44], lrun 24 [143, 135, 120, 85, 44, 14, 2, 0] 40 [0]
      ([Tk.SWITCH, ch '(', Tk.ID, ch ')', ch '{'].map YYTRANSLATE ++ [la]) = some [la]) ∧
    (∀ la ∈ [15, 16, 44], lrun 24 [143, 135, 120, 85, 44, 14, 2, 0] 40
      [143, 135, 120, 85, 44, 14, 2, 0]
      ([Tk.CASE, Tk.NUM, ch ':', Tk.ID, ch '=', Tk.NUM, ch ';', Tk.BREAK,
        ch ';'].map YYTRANSLATE ++ [la]) = some [la]) ∧
    ([Tk.CASE, Tk.NUM, ch ':', Tk.ID, ch '=', Tk.NUM, ch ';', Tk.BREAK,
      ch ';'].map YYTRANSLATE).head? ∈ [15, 16, 44].map some ∧
    (∀ b : Bool,
      (((if b then [Tk.DEFAULT, ch ':', Tk.ID, ch '=', Tk.NUM, ch ';'] else []) ++
        [ch '}']).map YYTRANSLATE).head? ∈ [15, 16, 44].map some ∧
      arun 24 40 [143, 135, 120, 85, 44, 14, 2, 0]
        (((if b then [Tk.DEFAULT, ch ':', Tk.ID, ch '=', Tk.NUM, ch ';'] else []) ++
          [ch '}']).map YYTRANSLATE) = true ∧
      ∀ k ∈ ((if b then [Tk.DEFAULT, ch ':', Tk.ID, ch '=', Tk.NUM, ch ';'] else []) ++
        [ch '}']).map YYTRANSLATE, 3 ≤ k) ∧
    (∀ k ∈ [Tk.SWITCH, ch '(', Tk.ID, ch ')', ch '{'].map YYTRANSLATE, 3 ≤ k) ∧
    (∀ k ∈ [Tk.CASE, Tk.NUM, ch ':', Tk.ID, ch '=', Tk.NUM, ch ';', Tk.BREAK,
      ch ';'].map YYTRANSLATE, 3 ≤ k) := by decide!

/-- C20: for every n >= 0 the statement `SWITCH ( ID ) {`, `n` clauses
`CASE NUM : ID = NUM ; BREAK ;`, optionally `DEFAULT : ID = NUM ;`, and `}`, followed by
end of input, is accepted: `yyparse` returns 0, reports nothing and leaves `yynerrs`
unchanged.  With `n` = 0 and no default clause this is the empty body `switch (a) { }`. -/
theorem yyparse_switch (g : Globals) (n : Nat) (dflt : Bool) (toks : List Token)
    (h : toks.map Token.code = switchCodes n dflt) :
    (yyparse g toks).result = some 0 ∧ (yyparse g toks).parser.yyerrs = [] ∧
    (yyparse g toks).parser.yynerrs = g.yynerrs := by
  obtain ⟨s0, s1, s2, s3, s4, s5⟩ := switch_facts
  have hk : (switchCodes n dflt).map YYTRANSLATE =
      [Tk.SWITCH, ch '(', Tk.ID, ch ')', ch '{'].map YYTRANSLATE ++
        (List.replicate n ([Tk.CASE, Tk.NUM, ch ':', Tk.ID, ch '=', Tk.NUM, ch ';', Tk.BREAK,
          ch ';'].map YYTRANSLATE)).flatten ++
        ((if dflt then [Tk.DEFAULT, ch ':', Tk.ID, ch '=', Tk.NUM, ch ';'] else []) ++
          [ch '}']).map YYTRANSLATE := by
    unfold switchCodes
    rw [List.map_append, List.map_append, List.map_flatten, List.map_replicate]
  refine yyparse_accB g toks _ h 24 (by omega) ?_ ?_
  · rw [hk]
    exact clean_append (clean_append s4 (clean_replicate s5)) (s3 dflt).2.2
  · rw [hk]
    exact AccB.of_family _ _ _ s0
      (fun x hx => by rw [List.eq_of_mem_replicate hx]; exact s1)
      (fun x hx => by rw [List.eq_of_mem_replicate hx]; exact s2)
      (s3 dflt).1 (s3 dflt).2.1

theorem yyparse_switch_witness :
    ((switchCodes 1 true).map tok).map Token.code = switchCodes 1 true ∧
    switchCodes 1 true =
      [Tk.SWITCH, ch '(', Tk.ID, ch ')', ch '{', Tk.CASE, Tk.NUM, ch ':', Tk.ID, ch '=',
        Tk.NUM, ch ';', Tk.BREAK, ch ';', Tk.DEFAULT, ch ':', Tk.ID, ch '=', Tk.NUM, ch ';',
        ch '}'] ∧
    (yyparse ⟨0, 0, 0⟩ ((switchCodes 1 true).map tok)).result = some 0 ∧
    (yyparse ⟨0, 0, 0⟩ ((switchCodes 1 true).map tok)).parser.yyerrs = [] ∧
    (yyparse ⟨0, 0, 0⟩ ((switchCodes 1 true).map tok)).parser.yynerrs = 0 :=
  ⟨by decide, by decide, yyparse_switch ⟨0, 0, 0⟩ 1 true _ (by decide)⟩

/-- C21: the shift step.  Let `yybackup` be entered in state `s` = `yystate` with parallel
stacks that are below their capacity, let `yypact[s]` = `n` differ from -39, and let `t` be
the symbol of the lookahead that `yybackup` holds (the one it had, or else the one it
fetches).  If `i` = `n + t` lies in 0..415 with `yycheck[i]` = `t` and `yytable[i]` = `v` > 0,
then the step pushes `v` on the state stack and the semantic value `yylval` of the lookahead
on the value stack, above the unchanged earlier entries of both; it sets `yychar` to
`YYEMPTY` and `yystate` to `v`; the tokens behind the lookahead stay pending.  The step then
goes back to `yybackup`, unless `v` is the final state (result 0) or the push met the depth
limit (result 2); it never leaves the arrays. -/
theorem yybackup_shift (p : Parser) (n t v : Int)
    (hpar : p.yyvs.length = p.yyss.length) (hcap : (p.yyss.length : Int) < p.yystacksize)
    (hn : rd yypact p.yystate = some n) (hne : n ≠ YYPACT_NINF)
    (ht : t = YYTRANSLATE (yypeek p).yychar)
    (hi : 0 ≤ n + t ∧ n + t ≤ YYLAST) (hck : rd yycheck (n + t) = some t)
    (htb : rd yytable (n + t) = some v) (hv : 0 < v) :
    (yybackup p).parser.yyss = v :: p.yyss ∧
    (yybackup p).parser.yyvs = some (yypeek p).yylval :: p.yyvs ∧
    (yybackup p).parser.yychar = YYEMPTY ∧
    (yybackup p).parser.yystate = v ∧
    (yybackup p).parser.input = (yypeek p).input ∧
    (yybackup p).parser.lexed = (yypeek p).lexed ∧
    (yybackup p).result =
      (if (p.yyss.length : Int) + 1 = p.yystacksize ∧ YYMAXDEPTH ≤ p.yystacksize then some 2
        else if v = YYFINAL then some 0 else none) ∧
    (∀ q, yybackup p ≠ .fault q) := by
  obtain ⟨h1, h2, -, -, h5, -⟩ := yypeek_stacks p
  have hc : (yypeek p).yychar ≠ YYerror := by
    intro hc
    rw [hc] at ht
    have h256 : YYTRANSLATE YYerror = 1 := by decide!
    rw [h256] at ht
    subst ht
    have h0 : (n + 1).toNat < yycheck.length := by
      simp only [YYLAST] at hi; rw [yycheck_length]; omega
    unfold rd at hck
    rw [if_pos hi.1, List.getElem?_eq_getElem h0] at hck
    simp only [Option.some.injEq] at hck
    exact yycheck_no_error _ (List.getElem_mem _) hck
  rw [yybackup_peek p n hn hne, if_neg hc, ← ht]
  have h := yyaction_shift (yypeek p) n t v (by rw [h1, h2]; exact hpar)
    (by rw [h1, h5]; exact hcap) hi hck htb hv
  rw [h1, h2, h5] at h
  exact ⟨h.1, h.2.1, h.2.2.1, h.2.2.2.1, h.2.2.2.2.1, h.2.2.2.2.2.1, h.2.2.2.2.2.2.2.1,
    h.2.2.2.2.2.2.2.2⟩

set_option maxRecDepth 1000000 in
theorem yybackup_shift_witness :
    (yybackup shiftSample).parser.yyss = [6, 2, 0] ∧
    (yybackup shiftSample).parser.yyvs = [some 7, none, none] ∧
    (yybackup shiftSample).parser.yychar = YYEMPTY ∧
    (yybackup shiftSample).parser.yystate = 6 ∧
    (yybackup shiftSample).result = none := by
  have h := yybackup_shift shiftSample 116 5 6 (by decide) (by decide) (by decide!)
    (by decide) (by decide!) (by decide) (by decide!) (by decide!) (by decide)
  exact ⟨h.1, h.2.1, h.2.2.1, h.2.2.2.1, h.2.2.2.2.2.2.1⟩

/-- C22: the reduce step.  Let `yyreduce` be entered for a rule `R` ≥ 1 with `len` =
`yyr2[R]`, on parallel stacks below their capacity that hold more than `len` entries.  With
`lhs` = `yyr1[R]`, `e` the state that the pop exposes and `i` = `yypgoto[lhs - 47] + e`, let
`g` be `yytable[i]` if `i` lies in 0..415 and `yycheck[i]` = `e`, and `yydefgoto[lhs - 47]`
otherwise.  The step removes the top `len` entries of both stacks, then pushes `g` on the
state stack and a value on the value stack, which for `len` ≥ 1 is the value of the deepest
popped slot; `g` becomes the current state.  The lookahead `yychar`, `yylval`, the pending
input and the count of lexer calls are untouched, the depth of both stacks changes by
`1 - len`, and no array is left. -/
theorem yyreduce_step (p : Parser) (R len : Int) (hR : 1 ≤ R) (hlen : rd yyr2 R = some len)
    (hpar : p.yyvs.length = p.yyss.length) (hcap : (p.yyss.length : Int) < p.yystacksize)
    (hdeep : len < p.yyss.length) :
    ∃ lhs base e g val,
      rd yyr1 R = some lhs ∧ rd yypgoto (lhs - YYNTOKENS) = some base ∧
      (p.yyss.drop len.toNat).head? = some e ∧
      (if 0 ≤ base + e ∧ base + e ≤ YYLAST ∧ rd yycheck (base + e) = some e
        then rd yytable (base + e) else rd yydefgoto (lhs - YYNTOKENS)) = some g ∧
      (yyreduce p R).parser.yyss = g :: p.yyss.drop len.toNat ∧
      (yyreduce p R).parser.yyvs = val :: p.yyvs.drop len.toNat ∧
      (1 ≤ len → p.yyvs[len.toNat - 1]? = some val) ∧
      (yyreduce p R).parser.yystate = g ∧
      (yyreduce p R).parser.yychar = p.yychar ∧
      (yyreduce p R).parser.yylval = p.yylval ∧
      (yyreduce p R).parser.input = p.input ∧
      (yyreduce p R).parser.lexed = p.lexed ∧
      ((yyreduce p R).parser.yyss.length : Int) = p.yyss.length + 1 - len ∧
      ((yyreduce p R).parser.yyvs.length : Int) = p.yyvs.length + 1 - len ∧
      (∀ q, yyreduce p R ≠ .fault q) := by
  have hr : 1 ≤ R ∧ R < 90 := by
    refine ⟨hR, ?_⟩
    by_contra hcon
    unfold rd at hlen
    rw [if_pos (by omega), List.getElem?_eq_none (by rw [yyr2_length]; omega)] at hlen
    cases hlen
  have hlen2 : len = tget yyr2 R := by
    rw [rd_eq_some (by omega) (by rw [yyr2_length]; omega)] at hlen
    exact (Option.some.inj hlen).symm
  subst hlen2
  have hk := yyr2_len R ⟨by omega, hr.2⟩
  have hl := yyr1_lhs R hr
  obtain ⟨val, hval, hss, hvs, hst, hlv, hkept, -, -, hnf⟩ :=
    yyreduce_push p R hr hpar hcap (by omega)
  simp only [Parser.kept, Prod.mk.injEq] at hkept
  obtain ⟨base, hbase, hg⟩ := tgoto_rd ((p.yyss.drop (tget yyr2 R).toNat).headD 0)
    (tget yyr1 R - YYNTOKENS) (by simp only [YYNTOKENS]; omega)
  have hdrop : ∃ x rest, p.yyss.drop (tget yyr2 R).toNat = x :: rest := by
    cases hd : p.yyss.drop (tget yyr2 R).toNat with
    | nil =>
      have := congrArg List.length hd
      simp only [List.length_drop, List.length_nil] at this
      omega
    | cons x rest => exact ⟨x, rest, rfl⟩
  obtain ⟨x, rest, hd⟩ := hdrop
  have hx : (p.yyss.drop (tget yyr2 R).toNat).headD 0 = x := by rw [hd]; rfl
  rw [hx] at hg hss hst
  refine ⟨tget yyr1 R, base, x, _, val,
    rd_eq_some (by omega) (by rw [yyr1_length]; omega), hbase, by rw [hd]; rfl, ?_,
    hss, hvs, hval, hst, hkept.2.2.1, hlv, hkept.1, hkept.2.1, ?_, ?_, hnf⟩
  · exact hg
  · rw [hss]
    simp only [List.length_cons, List.length_drop]
    omega
  · rw [hvs]
    simp only [List.length_cons, List.length_drop]
    omega

set_option maxRecDepth 1000000 in
theorem yyreduce_step_witness :
    ∃ val, (yyreduce reduceSample 15).parser.yyss = [24, 2, 0] ∧
      (yyreduce reduceSample 15).parser.yyvs = [val, none, none] ∧
      val = some 7 ∧
      (yyreduce reduceSample 15).parser.yychar = Tk.ID := by
  obtain ⟨lhs, base, e, g, val, h1, h2, h3, h4, h5, h6, h7, -, h8, -⟩ :=
    yyreduce_step reduceSample 15 1 (by decide) (by decide!) (by decide) (by decide)
      (by decide)
  have hl : lhs = 52 := by
    have : rd yyr1 15 = some 52 := by decide!
    rw [this] at h1
    exact (Option.some.inj h1).symm
  subst hl
  have hb : base = -38 := by
    have : rd yypgoto (52 - YYNTOKENS) = some (-38) := by decide!
    rw [this] at h2
    exact (Option.some.inj h2).symm
  subst hb
  have he : e = 2 := by
    have : (reduceSample.yyss.drop (1 : Int).toNat).head? = some 2 := by decide
    rw [this] at h3
    exact (Option.some.inj h3).symm
  subst he
  have hg : g = 24 := by
    have : (if 0 ≤ (-38 : Int) + 2 ∧ (-38 : Int) + 2 ≤ YYLAST ∧
        rd yycheck (-38 + 2) = some 2 then rd yytable (-38 + 2)
        else rd yydefgoto (52 - YYNTOKENS)) = some 24 := by decide!
    rw [this] at h4
    exact (Option.some.inj h4).symm
  subst hg
  exact ⟨val, h5, h6, (Option.some.inj (h7 (by decide))).symm, h8⟩

/-- C23: where the default action comes from.  `yybackup` takes the default action of the
current state without looking at a token when `yypact[s]` = -39, and `yyaction` takes it when
the lookup for the lookahead symbol misses: the index `yypact[s] + t` is outside 0..415 or
`yycheck` there differs from `t`.  The default action reads `yydefact[s]`: 0 means error, any
other value is the rule to reduce by.  In this table `yytable[i]` = 0 exactly when
`yycheck[i]` = -1, no entry is negative, and every cell whose check value is a symbol holds a
positive entry; so on a state with parallel stacks below capacity an action that looks at a
token is the default action, the error token, or a shift that pushes the positive table
entry and consumes the lookahead: no hit reduces or reports an error, and every reduction
is the default reduction of its state. -/
theorem yybackup_default :
    (∀ p n, rd yypact p.yystate = some n → n = YYPACT_NINF → yybackup p = yydefault p) ∧
    (∀ p n t, (n + t < 0 ∨ YYLAST < n + t ∨ ∃ c, rd yycheck (n + t) = some c ∧ c ≠ t) →
      yyaction p n t = yydefault p) ∧
    (∀ p R, rd yydefact p.yystate = some R →
      yydefault p = if R = 0 then yyerrlab p else yyreduce p R) ∧
    (∀ i, 0 ≤ i → i ≤ YYLAST →
      ((rd yytable i = some 0 ↔ rd yycheck i = some (-1)) ∧
        ∃ v, rd yytable i = some v ∧ 0 ≤ v)) ∧
    (∀ i t, 0 ≤ i → i ≤ YYLAST → 0 ≤ t → rd yycheck i = some t →
      ∃ v, rd yytable i = some v ∧ 0 < v) ∧
    (∀ p n, rd yypact p.yystate = some n → n ≠ YYPACT_NINF →
      p.yyvs.length = p.yyss.length → (p.yyss.length : Int) < p.yystacksize →
      yybackup p = yydefault (yypeek p) ∨
      yybackup p = yyerrlab1 { yypeek p with yychar := YYUNDEF } ∨
      ∃ v, 0 < v ∧
        rd yycheck (n + YYTRANSLATE (yypeek p).yychar) = some (YYTRANSLATE (yypeek p).yychar) ∧
        rd yytable (n + YYTRANSLATE (yypeek p).yychar) = some v ∧
        (yybackup p).parser.yyss = v :: p.yyss ∧
        (yybackup p).parser.yyvs = some (yypeek p).yylval :: p.yyvs ∧
        (yybackup p).parser.yychar = YYEMPTY) := by
  refine ⟨?_, fun p n t h => yyaction_miss p n t h, fun p R h => yydefault_cases p R h,
    fun i h0 h1 => yytable_zero i ⟨h0, h1⟩, fun i t h0 h1 ht hc => yytable_shift i t ⟨h0, h1⟩ ht hc,
    ?_⟩
  · intro p n hn hne
    rcases yybackup_cases p n hn with h | h | h | h
    · exact h.2.2.2
    · exact absurd hne h.1
    · exact absurd hne h.1
    · exact absurd hne h.1
  · intro p n hn hne hpar hcap
    rcases yybackup_cases p n hn with h | h | h | ⟨-, -, -, v, hv, hi, hc, htb, hb⟩
    · exact absurd h.1 hne
    · exact Or.inr (Or.inl h.2.2.2.2)
    · exact Or.inl h.2.2.2
    · right; right
      obtain ⟨h1, h2, -, -, h5, -⟩ := yypeek_stacks p
      have h := yyaction_shift (yypeek p) n _ v (by rw [h1, h2]; exact hpar)
        (by rw [h1, h5]; exact hcap) hi hc htb hv
      rw [← hb, h1, h2] at h
      exact ⟨v, hv, hc, htb, h.1, h.2.1, h.2.2.1⟩

/-- C24: the stacks are parallel.  For every token sequence the state stack and the value
stack hold the same number of entries when `yyparse` starts, every time it enters
`yybackup` to choose an action, and when it returns.  Every action changes both depths by
the same amount `d`: 1 for a shift, `1 - yyr2[R]` for the reduction by the default rule `R`
of the state, and `1 - depth` when the error code pops the stacks down to their bottom
cells; a single `YYPOPSTACK (n)` takes `n` entries off both. -/
theorem yyparse_parallel (g : Globals) (toks : List Token) :
    (yyinit g toks).yyvs.length = (yyinit g toks).yyss.length ∧
    (∀ n p, yyparseFuel n g toks = .next p →
      p.yyvs.length = p.yyss.length ∧
      ∃ d : Int, ((yybackup p).parser.yyss.length : Int) = p.yyss.length + d ∧
        ((yybackup p).parser.yyvs.length : Int) = p.yyvs.length + d ∧
        (yyshifted p ≠ none → d = 1) ∧
        (yyshifted p = none → (yybackup p).result ≠ some 1 →
          ∃ R len, rd yydefact p.yystate = some R ∧ rd yyr2 R = some len ∧ d = 1 - len) ∧
        ((yybackup p).result = some 1 → d = 1 - p.yyss.length)) ∧
    (∀ r q, yyparse g toks = .ret r q → q.yyvs.length = q.yyss.length) ∧
    (∀ p q n, YYPOPSTACK p n = some q →
      (q.yyss.length : Int) = p.yyss.length - n ∧ (q.yyvs.length : Int) = p.yyvs.length - n) := by
  have hstep : ∀ n p, yyparseFuel n g toks = .next p →
      p.yyvs.length = p.yyss.length ∧
      ∃ d : Int, ((yybackup p).parser.yyss.length : Int) = p.yyss.length + d ∧
        ((yybackup p).parser.yyvs.length : Int) = p.yyvs.length + d ∧
        (yyshifted p ≠ none → d = 1) ∧
        (yyshifted p = none → (yybackup p).result ≠ some 1 →
          ∃ R len, rd yydefact p.yystate = some R ∧ rd yyr2 R = some len ∧ d = 1 - len) ∧
        ((yybackup p).result = some 1 → d = 1 - p.yyss.length) := by
    intro n p hp
    obtain ⟨hwf, hinv⟩ := yyparseFuel_state g toks n p hp
    have hne : 0 < p.yyss.length := List.length_pos.2 hinv.path.ne_nil
    have hpar := hwf.par
    refine ⟨hpar, ?_⟩
    refine yybackup_elim g.yynerrs p hwf hinv (fun s =>
      ∃ d : Int, (s.parser.yyss.length : Int) = p.yyss.length + d ∧
        (s.parser.yyvs.length : Int) = p.yyvs.length + d ∧
        (yyshifted p ≠ none → d = 1) ∧
        (yyshifted p = none → s.result ≠ some 1 →
          ∃ R len, rd yydefact p.yystate = some R ∧ rd yyr2 R = some len ∧ d = 1 - len) ∧
        (s.result = some 1 → d = 1 - p.yyss.length)) ?_ ?_ ?_
    · intro s v _ _ hs h1 h2 _ _ _ _ _ _ _ hres _
      refine ⟨1, by rw [h1]; simp, by rw [h2]; simp, fun _ => rfl, ?_, ?_⟩
      · intro h0; rw [hs] at h0; cases h0
      · intro h1; rw [h1] at hres; split_ifs at hres <;> cases hres
    · intro s R gs val hs hd hr hdeep _ h1 h2 _ _ _ _ _ _ hres _
      have hk := yyr2_len R ⟨by omega, hr.2⟩
      refine ⟨1 - tget yyr2 R, ?_, ?_, fun h0 => absurd hs h0, ?_, ?_⟩
      · rw [h1]; simp only [List.length_cons, List.length_drop]; omega
      · rw [h2]; simp only [List.length_cons, List.length_drop]; omega
      · intro _ _
        exact ⟨R, _, hd, rd_eq_some (by omega) (by rw [yyr2_length]; omega), rfl⟩
      · intro h1; rw [h1] at hres; split_ifs at hres; cases hres
    · intro q hs h1 h2 _ _ _ _ _
      refine ⟨1 - p.yyss.length, ?_, ?_, fun h0 => absurd hs h0, ?_, fun _ => rfl⟩
      · simp only [Step.parser]; rw [h1]; simp only [List.length_drop]; omega
      · simp only [Step.parser]; rw [h2]; simp only [List.length_drop]; omega
      · intro _ h0; exact absurd rfl h0
  refine ⟨rfl, hstep, ?_, ?_⟩
  · intro r q hq
    obtain ⟨m, p, hp, hb⟩ := yyparse_last g toks r q hq
    obtain ⟨hpar, d, h1, h2, -⟩ := hstep m p hp
    rw [hb] at h1 h2
    simp only [Step.parser] at h1 h2
    omega
  · intro p q n hq
    unfold YYPOPSTACK at hq
    split at hq
    · cases hq
    · rename_i hn
      simp only [Parser.yyssp, Parser.yyvsp] at hn
      simp only [Option.some.injEq] at hq
      subst hq
      simp only [List.length_drop]
      omega

/-- C25: the bottom of the state stack.  For every token sequence the state stack holds
state 0 alone when `yyparse` starts, and it is non-empty with state 0 in its bottom cell
every time `yybackup` is entered, after every action, and when `yyparse` returns.  Whenever
`yybackup` is entered in a state whose default rule is `R`, the stack holds at least
`yyr2[R] + 1` entries, so the reduction by `R` pops above the bottom cell and pushes its goto
state on a stack that is not empty; and when the error code pops the stack and the parse
returns 1, what is left is the bottom cell with state 0. -/
theorem yyparse_bottom (g : Globals) (toks : List Token) :
    (yyinit g toks).yyss = [0] ∧
    (∀ n p, yyparseFuel n g toks = .next p →
      p.yyss.getLast? = some 0 ∧
      (yybackup p).parser.yyss.getLast? = some 0 ∧
      (∀ R len, rd yydefact p.yystate = some R → R ≠ 0 → rd yyr2 R = some len →
        0 ≤ len ∧ len + 1 ≤ p.yyss.length ∧ p.yyss.drop len.toNat ≠ [] ∧
        (yyshifted p = none → (yybackup p).result ≠ some 1 →
          ∃ gs, (yybackup p).parser.yyss = gs :: p.yyss.drop len.toNat)) ∧
      ((yybackup p).result = some 1 → (yybackup p).parser.yyss = [0])) ∧
    (∀ r q, yyparse g toks = .ret r q → q.yyss.getLast? = some 0) := by
  have hstep : ∀ n p, yyparseFuel n g toks = .next p →
      p.yyss.getLast? = some 0 ∧
      (yybackup p).parser.yyss.getLast? = some 0 ∧
      (∀ R len, rd yydefact p.yystate = some R → R ≠ 0 → rd yyr2 R = some len →
        0 ≤ len ∧ len + 1 ≤ p.yyss.length ∧ p.yyss.drop len.toNat ≠ [] ∧
        (yyshifted p = none → (yybackup p).result ≠ some 1 →
          ∃ gs, (yybackup p).parser.yyss = gs :: p.yyss.drop len.toNat)) ∧
      ((yybackup p).result = some 1 → (yybackup p).parser.yyss = [0]) := by
    intro n p hp
    obtain ⟨hwf, hinv⟩ := yyparseFuel_state g toks n p hp
    have hpath : Path p.yyss := hinv.path
    have hne : p.yyss ≠ [] := hpath.ne_nil
    have hlast := hpath.last_zero
    have hdeep := fun R len hd hR hl => hwf.deep hinv R len hd hR hl
    have hdrop : ∀ len : Int, 0 ≤ len → len + 1 ≤ p.yyss.length →
        p.yyss.drop len.toNat ≠ [] := by
      intro len h0 h1 hnil
      have := congrArg List.length hnil
      simp only [List.length_drop, List.length_nil] at this
      omega
    refine ⟨hlast, ?_⟩
    refine yybackup_elim g.yynerrs p hwf hinv (fun s =>
      s.parser.yyss.getLast? = some 0 ∧
      (∀ R len, rd yydefact p.yystate = some R → R ≠ 0 → rd yyr2 R = some len →
        0 ≤ len ∧ len + 1 ≤ p.yyss.length ∧ p.yyss.drop len.toNat ≠ [] ∧
        (yyshifted p = none → s.result ≠ some 1 →
          ∃ gs, s.parser.yyss = gs :: p.yyss.drop len.toNat)) ∧
      (s.result = some 1 → s.parser.yyss = [0])) ?_ ?_ ?_
    · intro s v _ _ hs h1 _ _ _ _ _ _ _ _ hres _
      refine ⟨by rw [h1, getLast_push _ hne]; exact hlast, ?_, ?_⟩
      · intro R len hd hR hl
        obtain ⟨a, b⟩ := hdeep R len hd hR hl
        refine ⟨a, b, hdrop len a b, ?_⟩
        intro h0; rw [hs] at h0; cases h0
      · intro h1; rw [h1] at hres; split_ifs at hres <;> cases hres
    · intro s R gs val hs hd hr hlen _ h1 _ _ _ _ _ _ _ hres _
      refine ⟨?_, ?_, ?_⟩
      · rw [h1, getLast_push, getLast_drop _ _ hlen]
        · exact hlast
        · intro hnil
          have := congrArg List.length hnil
          simp only [List.length_drop, List.length_nil] at this
          omega
      · intro R2 len hd2 hR hl
        obtain ⟨a, b⟩ := hdeep R2 len hd2 hR hl
        refine ⟨a, b, hdrop len a b, ?_⟩
        intro _ _
        rw [hd] at hd2
        have hRR : R = R2 := Option.some.inj hd2
        subst hRR
        rw [rd_eq_some (by omega) (by rw [yyr2_length]; omega)] at hl
        rw [← Option.some.inj hl]
        exact ⟨gs, h1⟩
      · intro h1; rw [h1] at hres; split_ifs at hres; cases hres
    · intro q hs h1 _ _ _ _ _ _
      have hq : q.yyss = [0] := by rw [h1]; exact drop_to_last _ _ hlast
      refine ⟨by simp only [Step.parser]; rw [hq]; rfl, ?_, fun _ => hq⟩
      intro R len hd hR hl
      obtain ⟨a, b⟩ := hdeep R len hd hR hl
      exact ⟨a, b, hdrop len a b, fun _ h0 => absurd rfl h0⟩
  refine ⟨rfl, hstep, ?_⟩
  intro r q hq
  obtain ⟨m, p, hp, hb⟩ := yyparse_last g toks r q hq
  have := (hstep m p hp).2.1
  rw [hb] at this
  exact this

/-- C26: every index is in range.  For every token sequence, whatever integers its token
codes are, `yyparse` never reads or writes outside a table or a stack (the run never ends
in `Step.fault`) and it returns.  Every time `yybackup` is entered, and after every action
and at the return, each state on the state stack lies in 0..178, and so does `yystate`:
the assertion of `yysetstate` holds and the cast to the 8-bit `yy_state_t` keeps the value.
The default rule `R` of the current state lies in 0..89, `yyreduce` is entered from
`yydefault` for `R` different from 0 only, and then `yyr1[R] - 47` lies in 0..26.  The index
that `YYTRANSLATE` lets through to `yytranslate` is inside that table. -/
theorem yyparse_in_range (g : Globals) (toks : List Token) :
    (∀ n q, yyparseFuel n g toks ≠ .fault q) ∧
    (∃ r q, yyparse g toks = .ret r q) ∧
    (∀ n p, yyparseFuel n g toks = .next p →
      (∀ s ∈ p.yyss, 0 ≤ s ∧ s < YYNSTATES ∧ s % 256 = s) ∧
      (0 ≤ p.yystate ∧ p.yystate < YYNSTATES) ∧
      (∀ s ∈ (yybackup p).parser.yyss, 0 ≤ s ∧ s < YYNSTATES ∧ s % 256 = s) ∧
      (∀ q, yybackup p ≠ .fault q) ∧
      ∃ R, rd yydefact p.yystate = some R ∧ 0 ≤ R ∧ R ≤ 89 ∧
        yydefault p = (if R = 0 then yyerrlab p else yyreduce p R) ∧
        (R ≠ 0 → ∃ lhs, rd yyr1 R = some lhs ∧ 0 ≤ lhs - YYNTOKENS ∧ lhs - YYNTOKENS ≤ 26)) ∧
    (∀ r q, yyparse g toks = .ret r q → ∀ s ∈ q.yyss, 0 ≤ s ∧ s < YYNSTATES ∧ s % 256 = s) ∧
    (∀ x : Int, 0 ≤ x → x ≤ YYMAXUTOK → x.toNat < yytranslate.length) := by
  have hmod : ∀ s : Int, 0 ≤ s ∧ s < YYNSTATES → 0 ≤ s ∧ s < YYNSTATES ∧ s % 256 = s := by
    intro s hs
    simp only [YYNSTATES] at hs ⊢
    omega
  refine ⟨?_, ?_, ?_, ?_, ?_⟩
  · intro n q
    unfold yyparseFuel
    rw [yyinit_step]
    exact yyloop_sound g.yynerrs n _ (yyinit_wf g toks) (cinit_inv _) q
  · obtain ⟨r, q, hq, -⟩ := yyparse_final g toks
    exact ⟨r, q, hq⟩
  · intro n p hp
    obtain ⟨hwf, hinv⟩ := yyparseFuel_state g toks n p hp
    have hst := hwf.state_range
    have hR := yydefact_rule p.yystate hst
    have hd : rd yydefact p.yystate = some (tget yydefact p.yystate) :=
      rd_eq_some hst.1 (by rw [yydefact_length]; omega)
    refine ⟨fun s hs => hmod s (hwf.rng s hs), by simpa [YYNSTATES] using hst,
      fun s hs => hmod s (yybackup_states g.yynerrs p hwf hinv s hs),
      yybackup_sound g.yynerrs p hwf hinv, _, hd, hR.1, by omega, yydefault_cases p _ hd, ?_⟩
    intro h0
    have hr : 1 ≤ tget yydefact p.yystate ∧ tget yydefact p.yystate < 90 := by omega
    have hl := yyr1_lhs _ hr
    refine ⟨_, rd_eq_some (by omega) (by rw [yyr1_length]; omega), ?_, ?_⟩ <;>
      simp only [YYNTOKENS] <;> omega
  · intro r q hq s hs
    obtain ⟨m, p, hp, hb⟩ := yyparse_last g toks r q hq
    obtain ⟨hwf, hinv⟩ := yyparseFuel_state g toks m p hp
    have := yybackup_states g.yynerrs p hwf hinv s
    rw [hb] at this
    exact hmod s (this hs)
  · intro x h0 h1
    rw [yytranslate_length]
    simp only [YYMAXUTOK] at h1
    omega

/-- C27: the capacity of the stacks.  `yystacksize` starts at 200.  An action leaves it as
it is unless the state stack reaches a depth equal to it; that happens only at a push onto
the entries that were there, all of which stay in place in both stacks, and the capacity
becomes `min (2 * capacity) 10000`.  So the capacity is one of 200, 400, 800, 1600, 3200,
6400, 10000 every time `yybackup` is entered and when `yyparse` returns, and every time
`yybackup` is entered the depth is below the capacity, which is at most 10000.  The push
itself, `yynewstate`, stores the state on top of the entries of the state stack and keeps
the value stack, whether it grows the arrays or not. -/
theorem yyparse_capacity (g : Globals) (toks : List Token) :
    (yyinit g toks).yystacksize = 200 ∧
    (∀ n p, yyparseFuel n g toks = .next p →
      p.yystacksize ∈ [200, 400, 800, 1600, 3200, 6400, (10000 : Int)] ∧
      (p.yyss.length : Int) < p.yystacksize ∧ p.yystacksize ≤ 10000 ∧
      (yybackup p).parser.yystacksize =
        (if ((yybackup p).parser.yyss.length : Int) = p.yystacksize
          then min (2 * p.yystacksize) YYMAXDEPTH else p.yystacksize) ∧
      (((yybackup p).parser.yyss.length : Int) = p.yystacksize →
        (yybackup p).parser.yyss.tail = p.yyss ∧ (yybackup p).parser.yyvs.tail = p.yyvs)) ∧
    (∀ r q, yyparse g toks = .ret r q →
      q.yystacksize ∈ [200, 400, 800, 1600, 3200, 6400, (10000 : Int)]) ∧
    (∀ p : Parser, (p.yyss.length : Int) < p.yystacksize →
      p.yyvs.length = p.yyss.length + 1 → 0 ≤ p.yystate ∧ p.yystate < 256 →
      (yynewstate p).parser.yyss = p.yystate :: p.yyss ∧
      (yynewstate p).parser.yyvs = p.yyvs ∧
      (yynewstate p).parser.yystacksize =
        (if (p.yyss.length : Int) + 1 = p.yystacksize ∧ p.yystacksize < YYMAXDEPTH
          then min (2 * p.yystacksize) YYMAXDEPTH else p.yystacksize)) := by
  have hrun := fun n => yyparseFuel_induct g toks
    (fun _ p => p.yystacksize ∈ [200, 400, 800, 1600, 3200, 6400, (10000 : Int)])
    (fun _ _ q => q.yystacksize ∈ [200, 400, 800, 1600, 3200, 6400, (10000 : Int)])
    (by simp [yyinit, YYINITDEPTH])
    (by
      intro pre p hwf hinv hI
      have hc := (yybackup_capacity g.yynerrs p hwf hinv).1
      have hnew : (yybackup p).parser.yystacksize ∈
          [200, 400, 800, 1600, 3200, 6400, (10000 : Int)] := by
        rw [hc]
        split
        · exact capacity_next _ hI
        · exact hI
      refine ⟨?_, ?_⟩
      · intro q hq; rw [hq] at hnew; exact hnew
      · intro r q hq; rw [hq] at hnew; exact hnew) n
  refine ⟨rfl, ?_, ?_, ?_⟩
  · intro n p hp
    obtain ⟨hI, hwf, hinv⟩ := (hrun n).1 p hp
    have hc := yybackup_capacity g.yynerrs p hwf hinv
    exact ⟨hI, hwf.cap, by simpa [YYMAXDEPTH] using hwf.lim, hc.1, hc.2⟩
  · intro r q hq
    exact (hrun _).2 r q hq
  · intro p hcap hpar hst
    have h := yynewstate_push p hcap hpar hst
    exact ⟨h.1, h.2.1, h.2.2.2.2.1⟩

/-- C28: a token code that is not positive is end of input.  When `yybackup` looks at a
token whose code is 0 or negative, freshly fetched or held, it sets `yychar` to `YYEOF` = 0
and acts on the symbol `YYSYMBOL_YYEOF` = 0.  For every token sequence, a sequence that
differs from it only in which non-positive value such codes have is parsed alike: the same
result, the same reports and the same `yynerrs`.  In particular this holds when one
non-positive code, or every one, is replaced by 0. -/
theorem yyparse_eof_code (g : Globals) (toks : List Token) :
    (∀ p n, rd yypact p.yystate = some n → n ≠ YYPACT_NINF → p.yychar = YYEMPTY →
      (yylex p).yychar ≤ 0 →
      yybackup p = yyaction { yylex p with yychar := YYEOF } n YYSYMBOL_YYEOF) ∧
    (∀ p n, rd yypact p.yystate = some n → n ≠ YYPACT_NINF → p.yychar ≠ YYEMPTY →
      p.yychar ≤ 0 →
      yybackup p = yyaction { p with yychar := YYEOF } n YYSYMBOL_YYEOF) ∧
    (∀ toks2 : List Token,
      toks2.map (fun t => hold t.code) = toks.map (fun t => hold t.code) →
      (yyparse g toks2).result = (yyparse g toks).result ∧
      (yyparse g toks2).parser.yyerrs = (yyparse g toks).parser.yyerrs ∧
      (yyparse g toks2).parser.yynerrs = (yyparse g toks).parser.yynerrs) ∧
    (∀ (i : Nat) (t : Token), toks[i]? = some t → t.code ≤ 0 →
      (yyparse g (toks.set i { t with code := 0 })).result = (yyparse g toks).result ∧
      (yyparse g (toks.set i { t with code := 0 })).parser.yyerrs =
        (yyparse g toks).parser.yyerrs) ∧
    ((yyparse g (toks.map (fun t => { t with code := hold t.code }))).result =
        (yyparse g toks).result ∧
      (yyparse g (toks.map (fun t => { t with code := hold t.code }))).parser.yyerrs =
        (yyparse g toks).parser.yyerrs) := by
  refine ⟨?_, ?_, fun toks2 h => yyparse_norm g toks toks2 h, ?_, ?_⟩
  · intro p n hn hne hc hle
    unfold yybackup
    rw [hn]
    simp only
    rw [if_neg hne, if_pos hc, if_pos (by simpa [YYEOF] using hle)]
  · intro p n hn hne hc hle
    unfold yybackup
    rw [hn]
    simp only
    rw [if_neg hne, if_neg hc, if_pos (by simpa [YYEOF] using hle)]
  · intro i t hi hle
    have := yyparse_norm g toks (toks.set i { t with code := 0 }) (by
      rw [List.map_set]
      have h0 : hold (0 : Int) = hold t.code := by
        unfold hold; simp only [YYEOF]; rw [if_pos hle]; rfl
      simp only [h0]
      apply List.ext_getElem?
      intro j
      by_cases hj : i = j
      · subst hj
        by_cases hlt : i < toks.length
        · rw [List.getElem?_set_self (by simpa using hlt), List.getElem?_map, hi]
          rfl
        · rw [List.getElem?_eq_none (by simpa using hlt)]
          rw [List.getElem?_eq_none (by simpa using hlt)]
      · rw [List.getElem?_set_ne hj])
    exact ⟨this.1, this.2.1⟩
  · have := yyparse_norm g toks (toks.map (fun t => { t with code := hold t.code })) (by
      rw [List.map_map]
      apply List.map_congr_left
      intro t _
      exact hold_hold t.code)
    exact ⟨this.1, this.2.1⟩

/-- C29: the calls of the lexer.  `lexed` counts the calls of `yylex`, which only `yybackup`
makes.  For every token sequence and every entry of `yybackup`: the action calls the lexer
once if no lookahead is held (`yychar` = `YYEMPTY`) and `yypact` of the state is not -39,
and not at all otherwise; the pending input is the token sequence without its first `lexed`
tokens, so the tokens are taken in order and none is skipped; the lookaheads shifted so far
are, in order, the codes returned by the first calls, so the number of calls is the number
of shifts or one more; and every call but the last has returned a positive code, so the
lexer is not called again after it has returned end of input.  The same holds when
`yyparse` returns. -/
theorem yyparse_lexer (g : Globals) (toks : List Token) :
    (∀ n p, yyparseFuel n g toks = .next p →
      (yybackup p).parser.lexed = p.lexed +
        (if p.yychar = YYEMPTY ∧ (∃ m, rd yypact p.yystate = some m ∧ m ≠ YYPACT_NINF)
          then 1 else 0) ∧
      p.input = toks.drop p.lexed ∧
      (yyshifts n (yyinit g toks)).length ≤ p.lexed ∧
      p.lexed ≤ (yyshifts n (yyinit g toks)).length + 1 ∧
      yyshifts n (yyinit g toks) =
        lexedCodes (toks.map Token.code) (yyshifts n (yyinit g toks)).length ∧
      (∀ i, i + 1 < p.lexed → 0 < lexedCode (toks.map Token.code) (i + 1))) ∧
    (∀ r q, yyparse g toks = .ret r q →
      q.input = toks.drop q.lexed ∧
      (yyparseShifts g toks).length ≤ q.lexed ∧
      q.lexed ≤ (yyparseShifts g toks).length + 1 ∧
      yyparseShifts g toks =
        lexedCodes (toks.map Token.code) (yyparseShifts g toks).length ∧
      (∀ i, i + 1 < q.lexed → 0 < lexedCode (toks.map Token.code) (i + 1))) := by
  refine ⟨?_, ?_⟩
  · intro n p hp
    obtain ⟨⟨hpre, hpos, hin, hc⟩, hwf, hinv⟩ := (yyparseFuel_fed g toks n).1 p hp
    have hl : (yyshifts n (yyinit g toks)).length ≤ p.lexed ∧
        p.lexed ≤ (yyshifts n (yyinit g toks)).length + 1 := by
      rcases hc with h0 | h0 <;> omega
    refine ⟨?_, hin, hl.1, hl.2, hpre, ?_⟩
    · rw [(yybackup_lexed g.yynerrs p hwf hinv).1, yyheld_lexed]
    · intro i hi
      exact lexedCodes_pos hpre hpos i (by omega)
  · intro r q hq
    rw [yyparseShifts_eq]
    obtain ⟨h1, h2, h3, h4, h5, -⟩ := (yyparseFuel_fed g toks _).2 r q hq
    exact ⟨h2, h3, h4, h1, h5⟩

/-- C30: what acceptance means.  The final state 3 is entered only by the shift of end of
input in state 1: `yytable` holds 3 at index 24 only, where `yycheck` holds symbol 0, only
state 1 has `yypact` = 24, and the goto computation of `yyreduce` never yields 3.  So if
`yyparse` returns 0, the returning action was the shift of end of input in state 1 on the
stack that holds state 1 on top of state 0, and the state stack at acceptance is, top
first, 3, 1, 0.  The lookaheads shifted are then exactly the codes returned by the calls of
the lexer, in order: every call before the last returned the positive code of the token at
its place in the sequence, the last call returned end of input (a code that is not
positive, or the exhausted input), no lookahead is left, and the pending input is what
lies behind that end.  When all token codes are positive, every token of the sequence was
shifted, nothing is pending, and the shifts are the codes of the sequence followed by end
of input. -/
theorem yyparse_accepts (g : Globals) (toks : List Token) :
    ((∀ i, 0 ≤ i → i ≤ YYLAST → rd yytable i = some YYFINAL → i = 24) ∧
      rd yycheck 24 = some 0 ∧ rd yytable 24 = some YYFINAL ∧
      (∀ s n t, 0 ≤ s → s < YYNSTATES → rd yypact s = some n → 0 ≤ n + t →
        n + t ≤ YYLAST → rd yycheck (n + t) = some t → rd yytable (n + t) = some YYFINAL →
        s = 1 ∧ t = 0) ∧
      (∀ e lhs base gs, rd yypgoto lhs = some base →
        (if 0 ≤ base + e ∧ base + e ≤ YYLAST ∧ rd yycheck (base + e) = some e
          then rd yytable (base + e) else rd yydefgoto lhs) = some gs → gs ≠ YYFINAL)) ∧
    (∀ q, yyparse g toks = .ret 0 q →
      q.yyss = [YYFINAL, 1, 0] ∧ q.yychar = YYEMPTY ∧ q.input = toks.drop q.lexed ∧
      1 ≤ q.lexed ∧ (yyparseShifts g toks).length = q.lexed ∧
      yyparseShifts g toks = lexedCodes (toks.map Token.code) q.lexed ∧
      (yyparseShifts g toks).getLast? = some YYEOF ∧
      (∀ i, i + 1 < q.lexed → ∃ t, toks[i]? = some t ∧ 0 < t.code) ∧
      (∀ t, toks[q.lexed - 1]? = some t → t.code ≤ 0) ∧
      ((∀ t ∈ toks, 0 < t.code) →
        q.lexed = toks.length + 1 ∧ q.input = [] ∧
        yyparseShifts g toks = toks.map Token.code ++ [YYEOF]) ∧
      ∃ m p, yyparseFuel m g toks = .next p ∧ yybackup p = .ret 0 q ∧
        p.yystate = 1 ∧ p.yyss = [1, 0] ∧ yyshifted p = some YYEOF) := by
  refine ⟨⟨?_, ?_, ?_, ?_, fun e lhs base gs hb hg => yygoto_nonfinal e lhs base gs hb hg⟩, ?_⟩
  · intro i h0 h1 hv
    simp only [YYLAST] at h1
    rw [rd_eq_some h0 (by rw [yytable_length]; omega)] at hv
    simp only [Option.some.injEq, YYFINAL] at hv
    exact int_of_range (P := fun i => tget yytable i = 3 → i = 24)
      (fun i hi h => by have := yytable_final_aux i hi h; omega) _ h0 (by omega) hv
  · rw [rd_eq_some (by decide) (by rw [yycheck_length]; decide), yygoto_final_aux.2.2]
  · rw [rd_eq_some (by decide) (by rw [yytable_length]; decide), yycheck_eof_aux.2]
    rfl
  · intro s n t h0 h1 hn hi0 hi1 hc hv
    exact yytable_final s n t ⟨h0, by simpa [YYNSTATES] using h1⟩ hn ⟨hi0, hi1⟩ hc hv
  · intro q hq
    obtain ⟨h1, h2, -, -, h5, h6⟩ := (yyparseFuel_fed g toks _).2 0 q hq
    rw [← yyparseShifts_eq] at h1 h6
    obtain ⟨a, b, c, d, e⟩ := h6 rfl
    obtain ⟨m, p, hp, hb⟩ := yyparse_last g toks 0 q hq
    obtain ⟨hwf, hinv⟩ := yyparseFuel_state g toks m p hp
    obtain ⟨s1, s2, s3, -⟩ := yybackup_accept g.yynerrs p q hwf hinv hb
    have hsh : yyparseShifts g toks = lexedCodes (toks.map Token.code) q.lexed := by
      rw [a]; exact h1
    have hpos : ∀ i, i + 1 < q.lexed → ∃ t, toks[i]? = some t ∧ 0 < t.code :=
      fun i hi => lexedCode_pos toks i (h5 i hi)
    have hlast : ∀ t, toks[q.lexed - 1]? = some t → t.code ≤ 0 :=
      fun t ht => lexedCode_last toks q.lexed e t ht
    refine ⟨c, b, h2, d, a.symm, hsh, ?_, hpos, hlast, ?_, m, p, hp, hb, s2, s1, s3⟩
    · rw [hsh]
      obtain ⟨k, hk⟩ : ∃ k, q.lexed = k + 1 := ⟨q.lexed - 1, by omega⟩
      rw [hk, lexedCodes_succ, List.getLast?_append, List.getLast?_singleton]
      rw [hk] at e
      unfold hold
      rw [if_pos (by simpa [YYEOF] using e)]
      rfl
    · intro hall
      have hlen : q.lexed = toks.length + 1 := by
        have hge : toks.length ≤ q.lexed - 1 := by
          by_contra hcon
          have hlt : q.lexed - 1 < toks.length := by omega
          have := hlast _ (List.getElem?_eq_getElem hlt)
          have := hall _ (List.getElem_mem hlt)
          omega
        by_contra hne
        have hi : (q.lexed - 2) + 1 < q.lexed := by omega
        obtain ⟨t, ht, -⟩ := hpos _ hi
        have hlt : q.lexed - 2 < toks.length := by
          by_contra hcon
          rw [List.getElem?_eq_none (by omega)] at ht
          cases ht
        omega
      refine ⟨hlen, ?_, ?_⟩
      · rw [h2, hlen]
        exact List.drop_eq_nil_iff.2 (by omega)
      · rw [hsh, hlen]
        have := lexedCodes_all (toks.map Token.code) (by
          intro x hx
          simp only [List.mem_map] at hx
          obtain ⟨t, ht, rfl⟩ := hx
          exact hall t ht)
        simpa using this

/-- C38: `YYTRANSLATE` is total and bounded.  For every integer `x` it yields a symbol in
0..46, and it yields 2, the invalid token, whenever `x` < 0 or `x` > 285.  The codes it does
not map to 2 are exactly those of `yytokens`; on them it is one to one, and every symbol of
0..46 other than 2 is the image of one of them: 0 goes to 0, 256 to 1, the codes 258..284 to
3..29 in order, 285 to 35, and the sixteen characters `! % ( ) * + , - / : ; = [ ] { }` to
46, 34, 41, 42, 32, 30, 37, 31, 33, 45, 36, 38, 39, 40, 43, 44, which are sixteen distinct
symbols among 30..46. -/
theorem yytranslate_bijection :
    (∀ x, 0 ≤ YYTRANSLATE x ∧ YYTRANSLATE x < YYNTOKENS) ∧
    (∀ x, x < 0 ∨ YYMAXUTOK < x → YYTRANSLATE x = YYSYMBOL_YYUNDEF) ∧
    (∀ x, YYTRANSLATE x ≠ 2 ↔ x ∈ yytokens) ∧
    (∀ x y, YYTRANSLATE x ≠ 2 → YYTRANSLATE x = YYTRANSLATE y → x = y) ∧
    (∀ s, 0 ≤ s → s < YYNTOKENS → s ≠ 2 → ∃ x ∈ yytokens, YYTRANSLATE x = s) ∧
    YYTRANSLATE 0 = 0 ∧ YYTRANSLATE 256 = 1 ∧
    (∀ k : Int, 0 ≤ k → k ≤ 26 → YYTRANSLATE (258 + k) = 3 + k) ∧
    YYTRANSLATE 285 = 35 ∧
    ['!', '%', '(', ')', '*', '+', ',', '-', '/', ':', ';', '=', '[', ']', '{', '}'].map
        (fun c => YYTRANSLATE (ch c)) =
      [46, 34, 41, 42, 32, 30, 37, 31, 33, 45, 36, 38, 39, 40, 43, 44] ∧
    [46, 34, 41, 42, 32, 30, 37, 31, 33, 45, 36, 38, 39, 40, 43, (44 : Int)].Nodup ∧
    (∀ s ∈ [46, 34, 41, 42, 32, 30, 37, 31, 33, 45, 36, 38, 39, 40, 43, (44 : Int)],
      30 ≤ s ∧ s ≤ 46) := by
  obtain ⟨h1, h2, h3, h4, h5⟩ := yytokens_aux
  refine ⟨fun x => by simpa [YYNTOKENS] using yytranslate_sym x, yytranslate_out,
    fun x => ⟨yytokens_mem x, h5 x⟩, yytranslate_inj, ?_, ?_, ?_, ?_, ?_, ?_, ?_, ?_⟩
  · intro s h0 hs hne
    simp only [YYNTOKENS] at hs
    have := int_of_range (P := fun s => s ≠ 2 → s ∈ yytokens.map YYTRANSLATE) h4 s h0
      (by omega) hne
    obtain ⟨x, hx, hxs⟩ := List.mem_map.1 this
    exact ⟨x, hx, hxs⟩
  · exact yytranslate_eof
  · decide!
  · intro k h0 h1
    have : ∀ k ∈ List.range 27, YYTRANSLATE (258 + (k : Int)) = 3 + (k : Int) := by decide!
    exact int_of_range (P := fun k => YYTRANSLATE (258 + k) = 3 + k) this k h0 (by omega)
  · decide!
  · decide!
  · decide
  · decide

/-- C33: invalid tokens are never shifted.  No entry of `yycheck` is the symbol 2 of the
invalid token, so the lookahead that an action shifts never has that symbol; the characters
`.`, `<`, `>`, `&`, the code 257 and every code above 285 are positive codes with symbol 2.
Hence every token sequence in which a token with a positive code and symbol 2 stands before
any code that is not positive is rejected: `yyparse` returns 1 or 2, never 0, and the token
is not among the lookaheads it shifts. -/
theorem yyparse_invalid (g : Globals) :
    (∀ c ∈ yycheck, c ≠ YYSYMBOL_YYUNDEF) ∧
    (∀ p c, yyshifted p = some c → YYTRANSLATE c ≠ YYSYMBOL_YYUNDEF) ∧
    (∀ x ∈ [ch '.', ch '<', ch '>', ch '&', 257], 0 < x ∧ YYTRANSLATE x = YYSYMBOL_YYUNDEF) ∧
    (∀ x, 285 < x → 0 < x ∧ YYTRANSLATE x = YYSYMBOL_YYUNDEF) ∧
    (∀ (pre rest : List Token) (t : Token), (∀ x ∈ pre, 0 < x.code) → 0 < t.code →
      YYTRANSLATE t.code = YYSYMBOL_YYUNDEF →
      t.code ∉ yyparseShifts g (pre ++ t :: rest) ∧
      ((yyparse g (pre ++ t :: rest)).result = some 1 ∨
        (yyparse g (pre ++ t :: rest)).result = some 2)) := by
  refine ⟨yycheck_no_undef, fun p c h => (yyshifted_sym p c h).1, by decide!, ?_, ?_⟩
  · intro x hx
    exact ⟨by omega, yytranslate_out x (Or.inr (by simp only [YYMAXUTOK]; omega))⟩
  · intro pre rest t hpre ht hu
    have hnot : t.code ∉ yyparseShifts g (pre ++ t :: rest) := by
      intro hmem
      rw [yyparseShifts_eq] at hmem
      exact (yyshifts_sym _ _ _ hmem).1 hu
    refine ⟨hnot, ?_⟩
    obtain ⟨r, q, hq, hfin, -, -⟩ := yyparse_final g (pre ++ t :: rest)
    rw [hq]
    simp only [Step.result, Option.some.injEq]
    rcases hfin with ⟨h0, -⟩ | ⟨h1, -⟩ | ⟨h2, -⟩
    · exfalso
      subst h0
      obtain ⟨hsh, -, -, -, hpos, hacc⟩ := (yyparseFuel_fed g (pre ++ t :: rest) _).2 0 q hq
      rw [← yyparseShifts_eq] at hsh hacc
      obtain ⟨a, -, -, d, e⟩ := hacc rfl
      -- the call that returned end of input came after the token
      have hcode : ∀ i, i ≤ pre.length →
          0 < lexedCode ((pre ++ t :: rest).map Token.code) (i + 1) := by
        intro i hi
        unfold lexedCode
        rw [Nat.add_sub_cancel, List.getD_eq_getElem _ _ (by simp; omega), List.getElem_map]
        by_cases hlt : i < pre.length
        · rw [List.getElem_append_left hlt]
          exact hpre _ (List.getElem_mem _)
        · have hi2 : i = pre.length := by omega
          subst hi2
          rw [List.getElem_append_right (le_refl _)]
          simpa using ht
      have hlex : pre.length + 1 < q.lexed := by
        by_contra hcon
        have := hcode (q.lexed - 1) (by omega)
        rw [Nat.sub_add_cancel d] at this
        omega
      -- so the token was shifted
      have hget := lexedCodes_get ((pre ++ t :: rest).map Token.code) q.lexed pre.length
        (by omega)
      rw [a, ← hsh] at hget
      have hh : hold (lexedCode ((pre ++ t :: rest).map Token.code) (pre.length + 1)) =
          t.code := by
        have h1 : lexedCode ((pre ++ t :: rest).map Token.code) (pre.length + 1) = t.code := by
          unfold lexedCode
          rw [Nat.add_sub_cancel, List.getD_eq_getElem _ _ (by simp), List.getElem_map,
            List.getElem_append_right (le_refl _)]
          simp
        rw [h1]
        unfold hold
        rw [if_neg (by simp only [YYEOF]; omega)]
      rw [hh] at hget
      exact hnot (List.mem_iff_getElem?.2 ⟨_, hget⟩)
    · exact Or.inl h1
    · exact Or.inr h2

/-- C32: the error token fails the parse without a report.  The code 256 has symbol 1, the
error symbol.  When `yybackup` consults a lookahead and holds the code 256, it goes straight
to `yyerrlab1`, past the report of `yyerrlab`.  So for every token sequence no call of the
lexer but the last returns 256, and if the last call returned 256 then `yyparse` returns 1
with no invocation of `yyerror`, `yynerrs` as on entry, `yychar` set to `YYUNDEF` and one cell
on the state stack.  In particular every sequence that begins with the code 256, such as
the one-token input `[256]`, is a failed parse with zero reported errors. -/
theorem yyparse_error_token (g : Globals) (toks : List Token) :
    YYTRANSLATE YYerror = YYSYMBOL_YYerror ∧
    (∀ p n, rd yypact p.yystate = some n → n ≠ YYPACT_NINF → (yypeek p).yychar = YYerror →
      yybackup p = yyerrlab1 { yypeek p with yychar := YYUNDEF }) ∧
    (∀ r q, yyparse g toks = .ret r q →
      (∀ i, 1 ≤ i → i < q.lexed → lexedCode (toks.map Token.code) i ≠ YYerror) ∧
      (1 ≤ q.lexed → lexedCode (toks.map Token.code) q.lexed = YYerror →
        r = 1 ∧ q.yyerrs = [] ∧ q.yynerrs = g.yynerrs ∧ q.yychar = YYUNDEF ∧
        q.yyss.length = 1)) ∧
    (∀ (t : Token) (rest : List Token), t.code = YYerror →
      (yyparse g (t :: rest)).result = some 1 ∧ (yyparse g (t :: rest)).parser.yyerrs = [] ∧
      (yyparse g (t :: rest)).parser.yynerrs = g.yynerrs) ∧
    ((yyparse g [tok 256]).result = some 1 ∧ (yyparse g [tok 256]).parser.yyerrs = [] ∧
      (yyparse g [tok 256]).parser.yynerrs = g.yynerrs) := by
  have hfirst : ∀ (t : Token) (rest : List Token), t.code = YYerror →
      (yyparse g (t :: rest)).result = some 1 ∧ (yyparse g (t :: rest)).parser.yyerrs = [] ∧
      (yyparse g (t :: rest)).parser.yynerrs = g.yynerrs := by
    intro t rest ht
    have := yyparse_of_run g (t :: rest) (YYerror :: rest.map Token.code)
      (by rw [List.map_cons, ht]) (crun_errtok_first (rest.map Token.code))
    simpa [counted_nil] using this
  refine ⟨by decide!, ?_, ?_, hfirst, hfirst (tok 256) [] rfl⟩
  · intro p n hn hne hc
    rw [yybackup_peek p n hn hne, if_pos hc]
  · intro r q hq
    obtain ⟨r2, q2, hq2, hfin, hcnt, hbefore, hiff⟩ := yyparse_errtok g toks
    rw [hq] at hq2
    simp only [Step.ret.injEq] at hq2
    obtain ⟨rfl, rfl⟩ := hq2
    refine ⟨hbefore, ?_⟩
    intro h1 h256
    obtain ⟨hr, he⟩ := hiff.2 ⟨h1, h256⟩
    have hec : q.ctl.yyerrs = q.yyerrs := rfl
    refine ⟨hr, he, by rw [hcnt, he, counted_nil], ?_, ?_⟩
    · rcases hfin with ⟨h0, -⟩ | ⟨-, -, h3 | ⟨-, h3⟩⟩ | ⟨h0, -⟩
      · rw [hr] at h0; exact absurd h0 (by decide)
      · rw [hec, he] at h3; cases h3
      · exact h3
      · rw [hr] at h0; exact absurd h0 (by decide)
    · rcases hfin with ⟨h0, -⟩ | ⟨-, h3, -⟩ | ⟨h0, -⟩
      · rw [hr] at h0; exact absurd h0 (by decide)
      · exact h3
      · rw [hr] at h0; exact absurd h0 (by decide)

/-- C35: the nesting limit.  On `n` opening parentheses, `NUM`, `n` closing parentheses and
`;` the greatest depth of the state stack during `yyparse` is `min (n + 4) 10000`: it is
`n + 4` for every `n` up to 9996 and stays at `YYMAXDEPTH`, 10000, from 9997 on, where the
parse is abandoned before the number is reached.  `yyparse` returns 0 if and only if
`n ≤ 9995` and returns 2 if and only if `n ≥ 9996`; an accepted input never needs more than
9999 cells, and 9995 levels need exactly that many. -/
theorem yyparse_nesting (n : Nat) (g : Globals) (toks : List Token)
    (h : toks.map Token.code = parenCodes n) :
    yyparseDepth g toks = min (n + 4) 10000 ∧
    (n ≤ 9996 → yyparseDepth g toks = n + 4) ∧
    (9997 ≤ n → yyparseDepth g toks = 10000) ∧
    ((yyparse g toks).result = some 0 ↔ n ≤ 9995) ∧
    ((yyparse g toks).result = some 2 ↔ 9996 ≤ n) ∧
    ((yyparse g toks).result = some 0 → yyparseDepth g toks ≤ 9999) ∧
    (n = 9995 → (yyparse g toks).result = some 0 ∧ yyparseDepth g toks = 9999) := by
  obtain ⟨hr, hd⟩ := yyparseDepth_paren n g toks h
  have hres : ((yyparse g toks).result = some 0 ↔ n ≤ 9995) ∧
      ((yyparse g toks).result = some 2 ↔ 9996 ≤ n) := by
    rw [hr]
    unfold parenResult
    by_cases hn : n ≤ 9995
    · rw [if_pos hn]
      exact ⟨⟨fun _ => hn, fun _ => rfl⟩, ⟨fun h2 => (by cases h2), fun h2 => (by omega)⟩⟩
    · rw [if_neg hn]
      exact ⟨⟨fun h2 => (by cases h2), fun h2 => absurd h2 hn⟩, ⟨fun _ => (by omega), fun _ => rfl⟩⟩
  refine ⟨hd, ?_, ?_, hres.1, hres.2, ?_, ?_⟩
  · intro hn; rw [hd]; omega
  · intro hn; rw [hd]; omega
  · intro h0
    have := hres.1.1 h0
    rw [hd]; omega
  · intro hn
    exact ⟨hres.1.2 (by omega), by rw [hd]; omega⟩

theorem yyparse_nesting_witness :
    ((parenCodes 2).map tok).map Token.code = parenCodes 2 ∧
    yyparseDepth ⟨0, 0, 0⟩ ((parenCodes 2).map tok) = 2 + 4 ∧
    (yyparse ⟨0, 0, 0⟩ ((parenCodes 2).map tok)).result = some 0 :=
  have h := yyparse_nesting 2 ⟨0, 0, 0⟩ ((parenCodes 2).map tok) (map_code_tok _)
  ⟨map_code_tok _, h.2.1 (by decide), h.2.2.2.1.2 (by decide)⟩

/-- With 9997 levels the stack stops at 10000 cells, fewer than `9997 + 4`, and the parse
ends with exhaustion. -/
theorem yyparse_nesting_bounded :
    yyparseDepth ⟨0, 0, 0⟩ ((parenCodes 9997).map tok) = 10000 ∧
    yyparseDepth ⟨0, 0, 0⟩ ((parenCodes 9997).map tok) ≠ 9997 + 4 ∧
    (yyparse ⟨0, 0, 0⟩ ((parenCodes 9997).map tok)).result = some 2 := by
  obtain ⟨hr, hd⟩ := yyparseDepth_paren 9997 ⟨0, 0, 0⟩ ((parenCodes 9997).map tok)
    (map_code_tok _)
  have h1 : yyparseDepth ⟨0, 0, 0⟩ ((parenCodes 9997).map tok) = 10000 := by
    rw [hd]; omega
  refine ⟨h1, ?_, ?_⟩
  · rw [h1]; omega
  · rw [hr]; simp [parenResult]

/-- C36: statement lists do not grow the stack.  For every `n`, on `n` statements
`ID = NUM ;` followed by end of input (`n = 0` is the empty program) `yyparse` returns 0,
reports nothing and leaves `yynerrs` alone; the state stack never holds more than six
cells, at any entry of `yybackup` and at the return, so the capacity stays at the initial
200 throughout. -/
theorem yyparse_stmt_list (n : Nat) (g : Globals) (toks : List Token)
    (h : toks.map Token.code = stmtListCodes n) :
    (yyparse g toks).result = some 0 ∧ (yyparse g toks).parser.yyerrs = [] ∧
    (yyparse g toks).parser.yynerrs = g.yynerrs ∧
    yyparseDepth g toks ≤ 6 ∧
    (∀ k p, yyparseFuel k g toks = .next p → p.yyss.length ≤ 6 ∧ p.yystacksize = 200) ∧
    (yyparse g toks).parser.yyss.length ≤ 6 ∧
    (yyparse g toks).parser.yystacksize = 200 := by
  obtain ⟨hacc, hclean⟩ := stmtList_accB n
  obtain ⟨h1, h2, h3⟩ := yyparse_accB g toks _ h 6 (by omega) hclean hacc
  obtain ⟨d1, d2, d3, d4⟩ := yyparse_depth_accB g toks _ h 6 (by omega) (by omega) hclean hacc
  exact ⟨h1, h2, h3, d1, d2, d3, d4⟩

theorem yyparse_stmt_list_witness :
    ((stmtListCodes 2).map tok).map Token.code = stmtListCodes 2 ∧
    stmtListCodes 2 = [Tk.ID, ch '=', Tk.NUM, ch ';', Tk.ID, ch '=', Tk.NUM, ch ';'] ∧
    (yyparse ⟨0, 0, 0⟩ ((stmtListCodes 2).map tok)).result = some 0 ∧
    yyparseDepth ⟨0, 0, 0⟩ ((stmtListCodes 2).map tok) ≤ 6 ∧
    (yyparse ⟨0, 0, 0⟩ ((stmtListCodes 2).map tok)).parser.yystacksize = 200 :=
  have h := yyparse_stmt_list 2 ⟨0, 0, 0⟩ ((stmtListCodes 2).map tok) (map_code_tok _)
  ⟨map_code_tok _, by decide, h.1, h.2.2.2.1, h.2.2.2.2.2.2⟩

/-- C37: operator precedence in the automaton.  State 103 is entered only from state 64 by
the goto on `expr`; state 64 is entered only by the shift of `'+'`, made in states whose
accessing symbol is `expr`: state 103 stands for `expr '+' expr`.  In state 103 the
lookaheads `'*'`, `'/'` and `'%'` are shifted, into states 66, 67 and 68, while `'+'`,
`'-'`, the six comparison operators, `AND` and `OR` miss the table and lead to the default
reduction by rule 65, which replaces three symbols by an `expr`, as rule 67 does.  On
`NUM + NUM * NUM ;` the parser is in state 103 after six actions and shifts `'*'`, and it
reduces by rule 67 before it reduces by rule 65; on `NUM + NUM + NUM ;` it is in state 103
after six actions and reduces by rule 65 before it shifts the second `'+'`.  Both inputs
are accepted. -/
theorem yyparse_precedence (g : Globals) :
    (rd yypact 103 = some (-2) ∧ rd yydefact 103 = some 65 ∧
      rd yyr1 65 = some 72 ∧ rd yyr2 65 = some 3 ∧ rd yyr1 67 = some 72 ∧
      rd yyr2 67 = some 3) ∧
    (yypreds 103 = [64] ∧ tgoto 64 (72 - YYNTOKENS) = 103 ∧
      (∀ s ∈ List.range 179, tshift (s : Int) 30 = none ∨ tshift (s : Int) 30 = some 64) ∧
      (∀ s ∈ yypreds 64, tshift s 30 = some 64 ∧ tget yystos s = 72) ∧
      tget yystos 64 = 30 ∧ tget yystos 103 = 72 ∧ YYTRANSLATE (ch '+') = 30) ∧
    (∀ (e : Int) (p : Parser), p.WF e → p.yystate = 103 →
      ∀ x ∈ [(ch '*', (66 : Int)), (ch '/', 67), (ch '%', 68)], (yypeek p).yychar = x.1 →
        yyevent p = some (.shift x.1) ∧ (yybackup p).parser.yyss = x.2 :: p.yyss ∧
        (yybackup p).parser.yystate = x.2) ∧
    (∀ p : Parser, p.yystate = 103 →
      ∀ c ∈ [ch '+', ch '-', Tk.EQ, Tk.NEQ, Tk.LE, Tk.GE, Tk.LT, Tk.GT, Tk.AND, Tk.OR],
        (yypeek p).yychar = c →
        yyevent p = some (.reduce 65) ∧ yybackup p = yyreduce (yypeek p) 65) ∧
    (∀ toks : List Token, toks.map Token.code = sumProductCodes →
      (yyparse g toks).result = some 0 ∧
      yyparseEvents g toks =
        [.reduce 3, .shift Tk.NUM, .reduce 87, .shift (ch '+'), .shift Tk.NUM, .reduce 87,
          .shift (ch '*'), .shift Tk.NUM, .reduce 87, .reduce 67, .reduce 65, .shift (ch ';'),
          .reduce 64, .reduce 12, .reduce 4, .reduce 2, .shift 0] ∧
      (yyparseEvents g toks).indexOf (.reduce 67) < (yyparseEvents g toks).indexOf (.reduce 65) ∧
      ∃ p, yyparseFuel 6 g toks = .next p ∧ p.yystate = 103 ∧ p.yyss = [103, 64, 32, 2, 0] ∧
        (yypeek p).yychar = ch '*' ∧ yyevent p = some (.shift (ch '*'))) ∧
    (∀ toks : List Token, toks.map Token.code = sumSumCodes →
      (yyparse g toks).result = some 0 ∧
      yyparseEvents g toks =
        [.reduce 3, .shift Tk.NUM, .reduce 87, .shift (ch '+'), .shift Tk.NUM, .reduce 87,
          .reduce 65, .shift (ch '+'), .shift Tk.NUM, .reduce 87, .reduce 65, .shift (ch ';'),
          .reduce 64, .reduce 12, .reduce 4, .reduce 2, .shift 0] ∧
      (yyparseEvents g toks).take 8 =
        [.reduce 3, .shift Tk.NUM, .reduce 87, .shift (ch '+'), .shift Tk.NUM, .reduce 87,
          .reduce 65, .shift (ch '+')] ∧
      ∃ p, yyparseFuel 6 g toks = .next p ∧ p.yystate = 103 ∧ p.yyss = [103, 64, 32, 2, 0] ∧
        (yypeek p).yychar = ch '+' ∧ yyevent p = some (.reduce 65)) := by
  obtain ⟨htab, hsh, hmiss, hreach, hprod, hsum, hpk1, hpk2, hidx, htake⟩ := precedence_facts
  have hn103 : (-2 : Int) ≠ YYPACT_NINF := by decide
  have hshift : ∀ (e : Int) (p : Parser), p.WF e → p.yystate = 103 →
      ∀ x ∈ [(ch '*', (66 : Int)), (ch '/', 67), (ch '%', 68)], (yypeek p).yychar = x.1 →
        yyevent p = some (.shift x.1) ∧ (yybackup p).parser.yyss = x.2 :: p.yyss ∧
        (yybackup p).parser.yystate = x.2 := by
    intro e p hwf hst x hx hc
    obtain ⟨h1, -, -, h4, h5, h6, h7⟩ := hsh x hx
    have hn : rd yypact p.yystate = some (-2) := by rw [hst]; exact htab.1
    rw [← hc] at h1 h4 h5 h6
    have hev := yyevent_hit p (-2) x.2 hn hn103 h1 h4 h5 h6 h7
    have hb := yybackup_peek p (-2) hn hn103
    rw [if_neg h1] at hb
    have hs := yypeek_stacks p
    have ha := yyaction_shift (yypeek p) (-2) (YYTRANSLATE (yypeek p).yychar) x.2
      (by rw [hs.2.1, hs.1]; exact hwf.par)
      (by rw [hs.1, hs.2.2.2.2.1]; exact hwf.cap) h4 h5 h6 h7
    rw [← hb, hs.1] at ha
    refine ⟨?_, ha.1, ha.2.2.2.1⟩
    rw [← hc]
    exact hev.2
  have hred : ∀ p : Parser, p.yystate = 103 →
      ∀ c ∈ [ch '+', ch '-', Tk.EQ, Tk.NEQ, Tk.LE, Tk.GE, Tk.LT, Tk.GT, Tk.AND, Tk.OR],
        (yypeek p).yychar = c →
        yyevent p = some (.reduce 65) ∧ yybackup p = yyreduce (yypeek p) 65 := by
    intro p hst c hc hp
    obtain ⟨h1, -, h3, h4, h5⟩ := hmiss c hc
    have hn : rd yypact p.yystate = some (-2) := by rw [hst]; exact htab.1
    rw [← hp] at h1 h3 h4 h5
    have := yyevent_miss p (-2) _ 65 hn hn103 h1 h3 h4 h5 (by rw [hst]; exact htab.2.1)
      (by decide)
    exact ⟨this.2.2.1, this.2.2.2⟩
  have hat := yyparseFuel_at g
  refine ⟨htab, hreach, hshift, hred, ?_, ?_⟩
  · intro toks h
    have hlen : toks.length = 6 := by
      have := congrArg List.length h
      simpa [sumProductCodes] using this
    have hev : yyparseEvents g toks = cevents 35 (cinit sumProductCodes) := by
      rw [yyparseEvents_ref, h, hlen]
    obtain ⟨p, hp, hwf, hctl⟩ := hat toks _ _ h hprod.2.2.2
    have hss : p.yyss = [103, 64, 32, 2, 0] := congrArg Ctl.yyss hctl
    have hst : p.yystate = 103 := by
      have := hwf.headD
      rw [hss] at this
      exact this.symm
    have hpk : (yypeek p).yychar = ch '*' := by
      have : (yypeek p).yychar = (cpeek p.ctl).yychar := by rw [← yypeek_ctl]; rfl
      rw [this, hctl]
      exact hpk1
    refine ⟨(yyparse_eval g toks _ h 0 [] ⟨hprod.2.1, hprod.2.2.1⟩).1, hev.trans hprod.1, ?_,
      p, hp, hst, hss, hpk, ?_⟩
    · rw [hev]; exact hidx
    · exact (hshift _ p hwf hst (ch '*', 66) (by simp) hpk).1
  · intro toks h
    have hlen : toks.length = 6 := by
      have := congrArg List.length h
      simpa [sumSumCodes] using this
    have hev : yyparseEvents g toks = cevents 35 (cinit sumSumCodes) := by
      rw [yyparseEvents_ref, h, hlen]
    obtain ⟨p, hp, hwf, hctl⟩ := hat toks _ _ h hsum.2.2.2
    have hss : p.yyss = [103, 64, 32, 2, 0] := congrArg Ctl.yyss hctl
    have hst : p.yystate = 103 := by
      have := hwf.headD
      rw [hss] at this
      exact this.symm
    have hpk : (yypeek p).yychar = ch '+' := by
      have : (yypeek p).yychar = (cpeek p.ctl).yychar := by rw [← yypeek_ctl]; rfl
      rw [this, hctl]
      exact hpk2
    refine ⟨(yyparse_eval g toks _ h 0 [] ⟨hsum.2.1, hsum.2.2.1⟩).1, hev.trans hsum.1, ?_,
      p, hp, hst, hss, hpk, ?_⟩
    · rw [hev]; exact htake
    · exact (hred p hst (ch '+') (by simp) hpk).1

/-- C10: a push that makes the state stack hold `YYMAXDEPTH` = 10000 cells ends the parse at
once with result 2.  `yynewstate`, entered with 9999 cells on the stack of a full array,
stores the new state in the 10000th cell, calls `yyerror` once with "memory exhausted" and
returns 2, changing nothing else, `yynerrs` included.  In a run of `yyparse` every state at
`yybackup` has fewer than 10000 cells and no report; the action taken there leaves 10000
cells exactly when it returns 2, which a shift on 9999 cells does, and that return is the
return of `yyparse`: with this one report and `yynerrs` as on entry.  So `yyparse` ends with
10000 cells if and only if it returns 2, and 2 is returned in no other situation
(`YYSTACK_ALLOC` is taken to succeed); 9996 nested parentheses make it happen. -/
theorem yyparse_exhausted (g : Globals) (toks : List Token) :
    (∀ n p, yyparseFuel n g toks = .next p → (p.yyss.length : Int) < YYMAXDEPTH) ∧
    (∀ r q, yyparse g toks = .ret r q →
      ((q.yyss.length : Int) = YYMAXDEPTH ↔ r = 2) ∧
      (r = 2 → q.yyerrs = [{ msg := "memory exhausted", lexed := q.lexed, held := q.yychar }] ∧
        q.yynerrs = g.yynerrs)) ∧
    (∀ p : Parser, (p.yyss.length : Int) + 1 = YYMAXDEPTH → p.yystacksize = YYMAXDEPTH →
      0 ≤ p.yystate → p.yystate < YYNSTATES →
      yynewstate p = .ret 2 { p with
        yyss := p.yystate :: p.yyss
        yyerrs := p.yyerrs ++
          [{ msg := "memory exhausted", lexed := p.lexed, held := p.yychar }] }) ∧
    (∀ n p, yyparseFuel n g toks = .next p →
      p.yyerrs = [] ∧ p.yynerrs = g.yynerrs ∧
      (((yybackup p).parser.yyss.length : Int) = YYMAXDEPTH ↔
        (yybackup p).result = some 2) ∧
      (∀ c, yyshifted p = some c → (p.yyss.length : Int) + 1 = YYMAXDEPTH →
        (yybackup p).result = some 2) ∧
      ((yybackup p).result = some 2 →
        yyparse g toks = yybackup p ∧
        (yybackup p).parser.yyerrs =
          [{ msg := "memory exhausted", lexed := (yybackup p).parser.lexed,
             held := (yybackup p).parser.yychar }] ∧
        (yybackup p).parser.yynerrs = g.yynerrs)) ∧
    ((yyparse g ((parenCodes 9996).map tok)).result = some 2 ∧
      (((yyparse g ((parenCodes 9996).map tok)).parser.yyss.length : Int) = YYMAXDEPTH)) := by
  refine ⟨?_, yyparse_two g toks, ?_, ?_, ?_⟩
  · intro n p hp
    have := (yyparseFuel_ref n g toks).2
    rw [hp] at this
    have h1 := this.cap
    have h2 := this.lim
    omega
  · intro p hlen hsz h0 h1
    rw [yynewstate_cases p (by rw [hsz, ← hlen]; omega)
      ⟨h0, by simp only [YYNSTATES] at h1; omega⟩]
    rw [if_pos (by rw [hsz, hlen]), if_pos (by rw [hsz])]
    rfl
  · intro n p hp
    obtain ⟨hwf, hinv⟩ := yyparseFuel_state g toks n p hp
    obtain ⟨hfull, hshift⟩ := yybackup_full g.yynerrs p hwf hinv
    have hq : p.yyerrs = [] := hinv.quiet
    refine ⟨hq, by rw [hwf.cnt, hq, counted_nil], hfull, ?_, ?_⟩
    · intro c hc hlen
      refine hfull.1 ?_
      rw [hshift c hc]
      push_cast
      exact hlen
    · intro h2
      exact yybackup_two g toks n p hp h2
  · have hr := (yyparseDepth_paren 9996 g ((parenCodes 9996).map tok) (map_code_tok _)).1
    have h2 : (yyparse g ((parenCodes 9996).map tok)).result = some 2 := by
      rw [hr]; rfl
    refine ⟨h2, ?_⟩
    exact yyparse_two_full g _ h2

end PE2
